import Mathlib

/-!
# Uncertainty planning core: tree planner, retry arithmetic and goal back-propagation

A shallow embedding of `uncertainty_contact_planning.hpp`
(class `UncertaintyPlanningSpace`).

Conventions of the embedding:

* `double` probabilities are exact rationals (`ℚ`); a division by zero yields `0`
  (the C++ yields NaN or an infinity there, inputs with a zero divisor are
  outside what the theorems below use as examples);
* `INFINITY` is `none` in `Option ℚ`;
* `uint64_t` counters wrap modulo `2 ^ 64`, `uint32_t` counters modulo `2 ^ 32`;
  particle counts are natural numbers;
* `std::vector` is `List`, indices of type `int64_t` are `Int`;
* a C++ exception is a value of `PlanningError`; an access outside a vector
  (undefined behaviour for `operator[]`) is reported as `PlanningError.out_of_range`;
* recursion and `while` loops whose termination depends on the shape of the tree
  carry a fuel argument and report `PlanningError.out_of_fuel` when it runs out;
* the injected collaborators (simulator, clustering, reverse simulation, distance,
  user goal check) appear as arguments holding their outputs; so do the clock
  reading of `PlannerTerminationCheck`, the random draw of
  `PerformForwardPropagation` and the linkage test `CheckTreeLinkage` of the RRT
  library used by `PruneTree`;
* in `StateDistance` the configuration distance, the norm of the variances and the
  error function `erf` are arguments; in the policy execution the policy query and the
  movement function enter through the outcome of the goal check after each step.
-/

namespace UncertaintyPlanning

/-- Exceptions raised by the planner core, one constructor per `throw` site kind. -/
inductive PlanningError where
  | out_of_range
  | total_particles_mismatch
  | p_reached_out_of_range
  | new_goal_cannot_reach_goal
  | max_transition_probability_out_of_range
  | p_reached_goal_out_of_range
  | total_p_goal_reached_out_of_range
  | invalid_linkage
  | uninitialized_state
  | out_of_fuel
deriving DecidableEq, Repr

/-- The fields of `SimulationResult<Configuration>` that the planner core inspects. -/
structure SimulationResult where
  did_contact : Bool
  outcome_is_nominally_independent : Bool
deriving DecidableEq, Repr

/-- The probabilistic bookkeeping of `UncertaintyPlannerState`.  Configurations and
particle positions are opaque to the planner core; only the particle count is kept. -/
structure UncertaintyPlanningState where
  initialized : Bool
  state_id : Nat
  num_particles : Nat
  attempt_count : Nat
  reached_count : Nat
  raw_edge_Pfeasibility : ℚ
  effective_edge_Pfeasibility : ℚ
  reverse_attempt_count : Nat
  reverse_reached_count : Nat
  reverse_edge_Pfeasibility : ℚ
  parent_motion_Pfeasibility : ℚ
  motion_Pfeasibility : ℚ
  goal_Pfeasibility : ℚ
  transition_id : Nat
  reverse_transition_id : Nat
  split_id : Nat
  action_outcome_is_nominally_independent : Bool
  use_for_nearest_neighbors : Bool
deriving DecidableEq, Repr

namespace UncertaintyPlanningState

/-- Modelled from the spec: the constructor of `UncertaintyPlannerState`
(`uncertainty_planner_state.hpp` is not among the sources).  `raw_edge_p` is
reached / attempted, `reverse_edge_p` is reverse reached / reverse attempted,
`motion_p` is the parent's `motion_p` times `effective_edge_p`, a fresh state has
`goal_p = 0` and is enabled for nearest-neighbour queries. -/
def make (state_id num_particles attempt_count reached_count : Nat)
    (effective_edge_Pfeasibility : ℚ) (reverse_attempt_count reverse_reached_count : Nat)
    (parent_motion_Pfeasibility : ℚ) (transition_id reverse_transition_id split_id : Nat)
    (action_outcome_is_nominally_independent : Bool) : UncertaintyPlanningState where
  initialized := true
  state_id := state_id
  num_particles := num_particles
  attempt_count := attempt_count
  reached_count := reached_count
  raw_edge_Pfeasibility := (reached_count : ℚ) / (attempt_count : ℚ)
  effective_edge_Pfeasibility := effective_edge_Pfeasibility
  reverse_attempt_count := reverse_attempt_count
  reverse_reached_count := reverse_reached_count
  reverse_edge_Pfeasibility := (reverse_reached_count : ℚ) / (reverse_attempt_count : ℚ)
  parent_motion_Pfeasibility := parent_motion_Pfeasibility
  motion_Pfeasibility := effective_edge_Pfeasibility * parent_motion_Pfeasibility
  goal_Pfeasibility := 0
  transition_id := transition_id
  reverse_transition_id := reverse_transition_id
  split_id := split_id
  action_outcome_is_nominally_independent := action_outcome_is_nominally_independent
  use_for_nearest_neighbors := true

/-- Modelled from the spec: `UpdateReverseAttemptAndReachedCounts` stores the two
counts and sets `reverse_edge_p = reached / attempted`. -/
def UpdateReverseAttemptAndReachedCounts (s : UncertaintyPlanningState)
    (reverse_attempt_count reverse_reached_count : Nat) : UncertaintyPlanningState :=
  { s with
    reverse_attempt_count := reverse_attempt_count
    reverse_reached_count := reverse_reached_count
    reverse_edge_Pfeasibility := (reverse_reached_count : ℚ) / (reverse_attempt_count : ℚ) }

/-- Modelled from the spec: `SetEffectiveEdgePfeasibility` stores the effective edge
probability and keeps `motion_p = motion_p(parent) * effective_edge_p`. -/
def SetEffectiveEdgePfeasibility (s : UncertaintyPlanningState) (p : ℚ) :
    UncertaintyPlanningState :=
  { s with
    effective_edge_Pfeasibility := p
    motion_Pfeasibility := p * s.parent_motion_Pfeasibility }

/-- Modelled from the spec: `SetGoalPfeasibility` overwrites `goal_p`. -/
def SetGoalPfeasibility (s : UncertaintyPlanningState) (p : ℚ) : UncertaintyPlanningState :=
  { s with goal_Pfeasibility := p }

/-- Modelled from the spec: `DisableForNearestNeighbors` clears the blacklist bit
`use_for_nn`. -/
def DisableForNearestNeighbors (s : UncertaintyPlanningState) : UncertaintyPlanningState :=
  { s with use_for_nearest_neighbors := false }

end UncertaintyPlanningState

/-- The node type `SimpleRRTPlannerState<UncertaintyPlanningState>`: a planning state
wrapped with its parent index and the ordered list of its child indices. -/
structure UncertaintyPlanningTreeState where
  value : UncertaintyPlanningState
  parent_index : Int
  child_indices : List Int
  initialized : Bool
deriving DecidableEq, Repr

/-- The tree type `std::vector<UncertaintyPlanningTreeState>`. -/
abbrev UncertaintyPlanningTree := List UncertaintyPlanningTreeState

/-- The members of `UncertaintyPlanningSpace` that the planner core reads and writes. -/
structure UncertaintyPlanningSpace where
  goal_probability_threshold : ℚ
  state_counter : Nat
  transition_id : Nat
  split_id : Nat
  particles_stored : Nat
  goal_candidates_evaluated : Nat
  total_goal_reached_probability : ℚ
  nearest_neighbors_storage : UncertaintyPlanningTree
deriving DecidableEq, Repr

/-- Increment of a `uint64_t` counter. -/
def incr64 (n : Nat) : Nat := (n + 1) % 2 ^ 64

/-! ## Particle clustering (`ClusterParticles`) -/

/-- The inner loop of `ClusterParticles` over the elements of one index cluster:
every element is counted, looked up with `particles.at`, and kept unless it made
contact while contacts are not allowed. -/
def clusterElements (particles : List SimulationResult) (allow_contacts : Bool) :
    List Nat → List SimulationResult → Nat →
      Except PlanningError (List SimulationResult × Nat)
  | [], final_cluster, total_particles => .ok (final_cluster, total_particles)
  | particle_idx :: rest, final_cluster, total_particles =>
    match particles[particle_idx]? with
    | none => .error .out_of_range
    | some particle =>
      if particle.did_contact = false ∨ allow_contacts = true then
        clusterElements particles allow_contacts rest (final_cluster ++ [particle])
          (total_particles + 1)
      else
        clusterElements particles allow_contacts rest final_cluster (total_particles + 1)

/-- The outer loop of `ClusterParticles` over the index clusters. -/
def clusterLoop (particles : List SimulationResult) (allow_contacts : Bool) :
    List (List Nat) → List (List SimulationResult) → Nat →
      Except PlanningError (List (List SimulationResult) × Nat)
  | [], final_clusters, total_particles => .ok (final_clusters, total_particles)
  | cluster :: rest, final_clusters, total_particles =>
    match clusterElements particles allow_contacts cluster [] total_particles with
    | .error e => .error e
    | .ok (final_cluster, total) =>
      clusterLoop particles allow_contacts rest (final_clusters ++ [final_cluster]) total

/-- `ClusterParticles`: `final_index_clusters` is what the clustering collaborator
returns for `particles` (it is consulted only for two or more particles). -/
def ClusterParticles (particles : List SimulationResult)
    (final_index_clusters : List (List Nat)) (allow_contacts : Bool) :
    Except PlanningError (List (List SimulationResult)) :=
  if particles.length = 0 then .ok []
  else if particles.length = 1 then .ok [particles]
  else
    match clusterLoop particles allow_contacts final_index_clusters [] 0 with
    | .error e => .error e
    | .ok (final_clusters, total_particles) =>
      if total_particles ≠ particles.length then .error .total_particles_mismatch
      else .ok final_clusters

/-! ## Retry arithmetic of `ForwardSimulateStates` -/

/-- The loop over `other_idx` in the retry computation: the share of the active
particles that reach an independent sibling and return to the parent. -/
def updatedPercentActive (percent_active : ℚ) (idx : Nat) :
    List UncertaintyPlanningState → Nat → ℚ → ℚ
  | [], _, updated_percent_active => updated_percent_active
  | other_state :: rest, other_idx, updated_percent_active =>
    if other_idx ≠ idx ∧ other_state.action_outcome_is_nominally_independent = true then
      let p_reached_other := percent_active * other_state.raw_edge_Pfeasibility
      let p_returned_to_parent := p_reached_other * other_state.reverse_edge_Pfeasibility
      updatedPercentActive percent_active idx rest (other_idx + 1)
        (updated_percent_active + p_returned_to_parent)
    else
      updatedPercentActive percent_active idx rest (other_idx + 1) updated_percent_active

/-- The loop over `try_attempt`: the state is `(percent_active, p_reached)`. -/
def retryLoop (result_states : List UncertaintyPlanningState) (idx : Nat) (raw : ℚ) :
    Nat → ℚ × ℚ → ℚ × ℚ
  | 0, acc => acc
  | attempts + 1, (percent_active, p_reached) =>
    retryLoop result_states idx raw attempts
      (updatedPercentActive percent_active idx result_states 0 0,
        p_reached + percent_active * raw)

/-- The value of `p_reached` computed for the state at position `idx` before
the range check. -/
def computePReached (result_states : List UncertaintyPlanningState)
    (planner_action_try_attempts : Nat) (idx : Nat) (current_state : UncertaintyPlanningState) :
    ℚ :=
  (retryLoop result_states idx current_state.raw_edge_Pfeasibility
    planner_action_try_attempts (1, 0)).2

/-- The range check on `p_reached` and the store into the state
(the constant `1.001` is `1001 / 1000`). -/
def storePReached (current_state : UncertaintyPlanningState) (p_reached : ℚ) :
    Except PlanningError UncertaintyPlanningState :=
  if 0 ≤ p_reached ∧ p_reached ≤ 1 then
    .ok (current_state.SetEffectiveEdgePfeasibility p_reached)
  else if 0 ≤ p_reached ∧ p_reached ≤ 1001 / 1000 then
    .ok (current_state.SetEffectiveEdgePfeasibility 1)
  else
    .error .p_reached_out_of_range

/-- The loop over `idx` that updates the effective edge probability of every result
state of a split.  The states are updated in place, so the siblings before `idx` are
read in their updated form (only their effective edge probability differs). -/
def updateEffectiveEdges (planner_action_try_attempts : Nat) :
    Nat → Nat → List UncertaintyPlanningState → Except PlanningError (List UncertaintyPlanningState)
  | 0, _, result_states => .ok result_states
  | remaining + 1, idx, result_states =>
    match result_states[idx]? with
    | none => .ok result_states
    | some current_state =>
      match storePReached current_state
          (computePReached result_states planner_action_try_attempts idx current_state) with
      | .error e => .error e
      | .ok updated =>
        updateEffectiveEdges planner_action_try_attempts remaining (idx + 1)
          (result_states.set idx updated)

/-! ## Forward simulation (`ForwardSimulateStates`) -/

/-- The scan of one cluster for `did_collide` and `action_is_nominally_independent`. -/
def scanCluster : List SimulationResult → Bool × Bool → Bool × Bool
  | [], flags => flags
  | particle :: rest, (did_collide, action_is_nominally_independent) =>
    scanCluster rest
      (if particle.did_contact = true then true else did_collide,
        if particle.outcome_is_nominally_independent = false then false
        else action_is_nominally_independent)

/-- The counters of the planner that `ForwardSimulateStates` advances while it
builds the result states. -/
structure BuildCounters where
  state_counter : Nat
  transition_id : Nat
  particles_stored : Nat
deriving DecidableEq, Repr

/-- The body of the state-building loop for one non-empty cluster. -/
def buildState (nearest : UncertaintyPlanningState) (attempt_count : Nat)
    (current_forward_transition_id : Nat) (is_split_child : Bool) (split_id : Nat)
    (current_cluster : List SimulationResult) (c : BuildCounters) :
    UncertaintyPlanningState × BuildCounters :=
  let state_counter := incr64 c.state_counter
  let reached_count := current_cluster.length
  let flags := scanCluster current_cluster (false, true)
  let did_collide := flags.1
  let action_is_nominally_independent := flags.2
  let reverse_attempt_count := current_cluster.length
  let reverse_reached_count :=
    if did_collide = true ∧ attempt_count > 1 then 0
    else if is_split_child = true then 0
    else current_cluster.length
  let effective_edge_feasibility := (reached_count : ℚ) / (attempt_count : ℚ)
  let transition_id := incr64 c.transition_id
  let propagated_state := UncertaintyPlanningState.make state_counter current_cluster.length
    attempt_count reached_count effective_edge_feasibility reverse_attempt_count
    reverse_reached_count nearest.motion_Pfeasibility current_forward_transition_id
    transition_id (if is_split_child = true then split_id else 0)
    action_is_nominally_independent
  (propagated_state,
    { state_counter := state_counter
      transition_id := transition_id
      particles_stored := (c.particles_stored + current_cluster.length) % 2 ^ 64 })

/-- The state-building loop over the clusters.  An empty cluster leaves its slot of
`result_states` as it was value-initialised: the default-constructed state with
parent offset `0`. -/
def buildStates (default_state : UncertaintyPlanningState)
    (nearest : UncertaintyPlanningState) (attempt_count : Nat)
    (current_forward_transition_id : Nat) (is_split_child : Bool) (split_id : Nat) :
    List (List SimulationResult) → BuildCounters →
      List (UncertaintyPlanningState × Int) × BuildCounters
  | [], c => ([], c)
  | current_cluster :: rest, c =>
    if current_cluster.length > 0 then
      let built := buildState nearest attempt_count current_forward_transition_id
        is_split_child split_id current_cluster c
      let tail := buildStates default_state nearest attempt_count
        current_forward_transition_id is_split_child split_id rest built.2
      ((built.1, -1) :: tail.1, tail.2)
    else
      let tail := buildStates default_state nearest attempt_count
        current_forward_transition_id is_split_child split_id rest c
      ((default_state, 0) :: tail.1, tail.2)

/-- The reverse-edge loop.  `reverse_edge_check idx state` is the pair that
`ComputeReverseEdgeProbability(nearest, state)` returns for the state in slot `idx`
(an outcome of the simulator and clustering collaborators).  The second component
counts the calls (`computed_reversibility`). -/
def reverseLoop (include_reverse_actions : Bool)
    (reverse_edge_check : Nat → UncertaintyPlanningState → Nat × Nat) :
    List (UncertaintyPlanningState × Int) → Nat → Nat →
      List (UncertaintyPlanningState × Int) × Nat
  | [], _, computed_reversibility => ([], computed_reversibility)
  | (current_state, offset) :: rest, idx, computed_reversibility =>
    if include_reverse_actions = true then
      if current_state.reverse_edge_Pfeasibility < 1 then
        let check := reverse_edge_check idx current_state
        let tail := reverseLoop include_reverse_actions reverse_edge_check rest (idx + 1)
          (computed_reversibility + 1)
        ((current_state.UpdateReverseAttemptAndReachedCounts check.1 check.2, offset) :: tail.1,
          tail.2)
      else
        let tail := reverseLoop include_reverse_actions reverse_edge_check rest (idx + 1)
          computed_reversibility
        ((current_state, offset) :: tail.1, tail.2)
    else
      let tail := reverseLoop include_reverse_actions reverse_edge_check rest (idx + 1)
        computed_reversibility
      ((current_state.UpdateReverseAttemptAndReachedCounts current_state.num_particles 0,
          offset) :: tail.1, tail.2)

/-- The last part of `ForwardSimulateStates`: further processing happens only if a
split happened (`result_states.size() > 1`). -/
def applyRetryArithmetic (planner_action_try_attempts : Nat)
    (result_states : List (UncertaintyPlanningState × Int)) :
    Except PlanningError (List (UncertaintyPlanningState × Int)) :=
  if result_states.length > 1 then
    match updateEffectiveEdges planner_action_try_attempts result_states.length 0
        (result_states.map Prod.fst) with
    | .error e => .error e
    | .ok updated => .ok (updated.zip (result_states.map Prod.snd))
  else
    .ok result_states

/-- What `ForwardSimulateStates` hands back, together with the planner after the call
and the number of reverse simulations it ran. -/
structure ForwardSimulationOutput where
  result_states : List (UncertaintyPlanningState × Int)
  planner : UncertaintyPlanningSpace
  computed_reversibility : Nat
deriving DecidableEq, Repr

/-- `ForwardSimulateStates`.  `propagated_points` is the simulator's answer for the
particles of `nearest`, `final_index_clusters` the clustering collaborator's answer
for them, `default_state` the default-constructed planning state. -/
def ForwardSimulateStates (planner : UncertaintyPlanningSpace)
    (default_state : UncertaintyPlanningState) (nearest : UncertaintyPlanningState)
    (propagated_points : List SimulationResult) (final_index_clusters : List (List Nat))
    (reverse_edge_check : Nat → UncertaintyPlanningState → Nat × Nat)
    (planner_action_try_attempts : Nat) (allow_contacts include_reverse_actions : Bool) :
    Except PlanningError ForwardSimulationOutput :=
  let current_forward_transition_id := incr64 planner.transition_id
  match ClusterParticles propagated_points final_index_clusters allow_contacts with
  | .error e => .error e
  | .ok particle_clusters =>
    let is_split_child : Bool := decide (particle_clusters.length > 1)
    let split_id := if is_split_child = true then incr64 planner.split_id else planner.split_id
    match propagated_points[0]? with
    | none => .error .out_of_range
    | some _ =>
      let built := buildStates default_state nearest propagated_points.length
        current_forward_transition_id is_split_child split_id particle_clusters
        { state_counter := planner.state_counter
          transition_id := current_forward_transition_id
          particles_stored := planner.particles_stored }
      let reversed := reverseLoop include_reverse_actions reverse_edge_check built.1 0 0
      let planner_after : UncertaintyPlanningSpace :=
        { planner with
          state_counter := built.2.state_counter
          transition_id := built.2.transition_id
          split_id := split_id
          particles_stored := built.2.particles_stored }
      match applyRetryArithmetic planner_action_try_attempts reversed.1 with
      | .error e => .error e
      | .ok result_states =>
        .ok { result_states := result_states
              planner := planner_after
              computed_reversibility := reversed.2 }

/-! ## The closed form of the retry arithmetic -/

/-- The sum, over the siblings `j ≠ idx` with nominally independent outcomes, of
`raw_edge_p j * reverse_edge_p j`; `offset` is the index of the head of the list. -/
def siblingReturnMass (idx : Nat) : List UncertaintyPlanningState → Nat → ℚ
  | [], _ => 0
  | s :: rest, offset =>
    (if offset ≠ idx ∧ s.action_outcome_is_nominally_independent = true then
      s.raw_edge_Pfeasibility * s.reverse_edge_Pfeasibility else 0)
      + siblingReturnMass idx rest (offset + 1)

/-- A planning state with the given raw and reverse edge probabilities (as counts
over `attempts`) and a nominally independent outcome flag, used in examples. -/
def exampleChild (state_id reached attempts reverse_reached : Nat) (independent : Bool) :
    UncertaintyPlanningState :=
  UncertaintyPlanningState.make state_id reached attempts reached
    ((reached : ℚ) / (attempts : ℚ)) reached reverse_reached 1 1 (state_id + 1) 1 independent

/-- Ten simulated particles without contact and with independent outcomes. -/
def tenFreeParticles : List SimulationResult :=
  List.replicate 10 { did_contact := false, outcome_is_nominally_independent := true }

/-- A planner at the start of planning with the given tree and goal threshold. -/
def freshPlanner (goal_probability_threshold : ℚ) (tree : UncertaintyPlanningTree) :
    UncertaintyPlanningSpace :=
  { goal_probability_threshold := goal_probability_threshold
    state_counter := 0
    transition_id := 0
    split_id := 0
    particles_stored := 0
    goal_candidates_evaluated := 0
    total_goal_reached_probability := 0
    nearest_neighbors_storage := tree }

/-- A default-constructed planning state with every number zero and every flag
cleared, used in examples. -/
def zeroState : UncertaintyPlanningState :=
  { initialized := false
    state_id := 0
    num_particles := 0
    attempt_count := 0
    reached_count := 0
    raw_edge_Pfeasibility := 0
    effective_edge_Pfeasibility := 0
    reverse_attempt_count := 0
    reverse_reached_count := 0
    reverse_edge_Pfeasibility := 0
    parent_motion_Pfeasibility := 0
    motion_Pfeasibility := 0
    goal_Pfeasibility := 0
    transition_id := 0
    reverse_transition_id := 0
    split_id := 0
    action_outcome_is_nominally_independent := false
    use_for_nearest_neighbors := false }

/-- A start state: one particle, reached with certainty. -/
def startState : UncertaintyPlanningState :=
  UncertaintyPlanningState.make 0 10 1 1 1 1 1 1 0 0 0 true

/-- The stochastic split of the specification: ten particles fall into clusters of
seven and three, every reverse simulation brings all particles back, `K` retries. -/
def splitSevenThree (K : Nat) : Except PlanningError ForwardSimulationOutput :=
  ForwardSimulateStates (freshPlanner (1 / 2) []) zeroState startState tenFreeParticles
    [[0, 1, 2, 3, 4, 5, 6], [7, 8, 9]] (fun _ s => (s.num_particles, s.num_particles))
    K true true

/-- The raw and effective edge probabilities of the states in an output. -/
def edgeProbabilities (r : Except PlanningError ForwardSimulationOutput) :
    Option (List (ℚ × ℚ)) :=
  match r with
  | .error _ => none
  | .ok o => some (o.result_states.map
      (fun p => (p.1.raw_edge_Pfeasibility, p.1.effective_edge_Pfeasibility)))

/-- The fields of a state that the retry arithmetic reads from a sibling. -/
def retryKey (s : UncertaintyPlanningState) : ℚ × ℚ × Bool :=
  (s.raw_edge_Pfeasibility, s.reverse_edge_Pfeasibility,
    s.action_outcome_is_nominally_independent)

/-- The two children of the seven/three split with reverse probability one. -/
def splitChildren : List UncertaintyPlanningState :=
  [exampleChild 1 7 10 7 true, exampleChild 2 3 10 3 true]

/-! ## Nearest neighbours (`GetNearestNeighbor`) -/

/-- The comparison `state_distance < best_distance` where the best distance starts
at `INFINITY` (`none`). -/
def ltBest (state_distance : ℚ) (best_distance : Option ℚ) : Bool :=
  match best_distance with
  | none => true
  | some best => decide (state_distance < best)

/-- The scan of `GetNearestNeighbor` over the tree nodes as one thread runs it;
the accumulator is that thread's entry of `per_thread_bests`. -/
def nearestNeighborScan (state_distance_fn : UncertaintyPlanningState →
    UncertaintyPlanningState → ℚ) (random_state : UncertaintyPlanningState) :
    List UncertaintyPlanningTreeState → Nat → Int × Option ℚ → Int × Option ℚ
  | [], _, best => best
  | current_state :: rest, idx, best =>
    if current_state.value.use_for_nearest_neighbors = true then
      let state_distance := state_distance_fn current_state.value random_state
      if ltBest state_distance best.2 = true then
        nearestNeighborScan state_distance_fn random_state rest (idx + 1)
          ((idx : Int), some state_distance)
      else
        nearestNeighborScan state_distance_fn random_state rest (idx + 1) best
    else
      nearestNeighborScan state_distance_fn random_state rest (idx + 1) best

/-- `GetNearestNeighbor` with a single thread (`GetNumOMPThreads() = 1`): the scan
fills the only entry of `per_thread_bests`, the reduction takes it if its distance is
below `INFINITY`. -/
def GetNearestNeighbor (planner_nodes : UncertaintyPlanningTree)
    (random_state : UncertaintyPlanningState)
    (state_distance_fn : UncertaintyPlanningState → UncertaintyPlanningState → ℚ) : Int :=
  let per_thread_best :=
    nearestNeighborScan state_distance_fn random_state planner_nodes 0 (-1, none)
  match per_thread_best.2 with
  | some _ => per_thread_best.1
  | none => -1

/-! ## Tree access and linkage -/

/-- The element `tree[(size_t)index]`; a negative or too large index has no element. -/
def treeAt (tree : UncertaintyPlanningTree) (index : Int) : Option UncertaintyPlanningTreeState :=
  if index < 0 then none else tree[index.toNat]?

/-- A check that holds for every element of a list together with its position. -/
def allIdx {α : Type} (p : Nat → α → Bool) : List α → Nat → Bool
  | [], _ => true
  | a :: rest, i => p i a && allIdx p rest (i + 1)

/-- The linkage conditions for the node at position `i`: the root has a negative
parent index, every other node has a parent `0 ≤ parent_index < i` that lists it, and
every listed child has a larger index and names `i` as its parent. -/
def linkedNode (tree : UncertaintyPlanningTree) (i : Nat)
    (node : UncertaintyPlanningTreeState) : Bool :=
  (if i = 0 then decide (node.parent_index < 0)
    else decide (0 ≤ node.parent_index ∧ node.parent_index < (i : Int))
      && (match treeAt tree node.parent_index with
          | some parent => parent.child_indices.contains (i : Int)
          | none => false))
  && node.child_indices.all (fun c => decide ((i : Int) < c)
      && (match treeAt tree c with
          | some child => child.parent_index == (i : Int)
          | none => false))

/-- Consistent parent/child linkage of a tree. -/
def ConsistentLinkage (tree : UncertaintyPlanningTree) : Prop :=
  allIdx (linkedNode tree) tree 0 = true

instance (tree : UncertaintyPlanningTree) : Decidable (ConsistentLinkage tree) := by
  unfold ConsistentLinkage; infer_instance

/-- The relation "`b` is listed as a child of node `a`". -/
def IsChild (tree : UncertaintyPlanningTree) (a b : Nat) : Prop :=
  ∃ node, tree[a]? = some node ∧ (b : Int) ∈ node.child_indices

/-- Node `j` belongs to the subtree rooted at node `i`: it is `i` or one of its
descendants through the child lists. -/
def InSubtree (tree : UncertaintyPlanningTree) (i j : Nat) : Prop :=
  Relation.ReflTransGen (IsChild tree) i j

/-! ## Goal branch blacklisting (`BlacklistGoalBranch`, `CheckIfGoalBranchRoot`) -/

/-- A tree node with its nearest-neighbour bit cleared. -/
def disableNode (node : UncertaintyPlanningTreeState) : UncertaintyPlanningTreeState :=
  { node with value := node.value.DisableForNearestNeighbors }

/-- `BlacklistGoalBranch` on the tree storage.  The recursion over the children
carries fuel. -/
def BlacklistGoalBranch :
    Nat → UncertaintyPlanningTree → Int → Except PlanningError UncertaintyPlanningTree
  | fuel, storage, goal_branch_root_index =>
    if goal_branch_root_index < 0 then .ok storage
    else if goal_branch_root_index = 0 then .ok storage
    else
      match fuel with
      | 0 => .error .out_of_fuel
      | fuel + 1 =>
        match storage[goal_branch_root_index.toNat]? with
        | none => .error .out_of_range
        | some current_state =>
          current_state.child_indices.foldlM
            (fun st child_index => BlacklistGoalBranch fuel st child_index)
            (storage.set goal_branch_root_index.toNat (disableNode current_state))

/-- The loop of `CheckIfGoalBranchRoot` over the children of the parent: the flag
`other_children_blacklisted` is cleared by every child with the same transition id
that is still enabled for nearest-neighbour queries. -/
def otherChildrenBlacklisted (storage : UncertaintyPlanningTree)
    (state : UncertaintyPlanningTreeState) : List Int → Bool → Except PlanningError Bool
  | [], other_children_blacklisted => .ok other_children_blacklisted
  | other_child_index :: rest, other_children_blacklisted =>
    match treeAt storage other_child_index with
    | none => .error .out_of_range
    | some other_child_tree_state =>
      if other_child_tree_state.value.transition_id = state.value.transition_id
          ∧ other_child_tree_state.value.use_for_nearest_neighbors = true then
        otherChildrenBlacklisted storage state rest false
      else
        otherChildrenBlacklisted storage state rest other_children_blacklisted

/-- `CheckIfGoalBranchRoot`. -/
def CheckIfGoalBranchRoot (goal_probability_threshold : ℚ) (storage : UncertaintyPlanningTree)
    (state : UncertaintyPlanningTreeState) : Except PlanningError Bool :=
  let has_low_probability_transition : Bool :=
    decide (state.value.effective_edge_Pfeasibility < goal_probability_threshold)
  let is_child_of_split : Bool := decide (state.value.split_id > 0)
  let parent_is_root : Bool := decide (state.parent_index = 0)
  if is_child_of_split = true then
    match treeAt storage state.parent_index with
    | none => .error .out_of_range
    | some parent_tree_state =>
      if parent_tree_state.value.goal_Pfeasibility ≥ 1 then
        .ok (has_low_probability_transition || false || parent_is_root)
      else
        match otherChildrenBlacklisted storage state parent_tree_state.child_indices true with
        | .error e => .error e
        | .ok other_children_blacklisted =>
          .ok (has_low_probability_transition || !other_children_blacklisted || parent_is_root)
  else
    .ok (has_low_probability_transition || false || parent_is_root)

/-! ## Goal probability of one transition (`ComputeTransitionGoalProbability`) -/

/-- The loop over `other_idx` in `ComputeTransitionGoalProbability`; the accumulator
is `(p_others_reached_goal, updated_percent_active)`. -/
def goalOtherLoop (percent_active : ℚ) (idx : Nat) :
    List UncertaintyPlanningState → Nat → ℚ × ℚ → ℚ × ℚ
  | [], _, acc => acc
  | other_child :: rest, other_idx, (p_others_reached_goal, updated_percent_active) =>
    if other_idx ≠ idx ∧ other_child.action_outcome_is_nominally_independent = true then
      let p_reached_other := percent_active * other_child.raw_edge_Pfeasibility
      let p_stuck_at_other := p_reached_other * (1 - other_child.reverse_edge_Pfeasibility)
      let p_reached_goal_from_other := p_stuck_at_other * other_child.goal_Pfeasibility
      let p_returned_to_parent := p_reached_other * other_child.reverse_edge_Pfeasibility
      goalOtherLoop percent_active idx rest (other_idx + 1)
        (p_others_reached_goal + p_reached_goal_from_other,
          updated_percent_active + p_returned_to_parent)
    else
      goalOtherLoop percent_active idx rest (other_idx + 1)
        (p_others_reached_goal, updated_percent_active)

/-- The loop over `try_attempt` in `ComputeTransitionGoalProbability`; the state is
`(percent_active, p_we_reached_goal, p_others_reached_goal)`. -/
def goalTryLoop (child_nodes : List UncertaintyPlanningState) (idx : Nat)
    (current_child : UncertaintyPlanningState) : Nat → ℚ × ℚ × ℚ → ℚ × ℚ × ℚ
  | 0, acc => acc
  | attempts + 1, (percent_active, p_we_reached_goal, p_others_reached_goal) =>
    let p_reached := percent_active * current_child.raw_edge_Pfeasibility
    let others := goalOtherLoop percent_active idx child_nodes 0 (p_others_reached_goal, 0)
    goalTryLoop child_nodes idx current_child attempts
      (others.2, p_we_reached_goal + p_reached * current_child.goal_Pfeasibility, others.1)

/-- The value `p_reached_goal = p_we_reached_goal + p_others_reached_goal` computed
for the child at position `idx`, before the range check. -/
def childGoalReached (child_nodes : List UncertaintyPlanningState)
    (planner_action_try_attempts : Nat) (idx : Nat)
    (current_child : UncertaintyPlanningState) : ℚ :=
  let r := goalTryLoop child_nodes idx current_child planner_action_try_attempts (1, 0, 0)
  r.2.1 + r.2.2

/-- The range check on `p_reached_goal`: values in `[0, 1]` pass, values in
`(1, 1.001]` become `1`, anything else throws. -/
def clampChildGoalReached (p_reached_goal : ℚ) : Except PlanningError ℚ :=
  if p_reached_goal < 0 ∨ p_reached_goal > 1 then
    if 0 ≤ p_reached_goal ∧ p_reached_goal ≤ 1001 / 1000 then .ok 1
    else .error .p_reached_goal_out_of_range
  else .ok p_reached_goal

/-- The loop over the children of a split; the accumulator holds the vectors
`action_outcomes_dependent_child_goal_reached_probabilities` and
`action_outcomes_independent_child_goal_reached_probabilities`. -/
def goalChildLoop (child_nodes : List UncertaintyPlanningState)
    (planner_action_try_attempts : Nat) :
    List UncertaintyPlanningState → Nat → List ℚ × List ℚ →
      Except PlanningError (List ℚ × List ℚ)
  | [], _, acc => .ok acc
  | current_child :: rest, idx, (dependent, independent) =>
    match clampChildGoalReached
        (childGoalReached child_nodes planner_action_try_attempts idx current_child) with
    | .error e => .error e
    | .ok p_reached_goal =>
      if current_child.action_outcome_is_nominally_independent = true then
        goalChildLoop child_nodes planner_action_try_attempts rest (idx + 1)
          (dependent, independent ++ [p_reached_goal])
      else
        goalChildLoop child_nodes planner_action_try_attempts rest (idx + 1)
          (dependent ++ [p_reached_goal], independent)

/-- The largest element of a list (`*std::max_element`) with a value for the empty
list. -/
def maxElement (empty_value : ℚ) : List ℚ → ℚ
  | [] => empty_value
  | x :: rest => rest.foldl (fun best y => if best < y then y else best) x

/-- `ComputeTransitionGoalProbability` on the child states of one transition. -/
def ComputeTransitionGoalProbability (child_nodes : List UncertaintyPlanningState)
    (planner_action_try_attempts : Nat) : Except PlanningError ℚ :=
  match child_nodes with
  | [current_child] =>
    .ok (current_child.goal_Pfeasibility * current_child.effective_edge_Pfeasibility)
  | [] => .ok 0
  | _ =>
    match goalChildLoop child_nodes planner_action_try_attempts child_nodes 0 ([], []) with
    | .error e => .error e
    | .ok (dependent, independent) =>
      let dependent_child_goal_reached_probability := dependent.sum
      let independent_child_goal_reached_probability := maxElement 0 independent
      let total_p_goal_reached :=
        independent_child_goal_reached_probability + dependent_child_goal_reached_probability
      if 0 ≤ total_p_goal_reached ∧ total_p_goal_reached ≤ 1 then .ok total_p_goal_reached
      else if 0 ≤ total_p_goal_reached ∧ total_p_goal_reached ≤ 1001 / 1000 then .ok 1
      else .error .total_p_goal_reached_out_of_range

/-! ## Goal probability of a node (`UpdateNodeGoalReachedProbability`) -/

/-- The statement `effective_child_branches[key].push_back(child)` on a `std::map`,
kept as a list of entries with ascending keys. -/
def mapPushBack (key : Nat) (child : Int) : List (Nat × List Int) → List (Nat × List Int)
  | [] => [(key, [child])]
  | (k, children) :: rest =>
    if key = k then (k, children ++ [child]) :: rest
    else if key < k then (key, [child]) :: (k, children) :: rest
    else (k, children) :: mapPushBack key child rest

/-- The loop that separates the children of a node by transition id. -/
def groupChildren (storage : UncertaintyPlanningTree) :
    List Int → List (Nat × List Int) → Except PlanningError (List (Nat × List Int))
  | [], effective_child_branches => .ok effective_child_branches
  | current_child_index :: rest, effective_child_branches =>
    match treeAt storage current_child_index with
    | none => .error .out_of_range
    | some child =>
      groupChildren storage rest
        (mapPushBack child.value.transition_id current_child_index effective_child_branches)

/-- The copy of the child states named by `child_node_indices`
(`ComputeTransitionGoalProbability` on indices). -/
def collectChildStates (storage : UncertaintyPlanningTree) :
    List Int → Except PlanningError (List UncertaintyPlanningState)
  | [] => .ok []
  | current_child_index :: rest =>
    match treeAt storage current_child_index with
    | none => .error .out_of_range
    | some child =>
      match collectChildStates storage rest with
      | .error e => .error e
      | .ok states => .ok (child.value :: states)

/-- The loop over the transitions of a node, in ascending order of transition id. -/
def branchProbabilities (storage : UncertaintyPlanningTree) (planner_action_try_attempts : Nat) :
    List (Nat × List Int) → Except PlanningError (List ℚ)
  | [] => .ok []
  | (_, child_node_indices) :: rest =>
    match collectChildStates storage child_node_indices with
    | .error e => .error e
    | .ok child_states =>
      match ComputeTransitionGoalProbability child_states planner_action_try_attempts with
      | .error e => .error e
      | .ok transition_goal_probability =>
        match branchProbabilities storage planner_action_try_attempts rest with
        | .error e => .error e
        | .ok probabilities => .ok (transition_goal_probability :: probabilities)

/-- The value that `UpdateNodeGoalReachedProbability` stores as `goal_p` of
`current_node`: the highest transition goal probability, range-checked. -/
def nodeGoalReachedProbability (storage : UncertaintyPlanningTree)
    (current_node : UncertaintyPlanningTreeState) (planner_action_try_attempts : Nat) :
    Except PlanningError ℚ :=
  match groupChildren storage current_node.child_indices [] with
  | .error e => .error e
  | .ok effective_child_branches =>
    match branchProbabilities storage planner_action_try_attempts effective_child_branches with
    | .error e => .error e
    | .ok effective_child_branch_probabilities =>
      let max_transition_probability := maxElement 0 effective_child_branch_probabilities
      if max_transition_probability < 0 ∨ max_transition_probability > 1 then
        .error .max_transition_probability_out_of_range
      else .ok max_transition_probability

/-- `UpdateNodeGoalReachedProbability` for the node at `node_index` of the storage. -/
def UpdateNodeGoalReachedProbability (storage : UncertaintyPlanningTree) (node_index : Int)
    (planner_action_try_attempts : Nat) : Except PlanningError UncertaintyPlanningTree :=
  match treeAt storage node_index with
  | none => .error .out_of_range
  | some current_node =>
    match nodeGoalReachedProbability storage current_node planner_action_try_attempts with
    | .error e => .error e
    | .ok max_transition_probability =>
      .ok (storage.set node_index.toNat
        { current_node with
          value := current_node.value.SetGoalPfeasibility max_transition_probability })

/-! ## Goal events (`GoalReachedGoalFunction`, `GoalReachedCallback`) -/

/-- `GoalReachedGoalFunction`: the candidate is the last state of the tree storage;
`user_goal_check_fn` is the user's goal probability function.  The result is the
returned flag and the planner after the call. -/
def GoalReachedGoalFunction (planner : UncertaintyPlanningSpace)
    (user_goal_check_fn : UncertaintyPlanningState → ℚ) :
    Except PlanningError (Bool × UncertaintyPlanningSpace) :=
  match planner.nearest_neighbors_storage.getLast? with
  | none => .error .out_of_range
  | some goal_state_candidate =>
    let goal_reached_probability := user_goal_check_fn goal_state_candidate.value
    if goal_reached_probability > 0 then
      let counted : UncertaintyPlanningSpace :=
        { planner with
          goal_candidates_evaluated := incr64 planner.goal_candidates_evaluated }
      let start_to_goal_probability :=
        goal_reached_probability * goal_state_candidate.value.motion_Pfeasibility
      if start_to_goal_probability ≥ planner.goal_probability_threshold then
        .ok (true,
          { counted with
            nearest_neighbors_storage :=
              planner.nearest_neighbors_storage.set
                (planner.nearest_neighbors_storage.length - 1)
                { goal_state_candidate with
                  value := goal_state_candidate.value.SetGoalPfeasibility
                    goal_reached_probability } })
      else .ok (false, counted)
    else .ok (false, planner)

/-- The walk of `GoalReachedCallback` from the new goal towards the root; the result
is `goal_branch_root_index`. -/
def goalBranchRootWalk (goal_probability_threshold : ℚ) (storage : UncertaintyPlanningTree) :
    Nat → Int → Except PlanningError Int
  | fuel, current_index =>
    if current_index > 0 then
      match fuel with
      | 0 => .error .out_of_fuel
      | fuel + 1 =>
        match treeAt storage current_index with
        | none => .error .out_of_range
        | some current_state =>
          match CheckIfGoalBranchRoot goal_probability_threshold storage current_state with
          | .error e => .error e
          | .ok is_branch_root =>
            if is_branch_root = false then
              goalBranchRootWalk goal_probability_threshold storage fuel
                current_state.parent_index
            else .ok current_index
    else .ok (-1)

/-- The walk of `GoalReachedCallback` that updates `goal_p` from the parent of the
new goal up to the root. -/
def updateAncestors (planner_action_try_attempts : Nat) :
    Nat → UncertaintyPlanningTree → Int → Except PlanningError UncertaintyPlanningTree
  | fuel, storage, probability_update_index =>
    if probability_update_index ≥ 0 then
      match fuel with
      | 0 => .error .out_of_fuel
      | fuel + 1 =>
        match UpdateNodeGoalReachedProbability storage probability_update_index
            planner_action_try_attempts with
        | .error e => .error e
        | .ok updated =>
          match treeAt updated probability_update_index with
          | none => .error .out_of_range
          | some current_state =>
            updateAncestors planner_action_try_attempts fuel updated current_state.parent_index
    else .ok storage

/-- The first half of `GoalReachedCallback`: find the root of the goal branch and
blacklist it. -/
def blacklistNewGoalBranch (fuel : Nat) (planner : UncertaintyPlanningSpace)
    (new_goal_state_idx : Int) : Except PlanningError UncertaintyPlanningSpace :=
  match goalBranchRootWalk planner.goal_probability_threshold
      planner.nearest_neighbors_storage fuel new_goal_state_idx with
  | .error e => .error e
  | .ok goal_branch_root_index =>
    match BlacklistGoalBranch fuel planner.nearest_neighbors_storage goal_branch_root_index with
    | .error e => .error e
    | .ok storage => .ok { planner with nearest_neighbors_storage := storage }

/-- The second half of `GoalReachedCallback`: check the new goal, update the goal
probabilities of its ancestors and read the root's. -/
def propagateGoalProbability (fuel : Nat) (planner : UncertaintyPlanningSpace)
    (new_goal_state_idx : Int) (planner_action_try_attempts : Nat) :
    Except PlanningError UncertaintyPlanningSpace :=
  match treeAt planner.nearest_neighbors_storage new_goal_state_idx with
  | none => .error .out_of_range
  | some new_goal =>
    if new_goal.value.goal_Pfeasibility = 0 then .error .new_goal_cannot_reach_goal
    else
      match updateAncestors planner_action_try_attempts fuel
          planner.nearest_neighbors_storage new_goal.parent_index with
      | .error e => .error e
      | .ok storage =>
        match storage[0]? with
        | none => .error .out_of_range
        | some root =>
          .ok { planner with
                nearest_neighbors_storage := storage
                total_goal_reached_probability := root.value.goal_Pfeasibility }

/-- `GoalReachedCallback` (the tree handed to the callback is the planner's own
storage).  The result is the planner when the callback exits and the exception, if
one was thrown: the blacklisting stays in place when the second half throws. -/
def GoalReachedCallback (fuel : Nat) (planner : UncertaintyPlanningSpace)
    (new_goal_state_idx : Int) (planner_action_try_attempts : Nat) :
    UncertaintyPlanningSpace × Option PlanningError :=
  match blacklistNewGoalBranch fuel planner new_goal_state_idx with
  | .error e => (planner, some e)
  | .ok blacklisted =>
    match propagateGoalProbability fuel blacklisted new_goal_state_idx
        planner_action_try_attempts with
    | .error e => (blacklisted, some e)
    | .ok updated => (updated, none)

/-- The invariant of the nearest-neighbour scan over the nodes `pre` seen so far. -/
def ScanInvariant (state_distance_fn : UncertaintyPlanningState →
    UncertaintyPlanningState → ℚ) (random_state : UncertaintyPlanningState)
    (pre : List UncertaintyPlanningTreeState) (best : Int × Option ℚ) : Prop :=
  (best = (-1, none) ∧ ∀ n ∈ pre, n.value.use_for_nearest_neighbors = false) ∨
  (∃ (i : Nat) (n : UncertaintyPlanningTreeState),
    best = ((i : Int), some (state_distance_fn n.value random_state))
    ∧ pre[i]? = some n ∧ n.value.use_for_nearest_neighbors = true
    ∧ ∀ (j : Nat) (m : UncertaintyPlanningTreeState), pre[j]? = some m →
        m.value.use_for_nearest_neighbors = true →
        state_distance_fn n.value random_state ≤ state_distance_fn m.value random_state
        ∧ (j < i → state_distance_fn n.value random_state
            < state_distance_fn m.value random_state))

/-- Two trees agree in everything except possibly the nearest-neighbour bits: same
size, and node by node the same planning state fields, parent index, child indices. -/
def SameExceptUse (t t0 : UncertaintyPlanningTree) : Prop :=
  t.map disableNode = t0.map disableNode

/-- A tree node around a planning state. -/
def mkNode (value : UncertaintyPlanningState) (parent_index : Int) (child_indices : List Int) :
    UncertaintyPlanningTreeState :=
  { value := value, parent_index := parent_index, child_indices := child_indices,
    initialized := true }

/-- A tree of four nodes: the root `0`, its only child `1`, and the two children `2`
and `3` of node `1`, which come from one split (seven and three of ten particles,
transition id `3`, split id `1`). -/
def exampleTree : UncertaintyPlanningTree :=
  [ mkNode startState (-1) [1],
    mkNode (UncertaintyPlanningState.make 1 10 10 10 1 10 10 1 1 2 0 true) 0 [2, 3],
    mkNode (UncertaintyPlanningState.make 2 7 10 7 (7 / 10) 7 7 1 3 4 1 true) 1 [],
    mkNode (UncertaintyPlanningState.make 3 3 10 3 (3 / 10) 3 3 1 3 5 1 true) 1 [] ]

/-- A tree node with its goal probability reset, used to compare two trees in every
field but `goal_p`. -/
def eraseGoal (node : UncertaintyPlanningTreeState) : UncertaintyPlanningTreeState :=
  { node with value := node.value.SetGoalPfeasibility 0 }

/-- Two trees agree in everything except possibly the goal probabilities. -/
def SameExceptGoal (t t0 : UncertaintyPlanningTree) : Prop :=
  t.map eraseGoal = t0.map eraseGoal

/-- The four-node example tree in which the goal function has just marked node `3`
as a goal reached with probability one. -/
def goalAtThree : UncertaintyPlanningTree :=
  [ mkNode startState (-1) [1],
    mkNode (UncertaintyPlanningState.make 1 10 10 10 1 10 10 1 1 2 0 true) 0 [2, 3],
    mkNode (UncertaintyPlanningState.make 2 7 10 7 (7 / 10) 7 7 1 3 4 1 true) 1 [],
    mkNode ((UncertaintyPlanningState.make 3 3 10 3 (3 / 10) 3 3 1 3 5 1
      true).SetGoalPfeasibility 1) 1 [] ]

/-- The tree `goalAtThree` after the goal event at node `3` (threshold `1 / 4`, one
try attempt): node `3` is blacklisted, its parent and the root carry the
back-propagated goal probability `3 / 10`; node `2`, the other child of the split,
is still enabled. -/
def resolvedSplitTree : UncertaintyPlanningTree :=
  [ mkNode (startState.SetGoalPfeasibility (3 / 10)) (-1) [1],
    mkNode ((UncertaintyPlanningState.make 1 10 10 10 1 10 10 1 1 2 0 true).SetGoalPfeasibility
      (3 / 10)) 0 [2, 3],
    mkNode (UncertaintyPlanningState.make 2 7 10 7 (7 / 10) 7 7 1 3 4 1 true) 1 [],
    mkNode (((UncertaintyPlanningState.make 3 3 10 3 (3 / 10) 3 3 1 3 5 1
      true).SetGoalPfeasibility 1).DisableForNearestNeighbors) 1 [] ]

/-- The node `2` of `resolvedSplitTree`. -/
def resolvedSplitNode : UncertaintyPlanningTreeState :=
  mkNode (UncertaintyPlanningState.make 2 7 10 7 (7 / 10) 7 7 1 3 4 1 true) 1 []

/-- The search for an enabled sibling in the words of the specification: a child of the
parent, other than the node at `self_index`, with the same forward transition id and
`use_for_nn = true`. -/
def hasEnabledSibling (storage : UncertaintyPlanningTree) (self_index : Int)
    (state : UncertaintyPlanningTreeState) (children : List Int) : Bool :=
  children.any (fun c =>
    decide (c ≠ self_index) &&
      (match treeAt storage c with
        | some sibling =>
          decide (sibling.value.transition_id = state.value.transition_id)
            && sibling.value.use_for_nearest_neighbors
        | none => false))

/-- The three-way condition of the specification for the node `state` stored at `self_index`:
(a) low effective edge probability, (b) child of a split whose parent has
`goal_p < 1` and which has an enabled sibling of the same transition, (c) the parent
is the root. -/
def claimedGoalBranchRoot (goal_probability_threshold : ℚ) (storage : UncertaintyPlanningTree)
    (self_index : Int) (state : UncertaintyPlanningTreeState) : Bool :=
  decide (state.value.effective_edge_Pfeasibility < goal_probability_threshold)
  || (decide (state.value.split_id > 0)
      && (match treeAt storage state.parent_index with
          | some parent =>
            decide (parent.value.goal_Pfeasibility < 1)
              && hasEnabledSibling storage self_index state parent.child_indices
          | none => false))
  || decide (state.parent_index = 0)

/-- A planner whose tree is a single start state and whose goal probability
threshold is zero. -/
def zeroThresholdPlanner : UncertaintyPlanningSpace :=
  freshPlanner 0 [mkNode startState (-1) []]

/-! ## The transition goal probability in closed form -/

/-- The sum, over the siblings `j ≠ idx` with nominally independent outcomes, of
`raw_edge_p j * (1 - reverse_edge_p j) * goal_p j`; `offset` is the index of the head
of the list. -/
def siblingStuckGoalMass (idx : Nat) : List UncertaintyPlanningState → Nat → ℚ
  | [], _ => 0
  | s :: rest, offset =>
    (if offset ≠ idx ∧ s.action_outcome_is_nominally_independent = true then
      s.raw_edge_Pfeasibility * (1 - s.reverse_edge_Pfeasibility) * s.goal_Pfeasibility
      else 0)
      + siblingStuckGoalMass idx rest (offset + 1)

/-- The value `P_i` of the specification for the child `current_child` at position `idx`:
`sum_{k < K} active_k * (r_i * g_i + sum over independent siblings of r_j (1 - q_j) g_j)`
with `active_k = a ^ k`, `a` the sum of `r_j * q_j` over the independent siblings. -/
def claimedChildValue (child_nodes : List UncertaintyPlanningState) (K idx : Nat)
    (current_child : UncertaintyPlanningState) : ℚ :=
  ∑ k in Finset.range K, (siblingReturnMass idx child_nodes 0) ^ k
    * (current_child.raw_edge_Pfeasibility * current_child.goal_Pfeasibility
        + siblingStuckGoalMass idx child_nodes 0)

/-- The values `P_i` of the children `rest` (positions from `idx` on), each with the
independence flag of its child. -/
def claimedValues (child_nodes : List UncertaintyPlanningState) (K : Nat) :
    List UncertaintyPlanningState → Nat → List (Bool × ℚ)
  | [], _ => []
  | current_child :: rest, idx =>
    (current_child.action_outcome_is_nominally_independent,
      claimedChildValue child_nodes K idx current_child)
      :: claimedValues child_nodes K rest (idx + 1)

/-- A value in `(1, 1.001]` is replaced by `1`. -/
def replaceSlack (x : ℚ) : ℚ := if 1 < x ∧ x ≤ 1001 / 1000 then 1 else x

/-- The accepted range `[0, 1.001]`. -/
def inSlackRange (x : ℚ) : Bool := decide (0 ≤ x ∧ x ≤ 1001 / 1000)

/-- The sum of the (slack-replaced) values of the children with dependent outcomes. -/
def dependentSum (values : List (Bool × ℚ)) : ℚ :=
  ((values.filter (fun v => !v.1)).map (fun v => replaceSlack v.2)).sum

/-- The (slack-replaced) values of the children with independent outcomes. -/
def independentValues (values : List (Bool × ℚ)) : List ℚ :=
  (values.filter (fun v => v.1)).map (fun v => replaceSlack v.2)

/-- The transition goal probability in the words of the specification, with the range
errors of the code made explicit. -/
def claimedTransitionGoalProbability (child_nodes : List UncertaintyPlanningState) (K : Nat) :
    Except PlanningError ℚ :=
  match child_nodes with
  | [current_child] =>
    .ok (current_child.goal_Pfeasibility * current_child.effective_edge_Pfeasibility)
  | [] => .ok 0
  | _ =>
    let values := claimedValues child_nodes K child_nodes 0
    if values.all (fun v => inSlackRange v.2) = true then
      let total := maxElement 0 (independentValues values) + dependentSum values
      if inSlackRange total = true then .ok (replaceSlack total)
      else .error .total_p_goal_reached_out_of_range
    else .error .p_reached_goal_out_of_range

/-- A split into three children, each reaching the goal with certainty: two with
dependent outcomes (raw edge probability `3 / 10` each) and one with independent
outcomes (raw edge probability `4 / 10`, reverse edge probability `0`). -/
def mixedSplit : List UncertaintyPlanningState :=
  [ (exampleChild 1 3 10 3 false).SetGoalPfeasibility 1,
    (exampleChild 2 3 10 3 false).SetGoalPfeasibility 1,
    (exampleChild 3 4 10 0 true).SetGoalPfeasibility 1 ]

/-! ## Monotonicity of the goal probability update -/

/-- State `s'` carries the same transition id, edge probabilities and independence
flag as `s` and a goal probability that is not smaller. -/
def StateLe (s s' : UncertaintyPlanningState) : Prop :=
  s'.transition_id = s.transition_id
  ∧ s'.raw_edge_Pfeasibility = s.raw_edge_Pfeasibility
  ∧ s'.reverse_edge_Pfeasibility = s.reverse_edge_Pfeasibility
  ∧ s'.effective_edge_Pfeasibility = s.effective_edge_Pfeasibility
  ∧ s'.action_outcome_is_nominally_independent = s.action_outcome_is_nominally_independent
  ∧ s.goal_Pfeasibility ≤ s'.goal_Pfeasibility

/-- Node `n'` has the linkage of `n` and a state related to it by `StateLe`. -/
def NodeLe (n n' : UncertaintyPlanningTreeState) : Prop :=
  n'.child_indices = n.child_indices ∧ n'.parent_index = n.parent_index
  ∧ StateLe n.value n'.value

/-- Tree `t` has the shape of `T` and node by node goal probabilities that are not
smaller. -/
def GoalLe (T t : UncertaintyPlanningTree) : Prop := List.Forall₂ NodeLe T t

/-- The edge probabilities of a state are in range: raw and effective edge
probability non-negative, reverse edge probability in `[0, 1]`. -/
def StateInRange (s : UncertaintyPlanningState) : Prop :=
  0 ≤ s.raw_edge_Pfeasibility ∧ 0 ≤ s.reverse_edge_Pfeasibility
  ∧ s.reverse_edge_Pfeasibility ≤ 1 ∧ 0 ≤ s.effective_edge_Pfeasibility

/-- Value `v'` carries the flag of `v` and a number that is not smaller. -/
def ValueLe (v v' : Bool × ℚ) : Prop := v'.1 = v.1 ∧ v.2 ≤ v'.2

/-- The nodes that the back-propagation walk visits when it starts at `index`: the
node itself, its parent, and so on while the index names a node of the tree. -/
def ancestorChain (tree : UncertaintyPlanningTree) : Nat → Int → List Nat
  | 0, _ => []
  | fuel + 1, index =>
    match treeAt tree index with
    | none => []
    | some node => index.toNat :: ancestorChain tree fuel node.parent_index

/-- The stored goal probability of node `a` is at most the value that
`UpdateNodeGoalReachedProbability` computes for it from its current children. -/
def AncestorNotAbove (tree : UncertaintyPlanningTree) (K : Nat) (a : Nat) : Prop :=
  ∃ node v, tree[a]? = some node ∧ nodeGoalReachedProbability tree node K = .ok v
    ∧ node.value.goal_Pfeasibility ≤ v

/-- A tree of two nodes in which the goal function has just marked node `1`, the only
child of the root, as a goal reached with probability one. -/
def chainFirstGoal : UncertaintyPlanningTree :=
  [ mkNode startState (-1) [1],
    mkNode ((UncertaintyPlanningState.make 1 10 10 10 1 10 10 1 1 2 0
      true).SetGoalPfeasibility 1) 0 [] ]

/-- The tree `chainFirstGoal` after the goal event at node `1`: node `1` is
blacklisted and the root carries the back-propagated goal probability `1`. -/
def chainAfterFirstGoal : UncertaintyPlanningTree :=
  [ mkNode (startState.SetGoalPfeasibility 1) (-1) [1],
    mkNode (((UncertaintyPlanningState.make 1 10 10 10 1 10 10 1 1 2 0
      true).SetGoalPfeasibility 1).DisableForNearestNeighbors) 0 [] ]

/-- The tree `chainAfterFirstGoal` after the next state of the same chain has been
appended as node `2`, child of the goal node `1`, and marked by the goal function as
a goal reached with probability `1 / 2`. -/
def chainSecondGoal : UncertaintyPlanningTree :=
  [ mkNode (startState.SetGoalPfeasibility 1) (-1) [1],
    mkNode (((UncertaintyPlanningState.make 1 10 10 10 1 10 10 1 1 2 0
      true).SetGoalPfeasibility 1).DisableForNearestNeighbors) 0 [2],
    mkNode ((UncertaintyPlanningState.make 2 10 10 10 1 10 10 1 3 4 0
      true).SetGoalPfeasibility (1 / 2)) 1 [] ]

/-! ## Planner termination (`PlannerTerminationCheck`) -/

/-- `PlannerTerminationCheck`, as a function of the time elapsed since `start_time`
(the clock reading is the one input the function takes from outside) and of the
planner's `total_goal_reached_probability_`.  The literal `1e-10` is `1 / 10 ^ 10`. -/
def PlannerTerminationCheck (elapsed time_limit p_goal_termination_threshold
    total_goal_reached_probability : ℚ) : Bool :=
  let time_limit_reached : Bool := decide (elapsed > time_limit)
  if time_limit_reached = true then
    true
  else if p_goal_termination_threshold > 0 then
    let p_goal_gap := p_goal_termination_threshold - total_goal_reached_probability
    if p_goal_gap ≤ 1 / 10 ^ 10 then true else false
  else
    false

/-- Two simulated particles that made no contact, with the clustering putting both in
one cluster: the input on which the reverse probability is evaluated. -/
def twoFreeParticles : List SimulationResult :=
  [{ did_contact := false, outcome_is_nominally_independent := true },
   { did_contact := false, outcome_is_nominally_independent := true }]

/-! ## Forward propagation (`PerformForwardPropagation`) -/

/-- What the collaborators deliver for one call of `ForwardSimulateStates` inside
`PerformForwardPropagation`: whether the robot model finds the target within one step
size of the current expectation, the simulator's particles, the clustering of them,
and the reverse-edge checks. -/
structure PropagationStep where
  target_within_step_size : Bool
  propagated_points : List SimulationResult
  final_index_clusters : List (List Nat)
  reverse_edge_check : Nat → UncertaintyPlanningState → Nat × Nat

/-- The `while` loop of the RRT-Connect branch.  `remaining` is `total_steps - steps`;
`current` only steers the target computation of the collaborators and does not
appear.  Every pass simulates from `nearest`. -/
def connectLoop (default_state nearest : UncertaintyPlanningState)
    (planner_action_try_attempts : Nat) (allow_contacts include_reverse_actions : Bool)
    (step_inputs : Nat → PropagationStep) :
    Nat → Nat → UncertaintyPlanningSpace → List (UncertaintyPlanningState × Int) → Int →
      Except PlanningError (List (UncertaintyPlanningState × Int) × UncertaintyPlanningSpace)
  | 0, _, planner, propagated_states, _ => .ok (propagated_states, planner)
  | remaining + 1, steps, planner, propagated_states, parent_offset =>
    let input := step_inputs steps
    let completed := input.target_within_step_size
    match ForwardSimulateStates planner default_state nearest input.propagated_points
        input.final_index_clusters input.reverse_edge_check planner_action_try_attempts
        allow_contacts include_reverse_actions with
    | .error e => .error e
    | .ok propagation_results =>
      let simulation_results := propagation_results.result_states
      match simulation_results with
      | [] => .ok (propagated_states, propagation_results.planner)
      | [(new_state, _)] =>
        let propagated_states := propagated_states ++ [(new_state, parent_offset)]
        if completed = true then .ok (propagated_states, propagation_results.planner)
        else
          connectLoop default_state nearest planner_action_try_attempts allow_contacts
            include_reverse_actions step_inputs remaining (steps + 1)
            propagation_results.planner propagated_states (parent_offset + 1)
      | _ =>
        .ok (propagated_states ++ simulation_results.map (fun r => (r.1, parent_offset)),
          propagation_results.planner)

/-- `PerformForwardPropagation`.  `draw` is the uniform sample taken when a solution
was already found, `distance_in_steps` the value of
`(uint32_t)ceil(distance(nearest, target) / step_size_)`, and `step_inputs k` what the
collaborators deliver for the `k`-th simulation. -/
def PerformForwardPropagation (planner : UncertaintyPlanningSpace)
    (connect_after_first_solution draw : ℚ)
    (default_state nearest : UncertaintyPlanningState) (distance_in_steps : Nat)
    (step_inputs : Nat → PropagationStep) (planner_action_try_attempts : Nat)
    (allow_contacts include_reverse_actions : Bool) :
    Except PlanningError (List (UncertaintyPlanningState × Int) × UncertaintyPlanningSpace) :=
  let solution_already_found : Bool :=
    decide (planner.total_goal_reached_probability ≥ planner.goal_probability_threshold)
  let use_extend : Bool :=
    if solution_already_found = true then
      if draw < connect_after_first_solution then false else true
    else false
  if use_extend = true then
    let input := step_inputs 0
    match ForwardSimulateStates planner default_state nearest input.propagated_points
        input.final_index_clusters input.reverse_edge_check planner_action_try_attempts
        allow_contacts include_reverse_actions with
    | .error e => .error e
    | .ok propagation_results =>
      .ok (propagation_results.result_states, propagation_results.planner)
  else
    let total_steps := max distance_in_steps 1
    connectLoop default_state nearest planner_action_try_attempts allow_contacts
      include_reverse_actions step_inputs total_steps 0 planner [] (-1)

/-- One free particle and one particle that made contact. -/
def freeAndContact : List SimulationResult :=
  [{ did_contact := false, outcome_is_nominally_independent := true },
   { did_contact := true, outcome_is_nominally_independent := true }]

/-- A two-step RRT-Connect propagation in which every simulation loses one of its
two particles to a contact (contacts are not allowed), so every step yields one state
with edge probability one half. -/
def halfLossSteps : Nat → PropagationStep := fun k =>
  { target_within_step_size := decide (1 ≤ k)
    propagated_points := freeAndContact
    final_index_clusters := [[0, 1]]
    reverse_edge_check := fun _ s => (s.num_particles, s.num_particles) }

/-- The two-step RRT-Connect propagation over `halfLossSteps` from `startState`. -/
def halfLossConnect :
    Except PlanningError (List (UncertaintyPlanningState × Int) × UncertaintyPlanningSpace) :=
  PerformForwardPropagation (freshPlanner (1 / 2) []) (1 / 2) 0 zeroState startState 2
    halfLossSteps 1 false true

/-- A simulation of one free and one contacting particle which the clustering puts in
two clusters, with contacts not allowed: the second cluster ends up empty. -/
def emptyClusterRun : Except PlanningError ForwardSimulationOutput :=
  ForwardSimulateStates (freshPlanner (1 / 2) []) zeroState startState freeAndContact
    [[0], [1]] (fun _ s => (s.num_particles, s.num_particles)) 1 false true

/-! ## Solution tree post-processing (`PostProcessTree`) -/

/-- The loop of `PostProcessTree` over the other children of the parent: is there a
child of the same transition with a different state id and a positive goal
probability?  The children are read from the tree that is being updated. -/
def goalReachingSplitLoop (tree : UncertaintyPlanningTree) (state_id transition_id : Nat) :
    List Int → Except PlanningError Bool
  | [] => .ok false
  | other_child_index :: rest =>
    match treeAt tree other_child_index with
    | none => .error .out_of_range
    | some other_child_state =>
      if state_id ≠ other_child_state.value.state_id
          ∧ transition_id = other_child_state.value.transition_id then
        if other_child_state.value.goal_Pfeasibility > 0 then .ok true
        else goalReachingSplitLoop tree state_id transition_id rest
      else goalReachingSplitLoop tree state_id transition_id rest

/-- The loop of `PostProcessTree` over `sdx`, with `remaining = size - sdx`.  The tree
is the copy that is updated in place. -/
def postProcessLoop :
    Nat → Nat → UncertaintyPlanningTree → Except PlanningError UncertaintyPlanningTree
  | 0, _, tree => .ok tree
  | remaining + 1, sdx, tree =>
    match tree[sdx]? with
    | none => .ok tree
    | some current_state =>
      match treeAt tree current_state.parent_index with
      | none => .error .out_of_range
      | some parent_state =>
        if current_state.value.goal_Pfeasibility > 0 then
          postProcessLoop remaining (sdx + 1) tree
        else if parent_state.value.goal_Pfeasibility > 0 then
          match goalReachingSplitLoop tree current_state.value.state_id
              current_state.value.transition_id parent_state.child_indices with
          | .error e => .error e
          | .ok result_of_goal_reaching_split =>
            if result_of_goal_reaching_split = true then
              let parent_pgoalreached := parent_state.value.goal_Pfeasibility
              let new_pgoalreached :=
                -(parent_pgoalreached * current_state.value.reverse_edge_Pfeasibility)
              postProcessLoop remaining (sdx + 1)
                (tree.set sdx { current_state with
                  value := current_state.value.SetGoalPfeasibility new_pgoalreached })
            else postProcessLoop remaining (sdx + 1) tree
        else postProcessLoop remaining (sdx + 1) tree

/-- `PostProcessTree`: the loop runs over the indices `1 .. size - 1` of a copy of
the tree. -/
def PostProcessTree (planner_tree : UncertaintyPlanningTree) :
    Except PlanningError UncertaintyPlanningTree :=
  postProcessLoop (planner_tree.length - 1) 1 planner_tree

/-- In the words of the specification: some other child in the list, read from the
given tree, has the same transition id as `state`, a different state id and a
positive goal probability. -/
def hasGoalReachingSibling (tree : UncertaintyPlanningTree) (state : UncertaintyPlanningState)
    (children : List Int) : Bool :=
  children.any fun c =>
    match treeAt tree c with
    | some other => decide (state.state_id ≠ other.value.state_id
        ∧ state.transition_id = other.value.transition_id
        ∧ other.value.goal_Pfeasibility > 0)
    | none => false

/-- In the words of the specification, what post-processing makes of a non-root node,
everything being read from the input tree: a node with positive goal probability is
kept; a node with `goal_p <= 0` whose parent has `goal_p > 0` and which has a
goal-reaching sibling of the same transition receives
`goal_p = -(goal_p(parent) * reverse_edge_p)`; any other node is unchanged. -/
def claimedPostProcessNode (tree : UncertaintyPlanningTree)
    (node : UncertaintyPlanningTreeState) : UncertaintyPlanningTreeState :=
  if node.value.goal_Pfeasibility > 0 then node
  else
    match treeAt tree node.parent_index with
    | none => node
    | some parent =>
      if parent.value.goal_Pfeasibility > 0
          ∧ hasGoalReachingSibling tree node.value parent.child_indices = true then
        let new_goal_p :=
          -(parent.value.goal_Pfeasibility * node.value.reverse_edge_Pfeasibility)
        { node with value := node.value.SetGoalPfeasibility new_goal_p }
      else node

/-- Node `m` is node `n` up to a goal probability that was not positive and still is
not positive. -/
def GoalAlike (n m : UncertaintyPlanningTreeState) : Prop :=
  m = n ∨ (n.value.goal_Pfeasibility ≤ 0 ∧
    ∃ v : ℚ, v ≤ 0 ∧ m = { n with value := n.value.SetGoalPfeasibility v })

/-- The tree `t` is the input tree `T` in which the nodes `1 .. k - 1` have been
post-processed. -/
def PostProcessedUpTo (T t : UncertaintyPlanningTree) (k : Nat) : Prop :=
  t.length = T.length ∧ ∀ j node, T[j]? = some node →
    t[j]? = some (if 1 ≤ j ∧ j < k then claimedPostProcessNode T node else node)

/-- Every reverse edge probability of the tree is at least zero. -/
def ReverseNonneg (tree : UncertaintyPlanningTree) : Prop :=
  ∀ node ∈ tree, 0 ≤ node.value.reverse_edge_Pfeasibility

/-! ## Tree pruning (`PruneTree`, `ExtractChildStates`) -/

/-- `SetParentIndex` of the tree node. -/
def UncertaintyPlanningTreeState.SetParentIndex (node : UncertaintyPlanningTreeState)
    (parent_index : Int) : UncertaintyPlanningTreeState :=
  { node with parent_index := parent_index }

/-- `ClearChildIndicies` of the tree node. -/
def UncertaintyPlanningTreeState.ClearChildIndicies (node : UncertaintyPlanningTreeState) :
    UncertaintyPlanningTreeState :=
  { node with child_indices := [] }

/-- `AddChildIndex` of the tree node: the index is appended unless the list holds it
already. -/
def UncertaintyPlanningTreeState.AddChildIndex (node : UncertaintyPlanningTreeState)
    (child_index : Int) : UncertaintyPlanningTreeState :=
  if node.child_indices.contains child_index = true then node
  else { node with child_indices := node.child_indices ++ [child_index] }

/-- The loop of `ExtractChildStates` over the child indices of the raw parent;
`recurse` is the recursive call of `ExtractChildStates` on the same raw tree. -/
def extractLoop (recurse : Int → Int → UncertaintyPlanningTree →
      Except PlanningError UncertaintyPlanningTree)
    (raw_planner_tree : UncertaintyPlanningTree) (pruned_parent_index : Int) :
    List Int → UncertaintyPlanningTree → Except PlanningError UncertaintyPlanningTree
  | [], pruned_planner_tree => .ok pruned_planner_tree
  | raw_child_index :: rest, pruned_planner_tree =>
    match treeAt raw_planner_tree raw_child_index with
    | none => .error .out_of_range
    | some current_child_state =>
      if current_child_state.parent_index ≥ 0 then
        let pruned_child_index : Int := (pruned_planner_tree.length : Int)
        match treeAt pruned_planner_tree pruned_parent_index with
        | none => .error .out_of_range
        | some pruned_parent =>
          let pushed := pruned_planner_tree
            ++ [current_child_state.SetParentIndex pruned_parent_index]
          let linked := pushed.set pruned_parent_index.toNat
            (pruned_parent.AddChildIndex pruned_child_index)
          match recurse raw_child_index pruned_child_index linked with
          | .error e => .error e
          | .ok extracted =>
            extractLoop recurse raw_planner_tree pruned_parent_index rest extracted
      else
        extractLoop recurse raw_planner_tree pruned_parent_index rest pruned_planner_tree

/-- `ExtractChildStates`: the pruned tree is passed in and handed back.  The recursion
carries fuel. -/
def ExtractChildStates :
    Nat → UncertaintyPlanningTree → Int → Int → UncertaintyPlanningTree →
      Except PlanningError UncertaintyPlanningTree
  | 0, _, _, _, _ => .error .out_of_fuel
  | fuel + 1, raw_planner_tree, raw_parent_index, pruned_parent_index, pruned_planner_tree =>
    match treeAt raw_planner_tree raw_parent_index with
    | none => .error .out_of_range
    | some raw_parent =>
      if raw_parent.initialized = false then .error .uninitialized_state
      else
        match treeAt pruned_planner_tree pruned_parent_index with
        | none => .error .out_of_range
        | some pruned_parent =>
          if pruned_parent.initialized = false then .error .uninitialized_state
          else
            extractLoop (ExtractChildStates fuel raw_planner_tree) raw_planner_tree
              pruned_parent_index raw_parent.child_indices
              (pruned_planner_tree.set pruned_parent_index.toNat
                pruned_parent.ClearChildIndicies)

/-- What the first loop of `PruneTree` makes of one node: a node on a path to the goal
(`goal_p > 0`) and, with spur actions, a node that can reverse to it (`goal_p < 0`)
stay; any other node loses its parent index and its child indices. -/
def pruneMark (include_spur_actions : Bool) (current_state : UncertaintyPlanningTreeState) :
    UncertaintyPlanningTreeState :=
  if current_state.value.goal_Pfeasibility > 0 then current_state
  else if current_state.value.goal_Pfeasibility < 0 then
    if include_spur_actions = true then current_state
    else (current_state.SetParentIndex (-1)).ClearChildIndicies
  else (current_state.SetParentIndex (-1)).ClearChildIndicies

/-- The first loop of `PruneTree` over all nodes; it throws at the first node that is
not initialized. -/
def pruneMarkLoop (include_spur_actions : Bool) :
    List UncertaintyPlanningTreeState → Except PlanningError UncertaintyPlanningTree
  | [] => .ok []
  | current_state :: rest =>
    if current_state.initialized = false then .error .uninitialized_state
    else
      match pruneMarkLoop include_spur_actions rest with
      | .error e => .error e
      | .ok marked => .ok (pruneMark include_spur_actions current_state :: marked)

/-- `PruneTree`.  `CheckTreeLinkage` is the linkage test of the RRT library, a
collaborator taken as an argument. -/
def PruneTree (CheckTreeLinkage : UncertaintyPlanningTree → Bool) (fuel : Nat)
    (planner_tree : UncertaintyPlanningTree) (include_spur_actions : Bool) :
    Except PlanningError UncertaintyPlanningTree :=
  if planner_tree.length ≤ 1 then .ok planner_tree
  else if CheckTreeLinkage planner_tree = false then .error .invalid_linkage
  else
    match pruneMarkLoop include_spur_actions planner_tree with
    | .error e => .error e
    | .ok intermediate_planner_tree =>
      match intermediate_planner_tree[0]? with
      | none => .error .out_of_range
      | some root_state =>
        if root_state.initialized = false then .error .uninitialized_state
        else
          match ExtractChildStates fuel intermediate_planner_tree 0 0 [root_state] with
          | .error e => .error e
          | .ok pruned_planner_tree =>
            if CheckTreeLinkage pruned_planner_tree = false then .error .invalid_linkage
            else .ok pruned_planner_tree

/-- The children part of the depth-first copy: the positions given to the kept
children of a node placed at `pos`, and the copies of their subtrees, the first of
which starts at position `cur`. -/
def buildChildren (recurse : Int → Nat → UncertaintyPlanningTreeState →
      List UncertaintyPlanningTreeState)
    (raw : UncertaintyPlanningTree) (pos : Nat) :
    List Int → Nat → List Int × List UncertaintyPlanningTreeState
  | [], _ => ([], [])
  | c :: rest, cur =>
    match treeAt raw c with
    | none => ([], [])
    | some child =>
      if child.parent_index ≥ 0 then
        let seg := recurse c cur (child.SetParentIndex (pos : Int))
        let tail := buildChildren recurse raw pos rest (cur + seg.length)
        ((cur : Int) :: tail.1, seg ++ tail.2)
      else buildChildren recurse raw pos rest cur

/-- The depth-first pre-order copy of the subtree of the raw node `r`, as a function:
the copy `X` of the node itself receives the positions of its kept children, and is
followed by the copies of their subtrees.  `pos` is the position of `X` in the pruned
tree. -/
def buildSubtree : Nat → UncertaintyPlanningTree → Int → Nat →
    UncertaintyPlanningTreeState → List UncertaintyPlanningTreeState
  | 0, _, _, _, X => [X]
  | fuel + 1, raw, r, pos, X =>
    match treeAt raw r with
    | none => [X]
    | some raw_parent =>
      let built := buildChildren (buildSubtree fuel raw) raw pos raw_parent.child_indices
        (pos + 1)
      { X with child_indices := built.1 } :: built.2

/-- The recursion of `ExtractChildStates` from the raw node `r` finds all the nodes it
looks up, finds them initialized, and ends within the fuel. -/
def extractionFits : Nat → UncertaintyPlanningTree → Int → Bool
  | 0, _, _ => false
  | fuel + 1, raw, r =>
    match treeAt raw r with
    | none => false
    | some raw_parent =>
      raw_parent.initialized && raw_parent.child_indices.all fun c =>
        match treeAt raw c with
        | none => false
        | some child => if child.parent_index ≥ 0 then extractionFits fuel raw c else true

/-- The linkage conditions of the specification for the node at position `i`: the root
has parent index `-1`; every other node has a parent `0 ≤ parent_index < i` that lists
it exactly once; every listed child names `i` as its parent. -/
def validNode (tree : UncertaintyPlanningTree) (i : Nat)
    (node : UncertaintyPlanningTreeState) : Bool :=
  (if i = 0 then node.parent_index == -1
    else decide (0 ≤ node.parent_index ∧ node.parent_index < (i : Int))
      && (match treeAt tree node.parent_index with
          | some parent => parent.child_indices.count (i : Int) == 1
          | none => false))
  && node.child_indices.all (fun c =>
      match treeAt tree c with
      | some child => child.parent_index == (i : Int)
      | none => false)

/-- Valid linkage of a tree, in the words of the specification. -/
def ValidLinkage (tree : UncertaintyPlanningTree) : Prop :=
  allIdx (validNode tree) tree 0 = true

instance (tree : UncertaintyPlanningTree) : Decidable (ValidLinkage tree) := by
  unfold ValidLinkage; infer_instance

/-- A chain of three nodes: the root and node `2` have goal probability one, node `1`
between them has goal probability zero. -/
def brokenChainTree : UncertaintyPlanningTree :=
  [ mkNode (startState.SetGoalPfeasibility 1) (-1) [1],
    mkNode (UncertaintyPlanningState.make 1 10 10 10 1 10 10 1 1 2 0 true) 0 [2],
    mkNode ((UncertaintyPlanningState.make 2 10 10 10 1 10 10 1 3 4 0
      true).SetGoalPfeasibility 1) 1 [] ]

/-- The tree `O` holds the list `S` from position `pos` on. -/
def HoldsAt (O : UncertaintyPlanningTree) (pos : Nat) (S : UncertaintyPlanningTree) : Prop :=
  ∀ (j : Nat) (n : UncertaintyPlanningTreeState), S[j]? = some n → O[pos + j]? = some n

/-- The keep predicate of `PruneTree`: the state is on a path to the goal
(`goal_p > 0`), or it can reverse to one (`goal_p < 0`) and spur actions are included. -/
def keepsState (include_spur_actions : Bool) (state : UncertaintyPlanningState) : Prop :=
  state.goal_Pfeasibility > 0 ∨ (state.goal_Pfeasibility < 0 ∧ include_spur_actions = true)

instance (include_spur_actions : Bool) (state : UncertaintyPlanningState) :
    Decidable (keepsState include_spur_actions state) := by
  unfold keepsState; infer_instance

/-- The list `S`, placed from position `pos` on, is linked within itself: every node
but the first has its parent earlier in `S` and is listed by it exactly once, and every
listed child lies later in `S` and names the lister as its parent. -/
def SegmentLinked (pos : Nat) (S : UncertaintyPlanningTree) : Prop :=
  (∀ (j : Nat) (n : UncertaintyPlanningTreeState), S[j]? = some n → 0 < j →
    ∃ p : Nat, p < j ∧ n.parent_index = (pos : Int) + p ∧
      ∃ pn, S[p]? = some pn ∧ pn.child_indices.count ((pos : Int) + j) = 1) ∧
  (∀ (j : Nat) (n : UncertaintyPlanningTreeState), S[j]? = some n → ∀ c ∈ n.child_indices,
    ∃ k : Nat, j < k ∧ c = (pos : Int) + k ∧
      ∃ cn, S[k]? = some cn ∧ cn.parent_index = (pos : Int) + j)

/-- The positions `ps` and subtree copies `segs` built for the children of the node at
`pos`, the first copy starting at `cur`, are linked: every position names the head of a
copy, every head has parent `pos` and is listed once, and inside the copies the linkage
is that of `SegmentLinked`. -/
def ChildrenLinked (pos cur : Nat) (ps : List Int) (segs : UncertaintyPlanningTree) : Prop :=
  (∀ q ∈ ps, ∃ k : Nat, q = (cur : Int) + k ∧
    ∃ cn, segs[k]? = some cn ∧ cn.parent_index = (pos : Int)) ∧
  (∀ (j : Nat) (n : UncertaintyPlanningTreeState), segs[j]? = some n →
    (n.parent_index = (pos : Int) ∧ ps.count ((cur : Int) + j) = 1) ∨
    (∃ p : Nat, p < j ∧ n.parent_index = (cur : Int) + p ∧
      ∃ pn, segs[p]? = some pn ∧ pn.child_indices.count ((cur : Int) + j) = 1)) ∧
  (∀ (j : Nat) (n : UncertaintyPlanningTreeState), segs[j]? = some n →
    ∀ c ∈ n.child_indices, ∃ k : Nat, j < k ∧ c = (cur : Int) + k ∧
      ∃ cn, segs[k]? = some cn ∧ cn.parent_index = (cur : Int) + j)

/-- The raw tree can be walked by `ExtractChildStates`: every node is initialized and
every child index points to a later node of the tree. -/
def RawLinked (raw : UncertaintyPlanningTree) : Prop :=
  ∀ (i : Nat) (n : UncertaintyPlanningTreeState), raw[i]? = some n →
    n.initialized = true ∧
    ∀ c ∈ n.child_indices, ∃ k : Nat, c = (k : Int) ∧ i < k ∧ k < raw.length

/-- The raw indices of the nodes copied for the kept children in the list, in the order
of the copy (the companion of `buildChildren`). -/
def orderChildren (recurse : Int → List Int) (raw : UncertaintyPlanningTree) :
    List Int → List Int
  | [] => []
  | c :: rest =>
    match treeAt raw c with
    | none => []
    | some child =>
      if child.parent_index ≥ 0 then recurse c ++ orderChildren recurse raw rest
      else orderChildren recurse raw rest

/-- The raw indices of the nodes that the depth-first copy of the subtree of `r` holds,
in the order of the copy (the companion of `buildSubtree`). -/
def subtreeOrder : Nat → UncertaintyPlanningTree → Int → List Int
  | 0, _, r => [r]
  | fuel + 1, raw, r =>
    match treeAt raw r with
    | none => [r]
    | some raw_parent =>
      r :: orderChildren (subtreeOrder fuel raw) raw raw_parent.child_indices

/-- Node `i` of the tree and every one of its ancestors, the root included, satisfies
the keep predicate of `PruneTree`. -/
inductive KeptToRoot (T : UncertaintyPlanningTree) (s : Bool) : Nat → Prop
  | root (t : UncertaintyPlanningTreeState) :
      T[0]? = some t → keepsState s t.value → KeptToRoot T s 0
  | step (i p : Nat) (t : UncertaintyPlanningTreeState) :
      0 < i → T[i]? = some t → keepsState s t.value → t.parent_index = (p : Int) →
      KeptToRoot T s p → KeptToRoot T s i

/-- The identifiers of a state, which the reverse-edge loop and the retry arithmetic
leave alone. -/
def idKey (s : UncertaintyPlanningState) : Nat × Nat × Nat × Nat :=
  (s.state_id, s.transition_id, s.reverse_transition_id, s.split_id)

/-- The identifiers that one call of `ForwardSimulateStates` issues, seen from the
planner before the call, the clusters and the output: the split counter is advanced
exactly when there is more than one cluster; the state built for a non-empty cluster
sits in the slot of its cluster with parent offset `-1`, has the forward transition id
`counter + 1`, a reverse transition id above it and at most the counter after the call,
smaller than the reverse id of every state built for a later cluster, and the split id
`split counter + 1` when there is more than one cluster, `0` otherwise. -/
def IdsAsIssued (planner : UncertaintyPlanningSpace)
    (particle_clusters : List (List SimulationResult)) (out : ForwardSimulationOutput) : Prop :=
  out.planner.split_id
      = (if 1 < particle_clusters.length then planner.split_id + 1 else planner.split_id) ∧
  ∀ (i : Nat) (cluster : List SimulationResult), particle_clusters[i]? = some cluster →
    cluster ≠ [] →
    ∃ s, out.result_states[i]? = some (s, -1) ∧
      s.transition_id = planner.transition_id + 1 ∧
      s.split_id = (if 1 < particle_clusters.length then planner.split_id + 1 else 0) ∧
      planner.transition_id + 1 < s.reverse_transition_id ∧
      s.reverse_transition_id ≤ out.planner.transition_id ∧
      ∀ (j : Nat) (cluster' : List SimulationResult) (e : UncertaintyPlanningState × Int),
        i < j → particle_clusters[j]? = some cluster' → cluster' ≠ [] →
        out.result_states[j]? = some e →
        s.reverse_transition_id < e.1.reverse_transition_id

/-! ## Particle clustering: the returned clusters -/

/-- The test of `ClusterParticles` that lets a particle into its cluster. -/
def keepsParticle (allow_contacts : Bool) (particle : SimulationResult) : Bool :=
  decide (particle.did_contact = false ∨ allow_contacts = true)

/-- The particles that an index cluster with indices in range yields: the particles at
the indices, in order, without those that the contact test rejects. -/
def clusterOfIndices (particles : List SimulationResult) (allow_contacts : Bool)
    (cluster : List Nat) : List SimulationResult :=
  (cluster.filterMap (fun i => particles[i]?)).filter (keepsParticle allow_contacts)

/-- In the words of the specification: the index clusters are a partition of the
particle indices `0 .. n - 1`, every index occurring exactly once. -/
def IsIndexPartition (n : Nat) (final_index_clusters : List (List Nat)) : Prop :=
  final_index_clusters.flatten.Perm (List.range n)

instance (n : Nat) (final_index_clusters : List (List Nat)) :
    Decidable (IsIndexPartition n final_index_clusters) := by
  unfold IsIndexPartition; infer_instance

/-- A single simulated particle that made contact. -/
def oneContactParticle : List SimulationResult :=
  [{ did_contact := true, outcome_is_nominally_independent := true }]

/-! ## Nearest-neighbour distance (`StateDistance`) -/

/-- `StateDistance(state1, state2)`.  `configuration_distance` is what the robot's
`ComputeConfigurationDistance` returns for the two expectations, `raw_variance` is the
1-norm of the space-independent variances of `state1`, `erf` is the error function of
the mathematics library. -/
def StateDistance (step_size feasibility_alpha variance_alpha : ℚ) (erf : ℚ → ℚ)
    (configuration_distance raw_variance : ℚ) (state1 : UncertaintyPlanningState) : ℚ :=
  let expectation_distance := configuration_distance / step_size
  let feasibility_weight :=
    (1 - state1.motion_Pfeasibility) * feasibility_alpha + (1 - feasibility_alpha)
  let variance_weight := erf raw_variance * variance_alpha + (1 - variance_alpha)
  let distance := feasibility_weight * expectation_distance * variance_weight
  distance

/-- A state that half of the particles of the start state reach. -/
def halfMotionState : UncertaintyPlanningState :=
  UncertaintyPlanningState.make 1 10 2 1 (1 / 2) 1 1 1 1 0 0 true

/-! ## Policy execution (`PerformSinglePolicyExecution`, `SimulateExectionPolicy`) -/

/-- What one run of `PerformSinglePolicyExecution` leaves behind: the `int64_t` step
count it returns, the number of calls of `move_fn` with `is_reset_motion = false` it
made, and the state of the termination function after its last call. -/
structure PolicyExecution (τ : Type) where
  step_count : Int
  move_calls : Nat
  termination_state : τ

/-- The `while` loop of `PerformSinglePolicyExecution`.  The termination function is a
closure with state `τ`; `user_goal_check k` is what `user_goal_check_fn` returns for the
configuration that the `k`-th call of `move_fn` (after the reset) ends in.  The policy
query, the drawing and the trajectory do not enter the control flow otherwise.
`current_exec_step` is a `uint32_t`. -/
def executionLoop {τ : Type} (policy_exec_termination_fn : τ → Bool × τ)
    (user_goal_check : Nat → Bool) :
    Nat → τ → Nat → Nat → Except PlanningError (PolicyExecution τ)
  | 0, _, _, _ => .error .out_of_fuel
  | fuel + 1, termination_state, current_exec_step, move_calls =>
    let stopped := policy_exec_termination_fn termination_state
    if stopped.1 = false then
      let current_exec_step : Nat := (current_exec_step + 1) % 2 ^ 32
      let move_calls : Nat := move_calls + 1
      if user_goal_check move_calls = true then
        .ok { step_count := (current_exec_step : Int)
              move_calls := move_calls
              termination_state := stopped.2 }
      else
        executionLoop policy_exec_termination_fn user_goal_check fuel stopped.2
          current_exec_step move_calls
    else
      .ok { step_count := -(current_exec_step : Int)
            move_calls := move_calls
            termination_state := stopped.2 }

/-- `PerformSinglePolicyExecution`: after the reset move the loop starts with
`current_exec_step = 0`. -/
def PerformSinglePolicyExecution {τ : Type} (policy_exec_termination_fn : τ → Bool × τ)
    (user_goal_check : Nat → Bool) (fuel : Nat) (termination_state : τ) :
    Except PlanningError (PolicyExecution τ) :=
  executionLoop policy_exec_termination_fn user_goal_check fuel termination_state 0 0

/-- The closure `policy_exec_termination_fn` of `SimulateExectionPolicy`; its state is
the counter `policy_exec_steps`. -/
def policyExecTermination (exec_step_limit : Nat) (policy_exec_steps : Int) : Bool × Int :=
  if policy_exec_steps ≥ (exec_step_limit : Int) then (true, policy_exec_steps)
  else (false, policy_exec_steps + 1)

/-- What `SimulateExectionPolicy` returns, as far as it is decided here: the statistic
`(Simulation) Policy success` and the step counts; `move_calls` lists the number of
non-reset calls of the movement function of every execution. -/
structure PolicySimulation where
  policy_success : ℚ
  policy_execution_step_counts : List Int
  move_calls : List Nat
deriving DecidableEq, Repr

/-- The loop over the executions in `SimulateExectionPolicy`; `user_goal_check idx` is
the goal check of execution `idx`, `reached_goal` is a `uint32_t`. -/
def simulationLoop (exec_step_limit : Nat) (user_goal_check : Nat → Nat → Bool)
    (fuel : Nat) :
    Nat → Nat → List Int → List Nat → Nat → Except PlanningError (List Int × List Nat × Nat)
  | 0, _, policy_execution_step_counts, move_calls, reached_goal =>
    .ok (policy_execution_step_counts, move_calls, reached_goal)
  | remaining + 1, idx, policy_execution_step_counts, move_calls, reached_goal =>
    match PerformSinglePolicyExecution (policyExecTermination exec_step_limit)
        (user_goal_check idx) fuel 0 with
    | .error e => .error e
    | .ok particle_execution =>
      let policy_execution_step_count := particle_execution.step_count
      simulationLoop exec_step_limit user_goal_check fuel remaining (idx + 1)
        (policy_execution_step_counts.set idx policy_execution_step_count)
        (move_calls ++ [particle_execution.move_calls])
        (if policy_execution_step_count ≥ 0 then (reached_goal + 1) % 2 ^ 32 else reached_goal)

/-- `SimulateExectionPolicy` for `start_configs_size` start configurations. -/
def SimulateExectionPolicy (exec_step_limit : Nat) (user_goal_check : Nat → Nat → Bool)
    (fuel : Nat) (start_configs_size : Nat) : Except PlanningError PolicySimulation :=
  let num_executions := start_configs_size % 2 ^ 32
  match simulationLoop exec_step_limit user_goal_check fuel num_executions 0
      (List.replicate num_executions 0) [] 0 with
  | .error e => .error e
  | .ok (policy_execution_step_counts, move_calls, reached_goal) =>
    .ok { policy_success := (reached_goal : ℚ) / (num_executions : ℚ)
          policy_execution_step_counts := policy_execution_step_counts
          move_calls := move_calls }

/-- The state of a termination closure after `k` calls. -/
def terminationStateAfter {τ : Type} (policy_exec_termination_fn : τ → Bool × τ) :
    Nat → τ → τ
  | 0, termination_state => termination_state
  | k + 1, termination_state =>
    terminationStateAfter policy_exec_termination_fn k
      (policy_exec_termination_fn termination_state).2

/-- In the words of the specification: the goal check of an execution succeeds at one
of the steps `1 .. exec_step_limit`. -/
def goalWithinLimit (exec_step_limit : Nat) (user_goal_check : Nat → Bool) : Bool :=
  (List.range exec_step_limit).any (fun k => user_goal_check (k + 1))

/-! ## Forward propagation with `raw_particle_propagations` -/

/-- The `while` loop of the RRT-Connect branch, as `connectLoop`, together with
`raw_particle_propagations`, the second component of the return value, which receives
one entry for every call of `ForwardSimulateStates`. -/
def connectLoopRaw (default_state nearest : UncertaintyPlanningState)
    (planner_action_try_attempts : Nat) (allow_contacts include_reverse_actions : Bool)
    (step_inputs : Nat → PropagationStep) :
    Nat → Nat → UncertaintyPlanningSpace → List (UncertaintyPlanningState × Int) →
      List (List SimulationResult) → Int →
      Except PlanningError
        (List (UncertaintyPlanningState × Int) × List (List SimulationResult)
          × UncertaintyPlanningSpace)
  | 0, _, planner, propagated_states, raw_particle_propagations, _ =>
    .ok (propagated_states, raw_particle_propagations, planner)
  | remaining + 1, steps, planner, propagated_states, raw_particle_propagations,
      parent_offset =>
    let input := step_inputs steps
    let completed := input.target_within_step_size
    match ForwardSimulateStates planner default_state nearest input.propagated_points
        input.final_index_clusters input.reverse_edge_check planner_action_try_attempts
        allow_contacts include_reverse_actions with
    | .error e => .error e
    | .ok propagation_results =>
      let raw_particle_propagations := raw_particle_propagations ++ [input.propagated_points]
      let simulation_results := propagation_results.result_states
      match simulation_results with
      | [] => .ok (propagated_states, raw_particle_propagations, propagation_results.planner)
      | [(new_state, _)] =>
        let propagated_states := propagated_states ++ [(new_state, parent_offset)]
        if completed = true then
          .ok (propagated_states, raw_particle_propagations, propagation_results.planner)
        else
          connectLoopRaw default_state nearest planner_action_try_attempts allow_contacts
            include_reverse_actions step_inputs remaining (steps + 1)
            propagation_results.planner propagated_states raw_particle_propagations
            (parent_offset + 1)
      | _ =>
        .ok (propagated_states ++ simulation_results.map (fun r => (r.1, parent_offset)),
          raw_particle_propagations, propagation_results.planner)

/-- `PerformForwardPropagation` with both components of its return value: the batch
of states with their parent offsets and `raw_particle_propagations`. -/
def PerformForwardPropagationRaw (planner : UncertaintyPlanningSpace)
    (connect_after_first_solution draw : ℚ)
    (default_state nearest : UncertaintyPlanningState) (distance_in_steps : Nat)
    (step_inputs : Nat → PropagationStep) (planner_action_try_attempts : Nat)
    (allow_contacts include_reverse_actions : Bool) :
    Except PlanningError
      (List (UncertaintyPlanningState × Int) × List (List SimulationResult)
        × UncertaintyPlanningSpace) :=
  let solution_already_found : Bool :=
    decide (planner.total_goal_reached_probability ≥ planner.goal_probability_threshold)
  let use_extend : Bool :=
    if solution_already_found = true then
      if draw < connect_after_first_solution then false else true
    else false
  if use_extend = true then
    let input := step_inputs 0
    match ForwardSimulateStates planner default_state nearest input.propagated_points
        input.final_index_clusters input.reverse_edge_check planner_action_try_attempts
        allow_contacts include_reverse_actions with
    | .error e => .error e
    | .ok propagation_results =>
      .ok (propagation_results.result_states, [input.propagated_points],
        propagation_results.planner)
  else
    let total_steps := max distance_in_steps 1
    connectLoopRaw default_state nearest planner_action_try_attempts allow_contacts
      include_reverse_actions step_inputs total_steps 0 planner [] [] (-1)

/-- The batch and the planner of a result with `raw_particle_propagations`. -/
def withoutRaw
    (r : Except PlanningError
      (List (UncertaintyPlanningState × Int) × List (List SimulationResult)
        × UncertaintyPlanningSpace)) :
    Except PlanningError (List (UncertaintyPlanningState × Int) × UncertaintyPlanningSpace) :=
  match r with
  | .error e => .error e
  | .ok (propagated_states, _, planner) => .ok (propagated_states, planner)

/-- In the words of the specification: a batch of an RRT-Connect propagation is a
chain of states with the parent offsets `-1, 0, 1, ...` in order, followed by at most
one split group, whose two or more states all carry the offset that designates the
last chain state (`-1`, the nearest node, when the chain is empty). -/
def IsChainThenSplit (batch chain group : List (UncertaintyPlanningState × Int)) : Prop :=
  batch = chain ++ group
    ∧ chain.map Prod.snd = (List.range chain.length).map (fun (j : Nat) => (j : Int) - 1)
    ∧ (∀ g ∈ group, g.2 = (chain.length : Int) - 1)
    ∧ (group = [] ∨ 2 ≤ group.length)

/-! ## Ranges of the transition goal probability -/

/-- The node at index `c` of the tree satisfies the keep predicate of `PruneTree`. -/
def keepsNode (include_spur_actions : Bool) (tree : UncertaintyPlanningTree) (c : Int) : Bool :=
  match treeAt tree c with
  | some child => decide (keepsState include_spur_actions child.value)
  | none => false

/-- In the words of the specification: the depth-first pre-order of node `r` and its
kept descendants, the children visited in their stored order; a child that does not
satisfy the keep predicate is left out together with its subtree. -/
def keptPreorder (include_spur_actions : Bool) (tree : UncertaintyPlanningTree) :
    Nat → Int → List Int
  | 0, r => [r]
  | fuel + 1, r =>
    match treeAt tree r with
    | none => [r]
    | some node =>
      r :: (node.child_indices.filter (keepsNode include_spur_actions tree)).flatMap
        (keptPreorder include_spur_actions tree fuel)

/-- In the words of the specification: the indices of the nodes of the pruned tree in
the order of the copy; the root alone when it does not satisfy the keep predicate. -/
def prunedOrder (include_spur_actions : Bool) (tree : UncertaintyPlanningTree)
    (fuel : Nat) : List Int :=
  if keepsNode include_spur_actions tree 0 = true then
    keptPreorder include_spur_actions tree fuel 0
  else [0]

/-- The copy `S`, placed from position `pos` on, of the nodes with the raw indices `L`
links every node but the first to the copy of its raw parent. -/
def ParentCopied (raw : UncertaintyPlanningTree) (pos : Nat) (S : UncertaintyPlanningTree)
    (L : List Int) : Prop :=
  ∀ (j : Nat) (n : UncertaintyPlanningTreeState) (i : Int), 0 < j → S[j]? = some n →
    L[j]? = some i →
    ∃ p : Nat, p < j ∧ n.parent_index = (pos : Int) + p ∧
      ∃ m, treeAt raw i = some m ∧ L[p]? = some m.parent_index

/-- The copies `segs` of the subtrees of the kept children of the raw node `r`, whose
copy sits at `pos`, the first copy starting at `cur`: the head of every copy is linked
to `pos` and its raw parent is `r`, every other node is linked to the copy of its raw
parent. -/
def ChildrenParentCopied (raw : UncertaintyPlanningTree) (pos cur : Nat) (r : Int)
    (segs : UncertaintyPlanningTree) (Ls : List Int) : Prop :=
  ∀ (j : Nat) (n : UncertaintyPlanningTreeState) (i : Int), segs[j]? = some n →
    Ls[j]? = some i →
    (n.parent_index = (pos : Int) ∧ ∃ m, treeAt raw i = some m ∧ m.parent_index = r) ∨
    (∃ p : Nat, p < j ∧ n.parent_index = (cur : Int) + p ∧
      ∃ m, treeAt raw i = some m ∧ Ls[p]? = some m.parent_index)

/-- Node `x` is node `a` or one of its descendants: the parent indices lead from `x`
to `a`. -/
inductive Below (T : UncertaintyPlanningTree) (a : Nat) : Nat → Prop
  | self : Below T a a
  | step (x p : Nat) (t : UncertaintyPlanningTreeState) :
      T[x]? = some t → t.parent_index = (p : Int) → Below T a p → Below T a x

/-- A root with two children, the first of which has a child of its own; the second
child of the root has goal probability zero, every other node goal probability one. -/
def keptForkTree : UncertaintyPlanningTree :=
  [ mkNode (startState.SetGoalPfeasibility 1) (-1) [1, 2],
    mkNode ((UncertaintyPlanningState.make 1 10 10 10 1 10 10 1 1 2 0
      true).SetGoalPfeasibility 1) 0 [3],
    mkNode (UncertaintyPlanningState.make 2 10 10 10 1 10 10 1 1 3 0 true) 0 [],
    mkNode ((UncertaintyPlanningState.make 3 10 10 10 1 10 10 1 4 5 0
      true).SetGoalPfeasibility 1) 1 [] ]

/-! # Theorems -/

/-! ## Retry arithmetic -/

theorem updatedPercentActive_eq (percent_active : ℚ) (idx : Nat)
    (states : List UncertaintyPlanningState) (offset : Nat) (acc : ℚ) :
    updatedPercentActive percent_active idx states offset acc
      = acc + percent_active * siblingReturnMass idx states offset := by
  induction states generalizing offset acc with
  | nil => simp [updatedPercentActive, siblingReturnMass]
  | cons s rest ih =>
    unfold updatedPercentActive siblingReturnMass
    by_cases h : offset ≠ idx ∧ s.action_outcome_is_nominally_independent = true
    · rw [if_pos h, if_pos h, ih]; ring
    · rw [if_neg h, if_neg h, ih]; ring

theorem retryLoop_eq (result_states : List UncertaintyPlanningState) (idx : Nat) (raw : ℚ)
    (n : Nat) (percent_active p_reached : ℚ) :
    retryLoop result_states idx raw n (percent_active, p_reached)
      = (percent_active * (siblingReturnMass idx result_states 0) ^ n,
          p_reached + raw * percent_active
            * ∑ k in Finset.range n, (siblingReturnMass idx result_states 0) ^ k) := by
  induction n generalizing percent_active p_reached with
  | zero => simp [retryLoop]
  | succ n ih =>
    have h : ∑ k in Finset.range (n + 1), (siblingReturnMass idx result_states 0) ^ k
        = 1 + siblingReturnMass idx result_states 0
          * ∑ k in Finset.range n, (siblingReturnMass idx result_states 0) ^ k := by
      rw [Finset.sum_range_succ', Finset.mul_sum, add_comm]
      simp [pow_succ, mul_comm]
    unfold retryLoop
    rw [ih, updatedPercentActive_eq, h]
    refine Prod.ext ?_ ?_
    · simp only [pow_succ]; ring
    · simp only; ring

/-- C1: for every list of result states, every retry count `K` and every child `idx`,
the value `p_reached` that the retry loop of `ForwardSimulateStates` computes equals
`r * sum_{k < K} a ^ k`, with `r` the child's raw edge probability and `a` the sum of
`r_j * q_j` over the nominally independent siblings `j ≠ idx`; for the split of ten
particles into clusters of seven and three with `K = 3`, independent outcomes and
reverse probability one, the stored effective edge probabilities are 0.973 and 0.657. -/
theorem C1_retry_closed_form :
    (∀ (result_states : List UncertaintyPlanningState) (K idx : Nat)
        (current_state : UncertaintyPlanningState),
        computePReached result_states K idx current_state
          = current_state.raw_edge_Pfeasibility
              * ∑ k in Finset.range K, (siblingReturnMass idx result_states 0) ^ k)
    ∧ edgeProbabilities (splitSevenThree 3)
        = some [(7 / 10, 973 / 1000), (3 / 10, 657 / 1000)] := by
  constructor
  · intro result_states K idx current_state
    simp [computePReached, retryLoop_eq]
  · norm_num [edgeProbabilities, splitSevenThree, ForwardSimulateStates, ClusterParticles,
      clusterLoop, clusterElements, tenFreeParticles, freshPlanner, zeroState, startState,
      incr64, buildStates, buildState, scanCluster, reverseLoop, applyRetryArithmetic,
      updateEffectiveEdges,
      computePReached, storePReached, retryLoop, updatedPercentActive,
      UncertaintyPlanningState.make, UncertaintyPlanningState.UpdateReverseAttemptAndReachedCounts,
      UncertaintyPlanningState.SetEffectiveEdgePfeasibility, List.replicate]

theorem siblingReturnMass_congr (idx : Nat) :
    ∀ (l l' : List UncertaintyPlanningState) (offset : Nat),
      l.map retryKey = l'.map retryKey →
      siblingReturnMass idx l offset = siblingReturnMass idx l' offset := by
  intro l
  induction l with
  | nil =>
    intro l' offset h
    cases l' with
    | nil => rfl
    | cons b t => simp at h
  | cons a t ih =>
    intro l' offset h
    cases l' with
    | nil => simp at h
    | cons b t' =>
      simp only [List.map_cons, List.cons.injEq, retryKey, Prod.mk.injEq] at h
      obtain ⟨⟨h1, h2, h3⟩, h4⟩ := h
      simp only [siblingReturnMass, h1, h2, h3]
      rw [ih t' (offset + 1) h4]

theorem computePReached_congr (l l' : List UncertaintyPlanningState) (K idx : Nat)
    (s : UncertaintyPlanningState) (h : l.map retryKey = l'.map retryKey) :
    computePReached l K idx s = computePReached l' K idx s := by
  simp [computePReached, retryLoop_eq, siblingReturnMass_congr idx l l' 0 h]

theorem map_retryKey_set (l : List UncertaintyPlanningState) (i : Nat)
    (s u : UncertaintyPlanningState) (hs : l[i]? = some s) (hu : retryKey u = retryKey s) :
    (l.set i u).map retryKey = l.map retryKey := by
  apply List.ext_getElem?
  intro j
  simp only [List.getElem?_map, List.getElem?_set]
  by_cases hij : i = j
  · subst hij
    have hlt : i < l.length := by
      rcases Nat.lt_or_ge i l.length with h | h
      · exact h
      · rw [List.getElem?_eq_none h] at hs; cases hs
    simp [hlt, hs, hu]
  · simp [hij]

theorem storePReached_key (s u : UncertaintyPlanningState) (p : ℚ)
    (h : storePReached s p = .ok u) : retryKey u = retryKey s := by
  unfold storePReached at h
  split_ifs at h <;> cases h <;> rfl

theorem storePReached_ok_iff (s : UncertaintyPlanningState) (p : ℚ) :
    (∃ u, storePReached s p = .ok u) ↔ 0 ≤ p ∧ p ≤ 1001 / 1000 := by
  unfold storePReached
  constructor
  · rintro ⟨u, hu⟩
    split_ifs at hu with h1 h2
    · exact ⟨h1.1, by linarith [h1.2]⟩
    · exact h2
  · intro h
    split_ifs with h1
    · exact ⟨_, rfl⟩
    · exact ⟨_, rfl⟩

theorem updateEffectiveEdges_spec (K : Nat) :
    ∀ (remaining idx : Nat) (cur updated : List UncertaintyPlanningState),
      updateEffectiveEdges K remaining idx cur = .ok updated →
      updated.length = cur.length ∧ updated.map retryKey = cur.map retryKey ∧
      (∀ j, j < idx → updated[j]? = cur[j]?) ∧
      (∀ j s, idx ≤ j → j < idx + remaining → cur[j]? = some s →
        ∃ u, storePReached s (computePReached cur K j s) = .ok u ∧ updated[j]? = some u) := by
  intro remaining
  induction remaining with
  | zero =>
    intro idx cur updated h
    simp only [updateEffectiveEdges, Except.ok.injEq] at h
    subst h
    refine ⟨rfl, rfl, fun _ _ => rfl, ?_⟩
    intro j s h1 h2; omega
  | succ n ih =>
    intro idx cur updated h
    unfold updateEffectiveEdges at h
    cases hc : cur[idx]? with
    | none =>
      rw [hc] at h
      simp only [Except.ok.injEq] at h
      subst h
      refine ⟨rfl, rfl, fun _ _ => rfl, ?_⟩
      intro j s h1 h2 h3
      have : cur.length ≤ idx := by
        rcases Nat.lt_or_ge idx cur.length with h | h
        · rw [List.getElem?_eq_getElem h] at hc; cases hc
        · exact h
      rw [List.getElem?_eq_none (by omega)] at h3; cases h3
    | some s0 =>
      rw [hc] at h
      simp only at h
      cases hst : storePReached s0 (computePReached cur K idx s0) with
      | error e => rw [hst] at h; cases h
      | ok u0 =>
        rw [hst] at h
        simp only at h
        have hkey := map_retryKey_set cur idx s0 u0 hc (storePReached_key _ _ _ hst)
        obtain ⟨hl, hk, hlt, hge⟩ := ih (idx + 1) (cur.set idx u0) updated h
        have hidx : idx < cur.length := by
          rcases Nat.lt_or_ge idx cur.length with h | h
          · exact h
          · rw [List.getElem?_eq_none h] at hc; cases hc
        refine ⟨by simpa using hl, hk.trans hkey, ?_, ?_⟩
        · intro j hj
          rw [hlt j (by omega), List.getElem?_set_ne (by omega)]
        · intro j s h1 h2 h3
          rcases Nat.eq_or_lt_of_le h1 with h | h
          · subst h
            rw [hc] at h3
            cases h3
            refine ⟨u0, hst, ?_⟩
            rw [hlt idx (by omega)]
            simp [hidx]
          · obtain ⟨u, hu1, hu2⟩ := hge j s (by omega) (by omega)
              (by rw [List.getElem?_set_ne (by omega)]; exact h3)
            refine ⟨u, ?_, hu2⟩
            rw [← hu1, computePReached_congr _ _ K j s hkey]

theorem updateEffectiveEdges_ok (K : Nat) :
    ∀ (remaining idx : Nat) (cur : List UncertaintyPlanningState),
      (∀ j s, cur[j]? = some s → ∃ u, storePReached s (computePReached cur K j s) = .ok u) →
      ∃ updated, updateEffectiveEdges K remaining idx cur = .ok updated := by
  intro remaining
  induction remaining with
  | zero => intro idx cur _; exact ⟨cur, rfl⟩
  | succ n ih =>
    intro idx cur hall
    unfold updateEffectiveEdges
    cases hc : cur[idx]? with
    | none => exact ⟨cur, rfl⟩
    | some s0 =>
      obtain ⟨u0, hu0⟩ := hall idx s0 hc
      simp only [hu0]
      have hkey := map_retryKey_set cur idx s0 u0 hc (storePReached_key _ _ _ hu0)
      apply ih
      intro j s hj
      by_cases hij : idx = j
      · subst hij
        have hidx : idx < cur.length := by
          rcases Nat.lt_or_ge idx cur.length with h | h
          · exact h
          · rw [List.getElem?_eq_none h] at hc; cases hc
        simp [hidx] at hj
        subst hj
        rw [computePReached_congr _ _ K idx u0 hkey]
        have hraw := storePReached_key s0 u0 _ hu0
        simp only [retryKey, Prod.mk.injEq] at hraw
        have hp : computePReached cur K idx u0 = computePReached cur K idx s0 := by
          simp only [computePReached, hraw.1]
        rw [hp]
        exact (storePReached_ok_iff u0 _).2 ((storePReached_ok_iff s0 _).1 ⟨u0, hu0⟩)
      · rw [List.getElem?_set_ne hij] at hj
        rw [computePReached_congr _ _ K j s hkey]
        exact hall j s hj

theorem siblingReturnMass_nonneg (idx : Nat) (l : List UncertaintyPlanningState)
    (h : ∀ s ∈ l, 0 ≤ s.raw_edge_Pfeasibility ∧ 0 ≤ s.reverse_edge_Pfeasibility) :
    ∀ offset, 0 ≤ siblingReturnMass idx l offset := by
  induction l with
  | nil => intro offset; simp [siblingReturnMass]
  | cons a t ih =>
    intro offset
    unfold siblingReturnMass
    have ha := h a (List.mem_cons_self a t)
    have ht := ih (fun s hs => h s (List.mem_cons_of_mem a hs)) (offset + 1)
    have : 0 ≤ a.raw_edge_Pfeasibility * a.reverse_edge_Pfeasibility :=
      mul_nonneg ha.1 ha.2
    split_ifs <;> linarith

theorem siblingReturnMass_le_sum (idx : Nat) (l : List UncertaintyPlanningState)
    (h : ∀ s ∈ l, 0 ≤ s.raw_edge_Pfeasibility ∧ s.reverse_edge_Pfeasibility ≤ 1) :
    ∀ offset, siblingReturnMass idx l offset
      ≤ (l.map UncertaintyPlanningState.raw_edge_Pfeasibility).sum := by
  induction l with
  | nil => intro offset; simp [siblingReturnMass]
  | cons a t ih =>
    intro offset
    unfold siblingReturnMass
    have ha := h a (List.mem_cons_self a t)
    have ht := ih (fun s hs => h s (List.mem_cons_of_mem a hs)) (offset + 1)
    have : a.raw_edge_Pfeasibility * a.reverse_edge_Pfeasibility ≤ a.raw_edge_Pfeasibility := by
      nlinarith [ha.1, ha.2]
    simp only [List.map_cons, List.sum_cons]
    split_ifs <;> linarith [ha.1]

theorem siblingReturnMass_add_raw_le (idx : Nat) (l : List UncertaintyPlanningState)
    (h : ∀ s ∈ l, 0 ≤ s.raw_edge_Pfeasibility ∧ s.reverse_edge_Pfeasibility ≤ 1) :
    ∀ offset s, offset ≤ idx → l[idx - offset]? = some s →
      siblingReturnMass idx l offset + s.raw_edge_Pfeasibility
        ≤ (l.map UncertaintyPlanningState.raw_edge_Pfeasibility).sum := by
  induction l with
  | nil => intro offset s _ hs; simp at hs
  | cons a t ih =>
    intro offset s hle hs
    unfold siblingReturnMass
    have ha := h a (List.mem_cons_self a t)
    have hall := fun s hs => h s (List.mem_cons_of_mem a hs)
    simp only [List.map_cons, List.sum_cons]
    rcases Nat.eq_or_lt_of_le hle with heq | hlt
    · subst heq
      simp at hs
      subst hs
      have := siblingReturnMass_le_sum offset t hall (offset + 1)
      simp
      linarith
    · have hidx : idx - offset = (idx - (offset + 1)) + 1 := by omega
      rw [hidx, List.getElem?_cons_succ] at hs
      have ht := ih hall (offset + 1) s (by omega) hs
      have : a.raw_edge_Pfeasibility * a.reverse_edge_Pfeasibility ≤ a.raw_edge_Pfeasibility := by
        nlinarith [ha.1, ha.2]
      split_ifs <;> linarith [ha.1]

theorem geom_upper (r a : ℚ) (ha : 0 ≤ a) (har : a ≤ 1 - r) (n : Nat) :
    r * ∑ k in Finset.range n, a ^ k ≤ 1 - a ^ n := by
  induction n with
  | zero => simp
  | succ n ih =>
    rw [Finset.sum_range_succ, mul_add, pow_succ]
    have hn : 0 ≤ a ^ n := pow_nonneg ha n
    nlinarith [mul_nonneg hn (sub_nonneg.2 har)]

theorem geom_lower (r a : ℚ) (hr : 0 ≤ r) (ha : 0 ≤ a) (n : Nat) (hn : 1 ≤ n) :
    r ≤ r * ∑ k in Finset.range n, a ^ k := by
  have h1 : (1 : ℚ) ≤ ∑ k in Finset.range n, a ^ k := by
    have := Finset.single_le_sum (f := fun k => a ^ k) (s := Finset.range n)
      (fun i _ => pow_nonneg ha i) (Finset.mem_range.2 (by omega : 0 < n))
    simpa using this
  nlinarith

theorem computePReached_bounds (states : List UncertaintyPlanningState) (K i : Nat)
    (s : UncertaintyPlanningState)
    (h : ∀ s ∈ states, 0 ≤ s.raw_edge_Pfeasibility ∧ 0 ≤ s.reverse_edge_Pfeasibility
      ∧ s.reverse_edge_Pfeasibility ≤ 1)
    (hsum : (states.map UncertaintyPlanningState.raw_edge_Pfeasibility).sum ≤ 1)
    (hs : states[i]? = some s) :
    0 ≤ computePReached states K i s ∧ computePReached states K i s ≤ 1 := by
  have hmem : s ∈ states := List.getElem?_mem hs
  have hr := (h s hmem).1
  have ha := siblingReturnMass_nonneg i states (fun s hs => ⟨(h s hs).1, (h s hs).2.1⟩) 0
  have hle := siblingReturnMass_add_raw_le i states
    (fun s hs => ⟨(h s hs).1, (h s hs).2.2⟩) 0 s (Nat.zero_le _) (by simpa using hs)
  have hup := geom_upper s.raw_edge_Pfeasibility (siblingReturnMass i states 0) ha
    (by linarith) K
  have hpow : 0 ≤ (siblingReturnMass i states 0) ^ K := pow_nonneg ha K
  simp only [computePReached, retryLoop_eq]
  constructor
  · have : 0 ≤ ∑ k in Finset.range K, (siblingReturnMass i states 0) ^ k :=
      Finset.sum_nonneg (fun k _ => pow_nonneg ha k)
    have := mul_nonneg hr this
    simpa using this
  · simp only [mul_one, zero_add]
    linarith

/-- C2: for every list of result states whose raw edge probabilities are non-negative
and sum to at most 1 and whose reverse edge probabilities lie in `[0, 1]`, and for
every retry count `K`, the retry computation of `ForwardSimulateStates` raises no
error, and for every child the computed `p_reached` lies in `[0, 1]` and is the
effective edge probability stored in that child. -/
theorem C2_retry_in_unit_interval (result_states : List UncertaintyPlanningState) (K : Nat)
    (hprob : ∀ s ∈ result_states, 0 ≤ s.raw_edge_Pfeasibility
      ∧ 0 ≤ s.reverse_edge_Pfeasibility ∧ s.reverse_edge_Pfeasibility ≤ 1)
    (hsum : (result_states.map UncertaintyPlanningState.raw_edge_Pfeasibility).sum ≤ 1) :
    ∃ updated, updateEffectiveEdges K result_states.length 0 result_states = .ok updated
      ∧ updated.length = result_states.length
      ∧ ∀ i s, result_states[i]? = some s →
          0 ≤ computePReached result_states K i s
          ∧ computePReached result_states K i s ≤ 1
          ∧ updated[i]? = some
              (s.SetEffectiveEdgePfeasibility (computePReached result_states K i s)) := by
  obtain ⟨updated, hup⟩ := updateEffectiveEdges_ok K result_states.length 0 result_states
    (fun j s hs => (storePReached_ok_iff s _).2
      ⟨(computePReached_bounds result_states K j s hprob hsum hs).1,
        by linarith [(computePReached_bounds result_states K j s hprob hsum hs).2]⟩)
  obtain ⟨hlen, _, _, hge⟩ := updateEffectiveEdges_spec K _ _ _ _ hup
  refine ⟨updated, hup, hlen, ?_⟩
  intro i s hs
  have hb := computePReached_bounds result_states K i s hprob hsum hs
  have hi : i < result_states.length := by
    rcases Nat.lt_or_ge i result_states.length with h | h
    · exact h
    · rw [List.getElem?_eq_none h] at hs; cases hs
  obtain ⟨u, hu1, hu2⟩ := hge i s (Nat.zero_le _) (by omega) hs
  refine ⟨hb.1, hb.2, ?_⟩
  rw [hu2]
  unfold storePReached at hu1
  rw [if_pos hb] at hu1
  cases hu1
  rfl

/-- Witness for C2 on the seven/three split with three retries. -/
theorem C2_retry_in_unit_interval_witness :
    ∃ updated, updateEffectiveEdges 3 splitChildren.length 0 splitChildren = .ok updated
      ∧ updated.length = splitChildren.length
      ∧ ∀ i s, splitChildren[i]? = some s →
          0 ≤ computePReached splitChildren 3 i s
          ∧ computePReached splitChildren 3 i s ≤ 1
          ∧ updated[i]? = some
              (s.SetEffectiveEdgePfeasibility (computePReached splitChildren 3 i s)) :=
  C2_retry_in_unit_interval splitChildren 3
    (by
      intro s hs
      simp only [splitChildren, List.mem_cons, List.mem_singleton, List.not_mem_nil,
        or_false] at hs
      rcases hs with rfl | rfl <;>
        norm_num [exampleChild, UncertaintyPlanningState.make])
    (by norm_num [splitChildren, exampleChild, UncertaintyPlanningState.make])

theorem natDiv_le_one (n m : Nat) (h : n ≤ m) : (n : ℚ) / (m : ℚ) ≤ 1 := by
  rcases Nat.eq_zero_or_pos m with hm | hm
  · subst hm; simp
  · rw [div_le_one (by exact_mod_cast hm)]
    exact_mod_cast h

theorem natDiv_nonneg (n m : Nat) : (0 : ℚ) ≤ (n : ℚ) / (m : ℚ) :=
  div_nonneg (Nat.cast_nonneg n) (Nat.cast_nonneg m)

theorem clusterElements_spec (particles : List SimulationResult) (allow_contacts : Bool) :
    ∀ (elems : List Nat) (acc : List SimulationResult) (total : Nat)
      (fc : List SimulationResult) (tot : Nat),
      clusterElements particles allow_contacts elems acc total = .ok (fc, tot) →
      fc.length ≤ acc.length + elems.length ∧ tot = total + elems.length := by
  intro elems
  induction elems with
  | nil =>
    intro acc total fc tot h
    simp only [clusterElements, Except.ok.injEq, Prod.mk.injEq] at h
    obtain ⟨rfl, rfl⟩ := h
    simp
  | cons e rest ih =>
    intro acc total fc tot h
    unfold clusterElements at h
    cases hp : particles[e]? with
    | none => rw [hp] at h; cases h
    | some particle =>
      rw [hp] at h
      simp only at h
      split_ifs at h
      · obtain ⟨h1, h2⟩ := ih _ _ _ _ h
        simp only [List.length_append, List.length_singleton, List.length_cons, List.length_nil] at h1 ⊢
        omega
      · obtain ⟨h1, h2⟩ := ih _ _ _ _ h
        simp only [List.length_cons] at h1 ⊢
        omega

theorem clusterLoop_spec (particles : List SimulationResult) (allow_contacts : Bool) :
    ∀ (clusters : List (List Nat)) (accs : List (List SimulationResult)) (total : Nat)
      (fcs : List (List SimulationResult)) (tot : Nat),
      clusterLoop particles allow_contacts clusters accs total = .ok (fcs, tot) →
      total ≤ tot ∧ ∀ c ∈ fcs, c ∈ accs ∨ c.length + total ≤ tot := by
  intro clusters
  induction clusters with
  | nil =>
    intro accs total fcs tot h
    simp only [clusterLoop, Except.ok.injEq, Prod.mk.injEq] at h
    obtain ⟨rfl, rfl⟩ := h
    exact ⟨le_refl _, fun c hc => Or.inl hc⟩
  | cons cl rest ih =>
    intro accs total fcs tot h
    unfold clusterLoop at h
    cases hc : clusterElements particles allow_contacts cl [] total with
    | error e => rw [hc] at h; cases h
    | ok r =>
      obtain ⟨fc, t1⟩ := r
      rw [hc] at h
      simp only at h
      obtain ⟨h1, h2⟩ := clusterElements_spec _ _ _ _ _ _ _ hc
      obtain ⟨h3, h4⟩ := ih _ _ _ _ h
      refine ⟨by omega, ?_⟩
      intro c hcm
      rcases h4 c hcm with hm | hm
      · rcases List.mem_append.1 hm with hm | hm
        · exact Or.inl hm
        · right
          simp only [List.mem_singleton] at hm
          subst hm
          simp only [List.length_nil, Nat.zero_add] at h1
          omega
      · right; omega

theorem ClusterParticles_length_le (particles : List SimulationResult)
    (final_index_clusters : List (List Nat)) (allow_contacts : Bool)
    (clusters : List (List SimulationResult))
    (h : ClusterParticles particles final_index_clusters allow_contacts = .ok clusters) :
    ∀ c ∈ clusters, c.length ≤ particles.length := by
  unfold ClusterParticles at h
  split_ifs at h with h0 h1
  · cases h; intro c hc; cases hc
  · cases h
    intro c hc
    simp only [List.mem_singleton] at hc
    subst hc
    exact le_refl _
  · cases hl : clusterLoop particles allow_contacts final_index_clusters [] 0 with
    | error e => rw [hl] at h; cases h
    | ok r =>
      obtain ⟨fcs, tot⟩ := r
      rw [hl] at h
      simp only at h
      split_ifs at h with ht
      cases h
      obtain ⟨_, h4⟩ := clusterLoop_spec _ _ _ _ _ _ _ hl
      intro c hc
      rcases h4 c hc with hm | hm
      · cases hm
      · simp only [ne_eq, Decidable.not_not] at ht
        omega

theorem buildStates_entries (default_state nearest : UncertaintyPlanningState)
    (attempt_count tid : Nat) (is_split : Bool) (sid : Nat) :
    ∀ (clusters : List (List SimulationResult)) (c : BuildCounters),
      (∀ cl ∈ clusters, cl.length ≤ attempt_count) →
      ∀ e ∈ (buildStates default_state nearest attempt_count tid is_split sid clusters c).1,
        e.1 = default_state ∨
          (0 ≤ e.1.raw_edge_Pfeasibility ∧ e.1.raw_edge_Pfeasibility ≤ 1
            ∧ e.1.effective_edge_Pfeasibility = e.1.raw_edge_Pfeasibility) := by
  intro clusters
  induction clusters with
  | nil => intro c _ e he; simp [buildStates] at he
  | cons cl rest ih =>
    intro c hlen e he
    have hrest := fun cl0 h0 => hlen cl0 (List.mem_cons_of_mem cl h0)
    unfold buildStates at he
    split_ifs at he with hpos
    · simp only [List.mem_cons] at he
      rcases he with rfl | he
      · right
        refine ⟨natDiv_nonneg _ _, ?_, rfl⟩
        exact natDiv_le_one _ _ (hlen cl (List.mem_cons_self cl rest))
      · exact ih _ hrest e he
    · simp only [List.mem_cons] at he
      rcases he with rfl | he
      · exact Or.inl rfl
      · exact ih _ hrest e he

theorem reverseLoop_entries (include_reverse_actions : Bool)
    (reverse_edge_check : Nat → UncertaintyPlanningState → Nat × Nat) :
    ∀ (l : List (UncertaintyPlanningState × Int)) (idx cnt : Nat),
      ∀ e ∈ (reverseLoop include_reverse_actions reverse_edge_check l idx cnt).1,
        ∃ e0 ∈ l, e.1.raw_edge_Pfeasibility = e0.1.raw_edge_Pfeasibility
          ∧ e.1.effective_edge_Pfeasibility = e0.1.effective_edge_Pfeasibility
          ∧ 0 ≤ e.1.reverse_edge_Pfeasibility := by
  intro l
  induction l with
  | nil => intro idx cnt e he; simp [reverseLoop] at he
  | cons a rest ih =>
    intro idx cnt e he
    obtain ⟨s, off⟩ := a
    unfold reverseLoop at he
    split_ifs at he with h1 h2
    · simp only [List.mem_cons] at he
      rcases he with rfl | he
      · exact ⟨(s, off), List.mem_cons_self _ _, rfl, rfl, natDiv_nonneg _ _⟩
      · obtain ⟨e0, h0, h⟩ := ih _ _ e he
        exact ⟨e0, List.mem_cons_of_mem _ h0, h⟩
    · simp only [List.mem_cons] at he
      rcases he with rfl | he
      · exact ⟨(s, off), List.mem_cons_self _ _, rfl, rfl, by linarith [not_lt.1 h2]⟩
      · obtain ⟨e0, h0, h⟩ := ih _ _ e he
        exact ⟨e0, List.mem_cons_of_mem _ h0, h⟩
    · simp only [List.mem_cons] at he
      rcases he with rfl | he
      · exact ⟨(s, off), List.mem_cons_self _ _, rfl, rfl, natDiv_nonneg _ _⟩
      · obtain ⟨e0, h0, h⟩ := ih _ _ e he
        exact ⟨e0, List.mem_cons_of_mem _ h0, h⟩

theorem storePReached_effective (s u : UncertaintyPlanningState) (p : ℚ)
    (h : storePReached s p = .ok u) :
    u.raw_edge_Pfeasibility = s.raw_edge_Pfeasibility ∧
      ((u.effective_edge_Pfeasibility = p ∧ p ≤ 1) ∨ (u.effective_edge_Pfeasibility = 1)) := by
  unfold storePReached at h
  split_ifs at h with h1 h2
  · cases h; exact ⟨rfl, Or.inl ⟨rfl, h1.2⟩⟩
  · cases h; exact ⟨rfl, Or.inr rfl⟩

theorem applyRetryArithmetic_effective_ge_raw (K : Nat) (hK : 1 ≤ K)
    (R result_states : List (UncertaintyPlanningState × Int))
    (hgood : ∀ e ∈ R, 0 ≤ e.1.raw_edge_Pfeasibility ∧ e.1.raw_edge_Pfeasibility ≤ 1
      ∧ e.1.raw_edge_Pfeasibility ≤ e.1.effective_edge_Pfeasibility
      ∧ 0 ≤ e.1.reverse_edge_Pfeasibility)
    (hrun : applyRetryArithmetic K R = .ok result_states) :
    ∀ e ∈ result_states, e.1.raw_edge_Pfeasibility ≤ e.1.effective_edge_Pfeasibility := by
  unfold applyRetryArithmetic at hrun
  split_ifs at hrun with hsplit
  · cases hup : updateEffectiveEdges K R.length 0 (R.map Prod.fst) with
    | error err => rw [hup] at hrun; cases hrun
    | ok updated =>
      rw [hup] at hrun
      simp only [Except.ok.injEq] at hrun
      subst hrun
      intro e he
      obtain ⟨s1, off⟩ := e
      have hmem := (List.of_mem_zip he).1
      obtain ⟨j, hj⟩ := List.getElem?_of_mem hmem
      obtain ⟨hl, _, _, hge⟩ := updateEffectiveEdges_spec K _ _ _ _ hup
      have hjlt : j < updated.length := by
        rcases Nat.lt_or_ge j updated.length with h | h
        · exact h
        · rw [List.getElem?_eq_none h] at hj; cases hj
      have hjlt2 : j < (R.map Prod.fst).length := by omega
      obtain ⟨u, hu1, hu2⟩ := hge j ((R.map Prod.fst)[j]) (Nat.zero_le _)
        (by simp only [List.length_map] at hjlt2 ⊢; omega)
        (List.getElem?_eq_getElem hjlt2)
      rw [hj] at hu2
      cases hu2
      have hstates : ∀ s ∈ R.map Prod.fst,
          0 ≤ s.raw_edge_Pfeasibility ∧ s.raw_edge_Pfeasibility ≤ 1
          ∧ s.raw_edge_Pfeasibility ≤ s.effective_edge_Pfeasibility
          ∧ 0 ≤ s.reverse_edge_Pfeasibility := by
        intro s hs
        obtain ⟨e1, he1, rfl⟩ := List.mem_map.1 hs
        exact hgood e1 he1
      have hs0 := hstates _ (List.getElem_mem hjlt2)
      have ha := siblingReturnMass_nonneg j (R.map Prod.fst)
        (fun s hs => ⟨(hstates s hs).1, (hstates s hs).2.2.2⟩) 0
      obtain ⟨hraw, heff⟩ := storePReached_effective _ _ _ hu1
      show s1.raw_edge_Pfeasibility ≤ s1.effective_edge_Pfeasibility
      rw [hraw]
      rcases heff with ⟨h1, _⟩ | h1
      · rw [h1]
        simp only [computePReached, retryLoop_eq, mul_one, zero_add]
        exact geom_lower _ _ hs0.1 ha K hK
      · rw [h1]; exact hs0.2.1
  · simp only [Except.ok.injEq] at hrun
    subst hrun
    intro e he
    exact (hgood e he).2.2.1

/-- C3 (amended): for every retry count `K ≥ 1`, every state returned by
`ForwardSimulateStates` has `effective_edge_p ≥ raw_edge_p`, whatever the clusters, the
independence flags and the reverse simulation results are (the default-constructed
state that fills the slot of an empty cluster is assumed to satisfy
`0 ≤ raw_edge_p ≤ 1` and `raw_edge_p ≤ effective_edge_p`). -/
theorem C3_effective_ge_raw_of_pos_attempts (planner : UncertaintyPlanningSpace)
    (default_state nearest : UncertaintyPlanningState)
    (propagated_points : List SimulationResult) (final_index_clusters : List (List Nat))
    (reverse_edge_check : Nat → UncertaintyPlanningState → Nat × Nat)
    (K : Nat) (allow_contacts include_reverse_actions : Bool)
    (out : ForwardSimulationOutput)
    (hK : 1 ≤ K)
    (hdefault : 0 ≤ default_state.raw_edge_Pfeasibility
      ∧ default_state.raw_edge_Pfeasibility ≤ 1
      ∧ default_state.raw_edge_Pfeasibility ≤ default_state.effective_edge_Pfeasibility)
    (hrun : ForwardSimulateStates planner default_state nearest propagated_points
      final_index_clusters reverse_edge_check K allow_contacts include_reverse_actions
        = .ok out) :
    ∀ e ∈ out.result_states,
      e.1.raw_edge_Pfeasibility ≤ e.1.effective_edge_Pfeasibility := by
  unfold ForwardSimulateStates at hrun
  cases hcl : ClusterParticles propagated_points final_index_clusters allow_contacts with
  | error err => rw [hcl] at hrun; cases hrun
  | ok particle_clusters =>
    rw [hcl] at hrun
    simp only at hrun
    cases hp0 : propagated_points[0]? with
    | none => rw [hp0] at hrun; cases hrun
    | some p0 =>
      rw [hp0] at hrun
      simp only at hrun
      have hlen := ClusterParticles_length_le _ _ _ _ hcl
      generalize hR : (reverseLoop include_reverse_actions reverse_edge_check
        (buildStates default_state nearest propagated_points.length
          (incr64 planner.transition_id) (decide (particle_clusters.length > 1))
          (if decide (particle_clusters.length > 1) = true then incr64 planner.split_id
            else planner.split_id) particle_clusters
          { state_counter := planner.state_counter
            transition_id := incr64 planner.transition_id
            particles_stored := planner.particles_stored }).1 0 0) = R at hrun
      have hgood : ∀ e ∈ R.1,
          0 ≤ e.1.raw_edge_Pfeasibility ∧ e.1.raw_edge_Pfeasibility ≤ 1
            ∧ e.1.raw_edge_Pfeasibility ≤ e.1.effective_edge_Pfeasibility
            ∧ 0 ≤ e.1.reverse_edge_Pfeasibility := by
        intro e he
        rw [← hR] at he
        obtain ⟨e0, he0, h1, h2, h3⟩ := reverseLoop_entries _ _ _ _ _ e he
        rcases buildStates_entries _ _ _ _ _ _ _ _ hlen e0 he0 with hd | hb
        · rw [h1, h2, hd]
          exact ⟨hdefault.1, hdefault.2.1, hdefault.2.2, h3⟩
        · rw [h1, h2]
          exact ⟨hb.1, hb.2.1, le_of_eq hb.2.2.symm, h3⟩
      cases hfin : applyRetryArithmetic K R.1 with
      | error err => rw [hfin] at hrun; cases hrun
      | ok result_states =>
        rw [hfin] at hrun
        simp only [Except.ok.injEq] at hrun
        subst hrun
        exact applyRetryArithmetic_effective_ge_raw K hK R.1 result_states hgood hfin

theorem edgeProbabilities_head (r : Except PlanningError ForwardSimulationOutput)
    (a b : ℚ) (rest : List (ℚ × ℚ)) (h : edgeProbabilities r = some ((a, b) :: rest)) :
    ∃ out, r = .ok out ∧ ∃ e ∈ out.result_states,
      e.1.raw_edge_Pfeasibility = a ∧ e.1.effective_edge_Pfeasibility = b := by
  cases r with
  | error e => simp [edgeProbabilities] at h
  | ok out =>
    refine ⟨out, rfl, ?_⟩
    simp only [edgeProbabilities, Option.some.injEq] at h
    cases hrs : out.result_states with
    | nil => rw [hrs] at h; simp at h
    | cons e t =>
      rw [hrs] at h
      simp only [List.map_cons, List.cons.injEq, Prod.mk.injEq] at h
      exact ⟨e, List.mem_cons_self _ _, h.1.1, h.1.2⟩

theorem splitSevenThree_zero_eval :
    edgeProbabilities (splitSevenThree 0) = some [(7 / 10, 0), (3 / 10, 0)] := by
  norm_num [edgeProbabilities, splitSevenThree, ForwardSimulateStates, ClusterParticles,
    clusterLoop, clusterElements, tenFreeParticles, freshPlanner, zeroState, startState,
    incr64, buildStates, buildState, scanCluster, reverseLoop, applyRetryArithmetic,
    updateEffectiveEdges, computePReached, storePReached, retryLoop, updatedPercentActive,
    UncertaintyPlanningState.make, UncertaintyPlanningState.UpdateReverseAttemptAndReachedCounts,
    UncertaintyPlanningState.SetEffectiveEdgePfeasibility, List.replicate]

theorem splitSevenThree_three_eval :
    edgeProbabilities (splitSevenThree 3)
      = some [(7 / 10, 973 / 1000), (3 / 10, 657 / 1000)] := by
  norm_num [edgeProbabilities, splitSevenThree, ForwardSimulateStates, ClusterParticles,
    clusterLoop, clusterElements, tenFreeParticles, freshPlanner, zeroState, startState,
    incr64, buildStates, buildState, scanCluster, reverseLoop, applyRetryArithmetic,
    updateEffectiveEdges, computePReached, storePReached, retryLoop, updatedPercentActive,
    UncertaintyPlanningState.make, UncertaintyPlanningState.UpdateReverseAttemptAndReachedCounts,
    UncertaintyPlanningState.SetEffectiveEdgePfeasibility, List.replicate]

/-- C3 (counterexample): with `K = 0` retry attempts the split of ten particles into
clusters of seven and three returns a child whose effective edge probability `0` is
below its raw edge probability `7 / 10`. -/
theorem C3_counterexample_zero_attempts :
    ∃ out, splitSevenThree 0 = .ok out ∧ ∃ e ∈ out.result_states,
      e.1.effective_edge_Pfeasibility < e.1.raw_edge_Pfeasibility := by
  obtain ⟨out, hout, e, he, h1, h2⟩ :=
    edgeProbabilities_head _ _ _ _ splitSevenThree_zero_eval
  exact ⟨out, hout, e, he, by rw [h1, h2]; norm_num⟩

/-- Witness for C3 (amended) on the seven/three split with three retries. -/
theorem C3_effective_ge_raw_of_pos_attempts_witness :
    ∃ out, splitSevenThree 3 = .ok out ∧ ∀ e ∈ out.result_states,
      e.1.raw_edge_Pfeasibility ≤ e.1.effective_edge_Pfeasibility := by
  obtain ⟨out, hout, _⟩ := edgeProbabilities_head _ _ _ _ splitSevenThree_three_eval
  exact ⟨out, hout,
    C3_effective_ge_raw_of_pos_attempts (freshPlanner (1 / 2) []) zeroState startState
      tenFreeParticles [[0, 1, 2, 3, 4, 5, 6], [7, 8, 9]]
      (fun _ s => (s.num_particles, s.num_particles)) 3 true true out (by decide)
      (by simp [zeroState]) hout⟩

theorem getElem?_append_singleton_cases {α : Type} (pre : List α) (x : α) (j : Nat) (m : α)
    (h : (pre ++ [x])[j]? = some m) :
    (j < pre.length ∧ pre[j]? = some m) ∨ (j = pre.length ∧ m = x) := by
  rcases Nat.lt_trichotomy j pre.length with hlt | heq | hgt
  · left
    rw [List.getElem?_append_left hlt] at h
    exact ⟨hlt, h⟩
  · right
    subst heq
    simp at h
    exact ⟨rfl, h.symm⟩
  · rw [List.getElem?_eq_none (by simp; omega)] at h
    cases h

theorem scanInvariant_step (state_distance_fn : UncertaintyPlanningState →
    UncertaintyPlanningState → ℚ) (random_state : UncertaintyPlanningState)
    (pre : List UncertaintyPlanningTreeState) (x : UncertaintyPlanningTreeState)
    (best : Int × Option ℚ)
    (h : ScanInvariant state_distance_fn random_state pre best) :
    ScanInvariant state_distance_fn random_state (pre ++ [x])
      (if x.value.use_for_nearest_neighbors = true then
        if ltBest (state_distance_fn x.value random_state) best.2 = true then
          ((pre.length : Int), some (state_distance_fn x.value random_state))
        else best
       else best) := by
  by_cases hx : x.value.use_for_nearest_neighbors = true
  · rw [if_pos hx]
    rcases h with ⟨hb, hall⟩ | ⟨i, n, hb, hi, hn, hmin⟩
    · subst hb
      simp only [ltBest, if_true]
      right
      refine ⟨pre.length, x, rfl, by simp, hx, ?_⟩
      intro j m hj hm
      rcases getElem?_append_singleton_cases pre x j m hj with ⟨_, hj2⟩ | ⟨hj1, hj2⟩
      · have := hall m (List.getElem?_mem hj2)
        rw [this] at hm; cases hm
      · subst hj2
        exact ⟨le_refl _, fun hlt => absurd hlt (by omega)⟩
    · subst hb
      have hilt : i < pre.length := by
        rcases Nat.lt_or_ge i pre.length with h | h
        · exact h
        · rw [List.getElem?_eq_none h] at hi; cases hi
      by_cases hlt : state_distance_fn x.value random_state
          < state_distance_fn n.value random_state
      · have : ltBest (state_distance_fn x.value random_state)
            (some (state_distance_fn n.value random_state)) = true := by
          simp [ltBest, hlt]
        rw [if_pos this]
        right
        refine ⟨pre.length, x, rfl, by simp, hx, ?_⟩
        intro j m hj hm
        rcases getElem?_append_singleton_cases pre x j m hj with ⟨_, hj2⟩ | ⟨hj1, hj2⟩
        · have := (hmin j m hj2 hm).1
          exact ⟨by linarith, fun _ => by linarith⟩
        · subst hj2
          exact ⟨le_refl _, fun h => absurd h (by omega)⟩
      · have : ¬ ltBest (state_distance_fn x.value random_state)
            (some (state_distance_fn n.value random_state)) = true := by
          simp [ltBest, hlt]
        rw [if_neg this]
        right
        refine ⟨i, n, rfl, by rw [List.getElem?_append_left hilt]; exact hi, hn, ?_⟩
        intro j m hj hm
        rcases getElem?_append_singleton_cases pre x j m hj with ⟨_, hj2⟩ | ⟨hj1, hj2⟩
        · exact hmin j m hj2 hm
        · subst hj2
          exact ⟨not_lt.1 hlt, fun h => absurd h (by omega)⟩
  · rw [if_neg hx]
    have hx2 : x.value.use_for_nearest_neighbors = false := by
      cases hu : x.value.use_for_nearest_neighbors
      · rfl
      · exact absurd hu hx
    rcases h with ⟨hb, hall⟩ | ⟨i, n, hb, hi, hn, hmin⟩
    · left
      refine ⟨hb, ?_⟩
      intro m hm
      rcases List.mem_append.1 hm with h | h
      · exact hall m h
      · simp only [List.mem_singleton] at h; subst h; exact hx2
    · right
      have hilt : i < pre.length := by
        rcases Nat.lt_or_ge i pre.length with h | h
        · exact h
        · rw [List.getElem?_eq_none h] at hi; cases hi
      refine ⟨i, n, hb, by rw [List.getElem?_append_left hilt]; exact hi, hn, ?_⟩
      intro j m hj hm
      rcases getElem?_append_singleton_cases pre x j m hj with ⟨_, hj2⟩ | ⟨hj1, hj2⟩
      · exact hmin j m hj2 hm
      · subst hj2; rw [hx2] at hm; cases hm

theorem nearestNeighborScan_invariant (state_distance_fn : UncertaintyPlanningState →
    UncertaintyPlanningState → ℚ) (random_state : UncertaintyPlanningState) :
    ∀ (suf pre : List UncertaintyPlanningTreeState) (best : Int × Option ℚ),
      ScanInvariant state_distance_fn random_state pre best →
      ScanInvariant state_distance_fn random_state (pre ++ suf)
        (nearestNeighborScan state_distance_fn random_state suf pre.length best) := by
  intro suf
  induction suf with
  | nil => intro pre best h; simpa [nearestNeighborScan] using h
  | cons x rest ih =>
    intro pre best h
    have hstep := scanInvariant_step state_distance_fn random_state pre x best h
    have hrec := ih (pre ++ [x]) _ hstep
    simp only [List.append_assoc, List.singleton_append, List.length_append,
      List.length_singleton] at hrec
    unfold nearestNeighborScan
    by_cases hx : x.value.use_for_nearest_neighbors = true
    · simp only [hx, if_true] at hrec ⊢
      by_cases hlt : ltBest (state_distance_fn x.value random_state) best.2 = true
      · simp only [hlt, if_true] at hrec ⊢
        exact hrec
      · simp only [hlt] at hrec ⊢
        exact hrec
    · simp only [hx] at hrec ⊢
      exact hrec

theorem getNearestNeighbor_cases (planner_nodes : UncertaintyPlanningTree)
    (random_state : UncertaintyPlanningState)
    (state_distance_fn : UncertaintyPlanningState → UncertaintyPlanningState → ℚ) :
    (GetNearestNeighbor planner_nodes random_state state_distance_fn = -1
      ∧ ∀ n ∈ planner_nodes, n.value.use_for_nearest_neighbors = false) ∨
    (∃ (i : Nat) (n : UncertaintyPlanningTreeState),
      GetNearestNeighbor planner_nodes random_state state_distance_fn = (i : Int)
      ∧ planner_nodes[i]? = some n ∧ n.value.use_for_nearest_neighbors = true
      ∧ ∀ (j : Nat) (m : UncertaintyPlanningTreeState), planner_nodes[j]? = some m →
          m.value.use_for_nearest_neighbors = true →
          state_distance_fn n.value random_state ≤ state_distance_fn m.value random_state
          ∧ (j < i → state_distance_fn n.value random_state
              < state_distance_fn m.value random_state)) := by
  have h := nearestNeighborScan_invariant state_distance_fn random_state planner_nodes []
    (-1, none) (Or.inl ⟨rfl, fun n hn => by cases hn⟩)
  simp only [List.nil_append, List.length_nil] at h
  unfold GetNearestNeighbor
  rcases h with ⟨hb, hall⟩ | ⟨i, n, hb, hi, hn, hmin⟩
  · left
    rw [hb]
    exact ⟨rfl, hall⟩
  · right
    refine ⟨i, n, ?_, hi, hn, hmin⟩
    rw [hb]

/-- C4: with one thread and finite distances, `GetNearestNeighbor` returns `-1` when
no node is enabled for nearest-neighbour queries (the empty tree included); otherwise
it returns the index of an enabled node whose distance to the target is minimal among
the enabled nodes and strictly below the distance of every enabled node with a smaller
index, so it is the smallest index of minimal distance and never a disabled node. -/
theorem C4_nearest_neighbor_is_first_minimum (planner_nodes : UncertaintyPlanningTree)
    (random_state : UncertaintyPlanningState)
    (state_distance_fn : UncertaintyPlanningState → UncertaintyPlanningState → ℚ) :
    (GetNearestNeighbor planner_nodes random_state state_distance_fn = -1
      ∧ ∀ n ∈ planner_nodes, n.value.use_for_nearest_neighbors = false) ∨
    (∃ (i : Nat) (n : UncertaintyPlanningTreeState),
      GetNearestNeighbor planner_nodes random_state state_distance_fn = (i : Int)
      ∧ planner_nodes[i]? = some n ∧ n.value.use_for_nearest_neighbors = true
      ∧ ∀ (j : Nat) (m : UncertaintyPlanningTreeState), planner_nodes[j]? = some m →
          m.value.use_for_nearest_neighbors = true →
          state_distance_fn n.value random_state ≤ state_distance_fn m.value random_state
          ∧ (j < i → state_distance_fn n.value random_state
              < state_distance_fn m.value random_state)) :=
  getNearestNeighbor_cases planner_nodes random_state state_distance_fn

theorem getElem?_lt_length {α : Type} {l : List α} {i : Nat} {a : α} (h : l[i]? = some a) :
    i < l.length := by
  rcases Nat.lt_or_ge i l.length with h1 | h1
  · exact h1
  · rw [List.getElem?_eq_none h1] at h; cases h

theorem allIdx_getElem? {α : Type} (p : Nat → α → Bool) :
    ∀ (l : List α) (offset : Nat), allIdx p l offset = true →
      ∀ (j : Nat) (a : α), l[j]? = some a → p (offset + j) a = true := by
  intro l
  induction l with
  | nil => intro offset _ j a h; simp at h
  | cons x rest ih =>
    intro offset hall j a h
    simp only [allIdx, Bool.and_eq_true] at hall
    cases j with
    | zero =>
      simp only [List.getElem?_cons_zero, Option.some.injEq] at h
      subst h
      simpa using hall.1
    | succ j =>
      simp only [List.getElem?_cons_succ] at h
      have := ih (offset + 1) hall.2 j a h
      rw [show offset + (j + 1) = offset + 1 + j by omega]
      exact this

theorem treeAt_natCast (tree : UncertaintyPlanningTree) (k : Nat) :
    treeAt tree (k : Int) = tree[k]? := by
  simp [treeAt]

theorem treeAt_some {tree : UncertaintyPlanningTree} {c : Int}
    {node : UncertaintyPlanningTreeState} (h : treeAt tree c = some node) :
    ∃ k : Nat, c = (k : Int) ∧ tree[k]? = some node := by
  unfold treeAt at h
  split_ifs at h with hneg
  refine ⟨c.toNat, ?_, h⟩
  omega

theorem linkage_node (tree : UncertaintyPlanningTree) (h : ConsistentLinkage tree) (i : Nat)
    (node : UncertaintyPlanningTreeState) (hi : tree[i]? = some node) :
    linkedNode tree i node = true := by
  have := allIdx_getElem? (linkedNode tree) tree 0 h i node hi
  simpa using this

theorem linkage_child (tree : UncertaintyPlanningTree) (h : ConsistentLinkage tree) (i : Nat)
    (node : UncertaintyPlanningTreeState) (hi : tree[i]? = some node) (c : Int)
    (hc : c ∈ node.child_indices) :
    ∃ k : Nat, c = (k : Int) ∧ i < k ∧ ∃ child, tree[k]? = some child
      ∧ child.parent_index = (i : Int) := by
  have hl := linkage_node tree h i node hi
  simp only [linkedNode, Bool.and_eq_true, List.all_eq_true, decide_eq_true_eq] at hl
  obtain ⟨hlt, hch⟩ := hl.2 c hc
  cases hta : treeAt tree c with
  | none => rw [hta] at hch; cases hch
  | some child =>
    rw [hta] at hch
    obtain ⟨k, hk, hget⟩ := treeAt_some hta
    refine ⟨k, hk, by omega, child, hget, ?_⟩
    simpa using hch

theorem linkage_parent (tree : UncertaintyPlanningTree) (h : ConsistentLinkage tree) (i : Nat)
    (node : UncertaintyPlanningTreeState) (hi : tree[i]? = some node) (hpos : 0 < i) :
    ∃ p : Nat, node.parent_index = (p : Int) ∧ p < i ∧ ∃ parent, tree[p]? = some parent
      ∧ (i : Int) ∈ parent.child_indices := by
  have hl := linkage_node tree h i node hi
  simp only [linkedNode, Bool.and_eq_true] at hl
  have h1 := hl.1
  rw [if_neg (by omega)] at h1
  simp only [Bool.and_eq_true, decide_eq_true_eq] at h1
  obtain ⟨⟨h0, hlt⟩, hpar⟩ := h1
  cases hta : treeAt tree node.parent_index with
  | none => rw [hta] at hpar; cases hpar
  | some parent =>
    rw [hta] at hpar
    obtain ⟨p, hp, hget⟩ := treeAt_some hta
    refine ⟨p, hp, by omega, parent, hget, ?_⟩
    simpa using hpar

theorem linkage_root (tree : UncertaintyPlanningTree) (h : ConsistentLinkage tree)
    (node : UncertaintyPlanningTreeState) (hi : tree[0]? = some node) :
    node.parent_index < 0 := by
  have hl := linkage_node tree h 0 node hi
  simp only [linkedNode, Bool.and_eq_true] at hl
  simpa using hl.1

theorem sameExceptUse_length {t t0 : UncertaintyPlanningTree} (h : SameExceptUse t t0) :
    t.length = t0.length := by
  have := congrArg List.length h
  simpa using this

theorem sameExceptUse_getElem? {t t0 : UncertaintyPlanningTree} (h : SameExceptUse t t0)
    {j : Nat} {n : UncertaintyPlanningTreeState} (hj : t[j]? = some n) :
    ∃ n0, t0[j]? = some n0 ∧ disableNode n = disableNode n0 := by
  have h1 : (t.map disableNode)[j]? = (t0.map disableNode)[j]? := by rw [h]
  simp only [List.getElem?_map, hj, Option.map_some'] at h1
  cases h0 : t0[j]? with
  | none => rw [h0] at h1; cases h1
  | some n0 =>
    rw [h0] at h1
    simp only [Option.map_some', Option.some.injEq] at h1
    exact ⟨n0, rfl, h1⟩

theorem sameExceptUse_set {t t0 : UncertaintyPlanningTree} (h : SameExceptUse t t0)
    {i : Nat} {n : UncertaintyPlanningTreeState} (hi : t[i]? = some n) :
    SameExceptUse (t.set i (disableNode n)) t0 := by
  unfold SameExceptUse at h ⊢
  rw [← h]
  apply List.ext_getElem?
  intro j
  simp only [List.getElem?_map, List.getElem?_set]
  by_cases hij : i = j
  · subst hij
    simp [getElem?_lt_length hi, hi, disableNode,
      UncertaintyPlanningState.DisableForNearestNeighbors]
  · simp [hij]

theorem disableNode_child_indices {n n0 : UncertaintyPlanningTreeState}
    (h : disableNode n = disableNode n0) : n.child_indices = n0.child_indices := by
  have := congrArg UncertaintyPlanningTreeState.child_indices h
  simpa [disableNode] using this

theorem blacklist_children (T0 : UncertaintyPlanningTree) (fuel : Nat)
    (ih : ∀ (t : UncertaintyPlanningTree) (k : Nat), SameExceptUse t T0 → 0 < k →
      k < T0.length → T0.length ≤ k + fuel →
      ∃ t', BlacklistGoalBranch fuel t (k : Int) = .ok t' ∧ SameExceptUse t' T0 ∧
        ∀ j, (InSubtree T0 k j → ∀ n, t'[j]? = some n →
            n.value.use_for_nearest_neighbors = false)
          ∧ (¬ InSubtree T0 k j → t'[j]? = t[j]?)) :
    ∀ (cs : List Int) (t : UncertaintyPlanningTree), SameExceptUse t T0 →
      (∀ c ∈ cs, ∃ m : Nat, c = (m : Int) ∧ 0 < m ∧ m < T0.length ∧ T0.length ≤ m + fuel) →
      ∃ t', cs.foldlM (fun st child_index => BlacklistGoalBranch fuel st child_index) t
          = .ok t' ∧ SameExceptUse t' T0 ∧
        ∀ j, ((∃ m : Nat, (m : Int) ∈ cs ∧ InSubtree T0 m j) → ∀ n, t'[j]? = some n →
            n.value.use_for_nearest_neighbors = false)
          ∧ (¬ (∃ m : Nat, (m : Int) ∈ cs ∧ InSubtree T0 m j) → t'[j]? = t[j]?) := by
  intro cs
  induction cs with
  | nil =>
    intro t hs _
    refine ⟨t, rfl, hs, ?_⟩
    intro j
    constructor
    · rintro ⟨m, hm, _⟩; cases hm
    · intro _; rfl
  | cons c rest ihc =>
    intro t hs hcs
    obtain ⟨m, hm, hpos, hlt, hfuel⟩ := hcs c (List.mem_cons_self c rest)
    obtain ⟨t1, hrun1, hs1, hspec1⟩ := ih t m hs hpos hlt hfuel
    obtain ⟨t2, hrun2, hs2, hspec2⟩ := ihc t1 hs1
      (fun c0 hc0 => hcs c0 (List.mem_cons_of_mem c hc0))
    refine ⟨t2, ?_, hs2, ?_⟩
    · rw [List.foldlM_cons, hm, hrun1]
      exact hrun2
    · intro j
      constructor
      · rintro ⟨m0, hm0, hsub⟩ n hn
        by_cases hrest : ∃ m1 : Nat, (m1 : Int) ∈ rest ∧ InSubtree T0 m1 j
        · exact (hspec2 j).1 hrest n hn
        · rw [(hspec2 j).2 hrest] at hn
          rcases List.mem_cons.1 hm0 with heq | hmem
          · have : m0 = m := by omega
            subst this
            exact (hspec1 j).1 hsub n hn
          · exact absurd ⟨m0, hmem, hsub⟩ hrest
      · intro hnot
        have hrest : ¬ ∃ m1 : Nat, (m1 : Int) ∈ rest ∧ InSubtree T0 m1 j := by
          rintro ⟨m1, hm1, hsub⟩
          exact hnot ⟨m1, List.mem_cons_of_mem c hm1, hsub⟩
        have hc : ¬ InSubtree T0 m j := by
          intro hsub
          exact hnot ⟨m, by rw [hm]; exact List.mem_cons_self _ _, hsub⟩
        rw [(hspec2 j).2 hrest, (hspec1 j).2 hc]

theorem blacklist_spec (T0 : UncertaintyPlanningTree) (hlink : ConsistentLinkage T0) :
    ∀ (fuel : Nat) (t : UncertaintyPlanningTree) (k : Nat), SameExceptUse t T0 → 0 < k →
      k < T0.length → T0.length ≤ k + fuel →
      ∃ t', BlacklistGoalBranch fuel t (k : Int) = .ok t' ∧ SameExceptUse t' T0 ∧
        ∀ j, (InSubtree T0 k j → ∀ n, t'[j]? = some n →
            n.value.use_for_nearest_neighbors = false)
          ∧ (¬ InSubtree T0 k j → t'[j]? = t[j]?) := by
  intro fuel
  induction fuel with
  | zero => intro t k _ _ h1 h2; omega
  | succ fuel ih =>
    intro t k hs hpos hlt hfuel
    have hlen := sameExceptUse_length hs
    have hk : k < t.length := by omega
    have hget : t[k]? = some t[k] := List.getElem?_eq_getElem hk
    obtain ⟨n0, hn0, hdis⟩ := sameExceptUse_getElem? hs hget
    have hchildren := disableNode_child_indices hdis
    have hs1 := sameExceptUse_set hs hget
    obtain ⟨t', hrun, hs', hspec⟩ := blacklist_children T0 fuel ih t[k].child_indices
      (t.set k (disableNode t[k])) hs1 (by
        intro c hc
        rw [hchildren] at hc
        obtain ⟨m, hm, hkm, child, hchild, _⟩ := linkage_child T0 hlink k n0 hn0 c hc
        exact ⟨m, hm, by omega, getElem?_lt_length hchild, by omega⟩)
    refine ⟨t', ?_, hs', ?_⟩
    · unfold BlacklistGoalBranch
      rw [if_neg (by omega), if_neg (by omega)]
      simp only [Int.toNat_ofNat, hget]
      exact hrun
    · intro j
      constructor
      · intro hsub n hn
        by_cases hch : ∃ m : Nat, (m : Int) ∈ t[k].child_indices ∧ InSubtree T0 m j
        · exact (hspec j).1 hch n hn
        · rw [(hspec j).2 hch] at hn
          rcases Relation.ReflTransGen.cases_head hsub with heq | ⟨m, hkm, hmj⟩
          · subst heq
            rw [List.getElem?_set_self hk] at hn
            cases hn
            rfl
          · obtain ⟨node, hnode, hmem⟩ := hkm
            rw [hn0] at hnode
            cases hnode
            exact absurd ⟨m, by rw [hchildren]; exact hmem, hmj⟩ hch
      · intro hnot
        have hch : ¬ ∃ m : Nat, (m : Int) ∈ t[k].child_indices ∧ InSubtree T0 m j := by
          rintro ⟨m, hmem, hmj⟩
          exact hnot (Relation.ReflTransGen.head ⟨n0, hn0, by rw [← hchildren]; exact hmem⟩ hmj)
        have hne : k ≠ j := by
          intro heq
          subst heq
          exact hnot Relation.ReflTransGen.refl
        rw [(hspec j).2 hch, List.getElem?_set_ne hne]

theorem disableNode_of_disabled (n : UncertaintyPlanningTreeState)
    (h : n.value.use_for_nearest_neighbors = false) : disableNode n = n := by
  obtain ⟨v, p, c, i⟩ := n
  cases v
  simp only at h
  subst h
  rfl

theorem exampleTree_linkage : ConsistentLinkage exampleTree := by decide

/-- C6: in a tree with consistent linkage (and fuel for the recursion of at least the
tree size), `BlacklistGoalBranch(i)` with `i > 0` returns a tree of the same size in
which node `i` and every descendant of it has `use_for_nn = false` and is otherwise the
old node (same parent index, child indices and initialization, and a planning state
that differs from the old one in the `use_for_nn` bit only), and every other node is
the old node, unchanged in every field, its `use_for_nn` bit included; for `i ≤ 0` the
tree is returned unchanged. -/
theorem C6_blacklist_frame (fuel : Nat) (tree : UncertaintyPlanningTree) (i : Int)
    (hlink : ConsistentLinkage tree) (hfuel : tree.length ≤ fuel)
    (hi : i < (tree.length : Int)) :
    (i ≤ 0 → BlacklistGoalBranch fuel tree i = .ok tree) ∧
    (0 < i → ∃ tree', BlacklistGoalBranch fuel tree i = .ok tree'
      ∧ tree'.length = tree.length
      ∧ ∀ j node, tree[j]? = some node →
          (InSubtree tree i.toNat j →
            ∃ node', tree'[j]? = some node'
              ∧ node'.value.use_for_nearest_neighbors = false
              ∧ node' = { node with
                  value := { node.value with use_for_nearest_neighbors := false } })
          ∧ (¬ InSubtree tree i.toNat j → tree'[j]? = some node)) := by
  constructor
  · intro hle
    unfold BlacklistGoalBranch
    by_cases hneg : i < 0
    · rw [if_pos hneg]
    · rw [if_neg hneg, if_pos (by omega)]
  · intro hpos
    obtain ⟨k, hk⟩ : ∃ k : Nat, i = (k : Int) := ⟨i.toNat, by omega⟩
    subst hk
    obtain ⟨tree', hrun, hs, hspec⟩ := blacklist_spec tree hlink fuel tree k rfl
      (by omega) (by omega) (by omega)
    refine ⟨tree', hrun, sameExceptUse_length hs, ?_⟩
    intro j node hj
    simp only [Int.toNat_ofNat]
    constructor
    · intro hsub
      have hjlt : j < tree'.length := by
        rw [sameExceptUse_length hs]; exact getElem?_lt_length hj
      have hget : tree'[j]? = some tree'[j] := List.getElem?_eq_getElem hjlt
      obtain ⟨n0, hn0, hdis⟩ := sameExceptUse_getElem? hs hget
      rw [hj] at hn0
      cases hn0
      have hoff := (hspec j).1 hsub _ hget
      refine ⟨tree'[j], hget, hoff, ?_⟩
      rw [← disableNode_of_disabled _ hoff, hdis]
      rfl
    · intro hnot
      rw [(hspec j).2 hnot, hj]

/-- Witness for C6: blacklisting node `1` of the four-node example tree. -/
theorem C6_blacklist_frame_witness :
    ((1 : Int) ≤ 0 → BlacklistGoalBranch 4 exampleTree 1 = .ok exampleTree) ∧
    ((0 : Int) < 1 → ∃ tree', BlacklistGoalBranch 4 exampleTree 1 = .ok tree'
      ∧ tree'.length = exampleTree.length
      ∧ ∀ j node, exampleTree[j]? = some node →
          (InSubtree exampleTree (1 : Int).toNat j →
            ∃ node', tree'[j]? = some node'
              ∧ node'.value.use_for_nearest_neighbors = false
              ∧ node' = { node with
                  value := { node.value with use_for_nearest_neighbors := false } })
          ∧ (¬ InSubtree exampleTree (1 : Int).toNat j → tree'[j]? = some node)) :=
  C6_blacklist_frame 4 exampleTree 1 exampleTree_linkage (by decide) (by decide)

theorem sameExceptGoal_getElem? {t t0 : UncertaintyPlanningTree} (h : SameExceptGoal t t0)
    {j : Nat} {n : UncertaintyPlanningTreeState} (hj : t[j]? = some n) :
    ∃ n0, t0[j]? = some n0 ∧ eraseGoal n = eraseGoal n0 := by
  have h1 : (t.map eraseGoal)[j]? = (t0.map eraseGoal)[j]? := by rw [h]
  simp only [List.getElem?_map, hj, Option.map_some'] at h1
  cases h0 : t0[j]? with
  | none => rw [h0] at h1; cases h1
  | some n0 =>
    rw [h0] at h1
    simp only [Option.map_some', Option.some.injEq] at h1
    exact ⟨n0, rfl, h1⟩

theorem sameExceptGoal_length {t t0 : UncertaintyPlanningTree} (h : SameExceptGoal t t0) :
    t.length = t0.length := by
  have := congrArg List.length h
  simpa using this

theorem sameExceptGoal_set (t : UncertaintyPlanningTree) (i : Nat)
    (n : UncertaintyPlanningTreeState) (v : ℚ) (hi : t[i]? = some n) :
    SameExceptGoal (t.set i { n with value := n.value.SetGoalPfeasibility v }) t := by
  unfold SameExceptGoal
  apply List.ext_getElem?
  intro j
  simp only [List.getElem?_map, List.getElem?_set]
  by_cases hij : i = j
  · subst hij
    simp [getElem?_lt_length hi, hi, eraseGoal, UncertaintyPlanningState.SetGoalPfeasibility]
  · simp [hij]

theorem eraseGoal_use {n n0 : UncertaintyPlanningTreeState} (h : eraseGoal n = eraseGoal n0) :
    n.value.use_for_nearest_neighbors = n0.value.use_for_nearest_neighbors := by
  have := congrArg (fun x => x.value.use_for_nearest_neighbors) h
  simpa [eraseGoal, UncertaintyPlanningState.SetGoalPfeasibility] using this

theorem eraseGoal_parent {n n0 : UncertaintyPlanningTreeState} (h : eraseGoal n = eraseGoal n0) :
    n.parent_index = n0.parent_index := by
  have := congrArg (fun x => x.parent_index) h
  simpa [eraseGoal] using this

theorem updateNode_frame (storage updated : UncertaintyPlanningTree) (node_index : Int)
    (K : Nat) (h : UpdateNodeGoalReachedProbability storage node_index K = .ok updated) :
    SameExceptGoal updated storage := by
  unfold UpdateNodeGoalReachedProbability at h
  cases hn : treeAt storage node_index with
  | none => rw [hn] at h; cases h
  | some current_node =>
    rw [hn] at h
    simp only at h
    cases hp : nodeGoalReachedProbability storage current_node K with
    | error e => rw [hp] at h; cases h
    | ok v =>
      rw [hp] at h
      simp only [Except.ok.injEq] at h
      subst h
      obtain ⟨k, hk, hget⟩ := treeAt_some hn
      subst hk
      simp only [Int.toNat_ofNat]
      exact sameExceptGoal_set storage k current_node v hget

theorem updateAncestors_frame (K : Nat) :
    ∀ (fuel : Nat) (storage updated : UncertaintyPlanningTree) (index : Int),
      updateAncestors K fuel storage index = .ok updated → SameExceptGoal updated storage := by
  intro fuel
  induction fuel with
  | zero =>
    intro storage updated index h
    unfold updateAncestors at h
    split_ifs at h; cases h; exact rfl
  | succ fuel ih =>
    intro storage updated index h
    unfold updateAncestors at h
    split_ifs at h
    · simp only at h
      cases hu : UpdateNodeGoalReachedProbability storage index K with
      | error e => rw [hu] at h; cases h
      | ok s1 =>
        rw [hu] at h
        simp only at h
        cases hn : treeAt s1 index with
        | none => rw [hn] at h; cases h
        | some current_state =>
          rw [hn] at h
          simp only at h
          have h1 := ih _ _ _ h
          have h2 := updateNode_frame _ _ _ _ hu
          exact h1.trans h2
    · cases h; exact rfl

theorem otherChildrenBlacklisted_ok (storage : UncertaintyPlanningTree)
    (state : UncertaintyPlanningTreeState) :
    ∀ (cs : List Int) (acc : Bool), (∀ c ∈ cs, ∃ node, treeAt storage c = some node) →
      ∃ b, otherChildrenBlacklisted storage state cs acc = .ok b := by
  intro cs
  induction cs with
  | nil => intro acc _; exact ⟨acc, rfl⟩
  | cons c rest ih =>
    intro acc hall
    obtain ⟨node, hnode⟩ := hall c (List.mem_cons_self c rest)
    unfold otherChildrenBlacklisted
    rw [hnode]
    simp only
    split_ifs
    · exact ih false (fun c0 h0 => hall c0 (List.mem_cons_of_mem c h0))
    · exact ih acc (fun c0 h0 => hall c0 (List.mem_cons_of_mem c h0))

theorem checkIfGoalBranchRoot_ok (threshold : ℚ) (storage : UncertaintyPlanningTree)
    (hlink : ConsistentLinkage storage) (cur : Nat) (state : UncertaintyPlanningTreeState)
    (hcur : storage[cur]? = some state) (hpos : 0 < cur) :
    ∃ b, CheckIfGoalBranchRoot threshold storage state = .ok b
      ∧ (b = false → state.parent_index ≠ 0) := by
  obtain ⟨p, hp, hplt, parent, hparent, hmem⟩ := linkage_parent storage hlink cur state hcur hpos
  unfold CheckIfGoalBranchRoot
  simp only
  split_ifs with hsplit
  · rw [hp, treeAt_natCast, hparent]
    simp only
    split_ifs with hgoal
    · refine ⟨_, rfl, ?_⟩
      intro hb
      simp only [Bool.or_false, Bool.or_eq_false_iff, decide_eq_false_iff_not] at hb
      exact hb.2
    · obtain ⟨b, hb⟩ := otherChildrenBlacklisted_ok storage state parent.child_indices true
        (by
          intro c hc
          obtain ⟨k, hk, _, child, hchild, _⟩ := linkage_child storage hlink p parent hparent c hc
          exact ⟨child, by rw [hk, treeAt_natCast]; exact hchild⟩)
      rw [hb]
      refine ⟨_, rfl, ?_⟩
      intro hb2
      simp only [Bool.or_eq_false_iff, decide_eq_false_iff_not] at hb2
      exact hb2.2
  · refine ⟨_, rfl, ?_⟩
    intro hb
    simp only [Bool.or_false, Bool.or_eq_false_iff, decide_eq_false_iff_not] at hb
    exact hb.2

theorem goalBranchRootWalk_spec (threshold : ℚ) (storage : UncertaintyPlanningTree)
    (hlink : ConsistentLinkage storage) (g : Nat) :
    ∀ (fuel cur : Nat), 0 < cur → cur < storage.length → cur ≤ fuel →
      InSubtree storage cur g →
      ∃ r : Nat, 0 < r ∧ r < storage.length
        ∧ goalBranchRootWalk threshold storage fuel (cur : Int) = .ok (r : Int)
        ∧ InSubtree storage r g := by
  intro fuel
  induction fuel with
  | zero => intro cur h1 _ h3 _; omega
  | succ fuel ih =>
    intro cur hpos hlt hfuel hsub
    have hget : storage[cur]? = some storage[cur] := List.getElem?_eq_getElem hlt
    obtain ⟨b, hb, hfalse⟩ := checkIfGoalBranchRoot_ok threshold storage hlink cur _ hget hpos
    obtain ⟨p, hp, hplt, parent, hparent, hmem⟩ :=
      linkage_parent storage hlink cur _ hget hpos
    unfold goalBranchRootWalk
    rw [if_pos (by omega)]
    simp only [treeAt_natCast, hget, hb]
    cases b with
    | true => exact ⟨cur, hpos, hlt, by simp, hsub⟩
    | false =>
      simp only [if_true]
      have hne := hfalse rfl
      rw [hp] at hne ⊢
      have hp0 : 0 < p := by
        rcases Nat.eq_zero_or_pos p with h | h
        · subst h; exact absurd rfl hne
        · exact h
      exact ih p hp0 (getElem?_lt_length hparent) (by omega)
        (Relation.ReflTransGen.head ⟨parent, hparent, hmem⟩ hsub)

theorem inSubtree_lt_length (storage : UncertaintyPlanningTree)
    (hlink : ConsistentLinkage storage) (r j : Nat) (hr : r < storage.length)
    (h : InSubtree storage r j) : j < storage.length := by
  induction h with
  | refl => exact hr
  | @tail b c _ hstep _ =>
    obtain ⟨node, hnode, hmem⟩ := hstep
    obtain ⟨k, hk, _, child, hchild, _⟩ := linkage_child storage hlink _ node hnode _ hmem
    have : c = k := by omega
    subst this
    exact getElem?_lt_length hchild

theorem propagateGoalProbability_frame (fuel : Nat) (planner updated : UncertaintyPlanningSpace)
    (g : Int) (K : Nat) (h : propagateGoalProbability fuel planner g K = .ok updated) :
    SameExceptGoal updated.nearest_neighbors_storage planner.nearest_neighbors_storage := by
  unfold propagateGoalProbability at h
  cases hg : treeAt planner.nearest_neighbors_storage g with
  | none => rw [hg] at h; cases h
  | some new_goal =>
    rw [hg] at h
    simp only at h
    split_ifs at h
    cases hu : updateAncestors K fuel planner.nearest_neighbors_storage new_goal.parent_index with
    | error e => rw [hu] at h; cases h
    | ok storage =>
      rw [hu] at h
      simp only at h
      cases hr : storage[0]? with
      | none => rw [hr] at h; cases h
      | some root =>
        rw [hr] at h
        simp only [Except.ok.injEq] at h
        subst h
        exact updateAncestors_frame K fuel _ _ _ hu

theorem goalReachedCallback_frame (fuel : Nat) (planner blacklisted : UncertaintyPlanningSpace)
    (g : Int) (K : Nat) (h : blacklistNewGoalBranch fuel planner g = .ok blacklisted) :
    SameExceptGoal (GoalReachedCallback fuel planner g K).1.nearest_neighbors_storage
      blacklisted.nearest_neighbors_storage := by
  unfold GoalReachedCallback
  rw [h]
  simp only
  cases hp : propagateGoalProbability fuel blacklisted g K with
  | error e => exact rfl
  | ok updated => exact propagateGoalProbability_frame fuel blacklisted updated g K hp

/-- C5: in a tree with consistent linkage (and fuel of at least the tree size), for a
new goal node `g > 0` the upward walk of `GoalReachedCallback` finds a goal-branch root
`r > 0` whose subtree contains `g`; when the callback exits, with or without an
exception of its second half, every node of the subtree rooted at `r` (the goal node
included) has `use_for_nn = false`, and `GetNearestNeighbor` on the resulting tree
returns none of those indices, whatever the target state and the distance function. -/
theorem C5_goal_branch_blacklisted (fuel : Nat) (planner : UncertaintyPlanningSpace) (g K : Nat)
    (hlink : ConsistentLinkage planner.nearest_neighbors_storage)
    (hfuel : planner.nearest_neighbors_storage.length ≤ fuel)
    (hpos : 0 < g) (hlt : g < planner.nearest_neighbors_storage.length) :
    ∃ r : Nat, 0 < r
      ∧ goalBranchRootWalk planner.goal_probability_threshold
          planner.nearest_neighbors_storage fuel (g : Int) = .ok (r : Int)
      ∧ InSubtree planner.nearest_neighbors_storage r g
      ∧ ∀ j, InSubtree planner.nearest_neighbors_storage r j →
          (∃ n, (GoalReachedCallback fuel planner (g : Int) K).1.nearest_neighbors_storage[j]?
              = some n ∧ n.value.use_for_nearest_neighbors = false)
          ∧ ∀ (random_state : UncertaintyPlanningState)
              (state_distance_fn : UncertaintyPlanningState → UncertaintyPlanningState → ℚ),
              GetNearestNeighbor
                (GoalReachedCallback fuel planner (g : Int) K).1.nearest_neighbors_storage
                random_state state_distance_fn ≠ (j : Int) := by
  obtain ⟨r, hr0, hrlt, hwalk, hsub⟩ := goalBranchRootWalk_spec
    planner.goal_probability_threshold planner.nearest_neighbors_storage hlink g fuel g hpos hlt
    (by omega) Relation.ReflTransGen.refl
  obtain ⟨t', hrun, hs, hspec⟩ := blacklist_spec planner.nearest_neighbors_storage hlink fuel
    planner.nearest_neighbors_storage r rfl hr0 hrlt (by omega)
  have hbl : blacklistNewGoalBranch fuel planner (g : Int)
      = .ok { planner with nearest_neighbors_storage := t' } := by
    unfold blacklistNewGoalBranch
    rw [hwalk]
    simp only [hrun]
  have hframe := goalReachedCallback_frame fuel planner _ (g : Int) K hbl
  simp only at hframe
  have hdisabled : ∀ j, InSubtree planner.nearest_neighbors_storage r j →
      ∀ n, (GoalReachedCallback fuel planner (g : Int) K).1.nearest_neighbors_storage[j]?
        = some n → n.value.use_for_nearest_neighbors = false := by
    intro j hj n hn
    obtain ⟨n', hn', he⟩ := sameExceptGoal_getElem? hframe hn
    rw [eraseGoal_use he]
    exact (hspec j).1 hj n' hn'
  refine ⟨r, hr0, hwalk, hsub, ?_⟩
  intro j hj
  constructor
  · have hjlt := inSubtree_lt_length _ hlink r j hrlt hj
    have hlen : j < (GoalReachedCallback fuel planner (g : Int) K).1.nearest_neighbors_storage.length := by
      rw [sameExceptGoal_length hframe, sameExceptUse_length hs]
      exact hjlt
    exact ⟨_, List.getElem?_eq_getElem hlen, hdisabled j hj _ (List.getElem?_eq_getElem hlen)⟩
  · intro random_state state_distance_fn hnn
    rcases getNearestNeighbor_cases
      (GoalReachedCallback fuel planner (g : Int) K).1.nearest_neighbors_storage
      random_state state_distance_fn with ⟨h1, _⟩ | ⟨i, n, h1, hi, hn, _⟩
    · rw [h1] at hnn; omega
    · rw [h1] at hnn
      have : i = j := by omega
      subst this
      have := hdisabled i hj n hi
      rw [hn] at this
      cases this

/-- Witness for C5: a goal event at node `2` of the four-node example tree. -/
theorem C5_goal_branch_blacklisted_witness :
    ∃ r : Nat, 0 < r
      ∧ goalBranchRootWalk (freshPlanner (1 / 2) exampleTree).goal_probability_threshold
          (freshPlanner (1 / 2) exampleTree).nearest_neighbors_storage 4 ((2 : Nat) : Int)
            = .ok (r : Int)
      ∧ InSubtree (freshPlanner (1 / 2) exampleTree).nearest_neighbors_storage r 2
      ∧ ∀ j, InSubtree (freshPlanner (1 / 2) exampleTree).nearest_neighbors_storage r j →
          (∃ n, (GoalReachedCallback 4 (freshPlanner (1 / 2) exampleTree) ((2 : Nat) : Int)
                3).1.nearest_neighbors_storage[j]?
              = some n ∧ n.value.use_for_nearest_neighbors = false)
          ∧ ∀ (random_state : UncertaintyPlanningState)
              (state_distance_fn : UncertaintyPlanningState → UncertaintyPlanningState → ℚ),
              GetNearestNeighbor
                (GoalReachedCallback 4 (freshPlanner (1 / 2) exampleTree) ((2 : Nat) : Int)
                  3).1.nearest_neighbors_storage
                random_state state_distance_fn ≠ (j : Int) :=
  C5_goal_branch_blacklisted 4 (freshPlanner (1 / 2) exampleTree) 2 3 exampleTree_linkage
    (by decide) (by decide) (by decide)

theorem goalAtThree_callback :
    GoalReachedCallback 4 (freshPlanner (1 / 4) goalAtThree) 3 1
      = ({ freshPlanner (1 / 4) resolvedSplitTree with
            total_goal_reached_probability := 3 / 10 }, none) := by
  norm_num [GoalReachedCallback, blacklistNewGoalBranch, goalBranchRootWalk,
    CheckIfGoalBranchRoot, otherChildrenBlacklisted, BlacklistGoalBranch,
    propagateGoalProbability, updateAncestors, UpdateNodeGoalReachedProbability,
    nodeGoalReachedProbability, groupChildren, mapPushBack, branchProbabilities,
    collectChildStates, ComputeTransitionGoalProbability, goalChildLoop,
    clampChildGoalReached, childGoalReached, goalTryLoop, goalOtherLoop, maxElement, treeAt,
    Int.toNat, disableNode, pure, Except.pure, bind, Except.bind, freshPlanner, goalAtThree,
    resolvedSplitTree, mkNode, startState, UncertaintyPlanningState.make,
    UncertaintyPlanningState.SetGoalPfeasibility,
    UncertaintyPlanningState.DisableForNearestNeighbors]

/-- C7 (failing input): `resolvedSplitTree` is what `GoalReachedCallback` leaves after
the goal event at node `3`.  Its node `2` is a child of a split whose only sibling is
blacklisted; its effective edge probability `7 / 10` is not below the threshold `1 / 4`
and its parent is not the root, so none of the three conditions of the specification holds,
yet `CheckIfGoalBranchRoot` answers `true`, because its loop over the children of the
parent also meets node `2` itself, which is still enabled. -/
theorem C7_check_counts_the_node_itself :
    GoalReachedCallback 4 (freshPlanner (1 / 4) goalAtThree) 3 1
      = ({ freshPlanner (1 / 4) resolvedSplitTree with
            total_goal_reached_probability := 3 / 10 }, none)
    ∧ resolvedSplitTree[2]? = some resolvedSplitNode
    ∧ ConsistentLinkage resolvedSplitTree
    ∧ CheckIfGoalBranchRoot (1 / 4) resolvedSplitTree resolvedSplitNode = .ok true
    ∧ claimedGoalBranchRoot (1 / 4) resolvedSplitTree 2 resolvedSplitNode = false := by
  refine ⟨goalAtThree_callback, rfl, by decide, ?_, ?_⟩
  · norm_num [CheckIfGoalBranchRoot, resolvedSplitTree, resolvedSplitNode, mkNode, treeAt,
      Int.toNat, otherChildrenBlacklisted, UncertaintyPlanningState.make, startState,
      UncertaintyPlanningState.SetGoalPfeasibility,
      UncertaintyPlanningState.DisableForNearestNeighbors]
  · norm_num [claimedGoalBranchRoot, hasEnabledSibling, resolvedSplitTree, resolvedSplitNode,
      Int.toNat, mkNode, treeAt, UncertaintyPlanningState.make, startState,
      UncertaintyPlanningState.SetGoalPfeasibility,
      UncertaintyPlanningState.DisableForNearestNeighbors]

/-- C10 (counterexample): with a goal probability threshold of `0` and a user goal
probability `g = 0` for the last state, `g * motion_p = 0 ≥ 0` holds, but
`GoalReachedGoalFunction` returns `false` and leaves the planner as it was. -/
theorem C10_counterexample_zero_probability :
    (0 : ℚ) * startState.motion_Pfeasibility ≥ zeroThresholdPlanner.goal_probability_threshold
    ∧ GoalReachedGoalFunction zeroThresholdPlanner (fun _ => 0)
        = .ok (false, zeroThresholdPlanner) := by
  constructor
  · norm_num [zeroThresholdPlanner, freshPlanner]
  · simp [GoalReachedGoalFunction, zeroThresholdPlanner, freshPlanner]

/-- C10 (amended): for the most recently appended tree state `S` with user goal
probability `g`, `GoalReachedGoalFunction` returns `true` exactly when `g > 0` and
`g * motion_p(S) ≥ goal_probability_threshold`; in that case the last state of the
tree becomes `S` with `goal_p = g` and nothing else in the tree changes, otherwise
the tree is left unchanged. -/
theorem C10_goal_function_marks_goal (planner : UncertaintyPlanningSpace)
    (user_goal_check_fn : UncertaintyPlanningState → ℚ) (S : UncertaintyPlanningTreeState)
    (hlast : planner.nearest_neighbors_storage.getLast? = some S) :
    ∃ flag after, GoalReachedGoalFunction planner user_goal_check_fn = .ok (flag, after)
      ∧ (flag = true ↔ (user_goal_check_fn S.value > 0
          ∧ user_goal_check_fn S.value * S.value.motion_Pfeasibility
              ≥ planner.goal_probability_threshold))
      ∧ (flag = true → after.nearest_neighbors_storage
          = planner.nearest_neighbors_storage.set (planner.nearest_neighbors_storage.length - 1)
              { S with value := S.value.SetGoalPfeasibility (user_goal_check_fn S.value) })
      ∧ (flag = false → after.nearest_neighbors_storage = planner.nearest_neighbors_storage) := by
  unfold GoalReachedGoalFunction
  rw [hlast]
  simp only
  by_cases hg : user_goal_check_fn S.value > 0
  · rw [if_pos hg]
    by_cases ht : user_goal_check_fn S.value * S.value.motion_Pfeasibility
        ≥ planner.goal_probability_threshold
    · rw [if_pos ht]
      exact ⟨true, _, rfl, by simp [hg, ht], fun _ => rfl, (fun h => by cases h)⟩
    · rw [if_neg ht]
      exact ⟨false, _, rfl, by simp [ht], (fun h => by cases h), fun _ => rfl⟩
  · rw [if_neg hg]
    exact ⟨false, _, rfl, by simp [hg], (fun h => by cases h), fun _ => rfl⟩

/-- Witness for C10 (amended): the start state alone, threshold zero. -/
theorem C10_goal_function_marks_goal_witness :
    ∃ flag after, GoalReachedGoalFunction zeroThresholdPlanner (fun _ => 1) = .ok (flag, after)
      ∧ (flag = true ↔ ((fun _ => (1 : ℚ)) (mkNode startState (-1) []).value > 0
          ∧ (fun _ => (1 : ℚ)) (mkNode startState (-1) []).value
              * (mkNode startState (-1) []).value.motion_Pfeasibility
              ≥ zeroThresholdPlanner.goal_probability_threshold))
      ∧ (flag = true → after.nearest_neighbors_storage
          = zeroThresholdPlanner.nearest_neighbors_storage.set
              (zeroThresholdPlanner.nearest_neighbors_storage.length - 1)
              { mkNode startState (-1) [] with
                value := (mkNode startState (-1) []).value.SetGoalPfeasibility
                  ((fun _ => (1 : ℚ)) (mkNode startState (-1) []).value) })
      ∧ (flag = false → after.nearest_neighbors_storage
          = zeroThresholdPlanner.nearest_neighbors_storage) :=
  C10_goal_function_marks_goal zeroThresholdPlanner (fun _ => 1) (mkNode startState (-1) [])
    (by simp [zeroThresholdPlanner, freshPlanner])

theorem goalOtherLoop_eq (percent_active : ℚ) (idx : Nat)
    (l : List UncertaintyPlanningState) (offset : Nat) (po up : ℚ) :
    goalOtherLoop percent_active idx l offset (po, up)
      = (po + percent_active * siblingStuckGoalMass idx l offset,
          up + percent_active * siblingReturnMass idx l offset) := by
  induction l generalizing offset po up with
  | nil => simp [goalOtherLoop, siblingStuckGoalMass, siblingReturnMass]
  | cons s rest ih =>
    unfold goalOtherLoop siblingStuckGoalMass siblingReturnMass
    by_cases h : offset ≠ idx ∧ s.action_outcome_is_nominally_independent = true
    · simp only [if_pos h, ih]
      refine Prod.ext ?_ ?_ <;> simp only <;> ring
    · simp only [if_neg h, ih]
      refine Prod.ext ?_ ?_ <;> simp only <;> ring

theorem goalTryLoop_eq (child_nodes : List UncertaintyPlanningState) (idx : Nat)
    (c : UncertaintyPlanningState) (n : Nat) (pa pw po : ℚ) :
    goalTryLoop child_nodes idx c n (pa, pw, po)
      = (pa * (siblingReturnMass idx child_nodes 0) ^ n,
          pw + pa * (c.raw_edge_Pfeasibility * c.goal_Pfeasibility)
            * ∑ k in Finset.range n, (siblingReturnMass idx child_nodes 0) ^ k,
          po + pa * siblingStuckGoalMass idx child_nodes 0
            * ∑ k in Finset.range n, (siblingReturnMass idx child_nodes 0) ^ k) := by
  induction n generalizing pa pw po with
  | zero => simp [goalTryLoop]
  | succ n ih =>
    have h : ∑ k in Finset.range (n + 1), (siblingReturnMass idx child_nodes 0) ^ k
        = 1 + siblingReturnMass idx child_nodes 0
          * ∑ k in Finset.range n, (siblingReturnMass idx child_nodes 0) ^ k := by
      rw [Finset.sum_range_succ', Finset.mul_sum, add_comm]
      simp [pow_succ, mul_comm]
    unfold goalTryLoop
    simp only [goalOtherLoop_eq, ih, h]
    refine Prod.ext ?_ (Prod.ext ?_ ?_)
    · simp only [pow_succ]; ring
    · simp only; ring
    · simp only; ring

theorem childGoalReached_eq (child_nodes : List UncertaintyPlanningState) (K idx : Nat)
    (c : UncertaintyPlanningState) :
    childGoalReached child_nodes K idx c = claimedChildValue child_nodes K idx c := by
  simp only [childGoalReached, claimedChildValue, goalTryLoop_eq, ← Finset.sum_mul]
  ring

theorem clampChildGoalReached_eq (p : ℚ) :
    clampChildGoalReached p
      = if inSlackRange p = true then .ok (replaceSlack p)
        else .error .p_reached_goal_out_of_range := by
  unfold clampChildGoalReached inSlackRange replaceSlack
  by_cases h0 : 0 ≤ p <;> by_cases h1 : p ≤ 1 <;> by_cases h2 : p ≤ 1001 / 1000 <;>
    simp [h0, h1, h2, not_lt.2, not_le.1, lt_of_not_ge] <;> linarith

theorem goalChildLoop_eq (child_nodes : List UncertaintyPlanningState) (K : Nat) :
    ∀ (rest : List UncertaintyPlanningState) (idx : Nat) (dependent independent : List ℚ),
      goalChildLoop child_nodes K rest idx (dependent, independent)
        = if (claimedValues child_nodes K rest idx).all (fun v => inSlackRange v.2) = true then
            .ok (dependent ++ ((claimedValues child_nodes K rest idx).filter
                  (fun v => !v.1)).map (fun v => replaceSlack v.2),
                independent ++ independentValues (claimedValues child_nodes K rest idx))
          else .error .p_reached_goal_out_of_range := by
  intro rest
  induction rest with
  | nil =>
    intro idx dependent independent
    simp [goalChildLoop, claimedValues, independentValues]
  | cons c rest ih =>
    intro idx dependent independent
    unfold goalChildLoop
    rw [childGoalReached_eq, clampChildGoalReached_eq]
    by_cases hr : inSlackRange (claimedChildValue child_nodes K idx c) = true
    · rw [if_pos hr]
      simp only
      by_cases hi : c.action_outcome_is_nominally_independent = true
      · rw [if_pos hi, ih]
        by_cases hrest : (claimedValues child_nodes K rest (idx + 1)).all
            (fun v => inSlackRange v.2) = true
        · simp [claimedValues, independentValues, hr, hi, hrest]
        · simp [claimedValues, independentValues, hr, hi, hrest]
      · rw [if_neg hi, ih]
        have hi2 : c.action_outcome_is_nominally_independent = false := by
          cases h : c.action_outcome_is_nominally_independent
          · rfl
          · exact absurd h hi
        by_cases hrest : (claimedValues child_nodes K rest (idx + 1)).all
            (fun v => inSlackRange v.2) = true
        · simp [claimedValues, independentValues, hr, hi2, hrest]
        · simp [claimedValues, independentValues, hr, hi2, hrest]
    · rw [if_neg hr]
      simp [claimedValues, hr]

theorem computeTransition_eq_claimed (child_nodes : List UncertaintyPlanningState)
    (K : Nat) :
    ComputeTransitionGoalProbability child_nodes K
      = claimedTransitionGoalProbability child_nodes K := by
  unfold ComputeTransitionGoalProbability claimedTransitionGoalProbability
  split
  · rfl
  · rfl
  · rw [goalChildLoop_eq]
    by_cases hall : (claimedValues child_nodes K child_nodes 0).all
        (fun v => inSlackRange v.2) = true
    · simp only [hall, if_true, List.nil_append]
      have hd : (((claimedValues child_nodes K child_nodes 0).filter
          (fun v => !v.1)).map (fun v => replaceSlack v.2)).sum
          = dependentSum (claimedValues child_nodes K child_nodes 0) := rfl
      rw [hd]
      generalize maxElement 0 (independentValues (claimedValues child_nodes K child_nodes 0))
        + dependentSum (claimedValues child_nodes K child_nodes 0) = total
      unfold inSlackRange replaceSlack
      by_cases h0 : 0 ≤ total <;> by_cases h1 : total ≤ 1 <;>
        by_cases h2 : total ≤ 1001 / 1000 <;>
        simp [h0, h1, h2, not_lt.2, not_le.1, lt_of_not_ge] <;> linarith
    · simp only [hall]
      rfl

/-- C8 (amended): `ComputeTransitionGoalProbability` returns `0` for an empty group and
`goal_p * effective_edge_p` for a single child; for two or more children it computes
for each child the value `P_i` of the specification and, provided every `P_i` and the total
lie in `[0, 1.001]`, returns (sum of `P_i` over the children with dependent outcomes)
+ (maximum of `P_i` over the children with independent outcomes, `0` if there are
none) with values in `(1, 1.001]` replaced by `1`; if some `P_i` or the total lies
outside `[0, 1.001]` it raises an out-of-range error instead of returning. -/
theorem C8_transition_goal_probability (child_nodes : List UncertaintyPlanningState)
    (K : Nat) :
    ComputeTransitionGoalProbability child_nodes K
      = claimedTransitionGoalProbability child_nodes K :=
  computeTransition_eq_claimed child_nodes K

/-- C8 (counterexample): for the split `mixedSplit` and one try attempt every `P_i`
lies in `[0, 1]` (they are `7 / 10`, `7 / 10` and `4 / 10`), the sum over the
dependent children plus the maximum over the independent children is `9 / 5`, which
is not in `(1, 1.001]`, and `ComputeTransitionGoalProbability` returns no value: it
raises the out-of-range error. -/
theorem C8_counterexample_total_out_of_range :
    claimedValues mixedSplit 1 mixedSplit 0
      = [(false, 7 / 10), (false, 7 / 10), (true, 4 / 10)]
    ∧ (7 / 10 + 7 / 10 : ℚ) + 4 / 10 = 9 / 5
    ∧ ComputeTransitionGoalProbability mixedSplit 1
        = .error .total_p_goal_reached_out_of_range := by
  refine ⟨?_, by norm_num, ?_⟩
  · norm_num [claimedValues, claimedChildValue, siblingReturnMass, siblingStuckGoalMass,
      mixedSplit, exampleChild, UncertaintyPlanningState.make,
      UncertaintyPlanningState.SetGoalPfeasibility]
  · norm_num [ComputeTransitionGoalProbability, goalChildLoop, clampChildGoalReached,
      childGoalReached, goalTryLoop, goalOtherLoop, maxElement, mixedSplit, exampleChild,
      UncertaintyPlanningState.make, UncertaintyPlanningState.SetGoalPfeasibility]

theorem forall₂_getElem? {α β : Type} {R : α → β → Prop} :
    ∀ {l : List α} {l' : List β}, List.Forall₂ R l l' →
      ∀ (j : Nat) (a : α), l[j]? = some a → ∃ b, l'[j]? = some b ∧ R a b := by
  intro l l' h
  induction h with
  | nil => intro j a ha; simp at ha
  | cons hab _ ih =>
    intro j a ha
    cases j with
    | zero =>
      simp only [List.getElem?_cons_zero, Option.some.injEq] at ha
      subst ha
      exact ⟨_, by simp, hab⟩
    | succ j =>
      simp only [List.getElem?_cons_succ] at ha ⊢
      exact ih j a ha

theorem forall₂_set {α β : Type} {R : α → β → Prop} :
    ∀ {l : List α} {l' : List β}, List.Forall₂ R l l' →
      ∀ (j : Nat) (a : α) (b : β), l[j]? = some a → R a b →
        List.Forall₂ R l (l'.set j b) := by
  intro l l' h
  induction h with
  | nil => intro j a b ha; simp at ha
  | cons hab hrest ih =>
    intro j a b ha hR
    cases j with
    | zero =>
      simp only [List.getElem?_cons_zero, Option.some.injEq] at ha
      subst ha
      exact List.Forall₂.cons hR hrest
    | succ j =>
      simp only [List.getElem?_cons_succ] at ha
      exact List.Forall₂.cons hab (ih j a b ha hR)

theorem forall₂_of_map_eq {α : Type} {R : α → α → Prop} (f : α → α)
    (hR : ∀ n n', f n' = f n → R n n') :
    ∀ (T t : List α), t.map f = T.map f → List.Forall₂ R T t := by
  intro T
  induction T with
  | nil =>
    intro t h
    cases t with
    | nil => exact List.Forall₂.nil
    | cons b t => simp at h
  | cons a T ih =>
    intro t h
    cases t with
    | nil => simp at h
    | cons b t =>
      simp only [List.map_cons, List.cons.injEq] at h
      exact List.Forall₂.cons (hR a b h.1) (ih t h.2)

theorem stateLe_refl (s : UncertaintyPlanningState) : StateLe s s :=
  ⟨rfl, rfl, rfl, rfl, rfl, le_refl _⟩

theorem goalLe_of_sameExceptUse {T t : UncertaintyPlanningTree} (h : SameExceptUse t T) :
    GoalLe T t := by
  apply forall₂_of_map_eq disableNode _ T t h
  intro n n' hd
  have h1 := congrArg UncertaintyPlanningTreeState.child_indices hd
  have h2 := congrArg UncertaintyPlanningTreeState.parent_index hd
  have h3 := congrArg (fun x => x.value.transition_id) hd
  have h4 := congrArg (fun x => x.value.raw_edge_Pfeasibility) hd
  have h5 := congrArg (fun x => x.value.reverse_edge_Pfeasibility) hd
  have h6 := congrArg (fun x => x.value.effective_edge_Pfeasibility) hd
  have h7 := congrArg (fun x => x.value.action_outcome_is_nominally_independent) hd
  have h8 := congrArg (fun x => x.value.goal_Pfeasibility) hd
  simp only [disableNode, UncertaintyPlanningState.DisableForNearestNeighbors] at h1 h2 h3 h4 h5 h6 h7 h8
  exact ⟨h1, h2, h3, h4, h5, h6, h7, le_of_eq h8.symm⟩

theorem goalLe_treeAt {T t : UncertaintyPlanningTree} (h : GoalLe T t) (c : Int) :
    (treeAt T c = none ∧ treeAt t c = none)
    ∨ ∃ n n', treeAt T c = some n ∧ treeAt t c = some n' ∧ NodeLe n n' := by
  unfold treeAt
  by_cases hneg : c < 0
  · simp [hneg]
  · simp only [hneg, if_false]
    cases hT : T[c.toNat]? with
    | none =>
      left
      refine ⟨rfl, ?_⟩
      have hlen := List.Forall₂.length_eq h
      rw [List.getElem?_eq_none_iff] at hT ⊢
      omega
    | some n =>
      right
      obtain ⟨n', hn', hle⟩ := forall₂_getElem? h c.toNat n hT
      exact ⟨n, n', rfl, hn', hle⟩

theorem stateLe_map_retryKey {s s' : List UncertaintyPlanningState}
    (h : List.Forall₂ StateLe s s') : s.map retryKey = s'.map retryKey := by
  induction h with
  | nil => rfl
  | cons hab _ ih =>
    obtain ⟨_, h2, h3, _, h5, _⟩ := hab
    simp only [List.map_cons, ih, retryKey, h2, h3, h5]

theorem siblingStuckGoalMass_mono (idx : Nat) {s s' : List UncertaintyPlanningState}
    (h : List.Forall₂ StateLe s s') (hr : ∀ x ∈ s, StateInRange x) :
    ∀ offset, siblingStuckGoalMass idx s offset ≤ siblingStuckGoalMass idx s' offset := by
  induction h with
  | nil => intro offset; exact le_refl _
  | @cons a b l l' hab _ ih =>
    intro offset
    obtain ⟨_, h2, h3, _, h5, h6⟩ := hab
    have hra := hr a (List.mem_cons_self a l)
    have ht := ih (fun x hx => hr x (List.mem_cons_of_mem a hx)) (offset + 1)
    unfold siblingStuckGoalMass
    rw [h2, h3, h5]
    have hc : 0 ≤ a.raw_edge_Pfeasibility * (1 - a.reverse_edge_Pfeasibility) :=
      mul_nonneg hra.1 (by linarith [hra.2.2.1])
    have hm := mul_le_mul_of_nonneg_left h6 hc
    split_ifs <;> linarith

theorem claimedChildValue_mono {s s' : List UncertaintyPlanningState}
    (h : List.Forall₂ StateLe s s') (hr : ∀ x ∈ s, StateInRange x) (K idx : Nat)
    {c c' : UncertaintyPlanningState} (hc : StateLe c c') (hcr : StateInRange c) :
    claimedChildValue s K idx c ≤ claimedChildValue s' K idx c' := by
  unfold claimedChildValue
  rw [← siblingReturnMass_congr idx s s' 0 (stateLe_map_retryKey h)]
  have ha := siblingReturnMass_nonneg idx s (fun x hx => ⟨(hr x hx).1, (hr x hx).2.1⟩) 0
  obtain ⟨_, h2, _, _, _, h6⟩ := hc
  have hO := siblingStuckGoalMass_mono idx h hr 0
  have hg := mul_le_mul_of_nonneg_left h6 hcr.1
  rw [h2]
  apply Finset.sum_le_sum
  intro k _
  exact mul_le_mul_of_nonneg_left (by linarith) (pow_nonneg ha k)

theorem claimedValues_mono {s s' : List UncertaintyPlanningState}
    (h : List.Forall₂ StateLe s s') (hr : ∀ x ∈ s, StateInRange x) (K : Nat) :
    ∀ {rest rest' : List UncertaintyPlanningState}, List.Forall₂ StateLe rest rest' →
      (∀ x ∈ rest, StateInRange x) → ∀ idx,
      List.Forall₂ ValueLe (claimedValues s K rest idx) (claimedValues s' K rest' idx) := by
  intro rest rest' hrest
  induction hrest with
  | nil => intro _ idx; exact List.Forall₂.nil
  | @cons a b l l' hab _ ih =>
    intro hrr idx
    unfold claimedValues
    refine List.Forall₂.cons ⟨hab.2.2.2.2.1, ?_⟩
      (ih (fun x hx => hrr x (List.mem_cons_of_mem a hx)) (idx + 1))
    exact claimedChildValue_mono h hr K idx hab (hrr a (List.mem_cons_self a l))

theorem replaceSlack_mono {x y : ℚ} (hxy : x ≤ y) (hy : y ≤ 1001 / 1000) :
    replaceSlack x ≤ replaceSlack y := by
  unfold replaceSlack
  split_ifs with h1 h2 h2
  · exact le_refl _
  · exact absurd ⟨by linarith [h1.1], hy⟩ h2
  · have : x ≤ 1 := by
      by_contra hc
      exact h1 ⟨lt_of_not_ge hc, by linarith⟩
    exact this
  · exact hxy

theorem inSlackRange_iff (x : ℚ) : inSlackRange x = true ↔ 0 ≤ x ∧ x ≤ 1001 / 1000 := by
  simp [inSlackRange]

theorem dependentSum_mono {v v' : List (Bool × ℚ)} (h : List.Forall₂ ValueLe v v')
    (hr : ∀ x ∈ v', inSlackRange x.2 = true) : dependentSum v ≤ dependentSum v' := by
  induction h with
  | nil => exact le_refl _
  | @cons a b l l' hab _ ih =>
    have hb := (inSlackRange_iff _).1 (hr b (List.mem_cons_self b l'))
    have ht := ih (fun x hx => hr x (List.mem_cons_of_mem b hx))
    have hm := replaceSlack_mono hab.2 hb.2
    unfold dependentSum at ht ⊢
    simp only [List.filter_cons, hab.1]
    cases a.1 <;> simp <;> linarith

theorem independentValues_mono {v v' : List (Bool × ℚ)} (h : List.Forall₂ ValueLe v v')
    (hr : ∀ x ∈ v', inSlackRange x.2 = true) :
    List.Forall₂ (fun x y : ℚ => x ≤ y) (independentValues v) (independentValues v') := by
  induction h with
  | nil => exact List.Forall₂.nil
  | @cons a b l l' hab _ ih =>
    have hb := (inSlackRange_iff _).1 (hr b (List.mem_cons_self b l'))
    have ht := ih (fun x hx => hr x (List.mem_cons_of_mem b hx))
    have hm := replaceSlack_mono hab.2 hb.2
    unfold independentValues at ht ⊢
    simp only [List.filter_cons, hab.1]
    cases a.1
    · simpa using ht
    · simpa using List.Forall₂.cons hm ht

theorem foldl_max_mono : ∀ {l l' : List ℚ}, List.Forall₂ (fun x y : ℚ => x ≤ y) l l' →
    ∀ (b b' : ℚ), b ≤ b' →
      l.foldl (fun best y => if best < y then y else best) b
        ≤ l'.foldl (fun best y => if best < y then y else best) b' := by
  intro l l' h
  induction h with
  | nil => intro b b' hb; exact hb
  | @cons x y l l' hxy _ ih =>
    intro b b' hb
    simp only [List.foldl_cons]
    apply ih
    split_ifs with h1 h2 h2
    · exact hxy
    · linarith [not_lt.1 h2]
    · linarith
    · exact hb

theorem maxElement_mono (e : ℚ) {l l' : List ℚ}
    (h : List.Forall₂ (fun x y : ℚ => x ≤ y) l l') : maxElement e l ≤ maxElement e l' := by
  cases h with
  | nil => exact le_refl _
  | cons hxy hrest =>
    unfold maxElement
    exact foldl_max_mono hrest _ _ hxy

theorem claimedValues_range_of_ok {s : List UncertaintyPlanningState} {K : Nat} {v : ℚ}
    (hlen : 2 ≤ s.length) (h : claimedTransitionGoalProbability s K = .ok v) :
    (∀ x ∈ claimedValues s K s 0, inSlackRange x.2 = true)
    ∧ inSlackRange (maxElement 0 (independentValues (claimedValues s K s 0))
        + dependentSum (claimedValues s K s 0)) = true
    ∧ v = replaceSlack (maxElement 0 (independentValues (claimedValues s K s 0))
        + dependentSum (claimedValues s K s 0)) := by
  unfold claimedTransitionGoalProbability at h
  split at h
  · simp at hlen
  · simp at hlen
  · simp only at h
    split_ifs at h with h1 h2
    simp only [Except.ok.injEq] at h
    exact ⟨by simpa [List.all_eq_true] using h1, h2, h.symm⟩

theorem computeTransition_mono {s s' : List UncertaintyPlanningState}
    (h : List.Forall₂ StateLe s s') (hr : ∀ x ∈ s, StateInRange x) (K : Nat) {v v' : ℚ}
    (hv : ComputeTransitionGoalProbability s K = .ok v)
    (hv' : ComputeTransitionGoalProbability s' K = .ok v') : v ≤ v' := by
  have hlen := List.Forall₂.length_eq h
  rcases Nat.lt_or_ge s.length 2 with hlt | hge
  · cases h with
    | nil =>
      simp only [ComputeTransitionGoalProbability, Except.ok.injEq] at hv hv'
      rw [← hv, ← hv']
    | @cons a b l l' hab hrest =>
      cases hrest with
      | nil =>
        simp only [ComputeTransitionGoalProbability, Except.ok.injEq] at hv hv'
        rw [← hv, ← hv']
        obtain ⟨_, _, _, h4, _, h6⟩ := hab
        rw [h4]
        exact mul_le_mul_of_nonneg_right h6 (hr a (List.mem_cons_self a _)).2.2.2
      | cons _ _ => simp at hlt; omega
  · rw [computeTransition_eq_claimed] at hv hv'
    obtain ⟨h1, h2, h3⟩ := claimedValues_range_of_ok hge hv
    obtain ⟨h1', h2', h3'⟩ := claimedValues_range_of_ok (by omega) hv'
    have hvals := claimedValues_mono h hr K h hr 0
    have hdep := dependentSum_mono hvals h1'
    have hind := maxElement_mono 0 (independentValues_mono hvals h1')
    rw [h3, h3']
    exact replaceSlack_mono (by linarith) ((inSlackRange_iff _).1 h2').2

theorem groupChildren_goalLe {T t : UncertaintyPlanningTree} (h : GoalLe T t) :
    ∀ (cs : List Int) (acc : List (Nat × List Int)),
      groupChildren t cs acc = groupChildren T cs acc := by
  intro cs
  induction cs with
  | nil => intro acc; rfl
  | cons c rest ih =>
    intro acc
    unfold groupChildren
    rcases goalLe_treeAt h c with ⟨h1, h2⟩ | ⟨n, n', h1, h2, hle⟩
    · rw [h1, h2]
    · rw [h1, h2]
      simp only
      rw [hle.2.2.1, ih]

theorem collectChildStates_goalLe {T t : UncertaintyPlanningTree} (h : GoalLe T t)
    (hr : ∀ n ∈ T, StateInRange n.value) :
    ∀ (cs : List Int) (s s' : List UncertaintyPlanningState),
      collectChildStates T cs = .ok s → collectChildStates t cs = .ok s' →
      List.Forall₂ StateLe s s' ∧ ∀ x ∈ s, StateInRange x := by
  intro cs
  induction cs with
  | nil =>
    intro s s' hs hs'
    simp only [collectChildStates, Except.ok.injEq] at hs hs'
    subst hs hs'
    exact ⟨List.Forall₂.nil, fun x hx => by cases hx⟩
  | cons c rest ih =>
    intro s s' hs hs'
    unfold collectChildStates at hs hs'
    rcases goalLe_treeAt h c with ⟨h1, h2⟩ | ⟨n, n', h1, h2, hle⟩
    · rw [h1] at hs; cases hs
    · rw [h1] at hs
      rw [h2] at hs'
      simp only at hs hs'
      cases hT : collectChildStates T rest with
      | error e => rw [hT] at hs; cases hs
      | ok r =>
        cases ht : collectChildStates t rest with
        | error e => rw [ht] at hs'; cases hs'
        | ok r' =>
          rw [hT] at hs
          rw [ht] at hs'
          simp only [Except.ok.injEq] at hs hs'
          subst hs hs'
          obtain ⟨hf, hrange⟩ := ih r r' hT ht
          obtain ⟨k, _, hk⟩ := treeAt_some h1
          refine ⟨List.Forall₂.cons hle.2.2 hf, ?_⟩
          intro x hx
          rcases List.mem_cons.1 hx with rfl | hx
          · exact hr n (List.getElem?_mem hk)
          · exact hrange x hx

theorem branchProbabilities_goalLe {T t : UncertaintyPlanningTree} (h : GoalLe T t)
    (hr : ∀ n ∈ T, StateInRange n.value) (K : Nat) :
    ∀ (groups : List (Nat × List Int)) (l l' : List ℚ),
      branchProbabilities T K groups = .ok l → branchProbabilities t K groups = .ok l' →
      List.Forall₂ (fun x y : ℚ => x ≤ y) l l' := by
  intro groups
  induction groups with
  | nil =>
    intro l l' hl hl'
    simp only [branchProbabilities, Except.ok.injEq] at hl hl'
    subst hl hl'
    exact List.Forall₂.nil
  | cons g rest ih =>
    intro l l' hl hl'
    obtain ⟨key, cs⟩ := g
    unfold branchProbabilities at hl hl'
    cases hc : collectChildStates T cs with
    | error e => rw [hc] at hl; cases hl
    | ok s =>
      cases hc' : collectChildStates t cs with
      | error e => rw [hc'] at hl'; cases hl'
      | ok s' =>
        rw [hc] at hl
        rw [hc'] at hl'
        simp only at hl hl'
        cases hv : ComputeTransitionGoalProbability s K with
        | error e => rw [hv] at hl; cases hl
        | ok v =>
          cases hv' : ComputeTransitionGoalProbability s' K with
          | error e => rw [hv'] at hl'; cases hl'
          | ok v' =>
            rw [hv] at hl
            rw [hv'] at hl'
            simp only at hl hl'
            cases hb : branchProbabilities T K rest with
            | error e => rw [hb] at hl; cases hl
            | ok r =>
              cases hb' : branchProbabilities t K rest with
              | error e => rw [hb'] at hl'; cases hl'
              | ok r' =>
                rw [hb] at hl
                rw [hb'] at hl'
                simp only [Except.ok.injEq] at hl hl'
                subst hl hl'
                obtain ⟨hf, hrange⟩ := collectChildStates_goalLe h hr cs s s' hc hc'
                exact List.Forall₂.cons (computeTransition_mono hf hrange K hv hv')
                  (ih r r' hb hb')

theorem nodeGoalReachedProbability_mono {T t : UncertaintyPlanningTree} (h : GoalLe T t)
    (hr : ∀ n ∈ T, StateInRange n.value) (K : Nat)
    {node node' : UncertaintyPlanningTreeState} (hn : NodeLe node node') {v v' : ℚ}
    (hv : nodeGoalReachedProbability T node K = .ok v)
    (hv' : nodeGoalReachedProbability t node' K = .ok v') : v ≤ v' := by
  unfold nodeGoalReachedProbability at hv hv'
  rw [hn.1, groupChildren_goalLe h] at hv'
  cases hg : groupChildren T node.child_indices [] with
  | error e => rw [hg] at hv; cases hv
  | ok groups =>
    rw [hg] at hv hv'
    simp only at hv hv'
    cases hb : branchProbabilities T K groups with
    | error e => rw [hb] at hv; cases hv
    | ok l =>
      cases hb' : branchProbabilities t K groups with
      | error e => rw [hb'] at hv'; cases hv'
      | ok l' =>
        rw [hb] at hv
        rw [hb'] at hv'
        simp only at hv hv'
        split_ifs at hv hv'
        simp only [Except.ok.injEq] at hv hv'
        rw [← hv, ← hv']
        exact maxElement_mono 0 (branchProbabilities_goalLe h hr K groups l l' hb hb')

theorem updateAncestors_goalLe (T : UncertaintyPlanningTree)
    (hr : ∀ n ∈ T, StateInRange n.value) (K : Nat) :
    ∀ (fuel : Nat) (t updated : UncertaintyPlanningTree) (index : Int), GoalLe T t →
      (∀ a ∈ ancestorChain T fuel index, AncestorNotAbove T K a) →
      updateAncestors K fuel t index = .ok updated → GoalLe T updated := by
  intro fuel
  induction fuel with
  | zero =>
    intro t updated index hle _ hrun
    unfold updateAncestors at hrun
    split_ifs at hrun; cases hrun; exact hle
  | succ fuel ih =>
    intro t updated index hle hanc hrun
    unfold updateAncestors at hrun
    split_ifs at hrun with hidx
    · simp only at hrun
      cases hu : UpdateNodeGoalReachedProbability t index K with
      | error e => rw [hu] at hrun; cases hrun
      | ok t1 =>
        rw [hu] at hrun
        simp only at hrun
        unfold UpdateNodeGoalReachedProbability at hu
        rcases goalLe_treeAt hle index with ⟨_, h2⟩ | ⟨n, cur, h1, h2, hn⟩
        · rw [h2] at hu; cases hu
        · rw [h2] at hu
          simp only at hu
          cases hv : nodeGoalReachedProbability t cur K with
          | error e => rw [hv] at hu; cases hu
          | ok v' =>
            rw [hv] at hu
            simp only [Except.ok.injEq] at hu
            obtain ⟨k, hk, hTk⟩ := treeAt_some h1
            subst hk
            simp only [Int.toNat_ofNat] at hu
            have hchain : ancestorChain T (fuel + 1) (k : Int)
                = k :: ancestorChain T fuel n.parent_index := by
              simp [ancestorChain, h1]
            rw [hchain] at hanc
            obtain ⟨node, v, hnode, hG, hgle⟩ := hanc k (List.mem_cons_self _ _)
            rw [hTk] at hnode
            cases hnode
            have hmono := nodeGoalReachedProbability_mono hle hr K hn hG hv
            have hnew : NodeLe n
                { cur with value := cur.value.SetGoalPfeasibility v' } := by
              obtain ⟨c1, c2, s1, s2, s3, s4, s5, _⟩ := hn
              exact ⟨c1, c2, s1, s2, s3, s4, s5, by
                simp only [UncertaintyPlanningState.SetGoalPfeasibility]; linarith⟩
            have hle1 : GoalLe T t1 := by
              rw [← hu]
              exact forall₂_set hle k n _ hTk hnew
            have htk : t[k]? = some cur := by
              rw [treeAt_natCast] at h2; exact h2
            have hget : treeAt t1 (k : Int)
                = some { cur with value := cur.value.SetGoalPfeasibility v' } := by
              rw [treeAt_natCast, ← hu, List.getElem?_set_self (getElem?_lt_length htk)]
            rw [hget] at hrun
            simp only at hrun
            rw [hn.2.1] at hrun
            exact ih t1 updated n.parent_index hle1
              (fun a ha => hanc a (List.mem_cons_of_mem _ ha)) hrun
    · cases hrun; exact hle

/-- Where the back-propagation keeps the root's goal probability: in a tree with
consistent linkage and edge probabilities in range (raw and effective edge
probabilities non-negative, reverse edge probabilities in `[0, 1]`), if no strict
ancestor of the new goal node `g` stores a goal probability above the value that
`UpdateNodeGoalReachedProbability` computes for it from its current children (no
ancestor is itself a goal node with a better goal probability than its children give),
then a `GoalReachedCallback` for `g` that completes without an error does not decrease
the root's goal probability. -/
theorem goalReachedCallback_root_monotone (fuel : Nat) (planner after : UncertaintyPlanningSpace)
    (g K : Nat) (new_goal : UncertaintyPlanningTreeState)
    (hlink : ConsistentLinkage planner.nearest_neighbors_storage)
    (hfuel : planner.nearest_neighbors_storage.length ≤ fuel)
    (hpos : 0 < g) (hg : planner.nearest_neighbors_storage[g]? = some new_goal)
    (hrange : ∀ n ∈ planner.nearest_neighbors_storage, StateInRange n.value)
    (hanc : ∀ a ∈ ancestorChain planner.nearest_neighbors_storage fuel new_goal.parent_index,
      AncestorNotAbove planner.nearest_neighbors_storage K a)
    (hrun : GoalReachedCallback fuel planner (g : Int) K = (after, none)) :
    ∃ root root_after, planner.nearest_neighbors_storage[0]? = some root
      ∧ after.nearest_neighbors_storage[0]? = some root_after
      ∧ after.total_goal_reached_probability = root_after.value.goal_Pfeasibility
      ∧ root.value.goal_Pfeasibility ≤ after.total_goal_reached_probability := by
  have hlt := getElem?_lt_length hg
  obtain ⟨r, hr0, hrlt, hwalk, _⟩ := goalBranchRootWalk_spec
    planner.goal_probability_threshold planner.nearest_neighbors_storage hlink g fuel g hpos hlt
    (by omega) Relation.ReflTransGen.refl
  obtain ⟨t', hbrun, hs, _⟩ := blacklist_spec planner.nearest_neighbors_storage hlink fuel
    planner.nearest_neighbors_storage r rfl hr0 hrlt (by omega)
  have hbl : blacklistNewGoalBranch fuel planner (g : Int)
      = .ok { planner with nearest_neighbors_storage := t' } := by
    unfold blacklistNewGoalBranch
    rw [hwalk]
    simp only [hbrun]
  have hle := goalLe_of_sameExceptUse hs
  unfold GoalReachedCallback at hrun
  rw [hbl] at hrun
  simp only at hrun
  cases hp : propagateGoalProbability fuel { planner with nearest_neighbors_storage := t' }
      (g : Int) K with
  | error e => rw [hp] at hrun; simp at hrun
  | ok updated =>
    rw [hp] at hrun
    simp only [Prod.mk.injEq, and_true] at hrun
    subst hrun
    unfold propagateGoalProbability at hp
    simp only [treeAt_natCast] at hp
    obtain ⟨ng, hng, hngle⟩ := forall₂_getElem? hle g new_goal hg
    rw [hng] at hp
    simp only at hp
    split_ifs at hp
    cases hu : updateAncestors K fuel t' ng.parent_index with
    | error e => rw [hu] at hp; cases hp
    | ok s' =>
      rw [hu] at hp
      simp only at hp
      cases h0 : s'[0]? with
      | none => rw [h0] at hp; cases hp
      | some root_after =>
        rw [h0] at hp
        simp only [Except.ok.injEq] at hp
        subst hp
        rw [hngle.2.1] at hu
        have hfin := updateAncestors_goalLe planner.nearest_neighbors_storage hrange K fuel t'
          s' new_goal.parent_index hle hanc hu
        have hroot : planner.nearest_neighbors_storage[0]?
            = some planner.nearest_neighbors_storage[0] :=
          List.getElem?_eq_getElem (by omega)
        obtain ⟨r2, hr2, hr2le⟩ := forall₂_getElem? hfin 0 _ hroot
        rw [h0] at hr2
        cases hr2
        exact ⟨_, root_after, hroot, h0, rfl, hr2le.2.2.2.2.2.2.2⟩

/-- C9 (failing input): a goal node whose child becomes a goal.  After the goal
event at node `1` (goal probability `1`) the tree is `chainAfterFirstGoal`; the root,
the only node updated so far, holds exactly the value `1` that
`UpdateNodeGoalReachedProbability` computes from its children.  The next state of the
chain, node `2`, is a goal with probability `1 / 2`; its `GoalReachedCallback` on the
tree `chainSecondGoal`, which has consistent linkage, completes without an error,
overwrites the goal probability of the goal node `1` with `1 / 2` and lowers the
root's goal probability, and with it `total_goal_reached_probability`, from `1` to
`1 / 2`. -/
theorem C9_goal_below_goal_lowers_root :
    GoalReachedCallback 2 (freshPlanner (1 / 4) chainFirstGoal) 1 1
      = ({ freshPlanner (1 / 4) chainAfterFirstGoal with
            total_goal_reached_probability := 1 }, none)
    ∧ ConsistentLinkage chainSecondGoal
    ∧ chainSecondGoal[0]? = some (mkNode (startState.SetGoalPfeasibility 1) (-1) [1])
    ∧ nodeGoalReachedProbability chainSecondGoal
        (mkNode (startState.SetGoalPfeasibility 1) (-1) [1]) 1
        = .ok (mkNode (startState.SetGoalPfeasibility 1) (-1) [1]).value.goal_Pfeasibility
    ∧ (GoalReachedCallback 3 { freshPlanner (1 / 4) chainSecondGoal with
          total_goal_reached_probability := 1 } 2 1).2 = none
    ∧ (GoalReachedCallback 3 { freshPlanner (1 / 4) chainSecondGoal with
          total_goal_reached_probability := 1 } 2 1).1.total_goal_reached_probability = 1 / 2
    ∧ (1 / 2 : ℚ) < (mkNode (startState.SetGoalPfeasibility 1) (-1) [1]).value.goal_Pfeasibility
    ∧ (∃ n, chainSecondGoal[1]? = some n ∧ n.value.goal_Pfeasibility = 1)
    ∧ ∃ n, (GoalReachedCallback 3 { freshPlanner (1 / 4) chainSecondGoal with
          total_goal_reached_probability := 1 } 2 1).1.nearest_neighbors_storage[1]? = some n
        ∧ n.value.goal_Pfeasibility = 1 / 2 := by
  refine ⟨?_, by decide, rfl, ?_, ?_, ?_, ?_, ?_, ?_⟩
  · norm_num [GoalReachedCallback, blacklistNewGoalBranch, goalBranchRootWalk,
      CheckIfGoalBranchRoot, otherChildrenBlacklisted, BlacklistGoalBranch,
      propagateGoalProbability, updateAncestors, UpdateNodeGoalReachedProbability,
      nodeGoalReachedProbability, groupChildren, mapPushBack, branchProbabilities,
      collectChildStates, ComputeTransitionGoalProbability, maxElement, treeAt,
      Int.toNat, disableNode, pure, Except.pure, bind, Except.bind, freshPlanner,
      chainFirstGoal, chainAfterFirstGoal, mkNode, startState, UncertaintyPlanningState.make,
      UncertaintyPlanningState.SetGoalPfeasibility,
      UncertaintyPlanningState.DisableForNearestNeighbors]
  · norm_num [nodeGoalReachedProbability, groupChildren, mapPushBack, branchProbabilities,
      collectChildStates, ComputeTransitionGoalProbability, maxElement, treeAt,
      Int.toNat, chainSecondGoal, mkNode, startState, UncertaintyPlanningState.make,
      UncertaintyPlanningState.SetGoalPfeasibility,
      UncertaintyPlanningState.DisableForNearestNeighbors]
  · norm_num [GoalReachedCallback, blacklistNewGoalBranch, goalBranchRootWalk,
      CheckIfGoalBranchRoot, otherChildrenBlacklisted, BlacklistGoalBranch,
      propagateGoalProbability, updateAncestors, UpdateNodeGoalReachedProbability,
      nodeGoalReachedProbability, groupChildren, mapPushBack, branchProbabilities,
      collectChildStates, ComputeTransitionGoalProbability, maxElement, treeAt,
      Int.toNat, disableNode, pure, Except.pure, bind, Except.bind, freshPlanner,
      chainSecondGoal, mkNode, startState, UncertaintyPlanningState.make,
      UncertaintyPlanningState.SetGoalPfeasibility,
      UncertaintyPlanningState.DisableForNearestNeighbors]
  · norm_num [GoalReachedCallback, blacklistNewGoalBranch, goalBranchRootWalk,
      CheckIfGoalBranchRoot, otherChildrenBlacklisted, BlacklistGoalBranch,
      propagateGoalProbability, updateAncestors, UpdateNodeGoalReachedProbability,
      nodeGoalReachedProbability, groupChildren, mapPushBack, branchProbabilities,
      collectChildStates, ComputeTransitionGoalProbability, maxElement, treeAt,
      Int.toNat, disableNode, pure, Except.pure, bind, Except.bind, freshPlanner,
      chainSecondGoal, mkNode, startState, UncertaintyPlanningState.make,
      UncertaintyPlanningState.SetGoalPfeasibility,
      UncertaintyPlanningState.DisableForNearestNeighbors]
  · norm_num [mkNode, startState, UncertaintyPlanningState.make,
      UncertaintyPlanningState.SetGoalPfeasibility]
  · norm_num [chainSecondGoal, mkNode, UncertaintyPlanningState.make,
      UncertaintyPlanningState.SetGoalPfeasibility,
      UncertaintyPlanningState.DisableForNearestNeighbors]
  · norm_num [GoalReachedCallback, blacklistNewGoalBranch, goalBranchRootWalk,
      CheckIfGoalBranchRoot, otherChildrenBlacklisted, BlacklistGoalBranch,
      propagateGoalProbability, updateAncestors, UpdateNodeGoalReachedProbability,
      nodeGoalReachedProbability, groupChildren, mapPushBack, branchProbabilities,
      collectChildStates, ComputeTransitionGoalProbability, maxElement, treeAt,
      Int.toNat, disableNode, pure, Except.pure, bind, Except.bind, freshPlanner,
      chainSecondGoal, mkNode, startState, UncertaintyPlanningState.make,
      UncertaintyPlanningState.SetGoalPfeasibility,
      UncertaintyPlanningState.DisableForNearestNeighbors]

/-- The goal event at node `3` of `goalAtThree` with one try attempt raises the root's
goal probability from `0` to `3 / 10`. -/
theorem goalAtThree_root_monotone :
    ∃ root root_after, (freshPlanner (1 / 4) goalAtThree).nearest_neighbors_storage[0]? = some root
      ∧ ({ freshPlanner (1 / 4) resolvedSplitTree with
            total_goal_reached_probability := 3 / 10 } :
              UncertaintyPlanningSpace).nearest_neighbors_storage[0]? = some root_after
      ∧ ({ freshPlanner (1 / 4) resolvedSplitTree with
            total_goal_reached_probability := 3 / 10 } :
              UncertaintyPlanningSpace).total_goal_reached_probability
          = root_after.value.goal_Pfeasibility
      ∧ root.value.goal_Pfeasibility
          ≤ ({ freshPlanner (1 / 4) resolvedSplitTree with
            total_goal_reached_probability := 3 / 10 } :
              UncertaintyPlanningSpace).total_goal_reached_probability :=
  goalReachedCallback_root_monotone 4 (freshPlanner (1 / 4) goalAtThree)
    { freshPlanner (1 / 4) resolvedSplitTree with total_goal_reached_probability := 3 / 10 }
    3 1
    (mkNode ((UncertaintyPlanningState.make 3 3 10 3 (3 / 10) 3 3 1 3 5 1
      true).SetGoalPfeasibility 1) 1 [])
    (by decide) (by decide) (by decide) rfl
    (by
      intro n hn
      simp only [freshPlanner, goalAtThree, List.mem_cons, List.mem_singleton,
        List.not_mem_nil, or_false] at hn
      rcases hn with rfl | rfl | rfl | rfl <;>
        norm_num [StateInRange, mkNode, startState, UncertaintyPlanningState.make,
          UncertaintyPlanningState.SetGoalPfeasibility])
    (by
      intro a ha
      simp only [ancestorChain, treeAt, freshPlanner, goalAtThree, mkNode] at ha
      norm_num [Int.toNat] at ha
      rcases ha with rfl | rfl
      · refine ⟨_, 3 / 10, rfl, ?_, ?_⟩
        · norm_num [nodeGoalReachedProbability, groupChildren, mapPushBack,
            branchProbabilities, collectChildStates, ComputeTransitionGoalProbability,
            goalChildLoop, clampChildGoalReached, childGoalReached, goalTryLoop,
            goalOtherLoop, maxElement, treeAt, Int.toNat, freshPlanner, goalAtThree, mkNode,
            startState, UncertaintyPlanningState.make,
            UncertaintyPlanningState.SetGoalPfeasibility]
        · norm_num [freshPlanner, goalAtThree, mkNode, UncertaintyPlanningState.make]
      · refine ⟨_, 0, rfl, ?_, ?_⟩
        · norm_num [nodeGoalReachedProbability, groupChildren, mapPushBack,
            branchProbabilities, collectChildStates, ComputeTransitionGoalProbability,
            maxElement, treeAt, Int.toNat, freshPlanner, goalAtThree, mkNode,
            startState, UncertaintyPlanningState.make,
            UncertaintyPlanningState.SetGoalPfeasibility]
        · norm_num [freshPlanner, goalAtThree, mkNode, startState,
            UncertaintyPlanningState.make])
    goalAtThree_callback

/-- C11 (counterexample): when the elapsed time equals the time limit (here
both are one second) and the goal threshold is switched off, the check answers
`false`, although `elapsed >= time_limit` holds. -/
theorem C11_counterexample_elapsed_equals_limit :
    PlannerTerminationCheck 1 1 0 0 = false ∧ (1 : ℚ) ≥ 1 := by
  constructor
  · simp [PlannerTerminationCheck]
  · norm_num

/-- C11 (amended): the check answers `true` exactly when the elapsed time is
strictly greater than the time limit, or the goal threshold is positive and the total
goal probability is at least the threshold minus `1e-10`; otherwise `false`. -/
theorem C11_termination_check_strict (elapsed time_limit p_goal_termination_threshold
    total_goal_reached_probability : ℚ) :
    PlannerTerminationCheck elapsed time_limit p_goal_termination_threshold
        total_goal_reached_probability = true ↔
      (elapsed > time_limit ∨
        (p_goal_termination_threshold > 0 ∧
          total_goal_reached_probability ≥ p_goal_termination_threshold - 1 / 10 ^ 10)) := by
  unfold PlannerTerminationCheck
  by_cases h1 : elapsed > time_limit
  · simp [h1]
  · by_cases h2 : p_goal_termination_threshold > 0
    · simp only [h1, h2, decide_False, Bool.false_eq_true, if_false, if_true, false_or,
        true_and]
      constructor
      · intro h
        split_ifs at h with h3
        · linarith
      · intro h
        rw [if_pos (by linarith)]
    · simp [h1, h2]

theorem scanCluster_no_contact (cluster : List SimulationResult)
    (h : ∀ p ∈ cluster, p.did_contact = false) (independent : Bool) :
    (scanCluster cluster (false, independent)).1 = false := by
  induction cluster generalizing independent with
  | nil => rfl
  | cons p rest ih =>
    have hp := h p (List.mem_cons_self _ _)
    simp only [scanCluster, hp, Bool.false_eq_true, if_false]
    exact ih (fun q hq => h q (List.mem_cons_of_mem _ hq)) _

theorem single_free_cluster_run (planner : UncertaintyPlanningSpace)
    (default_state nearest : UncertaintyPlanningState)
    (propagated_points : List SimulationResult) (final_index_clusters : List (List Nat))
    (reverse_edge_check : Nat → UncertaintyPlanningState → Nat × Nat)
    (planner_action_try_attempts : Nat) (allow_contacts include_reverse_actions : Bool)
    (cluster : List SimulationResult)
    (hcluster : ClusterParticles propagated_points final_index_clusters allow_contacts
      = .ok [cluster])
    (hall : cluster.length = propagated_points.length)
    (hpos : 0 < propagated_points.length)
    (hfree : ∀ p ∈ cluster, p.did_contact = false) :
    ∃ out child,
      ForwardSimulateStates planner default_state nearest propagated_points
        final_index_clusters reverse_edge_check planner_action_try_attempts allow_contacts
        include_reverse_actions = .ok out ∧
      out.result_states = [(child, -1)] ∧
      child.effective_edge_Pfeasibility = 1 ∧
      child.reverse_edge_Pfeasibility = (if include_reverse_actions = true then 1 else 0) ∧
      out.computed_reversibility = 0 := by
  have h0 : ∃ p, propagated_points[0]? = some p := by
    cases propagated_points with
    | nil => simp at hpos
    | cons p _ => exact ⟨p, by simp⟩
  obtain ⟨p0, hp0⟩ := h0
  have hlen : 0 < cluster.length := by omega
  have hn : (propagated_points.length : ℚ) ≠ 0 := by
    have : (0 : ℚ) < propagated_points.length := by exact_mod_cast hpos
    exact ne_of_gt this
  have hscan := scanCluster_no_contact cluster hfree true
  cases include_reverse_actions
  · simp [ForwardSimulateStates, hcluster, hp0, buildStates, buildState, hlen, hscan,
      reverseLoop, applyRetryArithmetic, UncertaintyPlanningState.make,
      UncertaintyPlanningState.UpdateReverseAttemptAndReachedCounts, hall, hn, hpos]
  · simp [ForwardSimulateStates, hcluster, hp0, buildStates, buildState, hlen, hscan,
      reverseLoop, applyRetryArithmetic, UncertaintyPlanningState.make,
      UncertaintyPlanningState.UpdateReverseAttemptAndReachedCounts, hall, hn, hpos]

/-- C20 (counterexample): two particles without contact fall into one cluster
and reverse actions are switched off; the child then has reverse edge probability
`0`, not `1` (the reverse loop overwrites the reverse counts with `(num_particles, 0)`). -/
theorem C20_counterexample_without_reverse_actions :
    ClusterParticles twoFreeParticles [[0, 1]] true = .ok [twoFreeParticles] ∧
    (∀ p ∈ twoFreeParticles, p.did_contact = false) ∧
    ∃ out child,
      ForwardSimulateStates (freshPlanner (1 / 2) []) zeroState startState twoFreeParticles
        [[0, 1]] (fun _ s => (s.num_particles, s.num_particles)) 1 true false = .ok out ∧
      out.result_states = [(child, -1)] ∧
      child.reverse_edge_Pfeasibility = 0 ∧ child.reverse_edge_Pfeasibility ≠ 1 := by
  have hc : ClusterParticles twoFreeParticles [[0, 1]] true = .ok [twoFreeParticles] := by
    simp [ClusterParticles, clusterLoop, clusterElements, twoFreeParticles]
  have hf : ∀ p ∈ twoFreeParticles, p.did_contact = false := by
    intro p hp
    simp [twoFreeParticles] at hp
    rw [hp]
  refine ⟨hc, hf, ?_⟩
  obtain ⟨out, child, hrun, hres, _, hrev, _⟩ :=
    single_free_cluster_run (freshPlanner (1 / 2) []) zeroState startState twoFreeParticles
      [[0, 1]] (fun _ s => (s.num_particles, s.num_particles)) 1 true false twoFreeParticles
      hc rfl (by simp [twoFreeParticles]) hf
  refine ⟨out, child, hrun, hres, ?_, ?_⟩
  · simpa using hrev
  · rw [hrev]; norm_num

/-- C20 (amended): when the simulation results form a single cluster that holds
all simulated particles, none of which made contact, `ForwardSimulateStates` returns
one child with effective edge probability `1`, the reverse simulator is not called
(for either value of `include_reverse_actions`), and the child's reverse edge
probability is `1` with reverse actions and `0` without them. -/
theorem C20_single_free_cluster (planner : UncertaintyPlanningSpace)
    (default_state nearest : UncertaintyPlanningState)
    (propagated_points : List SimulationResult) (final_index_clusters : List (List Nat))
    (reverse_edge_check : Nat → UncertaintyPlanningState → Nat × Nat)
    (planner_action_try_attempts : Nat) (allow_contacts include_reverse_actions : Bool)
    (cluster : List SimulationResult)
    (hcluster : ClusterParticles propagated_points final_index_clusters allow_contacts
      = .ok [cluster])
    (hall : cluster.length = propagated_points.length)
    (hpos : 0 < propagated_points.length)
    (hfree : ∀ p ∈ cluster, p.did_contact = false) :
    ∃ out child,
      ForwardSimulateStates planner default_state nearest propagated_points
        final_index_clusters reverse_edge_check planner_action_try_attempts allow_contacts
        include_reverse_actions = .ok out ∧
      out.result_states = [(child, -1)] ∧
      child.effective_edge_Pfeasibility = 1 ∧
      child.reverse_edge_Pfeasibility = (if include_reverse_actions = true then 1 else 0) ∧
      out.computed_reversibility = 0 :=
  single_free_cluster_run planner default_state nearest propagated_points
    final_index_clusters reverse_edge_check planner_action_try_attempts allow_contacts
    include_reverse_actions cluster hcluster hall hpos hfree

/-- Witness for C20 (amended): ten free particles in one cluster, with reverse actions. -/
theorem C20_single_free_cluster_witness :
    ∃ out child,
      ForwardSimulateStates (freshPlanner (1 / 2) []) zeroState startState tenFreeParticles
        [[0, 1, 2, 3, 4, 5, 6, 7, 8, 9]] (fun _ _ => (0, 0)) 1 true true = .ok out ∧
      out.result_states = [(child, -1)] ∧
      child.effective_edge_Pfeasibility = 1 ∧
      child.reverse_edge_Pfeasibility = (if true = true then 1 else 0) ∧
      out.computed_reversibility = 0 :=
  C20_single_free_cluster (freshPlanner (1 / 2) []) zeroState startState tenFreeParticles
    [[0, 1, 2, 3, 4, 5, 6, 7, 8, 9]] (fun _ _ => (0, 0)) 1 true true tenFreeParticles
    (by simp [ClusterParticles, clusterLoop, clusterElements, tenFreeParticles,
      List.replicate])
    rfl (by simp [tenFreeParticles])
    (by intro p hp; simp [tenFreeParticles] at hp; rw [hp])

theorem halfLossConnect_eval :
    ∃ s0 s1 planner, halfLossConnect = .ok ([(s0, -1), (s1, 0)], planner) ∧
      s0.motion_Pfeasibility = 1 / 2 ∧ s0.effective_edge_Pfeasibility = 1 / 2 ∧
      s1.motion_Pfeasibility = 1 / 2 ∧ s1.effective_edge_Pfeasibility = 1 / 2 := by
  simp [halfLossConnect, PerformForwardPropagation, freshPlanner, connectLoop,
    halfLossSteps, ForwardSimulateStates, ClusterParticles, clusterLoop, clusterElements,
    freeAndContact, buildStates, buildState, scanCluster, reverseLoop,
    applyRetryArithmetic, UncertaintyPlanningState.make, startState, incr64]
  norm_num
  exact ⟨_, _, ⟨rfl, rfl⟩, by norm_num⟩

theorem emptyClusterRun_eval :
    ∃ child dflt planner, emptyClusterRun =
        .ok { result_states := [(child, -1), (dflt, 0)], planner := planner,
              computed_reversibility := 2 } ∧
      child.initialized = true ∧ child.state_id = 1 ∧ child.split_id = 1 ∧
      dflt.initialized = false ∧ dflt.state_id = 0 ∧ dflt.split_id = 0 ∧
      planner.split_id = 1 := by
  simp [emptyClusterRun, freshPlanner, ForwardSimulateStates, ClusterParticles,
    clusterLoop, clusterElements, freeAndContact, buildStates, buildState, scanCluster,
    reverseLoop, applyRetryArithmetic, UncertaintyPlanningState.make, startState, incr64,
    zeroState, updateEffectiveEdges, computePReached, storePReached, retryLoop,
    updatedPercentActive, UncertaintyPlanningState.UpdateReverseAttemptAndReachedCounts,
    UncertaintyPlanningState.SetEffectiveEdgePfeasibility]
  norm_num
  exact ⟨_, _, _, ⟨⟨rfl, rfl⟩, rfl⟩, by simp⟩

/-- C17 (failing input): in the two-step RRT-Connect propagation
`halfLossConnect` the second state is attached to the first state of the batch (parent
offset `0`), yet its motion probability is the product of its edge probability with the
motion probability of `nearest`, not with that of its parent: `1/2` instead of `1/4`. -/
theorem C17_connect_motion_uses_nearest :
    ∃ s0 s1 planner, halfLossConnect = .ok ([(s0, -1), (s1, 0)], planner) ∧
      s1.motion_Pfeasibility = startState.motion_Pfeasibility * s1.effective_edge_Pfeasibility ∧
      s1.motion_Pfeasibility ≠ s0.motion_Pfeasibility * s1.effective_edge_Pfeasibility := by
  obtain ⟨s0, s1, planner, hrun, hm0, _, hm1, he1⟩ := halfLossConnect_eval
  refine ⟨s0, s1, planner, hrun, ?_, ?_⟩
  · rw [hm1, he1]; norm_num [startState, UncertaintyPlanningState.make]
  · rw [hm1, he1, hm0]; norm_num

/-- C18 (counterexample): the clustering returns two clusters of which the
second loses its only particle to the contact filter; a single child state is built,
and it carries the freshly incremented split id `1` instead of `0` (the other entry of
the result is the default-constructed state with split id `0`). -/
theorem C18_counterexample_lone_child_split_id :
    ClusterParticles freeAndContact [[0], [1]] false =
      .ok [[{ did_contact := false, outcome_is_nominally_independent := true }], []] ∧
    ∃ child dflt planner, emptyClusterRun =
        .ok { result_states := [(child, -1), (dflt, 0)], planner := planner,
              computed_reversibility := 2 } ∧
      child.initialized = true ∧ child.split_id = 1 ∧
      dflt.initialized = false ∧ dflt.split_id = 0 := by
  constructor
  · simp [ClusterParticles, clusterLoop, clusterElements, freeAndContact]
  · obtain ⟨child, dflt, planner, hrun, h1, _, h3, h4, _, h6, _⟩ := emptyClusterRun_eval
    exact ⟨child, dflt, planner, hrun, h1, h3, h4, h6⟩

/-- C19 (failing input): of the two clusters only the first holds
a particle, yet the result has two entries, the second being the default-constructed
state (not initialized, state id `0`) with parent offset `0`. -/
theorem C19_empty_cluster_has_entry :
    ClusterParticles freeAndContact [[0], [1]] false =
      .ok [[{ did_contact := false, outcome_is_nominally_independent := true }], []] ∧
    ∃ out child dflt, emptyClusterRun = .ok out ∧
      out.result_states = [(child, -1), (dflt, 0)] ∧
      out.result_states.length = 2 ∧
      child.state_id = 1 ∧ dflt.initialized = false ∧ dflt.state_id = 0 := by
  constructor
  · simp [ClusterParticles, clusterLoop, clusterElements, freeAndContact]
  · obtain ⟨child, dflt, planner, hrun, _, h2, _, h4, h5, _, _⟩ := emptyClusterRun_eval
    exact ⟨_, child, dflt, hrun, rfl, rfl, h2, h4, h5⟩

theorem goalAlike_refl (n : UncertaintyPlanningTreeState) : GoalAlike n n := Or.inl rfl

theorem goalAlike_pos {n m : UncertaintyPlanningTreeState} (h : GoalAlike n m) :
    (m.value.goal_Pfeasibility > 0 ↔ n.value.goal_Pfeasibility > 0) := by
  rcases h with h | ⟨hn, v, hv, h⟩
  · rw [h]
  · subst h
    simp only [UncertaintyPlanningState.SetGoalPfeasibility]
    constructor <;> intro h <;> linarith

theorem goalAlike_eq_of_pos {n m : UncertaintyPlanningTreeState} (h : GoalAlike n m)
    (hpos : n.value.goal_Pfeasibility > 0) : m = n := by
  rcases h with h | ⟨hn, _⟩
  · exact h
  · linarith

theorem goalAlike_fields {n m : UncertaintyPlanningTreeState} (h : GoalAlike n m) :
    m.parent_index = n.parent_index ∧ m.child_indices = n.child_indices ∧
    m.initialized = n.initialized ∧
    m.value.state_id = n.value.state_id ∧ m.value.transition_id = n.value.transition_id ∧
    m.value.reverse_edge_Pfeasibility = n.value.reverse_edge_Pfeasibility := by
  rcases h with h | ⟨_, v, _, h⟩
  · subst h; simp
  · subst h; simp [UncertaintyPlanningState.SetGoalPfeasibility]

theorem claimed_goalAlike (T : UncertaintyPlanningTree) (n : UncertaintyPlanningTreeState)
    (hrev : 0 ≤ n.value.reverse_edge_Pfeasibility) :
    GoalAlike n (claimedPostProcessNode T n) := by
  unfold claimedPostProcessNode
  split_ifs with h1
  · exact Or.inl rfl
  · cases hp : treeAt T n.parent_index with
    | none => exact Or.inl rfl
    | some parent =>
      simp only
      split_ifs with h2
      · have := mul_nonneg (le_of_lt h2.1) hrev
        exact Or.inr ⟨le_of_not_gt h1,
          -(parent.value.goal_Pfeasibility * n.value.reverse_edge_Pfeasibility),
          by linarith, rfl⟩
      · exact Or.inl rfl

theorem postProcessedUpTo_goalAlike {T t : UncertaintyPlanningTree} {k : Nat}
    (hrev : ReverseNonneg T) (h : PostProcessedUpTo T t k) (j : Nat)
    (n : UncertaintyPlanningTreeState) (hj : T[j]? = some n) :
    ∃ m, t[j]? = some m ∧ GoalAlike n m := by
  refine ⟨_, h.2 j n hj, ?_⟩
  split_ifs
  · exact claimed_goalAlike T n (hrev n (List.getElem?_mem hj))
  · exact goalAlike_refl n

theorem goalReachingSplitLoop_eq (T t : UncertaintyPlanningTree)
    (hrel : ∀ (j : Nat) (n : UncertaintyPlanningTreeState), T[j]? = some n →
      ∃ m, t[j]? = some m ∧ GoalAlike n m)
    (state : UncertaintyPlanningState) :
    ∀ children : List Int, (∀ c ∈ children, ∃ k : Nat, c = (k : Int) ∧ k < T.length) →
      goalReachingSplitLoop t state.state_id state.transition_id children
        = .ok (hasGoalReachingSibling T state children) := by
  intro children
  induction children with
  | nil => intro _; rfl
  | cons c rest ih =>
    intro hvalid
    obtain ⟨k, hck, hk⟩ := hvalid c (List.mem_cons_self _ _)
    have ih' := ih (fun c hc => hvalid c (List.mem_cons_of_mem _ hc))
    obtain ⟨n, hn⟩ : ∃ n, T[k]? = some n := ⟨T[k], List.getElem?_eq_getElem hk⟩
    obtain ⟨m, hm, hlike⟩ := hrel k n hn
    obtain ⟨_, _, _, hsid, htid, _⟩ := goalAlike_fields hlike
    have hpos := goalAlike_pos hlike
    have hT : treeAt T c = some n := by rw [hck, treeAt_natCast]; exact hn
    have ht : treeAt t c = some m := by rw [hck, treeAt_natCast]; exact hm
    unfold hasGoalReachingSibling at ih' ⊢
    rw [goalReachingSplitLoop, ht, List.any_cons, hT]
    simp only [hsid, htid, ih']
    by_cases h1 : state.state_id ≠ n.value.state_id ∧ state.transition_id = n.value.transition_id
    · rw [if_pos h1]
      by_cases h2 : n.value.goal_Pfeasibility > 0
      · rw [if_pos (hpos.2 h2), decide_eq_true (And.intro h1.1 (And.intro h1.2 h2)),
          Bool.true_or]
      · rw [if_neg (fun h => h2 (hpos.1 h)), decide_eq_false (fun h => h2 h.2.2),
          Bool.false_or]
    · rw [if_neg h1, decide_eq_false (fun h => h1 ⟨h.1, h.2.1⟩), Bool.false_or]

theorem postProcessLoop_spec (T : UncertaintyPlanningTree) (hT : ConsistentLinkage T)
    (hrev : ReverseNonneg T) :
    ∀ (remaining sdx : Nat) (t : UncertaintyPlanningTree),
      sdx + remaining = T.length → 1 ≤ sdx → PostProcessedUpTo T t sdx →
      ∃ out, postProcessLoop remaining sdx t = .ok out ∧ PostProcessedUpTo T out T.length := by
  intro remaining
  induction remaining with
  | zero =>
    intro sdx t hlen _ hinv
    exact ⟨t, rfl, by rw [← hlen]; exact hinv⟩
  | succ remaining ih =>
    intro sdx t hlen hsdx hinv
    have hlt : sdx < T.length := by omega
    obtain ⟨node, hnode⟩ : ∃ n, T[sdx]? = some n := ⟨T[sdx], List.getElem?_eq_getElem hlt⟩
    have htnode : t[sdx]? = some node := by
      have := hinv.2 sdx node hnode
      simpa using this
    obtain ⟨p, hp, hpi, pn, hpn, _⟩ := linkage_parent T hT sdx node hnode (by omega)
    obtain ⟨pm, hpm, hplike⟩ := postProcessedUpTo_goalAlike hrev hinv p pn hpn
    have hTp : treeAt T node.parent_index = some pn := by rw [hp, treeAt_natCast]; exact hpn
    have htp : treeAt t node.parent_index = some pm := by rw [hp, treeAt_natCast]; exact hpm
    -- the three ways the pass over `sdx` can leave the tree
    have keep : claimedPostProcessNode T node = node →
        PostProcessedUpTo T t (sdx + 1) := by
      intro hc
      refine ⟨hinv.1, fun j n hj => ?_⟩
      rw [hinv.2 j n hj]
      by_cases hjs : j = sdx
      · subst hjs
        have : n = node := by rw [hnode] at hj; exact (Option.some.inj hj).symm
        subst this
        simp [hsdx, hc]
      · have : (1 ≤ j ∧ j < sdx + 1) ↔ (1 ≤ j ∧ j < sdx) := by omega
        simp only [this]
    rw [postProcessLoop, htnode]
    simp only [htp]
    by_cases h1 : node.value.goal_Pfeasibility > 0
    · rw [if_pos h1]
      exact ih (sdx + 1) t (by omega) (by omega)
        (keep (by unfold claimedPostProcessNode; rw [if_pos h1]))
    · rw [if_neg h1]
      by_cases h2 : pn.value.goal_Pfeasibility > 0
      · have hpmeq : pm = pn := goalAlike_eq_of_pos hplike h2
        subst hpmeq
        rw [if_pos h2]
        have hvalid : ∀ c ∈ pm.child_indices, ∃ k : Nat, c = (k : Int) ∧ k < T.length := by
          intro c hc
          obtain ⟨k, hk, _, child, hchild, _⟩ := linkage_child T hT p pm hpn c hc
          exact ⟨k, hk, getElem?_lt_length hchild⟩
        rw [goalReachingSplitLoop_eq T t
          (fun j n hj => postProcessedUpTo_goalAlike hrev hinv j n hj) node.value
          pm.child_indices hvalid]
        simp only
        by_cases h3 : hasGoalReachingSibling T node.value pm.child_indices = true
        · rw [if_pos h3]
          refine ih (sdx + 1) _ (by omega) (by omega) ⟨?_, fun j n hj => ?_⟩
          · rw [List.length_set]; exact hinv.1
          · by_cases hjs : j = sdx
            · subst hjs
              have : n = node := by rw [hnode] at hj; exact (Option.some.inj hj).symm
              subst this
              rw [List.getElem?_set_self (by rw [hinv.1]; exact hlt)]
              simp [hsdx, claimedPostProcessNode, h1, hTp, h2, h3]
            · rw [List.getElem?_set_ne (fun h => hjs h.symm), hinv.2 j n hj]
              have : (1 ≤ j ∧ j < sdx + 1) ↔ (1 ≤ j ∧ j < sdx) := by omega
              simp only [this]
        · rw [if_neg h3]
          exact ih (sdx + 1) t (by omega) (by omega)
            (keep (by simp [claimedPostProcessNode, h1, hTp, h3]))
      · have h2' : ¬ pm.value.goal_Pfeasibility > 0 := fun h => h2 ((goalAlike_pos hplike).1 h)
        rw [if_neg h2']
        exact ih (sdx + 1) t (by omega) (by omega)
          (keep (by simp [claimedPostProcessNode, h1, hTp, h2]))

theorem allIdx_of_getElem? {α : Type} (p : Nat → α → Bool) :
    ∀ (l : List α) (offset : Nat),
      (∀ (j : Nat) (a : α), l[j]? = some a → p (offset + j) a = true) →
      allIdx p l offset = true := by
  intro l
  induction l with
  | nil => intro _ _; rfl
  | cons a rest ih =>
    intro offset h
    simp only [allIdx, Bool.and_eq_true]
    refine ⟨by simpa using h 0 a (by simp), ih (offset + 1) (fun j b hj => ?_)⟩
    have := h (j + 1) b (by simpa using hj)
    rw [show offset + 1 + j = offset + (j + 1) by omega]
    exact this

theorem treeAt_goalAlike {T t : UncertaintyPlanningTree} (hlen : t.length = T.length)
    (hrel : ∀ (j : Nat) (n : UncertaintyPlanningTreeState), T[j]? = some n →
      ∃ m, t[j]? = some m ∧ GoalAlike n m) (x : Int) :
    (treeAt T x = none ∧ treeAt t x = none) ∨
      ∃ n m, treeAt T x = some n ∧ treeAt t x = some m ∧ GoalAlike n m := by
  cases hx : treeAt T x with
  | none =>
    left
    refine ⟨rfl, ?_⟩
    unfold treeAt at hx ⊢
    split_ifs at hx ⊢ with hneg
    · rfl
    · rw [List.getElem?_eq_none_iff] at hx ⊢
      omega
  | some n =>
    right
    obtain ⟨k, hk, hn⟩ := treeAt_some hx
    obtain ⟨m, hm, hlike⟩ := hrel k n hn
    exact ⟨n, m, rfl, by rw [hk, treeAt_natCast]; exact hm, hlike⟩

theorem linkedNode_goalAlike {T t : UncertaintyPlanningTree} (hlen : t.length = T.length)
    (hrel : ∀ (j : Nat) (n : UncertaintyPlanningTreeState), T[j]? = some n →
      ∃ m, t[j]? = some m ∧ GoalAlike n m) (i : Nat)
    {n m : UncertaintyPlanningTreeState} (hnm : GoalAlike n m) :
    linkedNode t i m = linkedNode T i n := by
  obtain ⟨hp, hc, _⟩ := goalAlike_fields hnm
  unfold linkedNode
  rw [hp, hc]
  congr 1
  · split_ifs
    · rfl
    · congr 1
      rcases treeAt_goalAlike hlen hrel n.parent_index with ⟨h1, h2⟩ | ⟨a, b, h1, h2, h3⟩
      · rw [h1, h2]
      · rw [h1, h2]; simp only [(goalAlike_fields h3).2.1]
  · congr 1
    funext c
    congr 1
    rcases treeAt_goalAlike hlen hrel c with ⟨h1, h2⟩ | ⟨a, b, h1, h2, h3⟩
    · rw [h1, h2]
    · rw [h1, h2]; simp only [(goalAlike_fields h3).1]

theorem linkage_goalAlike {T t : UncertaintyPlanningTree} (hlen : t.length = T.length)
    (hrel : ∀ (j : Nat) (n : UncertaintyPlanningTreeState), T[j]? = some n →
      ∃ m, t[j]? = some m ∧ GoalAlike n m) (hT : ConsistentLinkage T) :
    ConsistentLinkage t := by
  apply allIdx_of_getElem?
  intro j m hm
  have hj : j < T.length := by rw [← hlen]; exact getElem?_lt_length hm
  obtain ⟨m', hm', hlike⟩ := hrel j T[j] (List.getElem?_eq_getElem hj)
  have : m' = m := by rw [hm] at hm'; exact (Option.some.inj hm').symm
  subst this
  rw [Nat.zero_add, linkedNode_goalAlike hlen hrel j hlike]
  have := linkage_node T hT j T[j] (List.getElem?_eq_getElem hj)
  exact this

theorem hasGoalReachingSibling_goalAlike {T t : UncertaintyPlanningTree}
    (hlen : t.length = T.length)
    (hrel : ∀ (j : Nat) (n : UncertaintyPlanningTreeState), T[j]? = some n →
      ∃ m, t[j]? = some m ∧ GoalAlike n m) (s s' : UncertaintyPlanningState)
    (hsid : s'.state_id = s.state_id) (htid : s'.transition_id = s.transition_id)
    (children : List Int) :
    hasGoalReachingSibling t s' children = hasGoalReachingSibling T s children := by
  unfold hasGoalReachingSibling
  congr 1
  funext c
  rcases treeAt_goalAlike hlen hrel c with ⟨h1, h2⟩ | ⟨a, b, h1, h2, h3⟩
  · rw [h1, h2]
  · rw [h1, h2]
    obtain ⟨_, _, _, h4, h5, _⟩ := goalAlike_fields h3
    simp only [hsid, htid, h4, h5, goalAlike_pos h3]

theorem claimedPostProcessNode_idem {T t : UncertaintyPlanningTree}
    (hlen : t.length = T.length)
    (hrel : ∀ (j : Nat) (n : UncertaintyPlanningTreeState), T[j]? = some n →
      ∃ m, t[j]? = some m ∧ GoalAlike n m) (n : UncertaintyPlanningTreeState)
    (hrev : 0 ≤ n.value.reverse_edge_Pfeasibility) :
    claimedPostProcessNode t (claimedPostProcessNode T n) = claimedPostProcessNode T n := by
  by_cases h1 : n.value.goal_Pfeasibility > 0
  · have : claimedPostProcessNode T n = n := by unfold claimedPostProcessNode; rw [if_pos h1]
    rw [this]
    unfold claimedPostProcessNode; rw [if_pos h1]
  · rcases treeAt_goalAlike hlen hrel n.parent_index with ⟨hT, ht⟩ | ⟨pn, pm, hT, ht, hlike⟩
    · have : claimedPostProcessNode T n = n := by
        unfold claimedPostProcessNode; rw [if_neg h1, hT]
      rw [this]
      unfold claimedPostProcessNode; rw [if_neg h1, ht]
    · obtain ⟨_, hch, _⟩ := goalAlike_fields hlike
      by_cases h2 : pn.value.goal_Pfeasibility > 0
          ∧ hasGoalReachingSibling T n.value pn.child_indices = true
      · have hpm : pm = pn := goalAlike_eq_of_pos hlike h2.1
        subst hpm
        have hv : claimedPostProcessNode T n =
            { n with value := (n.value.SetGoalPfeasibility
              (-(pm.value.goal_Pfeasibility * n.value.reverse_edge_Pfeasibility))) } := by
          unfold claimedPostProcessNode; rw [if_neg h1, hT]; simp only; rw [if_pos h2]
        rw [hv]
        have hle : ¬ (-(pm.value.goal_Pfeasibility * n.value.reverse_edge_Pfeasibility)) > 0 := by
          have := mul_nonneg (le_of_lt h2.1) hrev
          linarith
        have hsib := hasGoalReachingSibling_goalAlike hlen hrel n.value
          (n.value.SetGoalPfeasibility
            (-(pm.value.goal_Pfeasibility * n.value.reverse_edge_Pfeasibility))) rfl rfl
          pm.child_indices
        unfold claimedPostProcessNode
        simp only [UncertaintyPlanningState.SetGoalPfeasibility] at hle hsib ⊢
        rw [if_neg hle, ht]
        simp only
        rw [if_pos ⟨h2.1, by rw [hsib]; exact h2.2⟩]
      · have : claimedPostProcessNode T n = n := by
          unfold claimedPostProcessNode; rw [if_neg h1, hT]; simp only; rw [if_neg h2]
        rw [this]
        unfold claimedPostProcessNode; rw [if_neg h1, ht]; simp only
        rw [if_neg]
        rw [hch, hasGoalReachingSibling_goalAlike hlen hrel n.value n.value rfl rfl,
          goalAlike_pos hlike]
        exact h2

theorem goalAlike_eraseGoal {n m : UncertaintyPlanningTreeState} (h : GoalAlike n m) :
    eraseGoal m = eraseGoal n := by
  rcases h with h | ⟨_, v, _, h⟩
  · rw [h]
  · subst h
    simp [eraseGoal, UncertaintyPlanningState.SetGoalPfeasibility]

theorem sameExceptGoal_of_goalAlike {T t : UncertaintyPlanningTree}
    (hlen : t.length = T.length)
    (hrel : ∀ (j : Nat) (n : UncertaintyPlanningTreeState), T[j]? = some n →
      ∃ m, t[j]? = some m ∧ GoalAlike n m) :
    SameExceptGoal t T := by
  unfold SameExceptGoal
  apply List.ext_getElem?
  intro j
  rw [List.getElem?_map, List.getElem?_map]
  cases hT : T[j]? with
  | none =>
    have : t[j]? = none := by
      rw [List.getElem?_eq_none_iff] at hT ⊢
      omega
    rw [this]
  | some n =>
    obtain ⟨m, hm, hlike⟩ := hrel j n hT
    rw [hm]
    simp only [Option.map_some']
    rw [goalAlike_eraseGoal hlike]

theorem postProcessTree_spec (T : UncertaintyPlanningTree) (hT : ConsistentLinkage T)
    (hrev : ReverseNonneg T) :
    ∃ out, PostProcessTree T = .ok out ∧ PostProcessedUpTo T out T.length := by
  unfold PostProcessTree
  cases T with
  | nil => exact ⟨[], rfl, rfl, fun j n hj => by simp at hj⟩
  | cons root rest =>
    refine postProcessLoop_spec (root :: rest) hT hrev _ 1 (root :: rest)
      (by simp; omega) (le_refl 1) ⟨rfl, fun j n hj => ?_⟩
    rw [hj]
    have : ¬ (1 ≤ j ∧ j < 1) := by omega
    rw [if_neg this]

theorem reverseNonneg_of_goalAlike {T t : UncertaintyPlanningTree}
    (hlen : t.length = T.length)
    (hrel : ∀ (j : Nat) (n : UncertaintyPlanningTreeState), T[j]? = some n →
      ∃ m, t[j]? = some m ∧ GoalAlike n m) (hrev : ReverseNonneg T) :
    ReverseNonneg t := by
  intro m hm
  obtain ⟨j, hj, hget⟩ := List.getElem_of_mem hm
  have hjT : j < T.length := by rw [← hlen]; exact hj
  obtain ⟨m', hm', hlike⟩ := hrel j T[j] (List.getElem?_eq_getElem hjT)
  have : m' = m := by
    rw [List.getElem?_eq_getElem hj, hget] at hm'
    exact (Option.some.inj hm').symm
  subst this
  rw [(goalAlike_fields hlike).2.2.2.2.2]
  exact hrev _ (List.getElem_mem _)

theorem postProcessTree_idempotent (T : UncertaintyPlanningTree) (hT : ConsistentLinkage T)
    (hrev : ReverseNonneg T) :
    ∃ out, PostProcessTree T = .ok out ∧ PostProcessTree out = .ok out := by
  obtain ⟨out, hrun, hinv⟩ := postProcessTree_spec T hT hrev
  have hrel := fun j n hj => postProcessedUpTo_goalAlike hrev hinv j n hj
  have hlink := linkage_goalAlike hinv.1 hrel hT
  have hrev' := reverseNonneg_of_goalAlike hinv.1 hrel hrev
  obtain ⟨out2, hrun2, hinv2⟩ := postProcessTree_spec out hlink hrev'
  refine ⟨out, hrun, ?_⟩
  rw [hrun2]
  congr 1
  apply List.ext_getElem?
  intro j
  cases hout : out[j]? with
  | none =>
    rw [List.getElem?_eq_none_iff] at hout ⊢
    have := hinv2.1
    omega
  | some m =>
    rw [hinv2.2 j m hout]
    split_ifs with hj
    · have hjT : j < T.length := by rw [← hinv.1]; exact getElem?_lt_length hout
      have hm := hinv.2 j T[j] (List.getElem?_eq_getElem hjT)
      rw [hout, if_pos ⟨hj.1, hjT⟩] at hm
      have hm' := Option.some.inj hm
      rw [hm', claimedPostProcessNode_idem hinv.1 hrel T[j]
        (hrev _ (List.getElem_mem _))]
    · rfl

/-- C12: for every tree with consistent linkage (and reverse edge probabilities
that are not negative, as probabilities are), `PostProcessTree` returns a tree of the
same size and linkage that agrees with the input in every field but `goal_p`; the root
is unchanged, and every non-root node is what the specification says, all reads being
from the input tree: kept when its `goal_p > 0`; given
`goal_p = -(goal_p(parent) * reverse_edge_p)` when its `goal_p <= 0`, its parent has
`goal_p > 0` and another child of the parent with the same transition id and a
different state id has `goal_p > 0`; unchanged otherwise. -/
theorem C12_post_process_tree (tree : UncertaintyPlanningTree)
    (hlink : ConsistentLinkage tree) (hrev : ReverseNonneg tree) :
    ∃ out, PostProcessTree tree = .ok out ∧ out.length = tree.length ∧
      ConsistentLinkage out ∧ SameExceptGoal out tree ∧ out[0]? = tree[0]? ∧
      ∀ (i : Nat) (node : UncertaintyPlanningTreeState), 0 < i → tree[i]? = some node →
        out[i]? = some (claimedPostProcessNode tree node) := by
  obtain ⟨out, hrun, hinv⟩ := postProcessTree_spec tree hlink hrev
  have hrel := fun j n hj => postProcessedUpTo_goalAlike hrev hinv j n hj
  refine ⟨out, hrun, hinv.1, linkage_goalAlike hinv.1 hrel hlink,
    sameExceptGoal_of_goalAlike hinv.1 hrel, ?_, fun i node hi hnode => ?_⟩
  · cases h0 : tree[0]? with
    | none =>
      rw [List.getElem?_eq_none_iff] at h0 ⊢
      have := hinv.1
      omega
    | some root =>
      rw [hinv.2 0 root h0]
      simp
  · rw [hinv.2 i node hnode, if_pos ⟨hi, getElem?_lt_length hnode⟩]

theorem resolvedSplitTree_reverseNonneg : ReverseNonneg resolvedSplitTree := by
  intro node hnode
  simp only [resolvedSplitTree, List.mem_cons, List.mem_singleton, List.not_mem_nil,
    or_false] at hnode
  rcases hnode with h | h | h | h <;> subst h <;>
    norm_num [mkNode, startState, UncertaintyPlanningState.make,
      UncertaintyPlanningState.SetGoalPfeasibility,
      UncertaintyPlanningState.DisableForNearestNeighbors]

theorem resolvedSplitTree_linkage : ConsistentLinkage resolvedSplitTree := by decide

/-- Witness for C12: the tree `resolvedSplitTree`, where node `2` is the stuck child of a
split whose other child reached the goal. -/
theorem C12_post_process_tree_witness :
    ∃ out, PostProcessTree resolvedSplitTree = .ok out ∧
      out.length = resolvedSplitTree.length ∧
      ConsistentLinkage out ∧ SameExceptGoal out resolvedSplitTree ∧
      out[0]? = resolvedSplitTree[0]? ∧
      ∀ (i : Nat) (node : UncertaintyPlanningTreeState), 0 < i →
        resolvedSplitTree[i]? = some node →
        out[i]? = some (claimedPostProcessNode resolvedSplitTree node) :=
  C12_post_process_tree resolvedSplitTree resolvedSplitTree_linkage
    resolvedSplitTree_reverseNonneg

/-- C13: `PostProcessTree` is idempotent: for every tree with consistent linkage
(and reverse edge probabilities that are not negative) it returns a tree, and applied
to that tree it returns the same tree again. -/
theorem C13_post_process_idempotent (tree : UncertaintyPlanningTree)
    (hlink : ConsistentLinkage tree) (hrev : ReverseNonneg tree) :
    ∃ out, PostProcessTree tree = .ok out ∧ PostProcessTree out = .ok out :=
  postProcessTree_idempotent tree hlink hrev

/-- Witness for C13: the tree `resolvedSplitTree`. -/
theorem C13_post_process_idempotent_witness :
    ∃ out, PostProcessTree resolvedSplitTree = .ok out ∧ PostProcessTree out = .ok out :=
  C13_post_process_idempotent resolvedSplitTree resolvedSplitTree_linkage
    resolvedSplitTree_reverseNonneg

theorem brokenChainTree_valid : ValidLinkage brokenChainTree := by decide

theorem brokenChainTree_prune (CheckTreeLinkage : UncertaintyPlanningTree → Bool)
    (h1 : CheckTreeLinkage brokenChainTree = true)
    (h2 : CheckTreeLinkage [mkNode (startState.SetGoalPfeasibility 1) (-1) []] = true)
    (include_spur_actions : Bool) :
    PruneTree CheckTreeLinkage 3 brokenChainTree include_spur_actions
      = .ok [mkNode (startState.SetGoalPfeasibility 1) (-1) []] := by
  unfold PruneTree
  rw [if_neg (by simp [brokenChainTree]), h1]
  simp [brokenChainTree, pruneMarkLoop, pruneMark, mkNode,
    ExtractChildStates, extractLoop, treeAt, startState, UncertaintyPlanningState.make,
    UncertaintyPlanningState.SetGoalPfeasibility,
    UncertaintyPlanningTreeState.SetParentIndex,
    UncertaintyPlanningTreeState.ClearChildIndicies,
    UncertaintyPlanningTreeState.AddChildIndex] at h2 ⊢
  simp [h2]

theorem getElem?_append_cons_self {α : Type} (pre : List α) (x : α) (post : List α) :
    (pre ++ x :: post)[pre.length]? = some x := by
  rw [List.getElem?_append_right (le_refl _)]
  simp

theorem set_append_cons_self {α : Type} (pre : List α) (x y : α) (post : List α) :
    (pre ++ x :: post).set pre.length y = pre ++ y :: post := by
  induction pre with
  | nil => rfl
  | cons a pre ih => simp [ih]

theorem treeAt_append_cons_self (pre : UncertaintyPlanningTree)
    (x : UncertaintyPlanningTreeState) (post : UncertaintyPlanningTree) :
    treeAt (pre ++ x :: post) (pre.length : Int) = some x := by
  rw [treeAt_natCast, getElem?_append_cons_self]

theorem extractionFits_initialized {fuel : Nat} {raw : UncertaintyPlanningTree} {c : Int}
    {child : UncertaintyPlanningTreeState} (hfit : extractionFits fuel raw c = true)
    (hc : treeAt raw c = some child) : child.initialized = true := by
  cases fuel with
  | zero => simp [extractionFits] at hfit
  | succ fuel =>
    rw [extractionFits, hc] at hfit
    simp only [Bool.and_eq_true] at hfit
    exact hfit.1

theorem extractLoop_eq_build (fuel : Nat) (raw : UncertaintyPlanningTree)
    (ih : ∀ (c : Int) (pre : UncertaintyPlanningTree) (X : UncertaintyPlanningTreeState),
      extractionFits fuel raw c = true → X.initialized = true →
      ExtractChildStates fuel raw c (pre.length : Int) (pre ++ [X])
        = .ok (pre ++ buildSubtree fuel raw c pre.length X))
    (pre : UncertaintyPlanningTree) (X : UncertaintyPlanningTreeState) :
    ∀ (cs : List Int) (ps : List Int) (segs : UncertaintyPlanningTree) (cur : Nat),
      cur = pre.length + 1 + segs.length →
      (cs.all (fun c =>
        match treeAt raw c with
        | none => false
        | some child =>
          if child.parent_index ≥ 0 then extractionFits fuel raw c else true) = true) →
      (∀ q ∈ ps, q < (cur : Int)) →
      extractLoop (ExtractChildStates fuel raw) raw (pre.length : Int) cs
          (pre ++ { X with child_indices := ps } :: segs)
        = .ok (pre ++ { X with child_indices :=
              ps ++ (buildChildren (buildSubtree fuel raw) raw pre.length cs cur).1 } ::
            (segs ++ (buildChildren (buildSubtree fuel raw) raw pre.length cs cur).2)) := by
  intro cs
  induction cs with
  | nil =>
    intro ps segs cur _ _ _
    simp [extractLoop, buildChildren]
  | cons c rest ihc =>
    intro ps segs cur hcur hall hps
    rw [List.all_cons, Bool.and_eq_true] at hall
    obtain ⟨hc, hrest⟩ := hall
    cases hchild : treeAt raw c with
    | none => rw [hchild] at hc; cases hc
    | some child =>
      rw [hchild] at hc
      simp only at hc
      rw [extractLoop, hchild, buildChildren, hchild]
      simp only
      by_cases hkeep : child.parent_index ≥ 0
      · rw [if_pos hkeep] at hc
        rw [if_pos hkeep, if_pos hkeep, treeAt_append_cons_self]
        simp only
        have hlen : (pre ++ { X with child_indices := ps } :: segs).length = cur := by
          rw [hcur]; simp; omega
        have hnot : (cur : Int) ∉ ps := by
          intro hm
          have := hps _ hm
          omega
        have hlinked : ((pre ++ { X with child_indices := ps } :: segs)
              ++ [child.SetParentIndex (pre.length : Int)]).set (pre.length : Int).toNat
              (UncertaintyPlanningTreeState.AddChildIndex { X with child_indices := ps }
                ((pre ++ { X with child_indices := ps } :: segs).length : Int))
            = (pre ++ { X with child_indices := ps ++ [(cur : Int)] } :: segs)
              ++ [child.SetParentIndex (pre.length : Int)] := by
          rw [hlen, Int.toNat_ofNat, List.append_assoc, List.cons_append,
            set_append_cons_self]
          simp [UncertaintyPlanningTreeState.AddChildIndex, hnot]
        rw [hlinked, hlen]
        have hlen' : (pre ++ { X with child_indices := ps ++ [(cur : Int)] } :: segs).length
            = cur := by
          rw [hcur]; simp; omega
        have hrun := ih c (pre ++ { X with child_indices := ps ++ [(cur : Int)] } :: segs)
          (child.SetParentIndex (pre.length : Int)) hc
          (by
            have hinit : child.initialized = true := extractionFits_initialized hc hchild
            simpa [UncertaintyPlanningTreeState.SetParentIndex] using hinit)
        rw [hlen'] at hrun
        rw [hrun]
        simp only
        have hseg : 1 ≤ (buildSubtree fuel raw c cur
            (child.SetParentIndex (pre.length : Int))).length := by
          cases fuel with
          | zero => simp [buildSubtree]
          | succ f =>
            rw [buildSubtree]
            split <;> simp
        have hnext := ihc (ps ++ [(cur : Int)])
          (segs ++ buildSubtree fuel raw c cur (child.SetParentIndex (pre.length : Int)))
          (cur + (buildSubtree fuel raw c cur
            (child.SetParentIndex (pre.length : Int))).length)
          (by rw [hcur, List.length_append]; omega) hrest
          (by
            intro q hq
            rw [List.mem_append, List.mem_singleton] at hq
            rcases hq with hq | hq
            · have := hps q hq; omega
            · omega)
        rw [List.append_assoc, List.cons_append] at hnext ⊢
        rw [hnext]
        simp [List.append_assoc]
      · rw [if_neg hkeep, if_neg hkeep]
        exact ihc ps segs cur hcur hrest hps

theorem extract_eq_build (raw : UncertaintyPlanningTree) :
    ∀ (fuel : Nat) (r : Int) (pre : UncertaintyPlanningTree)
      (X : UncertaintyPlanningTreeState),
      extractionFits fuel raw r = true → X.initialized = true →
      ExtractChildStates fuel raw r (pre.length : Int) (pre ++ [X])
        = .ok (pre ++ buildSubtree fuel raw r pre.length X) := by
  intro fuel
  induction fuel with
  | zero => intro r pre X hfit _; simp [extractionFits] at hfit
  | succ fuel ih =>
    intro r pre X hfit hX
    rw [extractionFits] at hfit
    cases hr : treeAt raw r with
    | none => rw [hr] at hfit; cases hfit
    | some raw_parent =>
      rw [hr] at hfit
      simp only [Bool.and_eq_true] at hfit
      rw [ExtractChildStates, hr, buildSubtree, hr]
      simp only
      rw [if_neg (by rw [hfit.1]; decide), treeAt_append_cons_self]
      simp only
      rw [if_neg (by rw [hX]; decide), Int.toNat_ofNat, set_append_cons_self]
      have := extractLoop_eq_build fuel raw ih pre X raw_parent.child_indices [] []
        (pre.length + 1) (by simp) hfit.2 (by intro q hq; cases hq)
      simp only [List.nil_append] at this
      exact this

theorem holdsAt_append_left {O : UncertaintyPlanningTree} {pos : Nat}
    {S S' : UncertaintyPlanningTree} (h : HoldsAt O pos (S ++ S')) : HoldsAt O pos S := by
  intro j n hj
  apply h j n
  rw [List.getElem?_append_left (getElem?_lt_length hj)]
  exact hj

theorem holdsAt_append_right {O : UncertaintyPlanningTree} {pos : Nat}
    {S S' : UncertaintyPlanningTree} (h : HoldsAt O pos (S ++ S')) :
    HoldsAt O (pos + S.length) S' := by
  intro j n hj
  have := h (S.length + j) n (by
    rw [List.getElem?_append_right (by omega)]
    simpa using hj)
  rw [Nat.add_assoc]
  exact this

theorem holdsAt_cons_tail {O : UncertaintyPlanningTree} {pos : Nat}
    {H : UncertaintyPlanningTreeState} {S : UncertaintyPlanningTree}
    (h : HoldsAt O pos (H :: S)) : HoldsAt O (pos + 1) S := by
  intro j n hj
  have := h (j + 1) n (by simpa using hj)
  rw [Nat.add_assoc, Nat.add_comm 1 j]
  exact this

theorem holdsAt_cons_head {O : UncertaintyPlanningTree} {pos : Nat}
    {H : UncertaintyPlanningTreeState} {S : UncertaintyPlanningTree}
    (h : HoldsAt O pos (H :: S)) : O[pos]? = some H := by
  have := h 0 H (by simp)
  simpa using this

theorem buildSubtree_head (fuel : Nat) (raw : UncertaintyPlanningTree) (r : Int) (pos : Nat)
    (X : UncertaintyPlanningTreeState) :
    ∃ (ps : List Int) (rest : UncertaintyPlanningTree),
      buildSubtree fuel raw r pos X = { X with child_indices := ps } :: rest := by
  cases fuel with
  | zero => exact ⟨X.child_indices, [], rfl⟩
  | succ fuel =>
    rw [buildSubtree]
    cases treeAt raw r with
    | none => exact ⟨X.child_indices, [], rfl⟩
    | some raw_parent => exact ⟨_, _, rfl⟩

theorem buildChildren_self (fuel : Nat) (raw O : UncertaintyPlanningTree) (pos : Nat)
    (ih : ∀ (c : Int) (cur : Nat) (Xc H : UncertaintyPlanningTreeState),
      extractionFits fuel raw c = true →
      HoldsAt O cur (buildSubtree fuel raw c cur Xc) → O[cur]? = some H →
      buildSubtree fuel O (cur : Int) cur H = buildSubtree fuel raw c cur Xc) :
    ∀ (cs : List Int) (cur : Nat),
      (cs.all (fun c =>
        match treeAt raw c with
        | none => false
        | some child =>
          if child.parent_index ≥ 0 then extractionFits fuel raw c else true) = true) →
      HoldsAt O cur (buildChildren (buildSubtree fuel raw) raw pos cs cur).2 →
      buildChildren (buildSubtree fuel O) O pos
          (buildChildren (buildSubtree fuel raw) raw pos cs cur).1 cur
        = buildChildren (buildSubtree fuel raw) raw pos cs cur := by
  intro cs
  induction cs with
  | nil => intro cur _ _; rfl
  | cons c rest ihc =>
    intro cur hall hO
    rw [List.all_cons, Bool.and_eq_true] at hall
    obtain ⟨hc, hrest⟩ := hall
    cases hchild : treeAt raw c with
    | none => rw [hchild] at hc; cases hc
    | some child =>
      rw [hchild] at hc
      simp only at hc
      rw [buildChildren, hchild] at hO ⊢
      simp only at hO ⊢
      by_cases hkeep : child.parent_index ≥ 0
      · rw [if_pos hkeep] at hc hO ⊢
        simp only at hO ⊢
        obtain ⟨ps, rest', hseg⟩ := buildSubtree_head fuel raw c cur
          (child.SetParentIndex (pos : Int))
        have hOseg := holdsAt_append_left hO
        have hOtail := holdsAt_append_right hO
        have hH : O[cur]? = some { child.SetParentIndex (pos : Int) with child_indices := ps } := by
          rw [hseg] at hOseg
          exact holdsAt_cons_head hOseg
        rw [buildChildren, treeAt_natCast, hH]
        simp only [UncertaintyPlanningTreeState.SetParentIndex]
        rw [if_pos (by omega)]
        have hsub := ih c cur (child.SetParentIndex (pos : Int)) _ hc hOseg hH
        simp only [UncertaintyPlanningTreeState.SetParentIndex] at hsub hOtail ⊢
        rw [hsub, ihc _ hrest hOtail]
      · rw [if_neg hkeep] at hO ⊢
        exact ihc cur hrest hO

theorem buildSubtree_self (raw O : UncertaintyPlanningTree) :
    ∀ (fuel : Nat) (r : Int) (pos : Nat) (X H : UncertaintyPlanningTreeState),
      extractionFits fuel raw r = true →
      HoldsAt O pos (buildSubtree fuel raw r pos X) → O[pos]? = some H →
      buildSubtree fuel O (pos : Int) pos H = buildSubtree fuel raw r pos X := by
  intro fuel
  induction fuel with
  | zero => intro r pos X H hfit _ _; simp [extractionFits] at hfit
  | succ fuel ih =>
    intro r pos X H hfit hO hH
    rw [extractionFits] at hfit
    cases hr : treeAt raw r with
    | none => rw [hr] at hfit; cases hfit
    | some raw_parent =>
      rw [hr] at hfit
      simp only [Bool.and_eq_true] at hfit
      rw [buildSubtree, hr] at hO
      simp only at hO
      have hH' := holdsAt_cons_head hO
      rw [hH] at hH'
      have hHeq := Option.some.inj hH'
      conv_rhs => rw [buildSubtree, hr]
      conv_lhs => rw [buildSubtree, treeAt_natCast, hH]
      simp only
      rw [hHeq]
      simp only
      rw [buildChildren_self fuel raw O pos (ih) raw_parent.child_indices (pos + 1) hfit.2
        (holdsAt_cons_tail hO)]

theorem extractionFits_children_self (fuel : Nat) (raw O : UncertaintyPlanningTree) (pos : Nat)
    (ih : ∀ (c : Int) (cur : Nat) (Xc : UncertaintyPlanningTreeState),
      extractionFits fuel raw c = true → Xc.initialized = true →
      HoldsAt O cur (buildSubtree fuel raw c cur Xc) →
      extractionFits fuel O (cur : Int) = true) :
    ∀ (cs : List Int) (cur : Nat),
      (cs.all (fun c =>
        match treeAt raw c with
        | none => false
        | some child =>
          if child.parent_index ≥ 0 then extractionFits fuel raw c else true) = true) →
      HoldsAt O cur (buildChildren (buildSubtree fuel raw) raw pos cs cur).2 →
      ((buildChildren (buildSubtree fuel raw) raw pos cs cur).1.all (fun q =>
        match treeAt O q with
        | none => false
        | some child =>
          if child.parent_index ≥ 0 then extractionFits fuel O q else true) = true) := by
  intro cs
  induction cs with
  | nil => intro cur _ _; rfl
  | cons c rest ihc =>
    intro cur hall hO
    rw [List.all_cons, Bool.and_eq_true] at hall
    obtain ⟨hc, hrest⟩ := hall
    cases hchild : treeAt raw c with
    | none => rw [hchild] at hc; cases hc
    | some child =>
      rw [hchild] at hc
      simp only at hc
      rw [buildChildren, hchild] at hO ⊢
      simp only at hO ⊢
      by_cases hkeep : child.parent_index ≥ 0
      · rw [if_pos hkeep] at hc hO ⊢
        simp only at hO ⊢
        obtain ⟨ps, rest', hseg⟩ := buildSubtree_head fuel raw c cur
          (child.SetParentIndex (pos : Int))
        have hOseg := holdsAt_append_left hO
        have hOtail := holdsAt_append_right hO
        have hH : O[cur]? = some { child.SetParentIndex (pos : Int) with child_indices := ps } := by
          have h' := hOseg
          rw [hseg] at h'
          exact holdsAt_cons_head h'
        have hinit : child.initialized = true := extractionFits_initialized hc hchild
        rw [List.all_cons, Bool.and_eq_true]
        refine ⟨?_, ihc _ hrest hOtail⟩
        rw [treeAt_natCast, hH]
        simp only [UncertaintyPlanningTreeState.SetParentIndex]
        rw [if_pos (by omega)]
        exact ih c cur (child.SetParentIndex (pos : Int)) hc
          (by simpa [UncertaintyPlanningTreeState.SetParentIndex] using hinit) hOseg
      · rw [if_neg hkeep] at hO ⊢
        exact ihc cur hrest hO

theorem extractionFits_self (raw O : UncertaintyPlanningTree) :
    ∀ (fuel : Nat) (r : Int) (pos : Nat) (X : UncertaintyPlanningTreeState),
      extractionFits fuel raw r = true → X.initialized = true →
      HoldsAt O pos (buildSubtree fuel raw r pos X) →
      extractionFits fuel O (pos : Int) = true := by
  intro fuel
  induction fuel with
  | zero => intro r pos X hfit _ _; simp [extractionFits] at hfit
  | succ fuel ih =>
    intro r pos X hfit hX hO
    rw [extractionFits] at hfit
    cases hr : treeAt raw r with
    | none => rw [hr] at hfit; cases hfit
    | some raw_parent =>
      rw [hr] at hfit
      simp only [Bool.and_eq_true] at hfit
      rw [buildSubtree, hr] at hO
      simp only at hO
      rw [extractionFits, treeAt_natCast, holdsAt_cons_head hO]
      simp only [Bool.and_eq_true]
      exact ⟨hX, extractionFits_children_self fuel raw O pos ih raw_parent.child_indices
        (pos + 1) hfit.2 (holdsAt_cons_tail hO)⟩

theorem buildChildren_forall (Q : UncertaintyPlanningTreeState → Prop)
    (hQp : ∀ n p, Q n → Q (n.SetParentIndex p))
    (recurse : Int → Nat → UncertaintyPlanningTreeState → List UncertaintyPlanningTreeState)
    (raw : UncertaintyPlanningTree)
    (hraw : ∀ (c : Int) (child : UncertaintyPlanningTreeState), treeAt raw c = some child →
      child.parent_index ≥ 0 → Q child)
    (hrec : ∀ c cur X, Q X → ∀ n ∈ recurse c cur X, Q n) (pos : Nat) :
    ∀ (cs : List Int) (cur : Nat), ∀ n ∈ (buildChildren recurse raw pos cs cur).2, Q n := by
  intro cs
  induction cs with
  | nil => intro cur n hn; simp [buildChildren] at hn
  | cons c rest ihc =>
    intro cur n hn
    rw [buildChildren] at hn
    cases hchild : treeAt raw c with
    | none => rw [hchild] at hn; simp at hn
    | some child =>
      rw [hchild] at hn
      simp only at hn
      by_cases hkeep : child.parent_index ≥ 0
      · rw [if_pos hkeep] at hn
        simp only [List.mem_append] at hn
        rcases hn with hn | hn
        · exact hrec _ _ _ (hQp _ _ (hraw c child hchild hkeep)) n hn
        · exact ihc _ n hn
      · rw [if_neg hkeep] at hn
        exact ihc _ n hn

theorem buildSubtree_forall (Q : UncertaintyPlanningTreeState → Prop)
    (hQp : ∀ n p, Q n → Q (n.SetParentIndex p))
    (hQc : ∀ (n : UncertaintyPlanningTreeState) (l : List Int),
      Q n → Q { n with child_indices := l })
    (raw : UncertaintyPlanningTree)
    (hraw : ∀ (c : Int) (child : UncertaintyPlanningTreeState), treeAt raw c = some child →
      child.parent_index ≥ 0 → Q child) :
    ∀ (fuel : Nat) (r : Int) (pos : Nat) (X : UncertaintyPlanningTreeState), Q X →
      ∀ n ∈ buildSubtree fuel raw r pos X, Q n := by
  intro fuel
  induction fuel with
  | zero =>
    intro r pos X hX n hn
    simp only [buildSubtree, List.mem_singleton] at hn
    rw [hn]; exact hX
  | succ fuel ih =>
    intro r pos X hX n hn
    rw [buildSubtree] at hn
    cases hr : treeAt raw r with
    | none =>
      rw [hr] at hn
      simp only [List.mem_singleton] at hn
      rw [hn]; exact hX
    | some raw_parent =>
      rw [hr] at hn
      simp only [List.mem_cons] at hn
      rcases hn with hn | hn
      · rw [hn]; exact hQc X _ hX
      · exact buildChildren_forall Q hQp (buildSubtree fuel raw) raw hraw
          (fun c cur X hX => ih c cur X hX) pos _ _ n hn

theorem extractLoop_ok_fits (fuel : Nat) (raw : UncertaintyPlanningTree)
    (ih : ∀ (c pp : Int) (pruned out : UncertaintyPlanningTree),
      ExtractChildStates fuel raw c pp pruned = .ok out → extractionFits fuel raw c = true)
    (pp : Int) :
    ∀ (cs : List Int) (pruned out : UncertaintyPlanningTree),
      extractLoop (ExtractChildStates fuel raw) raw pp cs pruned = .ok out →
      (cs.all (fun c =>
        match treeAt raw c with
        | none => false
        | some child =>
          if child.parent_index ≥ 0 then extractionFits fuel raw c else true) = true) := by
  intro cs
  induction cs with
  | nil => intro _ _ _; rfl
  | cons c rest ihc =>
    intro pruned out h
    rw [extractLoop] at h
    rw [List.all_cons, Bool.and_eq_true]
    cases hchild : treeAt raw c with
    | none => rw [hchild] at h; cases h
    | some child =>
      rw [hchild] at h
      simp only at h ⊢
      by_cases hkeep : child.parent_index ≥ 0
      · rw [if_pos hkeep] at h ⊢
        cases hp : treeAt pruned pp with
        | none => rw [hp] at h; cases h
        | some pruned_parent =>
          rw [hp] at h
          simp only at h
          cases hrec : ExtractChildStates fuel raw c (pruned.length : Int)
              ((pruned ++ [child.SetParentIndex pp]).set pp.toNat
                (pruned_parent.AddChildIndex (pruned.length : Int))) with
          | error e => rw [hrec] at h; cases h
          | ok extracted =>
            rw [hrec] at h
            exact ⟨ih _ _ _ _ hrec, ihc _ _ h⟩
      · rw [if_neg hkeep] at h ⊢
        exact ⟨rfl, ihc _ _ h⟩

theorem extract_ok_fits (raw : UncertaintyPlanningTree) :
    ∀ (fuel : Nat) (r pp : Int) (pruned out : UncertaintyPlanningTree),
      ExtractChildStates fuel raw r pp pruned = .ok out → extractionFits fuel raw r = true := by
  intro fuel
  induction fuel with
  | zero => intro r pp pruned out h; simp [ExtractChildStates] at h
  | succ fuel ih =>
    intro r pp pruned out h
    rw [ExtractChildStates] at h
    rw [extractionFits]
    cases hr : treeAt raw r with
    | none => rw [hr] at h; cases h
    | some raw_parent =>
      rw [hr] at h
      simp only at h ⊢
      by_cases hinit : raw_parent.initialized = false
      · rw [if_pos hinit] at h; cases h
      · rw [if_neg hinit] at h
        cases hp : treeAt pruned pp with
        | none => rw [hp] at h; cases h
        | some pruned_parent =>
          rw [hp] at h
          simp only at h
          by_cases hinit' : pruned_parent.initialized = false
          · rw [if_pos hinit'] at h; cases h
          · rw [if_neg hinit'] at h
            rw [Bool.and_eq_true]
            exact ⟨by simpa using hinit, extractLoop_ok_fits fuel raw ih pp _ _ _ h⟩

theorem pruneMark_of_keeps {s : Bool} {n : UncertaintyPlanningTreeState}
    (h : keepsState s n.value) : pruneMark s n = n := by
  unfold pruneMark
  rcases h with h | ⟨h1, h2⟩
  · rw [if_pos h]
  · rw [if_neg (by linarith), if_pos h1, if_pos h2]

theorem pruneMark_of_not_keeps {s : Bool} {n : UncertaintyPlanningTreeState}
    (h : ¬ keepsState s n.value) :
    pruneMark s n = (n.SetParentIndex (-1)).ClearChildIndicies := by
  unfold keepsState at h
  push_neg at h
  unfold pruneMark
  rw [if_neg (by linarith [h.1])]
  by_cases h1 : n.value.goal_Pfeasibility < 0
  · rw [if_pos h1, if_neg (h.2 h1)]
  · rw [if_neg h1]

theorem pruneMark_value (s : Bool) (n : UncertaintyPlanningTreeState) :
    (pruneMark s n).value = n.value ∧ (pruneMark s n).initialized = n.initialized := by
  by_cases h : keepsState s n.value
  · rw [pruneMark_of_keeps h]; exact ⟨rfl, rfl⟩
  · rw [pruneMark_of_not_keeps h]; exact ⟨rfl, rfl⟩

theorem pruneMark_parent_nonneg {s : Bool} {n : UncertaintyPlanningTreeState}
    (h : (pruneMark s n).parent_index ≥ 0) : keepsState s n.value := by
  by_contra hk
  rw [pruneMark_of_not_keeps hk] at h
  simp [UncertaintyPlanningTreeState.SetParentIndex,
    UncertaintyPlanningTreeState.ClearChildIndicies] at h

theorem pruneMarkLoop_ok (s : Bool) :
    ∀ (T I : UncertaintyPlanningTree), pruneMarkLoop s T = .ok I →
      I = T.map (pruneMark s) ∧ ∀ n ∈ T, n.initialized = true := by
  intro T
  induction T with
  | nil =>
    intro I h
    simp only [pruneMarkLoop, Except.ok.injEq] at h
    exact ⟨h.symm, fun n hn => by cases hn⟩
  | cons a rest ih =>
    intro I h
    rw [pruneMarkLoop] at h
    by_cases ha : a.initialized = false
    · rw [if_pos ha] at h; cases h
    · rw [if_neg ha] at h
      cases hrest : pruneMarkLoop s rest with
      | error e => rw [hrest] at h; cases h
      | ok marked =>
        rw [hrest] at h
        simp only [Except.ok.injEq] at h
        obtain ⟨h1, h2⟩ := ih marked hrest
        refine ⟨by rw [← h, h1]; rfl, fun n hn => ?_⟩
        rcases List.mem_cons.1 hn with hn | hn
        · rw [hn]; simpa using ha
        · exact h2 n hn

theorem pruneMarkLoop_id (s : Bool) :
    ∀ (O : UncertaintyPlanningTree),
      (∀ n ∈ O, n.initialized = true ∧ keepsState s n.value) → pruneMarkLoop s O = .ok O := by
  intro O
  induction O with
  | nil => intro _; rfl
  | cons a rest ih =>
    intro h
    have ha := h a (List.mem_cons_self _ _)
    rw [pruneMarkLoop, if_neg (by rw [ha.1]; decide),
      ih (fun n hn => h n (List.mem_cons_of_mem _ hn)), pruneMark_of_keeps ha.2]

theorem pruneTree_of_parts (check : UncertaintyPlanningTree → Bool) (fuel : Nat)
    (T : UncertaintyPlanningTree) (s : Bool) (I pruned : UncertaintyPlanningTree)
    (root : UncertaintyPlanningTreeState) (hlen : 1 < T.length) (hcheck : check T = true)
    (hmark : pruneMarkLoop s T = .ok I) (hroot : I[0]? = some root)
    (hinit : root.initialized = true)
    (hext : ExtractChildStates fuel I 0 0 [root] = .ok pruned)
    (hcheck2 : check pruned = true) :
    PruneTree check fuel T s = .ok pruned := by
  unfold PruneTree
  rw [if_neg (by omega), hcheck, if_neg (by decide), hmark]
  simp only
  rw [hroot]
  simp only
  rw [if_neg (by rw [hinit]; decide), hext]
  simp only
  rw [hcheck2, if_neg (by decide)]

theorem pruneTree_parts (check : UncertaintyPlanningTree → Bool) (fuel : Nat)
    (T : UncertaintyPlanningTree) (s : Bool) (O : UncertaintyPlanningTree)
    (h : PruneTree check fuel T s = .ok O) :
    (T.length ≤ 1 ∧ O = T) ∨
    (1 < T.length ∧ check T = true ∧ ∃ I root, pruneMarkLoop s T = .ok I ∧
      I[0]? = some root ∧ root.initialized = true ∧
      ExtractChildStates fuel I 0 0 [root] = .ok O ∧ check O = true) := by
  unfold PruneTree at h
  by_cases hlen : T.length ≤ 1
  · rw [if_pos hlen] at h
    simp only [Except.ok.injEq] at h
    exact Or.inl ⟨hlen, h.symm⟩
  · rw [if_neg hlen] at h
    right
    by_cases hc : check T = false
    · rw [if_pos hc] at h; cases h
    · rw [if_neg hc] at h
      cases hmark : pruneMarkLoop s T with
      | error e => rw [hmark] at h; cases h
      | ok I =>
        rw [hmark] at h
        simp only at h
        cases hroot : I[0]? with
        | none => rw [hroot] at h; cases h
        | some root =>
          rw [hroot] at h
          simp only at h
          by_cases hinit : root.initialized = false
          · rw [if_pos hinit] at h; cases h
          · rw [if_neg hinit] at h
            cases hext : ExtractChildStates fuel I 0 0 [root] with
            | error e => rw [hext] at h; cases h
            | ok pruned =>
              rw [hext] at h
              simp only at h
              by_cases hc2 : check pruned = false
              · rw [if_pos hc2] at h; cases h
              · rw [if_neg hc2] at h
                simp only [Except.ok.injEq] at h
                subst h
                exact ⟨by omega, by simpa using hc, I, root, rfl, hroot, by simpa using hinit,
                  hext, by simpa using hc2⟩

theorem extract_root_eq_build (fuel : Nat) (I : UncertaintyPlanningTree)
    (root : UncertaintyPlanningTreeState) (O : UncertaintyPlanningTree)
    (hinit : root.initialized = true)
    (hext : ExtractChildStates fuel I 0 0 [root] = .ok O) :
    extractionFits fuel I 0 = true ∧ O = buildSubtree fuel I 0 0 root := by
  have hfit := extract_ok_fits I fuel 0 0 [root] O hext
  have := extract_eq_build I fuel 0 [] root hfit hinit
  simp only [List.length_nil, Nat.cast_zero, List.nil_append] at this
  rw [this] at hext
  simp only [Except.ok.injEq] at hext
  exact ⟨hfit, hext.symm⟩

theorem holdsAt_self (O : UncertaintyPlanningTree) : HoldsAt O 0 O := by
  intro j n hj
  rw [Nat.zero_add]; exact hj

theorem pruneTree_idempotent (check : UncertaintyPlanningTree → Bool) (fuel : Nat)
    (T : UncertaintyPlanningTree) (s : Bool) (O : UncertaintyPlanningTree)
    (h : PruneTree check fuel T s = .ok O) : PruneTree check fuel O s = .ok O := by
  rcases pruneTree_parts check fuel T s O h with ⟨hlen, hO⟩ | ⟨hlen, hcheck, I, root, hmark,
    hroot, hinit, hext, hcheck2⟩
  · subst hO; exact h
  · by_cases hOlen : O.length ≤ 1
    · unfold PruneTree; rw [if_pos hOlen]
    · obtain ⟨hfit, hO⟩ := extract_root_eq_build fuel I root O hinit hext
      obtain ⟨hI, hTinit⟩ := pruneMarkLoop_ok s T I hmark
      have hIroot : treeAt I 0 = some root := by
        have := treeAt_natCast I 0
        simpa [hroot] using this
      -- the root is kept, since it has children in the pruned tree
      have hrootkeep : keepsState s root.value := by
        by_contra hk
        apply hOlen
        obtain ⟨t, ht, hrt⟩ : ∃ t, T[0]? = some t ∧ root = pruneMark s t := by
          rw [hI, List.getElem?_map] at hroot
          cases hT0 : T[0]? with
          | none => rw [hT0] at hroot; cases hroot
          | some t => rw [hT0] at hroot; exact ⟨t, rfl, (Option.some.inj hroot).symm⟩
        have hk' : ¬ keepsState s t.value := by
          rw [hrt, (pruneMark_value s t).1] at hk; exact hk
        have hchildren : root.child_indices = [] := by
          rw [hrt, pruneMark_of_not_keeps hk']; rfl
        rw [hO]
        cases fuel with
        | zero => simp [buildSubtree]
        | succ f =>
          rw [buildSubtree, hIroot]
          simp [hchildren, buildChildren]
      have hraw : ∀ (c : Int) (child : UncertaintyPlanningTreeState),
          treeAt I c = some child → child.parent_index ≥ 0 →
          child.initialized = true ∧ keepsState s child.value := by
        intro c child hc hp
        obtain ⟨k, _, hk⟩ := treeAt_some hc
        rw [hI, List.getElem?_map] at hk
        cases hTk : T[k]? with
        | none => rw [hTk] at hk; cases hk
        | some t =>
          rw [hTk] at hk
          have hct : child = pruneMark s t := (Option.some.inj hk).symm
          rw [hct] at hp ⊢
          have := pruneMark_parent_nonneg hp
          rw [(pruneMark_value s t).1, (pruneMark_value s t).2]
          exact ⟨hTinit t (List.getElem?_mem hTk), this⟩
      have hall : ∀ n ∈ O, n.initialized = true ∧ keepsState s n.value := by
        rw [hO]
        exact buildSubtree_forall (fun n => n.initialized = true ∧ keepsState s n.value)
          (fun n p hn => hn) (fun n l hn => hn) I hraw fuel 0 0 root ⟨hinit, hrootkeep⟩
      obtain ⟨ps, rest, hhead⟩ := buildSubtree_head fuel I 0 0 root
      have hO0 : O[0]? = some { root with child_indices := ps } := by
        rw [hO, hhead]; simp
      have hholds : HoldsAt O 0 (buildSubtree fuel I 0 0 root) := by
        rw [← hO]; exact holdsAt_self O
      have hfitO := extractionFits_self I O fuel 0 0 root hfit hinit hholds
      have hself := buildSubtree_self I O fuel 0 0 root _ hfit hholds hO0
      simp only [Nat.cast_zero] at hfitO hself
      have hextO := extract_eq_build O fuel 0 [] { root with child_indices := ps } hfitO hinit
      simp only [List.length_nil, Nat.cast_zero, List.nil_append] at hextO
      rw [hself, ← hO] at hextO
      exact pruneTree_of_parts check fuel O s O O _ (by omega) hcheck2
        (pruneMarkLoop_id s O hall) hO0 hinit hextO hcheck2

theorem getElem?_append_cases {α : Type} {l1 l2 : List α} {j : Nat} {a : α}
    (h : (l1 ++ l2)[j]? = some a) :
    (j < l1.length ∧ l1[j]? = some a) ∨ (∃ k, j = l1.length + k ∧ l2[k]? = some a) := by
  by_cases hj : j < l1.length
  · left
    rw [List.getElem?_append_left hj] at h
    exact ⟨hj, h⟩
  · right
    rw [List.getElem?_append_right (by omega)] at h
    exact ⟨j - l1.length, by omega, h⟩

theorem getElem?_append_left_some {α : Type} {l1 : List α} (l2 : List α) {j : Nat} {a : α}
    (h : l1[j]? = some a) : (l1 ++ l2)[j]? = some a := by
  rw [List.getElem?_append_left (getElem?_lt_length h)]; exact h

theorem getElem?_append_right_some {α : Type} (l1 : List α) {l2 : List α} {k : Nat} {a : α}
    (h : l2[k]? = some a) : (l1 ++ l2)[l1.length + k]? = some a := by
  rw [List.getElem?_append_right (by omega)]
  simpa using h

theorem childrenLinked_cons {pos cur : Nat} {seg : UncertaintyPlanningTree}
    {tps : List Int} {tsegs : UncertaintyPlanningTree} {H : UncertaintyPlanningTreeState}
    {rest : UncertaintyPlanningTree} (hseg : seg = H :: rest)
    (hH : H.parent_index = (pos : Int))
    (hlink : SegmentLinked cur seg)
    (htail : ChildrenLinked pos (cur + seg.length) tps tsegs) :
    ChildrenLinked pos cur ((cur : Int) :: tps) (seg ++ tsegs) := by
  have hL : 1 ≤ seg.length := by rw [hseg]; simp
  obtain ⟨hA, hB, hC⟩ := htail
  obtain ⟨hS1, hS2⟩ := hlink
  have hge : ∀ q ∈ tps, (cur : Int) + seg.length ≤ q := by
    intro q hq
    obtain ⟨k, hk, _⟩ := hA q hq
    rw [hk]; push_cast; omega
  have hcur : tps.count (cur : Int) = 0 := by
    rw [List.count_eq_zero]
    intro hm
    have := hge _ hm
    omega
  refine ⟨?_, ?_, ?_⟩
  · intro q hq
    rcases List.mem_cons.1 hq with hq | hq
    · exact ⟨0, by rw [hq]; simp, H, by rw [hseg]; simp, hH⟩
    · obtain ⟨k, hk, cn, hcn, hp⟩ := hA q hq
      exact ⟨seg.length + k, by rw [hk]; push_cast; omega, cn,
        getElem?_append_right_some seg hcn, hp⟩
  · intro j n hj
    rcases getElem?_append_cases hj with ⟨hjl, hjs⟩ | ⟨k, hjk, hjs⟩
    · by_cases hj0 : j = 0
      · left
        subst hj0
        have : n = H := by
          rw [hseg] at hjs
          simpa using hjs.symm
        rw [this]
        refine ⟨hH, ?_⟩
        rw [List.count_cons]
        simp [hcur]
      · right
        obtain ⟨p, hp, hpar, pn, hpn, hcount⟩ := hS1 j n hjs (by omega)
        exact ⟨p, hp, hpar, pn, getElem?_append_left_some tsegs hpn, hcount⟩
    · rcases hB k n hjs with ⟨hpar, hcount⟩ | ⟨p, hp, hpar, pn, hpn, hcount⟩
      · left
        refine ⟨hpar, ?_⟩
        rw [List.count_cons]
        have hne : ¬ ((cur : Int) = (cur : Int) + j) := by omega
        have : ((cur + seg.length : Nat) : Int) + k = (cur : Int) + j := by
          push_cast; omega
        rw [this] at hcount
        simp [hcount, hne]
      · right
        refine ⟨seg.length + p, by omega, by rw [hpar]; push_cast; omega, pn,
          getElem?_append_right_some seg hpn, ?_⟩
        have : ((cur + seg.length : Nat) : Int) + k = (cur : Int) + j := by
          push_cast; omega
        rw [← this]; exact hcount
  · intro j n hj c hc
    rcases getElem?_append_cases hj with ⟨hjl, hjs⟩ | ⟨k, hjk, hjs⟩
    · obtain ⟨k, hk, hck, cn, hcn, hp⟩ := hS2 j n hjs c hc
      exact ⟨k, hk, hck, cn, getElem?_append_left_some tsegs hcn, hp⟩
    · obtain ⟨k', hk', hck, cn, hcn, hp⟩ := hC k n hjs c hc
      exact ⟨seg.length + k', by omega, by rw [hck]; push_cast; omega, cn,
        getElem?_append_right_some seg hcn, by rw [hp]; push_cast; omega⟩

theorem segmentLinked_cons {pos : Nat} {H : UncertaintyPlanningTreeState}
    {segs : UncertaintyPlanningTree}
    (h : ChildrenLinked pos (pos + 1) H.child_indices segs) :
    SegmentLinked pos (H :: segs) := by
  obtain ⟨hA, hB, hC⟩ := h
  refine ⟨?_, ?_⟩
  · intro j n hj hpos
    obtain ⟨j', rfl⟩ : ∃ j', j = j' + 1 := ⟨j - 1, by omega⟩
    have hj' : segs[j']? = some n := by simpa using hj
    rcases hB j' n hj' with ⟨hpar, hcount⟩ | ⟨p, hp, hpar, pn, hpn, hcount⟩
    · refine ⟨0, by omega, by rw [hpar]; simp, H, by simp, ?_⟩
      have : ((pos + 1 : Nat) : Int) + j' = (pos : Int) + ((j' + 1 : Nat) : Int) := by
        push_cast; omega
      rw [← this]; exact hcount
    · refine ⟨p + 1, by omega, by rw [hpar]; push_cast; omega, pn, by simpa using hpn, ?_⟩
      have : ((pos + 1 : Nat) : Int) + j' = (pos : Int) + ((j' + 1 : Nat) : Int) := by
        push_cast; omega
      rw [← this]; exact hcount
  · intro j n hj c hc
    cases j with
    | zero =>
      have : n = H := by simpa using hj.symm
      rw [this] at hc
      obtain ⟨k, hk, cn, hcn, hp⟩ := hA c hc
      exact ⟨k + 1, by omega, by rw [hk]; push_cast; omega, cn, by simpa using hcn,
        by rw [hp]; simp⟩
    | succ j' =>
      have hj' : segs[j']? = some n := by simpa using hj
      obtain ⟨k, hk, hck, cn, hcn, hp⟩ := hC j' n hj' c hc
      exact ⟨k + 1, by omega, by rw [hck]; push_cast; omega, cn, by simpa using hcn,
        by rw [hp]; push_cast; omega⟩

theorem buildChildren_linked (fuel : Nat) (raw : UncertaintyPlanningTree) (pos : Nat)
    (ih : ∀ (c : Int) (cur : Nat) (Xc : UncertaintyPlanningTreeState),
      extractionFits fuel raw c = true →
      SegmentLinked cur (buildSubtree fuel raw c cur Xc)) :
    ∀ (cs : List Int) (cur : Nat),
      (cs.all (fun c =>
        match treeAt raw c with
        | none => false
        | some child =>
          if child.parent_index ≥ 0 then extractionFits fuel raw c else true) = true) →
      ChildrenLinked pos cur (buildChildren (buildSubtree fuel raw) raw pos cs cur).1
        (buildChildren (buildSubtree fuel raw) raw pos cs cur).2 := by
  intro cs
  induction cs with
  | nil =>
    intro cur _
    refine ⟨fun q hq => ?_, fun j n hj => ?_, fun j n hj => ?_⟩
    · simp [buildChildren] at hq
    · simp [buildChildren] at hj
    · simp [buildChildren] at hj
  | cons c rest ihc =>
    intro cur hall
    rw [List.all_cons, Bool.and_eq_true] at hall
    obtain ⟨hc, hrest⟩ := hall
    cases hchild : treeAt raw c with
    | none => rw [hchild] at hc; cases hc
    | some child =>
      rw [hchild] at hc
      simp only at hc
      rw [buildChildren, hchild]
      simp only
      by_cases hkeep : child.parent_index ≥ 0
      · rw [if_pos hkeep] at hc ⊢
        simp only
        obtain ⟨ps, rest', hseg⟩ := buildSubtree_head fuel raw c cur
          (child.SetParentIndex (pos : Int))
        exact childrenLinked_cons hseg rfl (ih c cur _ hc) (ihc _ hrest)
      · rw [if_neg hkeep]
        exact ihc cur hrest

theorem buildSubtree_linked (raw : UncertaintyPlanningTree) :
    ∀ (fuel : Nat) (r : Int) (pos : Nat) (X : UncertaintyPlanningTreeState),
      extractionFits fuel raw r = true →
      SegmentLinked pos (buildSubtree fuel raw r pos X) := by
  intro fuel
  induction fuel with
  | zero => intro r pos X hfit; simp [extractionFits] at hfit
  | succ fuel ih =>
    intro r pos X hfit
    rw [extractionFits] at hfit
    cases hr : treeAt raw r with
    | none => rw [hr] at hfit; cases hfit
    | some raw_parent =>
      rw [hr] at hfit
      simp only [Bool.and_eq_true] at hfit
      rw [buildSubtree, hr]
      simp only
      exact segmentLinked_cons
        (buildChildren_linked fuel raw pos ih raw_parent.child_indices (pos + 1) hfit.2)

theorem extractionFits_of_rawLinked (raw : UncertaintyPlanningTree) (h : RawLinked raw) :
    ∀ (fuel r : Nat), r < raw.length → raw.length ≤ fuel + r →
      extractionFits fuel raw (r : Int) = true := by
  intro fuel
  induction fuel with
  | zero => intro r h1 h2; omega
  | succ fuel ih =>
    intro r h1 h2
    have hr : raw[r]? = some raw[r] := List.getElem?_eq_getElem h1
    obtain ⟨hinit, hchildren⟩ := h r _ hr
    rw [extractionFits, treeAt_natCast, hr]
    simp only [Bool.and_eq_true, List.all_eq_true]
    refine ⟨hinit, fun c hc => ?_⟩
    obtain ⟨k, hk, hik, hkl⟩ := hchildren c hc
    rw [hk, treeAt_natCast, List.getElem?_eq_getElem hkl]
    simp only
    split_ifs
    · exact ih k hkl (by omega)
    · rfl

theorem valid_node (tree : UncertaintyPlanningTree) (h : ValidLinkage tree) (i : Nat)
    (node : UncertaintyPlanningTreeState) (hi : tree[i]? = some node) :
    validNode tree i node = true := by
  have := allIdx_getElem? (validNode tree) tree 0 h i node hi
  simpa using this

theorem valid_root (tree : UncertaintyPlanningTree) (h : ValidLinkage tree)
    (node : UncertaintyPlanningTreeState) (hi : tree[0]? = some node) :
    node.parent_index = -1 := by
  have := valid_node tree h 0 node hi
  unfold validNode at this
  simp only [if_true, Bool.and_eq_true, beq_iff_eq] at this
  exact this.1

theorem valid_child (tree : UncertaintyPlanningTree) (h : ValidLinkage tree) (i : Nat)
    (node : UncertaintyPlanningTreeState) (hi : tree[i]? = some node) (c : Int)
    (hc : c ∈ node.child_indices) :
    ∃ k : Nat, c = (k : Int) ∧ i < k ∧ ∃ child, tree[k]? = some child
      ∧ child.parent_index = (i : Int) := by
  have hn := valid_node tree h i node hi
  unfold validNode at hn
  simp only [Bool.and_eq_true, List.all_eq_true] at hn
  have hcc := hn.2 c hc
  cases hchild : treeAt tree c with
  | none => rw [hchild] at hcc; cases hcc
  | some child =>
    rw [hchild] at hcc
    simp only [beq_iff_eq] at hcc
    obtain ⟨k, hk, hkc⟩ := treeAt_some hchild
    refine ⟨k, hk, ?_, child, hkc, hcc⟩
    by_cases hk0 : k = 0
    · subst hk0
      have := valid_root tree h child hkc
      omega
    · have hv := valid_node tree h k child hkc
      unfold validNode at hv
      simp only [hk0, if_false, Bool.and_eq_true, decide_eq_true_eq] at hv
      omega

theorem rawLinked_pruneMark (T : UncertaintyPlanningTree) (s : Bool) (h : ValidLinkage T)
    (hinit : ∀ n ∈ T, n.initialized = true) : RawLinked (T.map (pruneMark s)) := by
  intro i n hi
  rw [List.getElem?_map] at hi
  cases hT : T[i]? with
  | none => rw [hT] at hi; cases hi
  | some t =>
    rw [hT] at hi
    have hn : n = pruneMark s t := (Option.some.inj hi).symm
    subst hn
    refine ⟨by rw [(pruneMark_value s t).2]; exact hinit t (List.getElem?_mem hT), ?_⟩
    intro c hc
    by_cases hk : keepsState s t.value
    · rw [pruneMark_of_keeps hk] at hc
      obtain ⟨k, hk1, hk2, child, hk3, _⟩ := valid_child T h i t hT c hc
      exact ⟨k, hk1, hk2, by rw [List.length_map]; exact getElem?_lt_length hk3⟩
    · rw [pruneMark_of_not_keeps hk] at hc
      simp [UncertaintyPlanningTreeState.ClearChildIndicies] at hc

theorem validLinkage_of_segmentLinked (O : UncertaintyPlanningTree) (h : SegmentLinked 0 O)
    (hroot : ∀ n, O[0]? = some n → n.parent_index = -1) : ValidLinkage O := by
  apply allIdx_of_getElem?
  intro j n hj
  rw [Nat.zero_add]
  unfold validNode
  rw [Bool.and_eq_true]
  constructor
  · by_cases hj0 : j = 0
    · subst hj0
      simp [hroot n hj]
    · rw [if_neg hj0]
      obtain ⟨p, hp, hpar, pn, hpn, hcount⟩ := h.1 j n hj (by omega)
      simp only [Nat.cast_zero, zero_add] at hpar hcount
      rw [hpar, treeAt_natCast, hpn]
      simp only [Bool.and_eq_true, decide_eq_true_eq, beq_iff_eq]
      exact ⟨by omega, hcount⟩
  · rw [List.all_eq_true]
    intro c hc
    obtain ⟨k, hk, hck, cn, hcn, hp⟩ := h.2 j n hj c hc
    simp only [Nat.cast_zero, zero_add] at hck hp
    rw [hck, treeAt_natCast, hcn]
    simp [hp]

theorem pruneMarkLoop_eq_map (s : Bool) :
    ∀ (T : UncertaintyPlanningTree), (∀ n ∈ T, n.initialized = true) →
      pruneMarkLoop s T = .ok (T.map (pruneMark s)) := by
  intro T
  induction T with
  | nil => intro _; rfl
  | cons a rest ih =>
    intro h
    rw [pruneMarkLoop, if_neg (by rw [h a (List.mem_cons_self _ _)]; decide),
      ih (fun n hn => h n (List.mem_cons_of_mem _ hn))]
    rfl

theorem pruneMark_root_parent (T : UncertaintyPlanningTree) (s : Bool) (h : ValidLinkage T)
    (root : UncertaintyPlanningTreeState) (hroot : (T.map (pruneMark s))[0]? = some root) :
    root.parent_index = -1 := by
  rw [List.getElem?_map] at hroot
  cases hT : T[0]? with
  | none => rw [hT] at hroot; cases hroot
  | some t =>
    rw [hT] at hroot
    have hn : root = pruneMark s t := (Option.some.inj hroot).symm
    subst hn
    by_cases hk : keepsState s t.value
    · rw [pruneMark_of_keeps hk]; exact valid_root T h t hT
    · rw [pruneMark_of_not_keeps hk]; rfl

theorem pruneTree_valid (check : UncertaintyPlanningTree → Bool)
    (hcheck : ∀ t, ValidLinkage t → (∀ n ∈ t, n.initialized = true) → check t = true)
    (fuel : Nat)
    (T : UncertaintyPlanningTree) (s : Bool) (hT : ValidLinkage T)
    (hinit : ∀ n ∈ T, n.initialized = true) (hfuel : T.length ≤ fuel) :
    ∃ O, PruneTree check fuel T s = .ok O ∧ ValidLinkage O ∧
      ((T.length ≤ 1 ∧ O = T) ∨
       (1 < T.length ∧ ∃ root, (T.map (pruneMark s))[0]? = some root ∧
          extractionFits fuel (T.map (pruneMark s)) 0 = true ∧
          O = buildSubtree fuel (T.map (pruneMark s)) 0 0 root)) := by
  by_cases hlen : T.length ≤ 1
  · exact ⟨T, by unfold PruneTree; rw [if_pos hlen], hT, Or.inl ⟨hlen, rfl⟩⟩
  · have hmark := pruneMarkLoop_eq_map s T hinit
    have hIlen : (T.map (pruneMark s)).length = T.length := List.length_map _ _
    have h0 : 0 < (T.map (pruneMark s)).length := by omega
    have hroot : (T.map (pruneMark s))[0]? = some (T.map (pruneMark s))[0] :=
      List.getElem?_eq_getElem h0
    have hraw := rawLinked_pruneMark T s hT hinit
    have hrinit := (hraw 0 _ hroot).1
    have hfit := extractionFits_of_rawLinked _ hraw fuel 0 h0 (by omega)
    simp only [Nat.cast_zero] at hfit
    have hext := extract_eq_build (T.map (pruneMark s)) fuel 0 [] _ hfit hrinit
    simp only [List.length_nil, Nat.cast_zero, List.nil_append] at hext
    have hlinked := buildSubtree_linked (T.map (pruneMark s)) fuel 0 0
      (T.map (pruneMark s))[0] hfit
    have hvalid : ValidLinkage (buildSubtree fuel (T.map (pruneMark s)) 0 0
        (T.map (pruneMark s))[0]) := by
      apply validLinkage_of_segmentLinked _ hlinked
      intro n hn
      obtain ⟨ps, rest, hhead⟩ := buildSubtree_head fuel (T.map (pruneMark s)) 0 0
        (T.map (pruneMark s))[0]
      rw [hhead] at hn
      simp only [List.getElem?_cons_zero, Option.some.injEq] at hn
      rw [← hn]
      exact pruneMark_root_parent T s hT (T.map (pruneMark s))[0] hroot
    have hOinit : ∀ n ∈ buildSubtree fuel (T.map (pruneMark s)) 0 0
        (T.map (pruneMark s))[0], n.initialized = true :=
      buildSubtree_forall (fun n => n.initialized = true) (fun n p hn => hn)
        (fun n l hn => hn) (T.map (pruneMark s))
        (fun c child hc _ => by
          obtain ⟨k, _, hk⟩ := treeAt_some hc
          exact (hraw k child hk).1) fuel 0 0 _ hrinit
    exact ⟨_, pruneTree_of_parts check fuel T s _ _ _ (by omega) (hcheck T hT hinit) hmark
      hroot hrinit hext (hcheck _ hvalid hOinit), hvalid,
      Or.inr ⟨by omega, _, hroot, hfit, rfl⟩⟩

/-- C15: for every input tree with valid linkage and initialized nodes (fuel for
the recursion of at least the tree size, and a linkage test of the library that accepts
every tree with valid linkage and initialized nodes), `PruneTree` returns without raising, and the tree it
returns has valid linkage: node `0` is the root with parent index `-1`, every other
node `i` has `0 <= parent_index(i) < i`, its parent lists it among its children exactly
once, and every listed child index points to a node whose parent index is the lister. -/
theorem C15_prune_tree_valid_linkage (CheckTreeLinkage : UncertaintyPlanningTree → Bool)
    (hcheck : ∀ t, ValidLinkage t → (∀ n ∈ t, n.initialized = true) →
      CheckTreeLinkage t = true)
    (fuel : Nat)
    (planner_tree : UncertaintyPlanningTree) (include_spur_actions : Bool)
    (hlinkage : ValidLinkage planner_tree)
    (hinit : ∀ n ∈ planner_tree, n.initialized = true)
    (hfuel : planner_tree.length ≤ fuel) :
    ∃ pruned, PruneTree CheckTreeLinkage fuel planner_tree include_spur_actions = .ok pruned
      ∧ ValidLinkage pruned := by
  obtain ⟨O, hrun, hvalid, _⟩ := pruneTree_valid CheckTreeLinkage hcheck fuel planner_tree
    include_spur_actions hlinkage hinit hfuel
  exact ⟨O, hrun, hvalid⟩

theorem brokenChainTree_initialized : ∀ n ∈ brokenChainTree, n.initialized = true := by
  intro n hn
  simp only [brokenChainTree, List.mem_cons, List.mem_singleton, List.not_mem_nil,
    or_false] at hn
  rcases hn with h | h | h <;> subst h <;> rfl

/-- Witness for C15: the three-node chain `brokenChainTree`, with the linkage test that
accepts exactly the trees with valid linkage. -/
theorem C15_prune_tree_valid_linkage_witness :
    ∃ pruned, PruneTree (fun t => decide (ValidLinkage t)) 3 brokenChainTree true = .ok pruned
      ∧ ValidLinkage pruned :=
  C15_prune_tree_valid_linkage (fun t => decide (ValidLinkage t))
    (fun t ht _ => decide_eq_true ht) 3 brokenChainTree true brokenChainTree_valid
    brokenChainTree_initialized (by decide)

/-- C16: `PruneTree` is idempotent for a fixed `include_spur_actions` flag: for
every tree with valid linkage and initialized nodes (fuel of at least the tree size, a
linkage test that accepts every tree with valid linkage and initialized nodes) it
returns a tree, and applied to that tree with the same flag it returns the same tree,
node for node. -/
theorem C16_prune_tree_idempotent (CheckTreeLinkage : UncertaintyPlanningTree → Bool)
    (hcheck : ∀ t, ValidLinkage t → (∀ n ∈ t, n.initialized = true) →
      CheckTreeLinkage t = true)
    (fuel : Nat)
    (planner_tree : UncertaintyPlanningTree) (include_spur_actions : Bool)
    (hlinkage : ValidLinkage planner_tree)
    (hinit : ∀ n ∈ planner_tree, n.initialized = true)
    (hfuel : planner_tree.length ≤ fuel) :
    ∃ pruned, PruneTree CheckTreeLinkage fuel planner_tree include_spur_actions = .ok pruned
      ∧ PruneTree CheckTreeLinkage fuel pruned include_spur_actions = .ok pruned := by
  obtain ⟨O, hrun, _, _⟩ := pruneTree_valid CheckTreeLinkage hcheck fuel planner_tree
    include_spur_actions hlinkage hinit hfuel
  exact ⟨O, hrun, pruneTree_idempotent CheckTreeLinkage fuel planner_tree
    include_spur_actions O hrun⟩

/-- Witness for C16: the three-node chain `brokenChainTree`. -/
theorem C16_prune_tree_idempotent_witness :
    ∃ pruned, PruneTree (fun t => decide (ValidLinkage t)) 3 brokenChainTree false = .ok pruned
      ∧ PruneTree (fun t => decide (ValidLinkage t)) 3 pruned false = .ok pruned :=
  C16_prune_tree_idempotent (fun t => decide (ValidLinkage t))
    (fun t ht _ => decide_eq_true ht) 3 brokenChainTree false brokenChainTree_valid
    brokenChainTree_initialized (by decide)

theorem forall₂_append {α β : Type} {R : α → β → Prop} :
    ∀ {l1 : List α} {l1' : List β} {l2 : List α} {l2' : List β},
      List.Forall₂ R l1 l1' → List.Forall₂ R l2 l2' → List.Forall₂ R (l1 ++ l2) (l1' ++ l2') := by
  intro l1 l1' l2 l2' h1 h2
  induction h1 with
  | nil => exact h2
  | cons hab _ ih => exact List.Forall₂.cons hab ih

theorem buildChildren_order (fuel : Nat) (raw : UncertaintyPlanningTree) (pos : Nat)
    (ih : ∀ (c : Int) (cur : Nat) (Xc : UncertaintyPlanningTreeState),
      extractionFits fuel raw c = true →
      (∃ m, treeAt raw c = some m ∧ Xc.value = m.value) →
      List.Forall₂ (fun n i => ∃ m, treeAt raw i = some m ∧ n.value = m.value)
        (buildSubtree fuel raw c cur Xc) (subtreeOrder fuel raw c)) :
    ∀ (cs : List Int) (cur : Nat),
      (cs.all (fun c =>
        match treeAt raw c with
        | none => false
        | some child =>
          if child.parent_index ≥ 0 then extractionFits fuel raw c else true) = true) →
      List.Forall₂ (fun n i => ∃ m, treeAt raw i = some m ∧ n.value = m.value)
        (buildChildren (buildSubtree fuel raw) raw pos cs cur).2
        (orderChildren (subtreeOrder fuel raw) raw cs) := by
  intro cs
  induction cs with
  | nil => intro cur _; exact List.Forall₂.nil
  | cons c rest ihc =>
    intro cur hall
    rw [List.all_cons, Bool.and_eq_true] at hall
    obtain ⟨hc, hrest⟩ := hall
    cases hchild : treeAt raw c with
    | none => rw [hchild] at hc; cases hc
    | some child =>
      rw [hchild] at hc
      simp only at hc
      rw [buildChildren, orderChildren, hchild]
      simp only
      by_cases hkeep : child.parent_index ≥ 0
      · rw [if_pos hkeep] at hc ⊢
        rw [if_pos hkeep]
        exact forall₂_append (ih c cur _ hc ⟨child, hchild, rfl⟩) (ihc _ hrest)
      · rw [if_neg hkeep, if_neg hkeep]
        exact ihc cur hrest

theorem buildSubtree_order (raw : UncertaintyPlanningTree) :
    ∀ (fuel : Nat) (r : Int) (pos : Nat) (X : UncertaintyPlanningTreeState),
      extractionFits fuel raw r = true →
      (∃ m, treeAt raw r = some m ∧ X.value = m.value) →
      List.Forall₂ (fun n i => ∃ m, treeAt raw i = some m ∧ n.value = m.value)
        (buildSubtree fuel raw r pos X) (subtreeOrder fuel raw r) := by
  intro fuel
  induction fuel with
  | zero => intro r pos X hfit _; simp [extractionFits] at hfit
  | succ fuel ih =>
    intro r pos X hfit hX
    rw [extractionFits] at hfit
    cases hr : treeAt raw r with
    | none => rw [hr] at hfit; cases hfit
    | some raw_parent =>
      rw [hr] at hfit
      simp only [Bool.and_eq_true] at hfit
      rw [buildSubtree, subtreeOrder, hr]
      simp only
      refine List.Forall₂.cons ?_
        (buildChildren_order fuel raw pos ih raw_parent.child_indices (pos + 1) hfit.2)
      obtain ⟨m, hm, hv⟩ := hX
      exact ⟨m, hm, hv⟩

theorem subtreeOrder_head (fuel : Nat) (raw : UncertaintyPlanningTree) (r : Int) :
    r ∈ subtreeOrder fuel raw r := by
  cases fuel with
  | zero => simp [subtreeOrder]
  | succ fuel =>
    rw [subtreeOrder]
    cases treeAt raw r <;> simp

theorem mem_orderChildren (recurse : Int → List Int) (raw : UncertaintyPlanningTree) :
    ∀ (cs : List Int) (x : Int), x ∈ orderChildren recurse raw cs →
      ∃ c ∈ cs, ∃ child, treeAt raw c = some child ∧ child.parent_index ≥ 0 ∧ x ∈ recurse c := by
  intro cs
  induction cs with
  | nil => intro x hx; simp [orderChildren] at hx
  | cons c rest ih =>
    intro x hx
    rw [orderChildren] at hx
    cases hchild : treeAt raw c with
    | none => rw [hchild] at hx; simp at hx
    | some child =>
      rw [hchild] at hx
      simp only at hx
      by_cases hkeep : child.parent_index ≥ 0
      · rw [if_pos hkeep, List.mem_append] at hx
        rcases hx with hx | hx
        · exact ⟨c, List.mem_cons_self _ _, child, hchild, hkeep, hx⟩
        · obtain ⟨c', hc', rest'⟩ := ih x hx
          exact ⟨c', List.mem_cons_of_mem _ hc', rest'⟩
      · rw [if_neg hkeep] at hx
        obtain ⟨c', hc', rest'⟩ := ih x hx
        exact ⟨c', List.mem_cons_of_mem _ hc', rest'⟩

theorem orderChildren_mem (recurse : Int → List Int) (raw : UncertaintyPlanningTree) :
    ∀ (cs : List Int), (∀ c ∈ cs, ∃ child, treeAt raw c = some child) →
      ∀ (c : Int) (child : UncertaintyPlanningTreeState) (x : Int), c ∈ cs →
        treeAt raw c = some child → child.parent_index ≥ 0 → x ∈ recurse c →
        x ∈ orderChildren recurse raw cs := by
  intro cs
  induction cs with
  | nil => intro _ c child x hc; cases hc
  | cons c0 rest ih =>
    intro hall c child x hc hchild hkeep hx
    obtain ⟨child0, hchild0⟩ := hall c0 (List.mem_cons_self _ _)
    have hrest := fun c' hc' => hall c' (List.mem_cons_of_mem _ hc')
    rw [orderChildren, hchild0]
    simp only
    rcases List.mem_cons.1 hc with hc | hc
    · subst hc
      rw [hchild] at hchild0
      have : child = child0 := Option.some.inj hchild0
      subst this
      rw [if_pos hkeep, List.mem_append]
      exact Or.inl hx
    · have := ih hrest c child x hc hchild hkeep hx
      split_ifs
      · rw [List.mem_append]; exact Or.inr this
      · exact this

theorem valid_parent (tree : UncertaintyPlanningTree) (h : ValidLinkage tree) (i : Nat)
    (node : UncertaintyPlanningTreeState) (hi : tree[i]? = some node) (hpos : 0 < i) :
    ∃ p : Nat, node.parent_index = (p : Int) ∧ p < i ∧ ∃ parent, tree[p]? = some parent
      ∧ (i : Int) ∈ parent.child_indices := by
  have hv := valid_node tree h i node hi
  unfold validNode at hv
  have hi0 : i ≠ 0 := by omega
  simp only [hi0, if_false, Bool.and_eq_true, decide_eq_true_eq] at hv
  obtain ⟨⟨hrange, hlist⟩, _⟩ := hv
  cases hparent : treeAt tree node.parent_index with
  | none => rw [hparent] at hlist; cases hlist
  | some parent =>
    rw [hparent] at hlist
    simp only [beq_iff_eq] at hlist
    obtain ⟨p, hp, hpn⟩ := treeAt_some hparent
    refine ⟨p, hp, by omega, parent, hpn, ?_⟩
    have : 0 < parent.child_indices.count (i : Int) := by omega
    exact List.count_pos_iff.1 this

theorem keptToRoot_node {T : UncertaintyPlanningTree} {s : Bool} {i : Nat}
    (h : KeptToRoot T s i) : ∃ t, T[i]? = some t ∧ keepsState s t.value := by
  cases h with
  | root t ht hk => exact ⟨t, ht, hk⟩
  | step _ p t _ ht hk _ _ => exact ⟨t, ht, hk⟩

theorem treeAt_pruneMark {T : UncertaintyPlanningTree} {s : Bool} {c : Int}
    {child : UncertaintyPlanningTreeState} (h : treeAt (T.map (pruneMark s)) c = some child) :
    ∃ (k : Nat) (t : UncertaintyPlanningTreeState),
      c = (k : Int) ∧ T[k]? = some t ∧ child = pruneMark s t := by
  obtain ⟨k, hk, hget⟩ := treeAt_some h
  rw [List.getElem?_map] at hget
  cases hT : T[k]? with
  | none => rw [hT] at hget; cases hget
  | some t =>
    rw [hT] at hget
    exact ⟨k, t, hk, hT, (Option.some.inj hget).symm⟩

theorem subtreeOrder_kept (T : UncertaintyPlanningTree) (s : Bool) (hT : ValidLinkage T) :
    ∀ (fuel r0 : Nat), (r0 = 0 ∨ KeptToRoot T s r0) →
      ∀ i ∈ subtreeOrder fuel (T.map (pruneMark s)) (r0 : Int),
        i = (r0 : Int) ∨ ∃ k : Nat, i = (k : Int) ∧ 0 < k ∧ KeptToRoot T s k := by
  intro fuel
  induction fuel with
  | zero =>
    intro r0 _ i hi
    simp only [subtreeOrder, List.mem_singleton] at hi
    exact Or.inl hi
  | succ fuel ih =>
    intro r0 hr0 i hi
    rw [subtreeOrder] at hi
    cases hr : treeAt (T.map (pruneMark s)) (r0 : Int) with
    | none =>
      rw [hr] at hi
      simp only [List.mem_singleton] at hi
      exact Or.inl hi
    | some n0 =>
      rw [hr] at hi
      simp only [List.mem_cons] at hi
      rcases hi with hi | hi
      · exact Or.inl hi
      · right
        obtain ⟨c, hc, child, hchild, hkeep, hic⟩ := mem_orderChildren _ _ _ i hi
        obtain ⟨k0, t0, hk0, ht0, hn0⟩ := treeAt_pruneMark hr
        have hk0' : k0 = r0 := by omega
        subst hk0'
        have hkeep0 : keepsState s t0.value := by
          by_contra hk
          rw [hn0, pruneMark_of_not_keeps hk] at hc
          simp [UncertaintyPlanningTreeState.ClearChildIndicies] at hc
        rw [hn0, pruneMark_of_keeps hkeep0] at hc
        obtain ⟨k, hck, hlt, tc, htc, hpar⟩ := valid_child T hT k0 t0 ht0 c hc
        obtain ⟨k', tc', hk', htc', hchild'⟩ := treeAt_pruneMark hchild
        have hkk : k' = k := by omega
        subst hkk
        rw [htc] at htc'
        have : tc = tc' := Option.some.inj htc'
        subst this
        rw [hchild'] at hkeep
        have hkeepc := pruneMark_parent_nonneg hkeep
        have hroot0 : KeptToRoot T s k0 := by
          rcases hr0 with h0 | h0
          · subst h0; exact KeptToRoot.root t0 ht0 hkeep0
          · exact h0
        have hk : KeptToRoot T s k' :=
          KeptToRoot.step k' k0 tc (by omega) htc hkeepc hpar hroot0
        rw [hck] at hic
        rcases ih k' (Or.inr hk) i hic with h | ⟨k2, h1, h2, h3⟩
        · exact ⟨k', h, by omega, hk⟩
        · exact ⟨k2, h1, h2, h3⟩

theorem subtreeOrder_closed (raw : UncertaintyPlanningTree) (hraw : RawLinked raw) :
    ∀ (fuel r0 : Nat), r0 < raw.length → raw.length ≤ fuel + r0 →
      ∀ p ∈ subtreeOrder fuel raw (r0 : Int),
        ∀ (pn child : UncertaintyPlanningTreeState) (k : Int), treeAt raw p = some pn →
          k ∈ pn.child_indices → treeAt raw k = some child → child.parent_index ≥ 0 →
          k ∈ subtreeOrder fuel raw (r0 : Int) := by
  intro fuel
  induction fuel with
  | zero => intro r0 h1 h2; omega
  | succ fuel ih =>
    intro r0 h1 h2 p hp pn child k hpn hk hchild hkeep
    have hr : raw[r0]? = some raw[r0] := List.getElem?_eq_getElem h1
    obtain ⟨_, hchildren⟩ := hraw r0 _ hr
    have hlook : ∀ c ∈ raw[r0].child_indices, ∃ ch, treeAt raw c = some ch := by
      intro c hc
      obtain ⟨kc, hkc, _, hlen⟩ := hchildren c hc
      exact ⟨raw[kc], by rw [hkc, treeAt_natCast]; exact List.getElem?_eq_getElem hlen⟩
    rw [subtreeOrder, treeAt_natCast, hr] at hp ⊢
    simp only [List.mem_cons] at hp ⊢
    right
    rcases hp with hp | hp
    · subst hp
      rw [treeAt_natCast, hr] at hpn
      have : raw[r0] = pn := Option.some.inj hpn
      rw [this]  at hlook ⊢
      exact orderChildren_mem _ raw _ hlook k child k hk hchild hkeep
        (subtreeOrder_head fuel raw k)
    · obtain ⟨c, hc, ch, hch, hckeep, hpc⟩ := mem_orderChildren _ _ _ p hp
      obtain ⟨kc, hkc, hlt, hlen⟩ := hchildren c hc
      rw [hkc] at hpc
      have := ih kc hlen (by omega) p hpc pn child k hpn hk hchild hkeep
      rw [← hkc] at this
      exact orderChildren_mem _ raw _ hlook c ch k hc hch hckeep this

theorem keptToRoot_mem_order (T : UncertaintyPlanningTree) (s : Bool) (hT : ValidLinkage T)
    (hinit : ∀ n ∈ T, n.initialized = true) (fuel : Nat) (hfuel : T.length ≤ fuel) :
    ∀ (r : Nat), KeptToRoot T s r →
      (r : Int) ∈ subtreeOrder fuel (T.map (pruneMark s)) 0 := by
  intro r h
  have hraw := rawLinked_pruneMark T s hT hinit
  induction h with
  | root t ht hk => exact subtreeOrder_head _ _ _
  | step i p t hi ht hk hpar hp ih =>
    obtain ⟨tp, htp, hkp⟩ := keptToRoot_node hp
    obtain ⟨p', hp', _, parent, hparent, hlist⟩ := valid_parent T hT i t ht hi
    have hpp : p' = p := by omega
    subst hpp
    rw [htp] at hparent
    have : tp = parent := Option.some.inj hparent
    subst this
    have hlen : 0 < (T.map (pruneMark s)).length := by
      rw [List.length_map]; exact getElem?_lt_length htp |> Nat.zero_lt_of_lt
    have hIp : treeAt (T.map (pruneMark s)) (p' : Int) = some tp := by
      rw [treeAt_natCast, List.getElem?_map, htp]
      simp [pruneMark_of_keeps hkp]
    have hIi : treeAt (T.map (pruneMark s)) (i : Int) = some t := by
      rw [treeAt_natCast, List.getElem?_map, ht]
      simp [pruneMark_of_keeps hk]
    have := subtreeOrder_closed _ hraw fuel 0 hlen (by rw [List.length_map]; omega)
      (p' : Int) (by simpa using ih) tp t (i : Int) hIp hlist hIi (by rw [hpar]; omega)
    simpa using this

theorem pruneTree_order (check : UncertaintyPlanningTree → Bool)
    (hcheck : ∀ t, ValidLinkage t → (∀ n ∈ t, n.initialized = true) → check t = true)
    (fuel : Nat) (T : UncertaintyPlanningTree) (s : Bool) (hT : ValidLinkage T)
    (hinit : ∀ n ∈ T, n.initialized = true) (hfuel : T.length ≤ fuel)
    (hlen : 1 < T.length) :
    ∃ pruned, PruneTree check fuel T s = .ok pruned ∧
      List.Forall₂ (fun n i => ∃ t, treeAt T i = some t ∧ n.value = t.value) pruned
        (subtreeOrder fuel (T.map (pruneMark s)) 0) ∧
      (0 : Int) ∈ subtreeOrder fuel (T.map (pruneMark s)) 0 ∧
      ∀ r : Nat, 0 < r →
        ((r : Int) ∈ subtreeOrder fuel (T.map (pruneMark s)) 0 ↔ KeptToRoot T s r) := by
  obtain ⟨O, hrun, _, hO⟩ := pruneTree_valid check hcheck fuel T s hT hinit hfuel
  rcases hO with ⟨h1, _⟩ | ⟨_, root, hroot, hfit, hO⟩
  · omega
  · refine ⟨O, hrun, ?_, subtreeOrder_head _ _ _, fun r hr => ⟨fun h => ?_, fun h => ?_⟩⟩
    · have hIroot : treeAt (T.map (pruneMark s)) 0 = some root := by
        have := treeAt_natCast (T.map (pruneMark s)) 0
        simpa [hroot] using this
      have := buildSubtree_order (T.map (pruneMark s)) fuel 0 0 root hfit
        ⟨root, hIroot, rfl⟩
      rw [hO]
      refine this.imp ?_
      rintro n i ⟨m, hm, hv⟩
      obtain ⟨k, t, hk, ht, hmt⟩ := treeAt_pruneMark hm
      exact ⟨t, by rw [hk, treeAt_natCast]; exact ht, by
        rw [hv, hmt, (pruneMark_value s t).1]⟩
    · have := subtreeOrder_kept T s hT fuel 0 (Or.inl rfl) (r : Int) (by simpa using h)
      rcases this with h0 | ⟨k, hk, _, hkept⟩
      · simp only [Nat.cast_zero] at h0
        omega
      · have : k = r := by omega
        rw [← this]; exact hkept
    · exact keptToRoot_mem_order T s hT hinit fuel hfuel r h

/-- C14 (counterexample): in the chain `brokenChainTree` (valid linkage, three
nodes) node `2` is not the root and has `goal_p = 1 > 0`, but its parent has
`goal_p = 0`; `PruneTree` returns the root alone, so the state of node `2` does not
appear in the output, for either value of `include_spur_actions`. -/
theorem C14_counterexample_kept_below_pruned :
    ValidLinkage brokenChainTree ∧ 1 < brokenChainTree.length ∧
    ∃ node, brokenChainTree[2]? = some node ∧ node.value.goal_Pfeasibility > 0 ∧
      ∀ include_spur_actions : Bool, ∃ pruned,
        PruneTree (fun t => decide (ValidLinkage t)) 3 brokenChainTree include_spur_actions
          = .ok pruned ∧
        ∀ n ∈ pruned, n.value ≠ node.value := by
  refine ⟨brokenChainTree_valid, by decide,
    mkNode ((UncertaintyPlanningState.make 2 10 10 10 1 10 10 1 3 4 0
      true).SetGoalPfeasibility 1) 1 [], by simp [brokenChainTree], ?_, fun spur => ?_⟩
  · norm_num [mkNode, UncertaintyPlanningState.make,
      UncertaintyPlanningState.SetGoalPfeasibility]
  · refine ⟨_, brokenChainTree_prune (fun t => decide (ValidLinkage t))
      (decide_eq_true brokenChainTree_valid) (by decide) spur, ?_⟩
    intro n hn
    simp only [List.mem_singleton] at hn
    subst hn
    intro h
    have := congrArg UncertaintyPlanningState.state_id h
    simp [mkNode, startState, UncertaintyPlanningState.make,
      UncertaintyPlanningState.SetGoalPfeasibility] at this

/-- C14 (amended): for a tree with valid linkage, initialized nodes and more than
one node, `PruneTree` returns a tree whose nodes carry, one for one and in order, the
states of the input nodes listed by `subtreeOrder`; the root is in that list, and a
non-root node `r` of the input is in it exactly when `r` and every ancestor of `r`, the
root included, has `goal_p > 0`, or `goal_p < 0` with `include_spur_actions`. -/
theorem C14_pruned_states_are_kept_chains (CheckTreeLinkage : UncertaintyPlanningTree → Bool)
    (hcheck : ∀ t, ValidLinkage t → (∀ n ∈ t, n.initialized = true) →
      CheckTreeLinkage t = true)
    (fuel : Nat) (planner_tree : UncertaintyPlanningTree) (include_spur_actions : Bool)
    (hlinkage : ValidLinkage planner_tree)
    (hinit : ∀ n ∈ planner_tree, n.initialized = true)
    (hfuel : planner_tree.length ≤ fuel) (hlen : 1 < planner_tree.length) :
    ∃ pruned, PruneTree CheckTreeLinkage fuel planner_tree include_spur_actions = .ok pruned ∧
      List.Forall₂ (fun n i => ∃ t, treeAt planner_tree i = some t ∧ n.value = t.value)
        pruned (subtreeOrder fuel (planner_tree.map (pruneMark include_spur_actions)) 0) ∧
      (0 : Int) ∈ subtreeOrder fuel (planner_tree.map (pruneMark include_spur_actions)) 0 ∧
      ∀ r : Nat, 0 < r →
        ((r : Int) ∈ subtreeOrder fuel (planner_tree.map (pruneMark include_spur_actions)) 0
          ↔ KeptToRoot planner_tree include_spur_actions r) :=
  pruneTree_order CheckTreeLinkage hcheck fuel planner_tree include_spur_actions hlinkage
    hinit hfuel hlen

/-- Witness for C14 (amended): the chain `brokenChainTree`. -/
theorem C14_pruned_states_are_kept_chains_witness :
    ∃ pruned, PruneTree (fun t => decide (ValidLinkage t)) 3 brokenChainTree true
        = .ok pruned ∧
      List.Forall₂ (fun n i => ∃ t, treeAt brokenChainTree i = some t ∧ n.value = t.value)
        pruned (subtreeOrder 3 (brokenChainTree.map (pruneMark true)) 0) ∧
      (0 : Int) ∈ subtreeOrder 3 (brokenChainTree.map (pruneMark true)) 0 ∧
      ∀ r : Nat, 0 < r →
        ((r : Int) ∈ subtreeOrder 3 (brokenChainTree.map (pruneMark true)) 0
          ↔ KeptToRoot brokenChainTree true r) :=
  C14_pruned_states_are_kept_chains (fun t => decide (ValidLinkage t))
    (fun t ht _ => decide_eq_true ht) 3 brokenChainTree true brokenChainTree_valid
    brokenChainTree_initialized (by decide) (by decide)

theorem map_set_of_eq {α β : Type} (f : α → β) (l : List α) (i : Nat) (s u : α)
    (hs : l[i]? = some s) (hu : f u = f s) : (l.set i u).map f = l.map f := by
  apply List.ext_getElem?
  intro j
  simp only [List.getElem?_map, List.getElem?_set]
  by_cases hij : i = j
  · subst hij
    have hlt : i < l.length := getElem?_lt_length hs
    simp [hlt, hs, hu]
  · simp [hij]

theorem reverseLoop_idKey (include_reverse_actions : Bool)
    (reverse_edge_check : Nat → UncertaintyPlanningState → Nat × Nat) :
    ∀ (l : List (UncertaintyPlanningState × Int)) (idx cnt : Nat),
      (reverseLoop include_reverse_actions reverse_edge_check l idx cnt).1.map
          (fun e => (idKey e.1, e.2))
        = l.map (fun e => (idKey e.1, e.2)) := by
  intro l
  induction l with
  | nil => intro idx cnt; rfl
  | cons a rest ih =>
    intro idx cnt
    obtain ⟨s, off⟩ := a
    unfold reverseLoop
    split_ifs <;> (simp only [List.map_cons, ih] <;> rfl)

theorem storePReached_idKey (s u : UncertaintyPlanningState) (p : ℚ)
    (h : storePReached s p = .ok u) : idKey u = idKey s := by
  unfold storePReached at h
  split_ifs at h <;> cases h <;> rfl

theorem updateEffectiveEdges_idKey (K : Nat) :
    ∀ (remaining idx : Nat) (cur updated : List UncertaintyPlanningState),
      updateEffectiveEdges K remaining idx cur = .ok updated →
      updated.length = cur.length ∧ updated.map idKey = cur.map idKey := by
  intro remaining
  induction remaining with
  | zero =>
    intro idx cur updated h
    simp only [updateEffectiveEdges, Except.ok.injEq] at h
    subst h
    exact ⟨rfl, rfl⟩
  | succ n ih =>
    intro idx cur updated h
    unfold updateEffectiveEdges at h
    cases hc : cur[idx]? with
    | none =>
      rw [hc] at h
      simp only [Except.ok.injEq] at h
      subst h
      exact ⟨rfl, rfl⟩
    | some s0 =>
      rw [hc] at h
      simp only at h
      cases hst : storePReached s0 (computePReached cur K idx s0) with
      | error e => rw [hst] at h; cases h
      | ok u0 =>
        rw [hst] at h
        simp only at h
        obtain ⟨h1, h2⟩ := ih _ _ _ h
        refine ⟨by rw [h1, List.length_set], ?_⟩
        rw [h2, map_set_of_eq idKey cur idx s0 u0 hc (storePReached_idKey _ _ _ hst)]

theorem applyRetryArithmetic_idKey (K : Nat)
    (R result_states : List (UncertaintyPlanningState × Int))
    (hrun : applyRetryArithmetic K R = .ok result_states) :
    result_states.map (fun e => (idKey e.1, e.2)) = R.map (fun e => (idKey e.1, e.2)) := by
  unfold applyRetryArithmetic at hrun
  split_ifs at hrun with hsplit
  · cases hup : updateEffectiveEdges K R.length 0 (R.map Prod.fst) with
    | error err => rw [hup] at hrun; cases hrun
    | ok updated =>
      rw [hup] at hrun
      simp only [Except.ok.injEq] at hrun
      subst hrun
      obtain ⟨_, hkey⟩ := updateEffectiveEdges_idKey K _ _ _ _ hup
      have h1 : (updated.zip (R.map Prod.snd)).map (fun e => (idKey e.1, e.2))
          = (updated.map idKey).zip (R.map Prod.snd) := by
        rw [List.zip_map_left]
        apply List.map_congr_left
        intro e _
        rfl
      rw [h1, hkey, List.map_map, List.zip_map']
      rfl
  · simp only [Except.ok.injEq] at hrun
    rw [hrun]

theorem incr64_of_lt {n : Nat} (h : n + 1 < 2 ^ 64) : incr64 n = n + 1 := by
  unfold incr64
  exact Nat.mod_eq_of_lt h

theorem buildStates_ids (default_state nearest : UncertaintyPlanningState)
    (attempt_count tid : Nat) (is_split : Bool) (sid : Nat) :
    ∀ (clusters : List (List SimulationResult)) (c : BuildCounters),
      c.transition_id + clusters.length < 2 ^ 64 →
      c.transition_id ≤ (buildStates default_state nearest attempt_count tid is_split sid
          clusters c).2.transition_id ∧
      ∀ (i : Nat) (cluster : List SimulationResult), clusters[i]? = some cluster →
        cluster ≠ [] →
        ∃ s, (buildStates default_state nearest attempt_count tid is_split sid
            clusters c).1[i]? = some (s, -1) ∧
          s.transition_id = tid ∧ s.split_id = (if is_split = true then sid else 0) ∧
          c.transition_id < s.reverse_transition_id ∧
          s.reverse_transition_id ≤ (buildStates default_state nearest attempt_count tid
            is_split sid clusters c).2.transition_id ∧
          ∀ (j : Nat) (cluster' : List SimulationResult) (e : UncertaintyPlanningState × Int),
            i < j → clusters[j]? = some cluster' → cluster' ≠ [] →
            (buildStates default_state nearest attempt_count tid is_split sid
              clusters c).1[j]? = some e →
            s.reverse_transition_id < e.1.reverse_transition_id := by
  intro clusters
  induction clusters with
  | nil =>
    intro c _
    exact ⟨le_refl _, fun i cluster hi => by simp at hi⟩
  | cons cl rest ih =>
    intro c hwrap
    simp only [List.length_cons] at hwrap
    by_cases hpos : cl.length > 0
    · have hstep : (buildState nearest attempt_count tid is_split sid cl c).2.transition_id
          = c.transition_id + 1 := by
        simp only [buildState]
        exact incr64_of_lt (by omega)
      have hrt : (buildState nearest attempt_count tid is_split sid cl c).1.reverse_transition_id
          = c.transition_id + 1 := by
        simp only [buildState, UncertaintyPlanningState.make]
        exact incr64_of_lt (by omega)
      obtain ⟨hmono, hrest⟩ := ih (buildState nearest attempt_count tid is_split sid cl c).2
        (by rw [hstep]; omega)
      rw [hstep] at hmono
      have hunfold : buildStates default_state nearest attempt_count tid is_split sid
          (cl :: rest) c
          = (((buildState nearest attempt_count tid is_split sid cl c).1, -1) ::
              (buildStates default_state nearest attempt_count tid is_split sid rest
                (buildState nearest attempt_count tid is_split sid cl c).2).1,
            (buildStates default_state nearest attempt_count tid is_split sid rest
                (buildState nearest attempt_count tid is_split sid cl c).2).2) := by
        rw [buildStates, if_pos hpos]
      rw [hunfold]
      refine ⟨by simp only; omega, fun i cluster hi hne => ?_⟩
      cases i with
      | zero =>
        refine ⟨(buildState nearest attempt_count tid is_split sid cl c).1, by simp,
          by simp [buildState, UncertaintyPlanningState.make],
          by simp [buildState, UncertaintyPlanningState.make], by rw [hrt]; omega,
          by rw [hrt]; simp only; omega, ?_⟩
        intro j cluster' e hj hcj hnej hej
        obtain ⟨j', rfl⟩ : ∃ j', j = j' + 1 := ⟨j - 1, by omega⟩
        simp only [List.getElem?_cons_succ] at hcj hej
        obtain ⟨s', hs', _, _, hlt, _⟩ := hrest j' cluster' hcj hnej
        rw [hs'] at hej
        rw [← Option.some.inj hej, hrt]
        rw [hstep] at hlt
        exact hlt
      | succ i' =>
        simp only [List.getElem?_cons_succ] at hi ⊢
        obtain ⟨s, hs, h1, h2, h3, h4, h5⟩ := hrest i' cluster hi hne
        rw [hstep] at h3
        refine ⟨s, hs, h1, h2, by omega, h4, ?_⟩
        intro j cluster' e hj hcj hnej hej
        obtain ⟨j', rfl⟩ : ∃ j', j = j' + 1 := ⟨j - 1, by omega⟩
        simp only [List.getElem?_cons_succ] at hcj hej
        exact h5 j' cluster' e (by omega) hcj hnej hej
    · obtain ⟨hmono, hrest⟩ := ih c (by omega)
      have hunfold : buildStates default_state nearest attempt_count tid is_split sid
          (cl :: rest) c
          = ((default_state, 0) ::
              (buildStates default_state nearest attempt_count tid is_split sid rest c).1,
            (buildStates default_state nearest attempt_count tid is_split sid rest c).2) := by
        rw [buildStates, if_neg hpos]
      rw [hunfold]
      refine ⟨hmono, fun i cluster hi hne => ?_⟩
      cases i with
      | zero =>
        simp only [List.getElem?_cons_zero, Option.some.injEq] at hi
        subst hi
        exact absurd (List.length_pos.2 hne) hpos
      | succ i' =>
        simp only [List.getElem?_cons_succ] at hi ⊢
        obtain ⟨s, hs, h1, h2, h3, h4, h5⟩ := hrest i' cluster hi hne
        refine ⟨s, hs, h1, h2, h3, h4, ?_⟩
        intro j cluster' e hj hcj hnej hej
        obtain ⟨j', rfl⟩ : ∃ j', j = j' + 1 := ⟨j - 1, by omega⟩
        simp only [List.getElem?_cons_succ] at hcj hej
        exact h5 j' cluster' e (by omega) hcj hnej hej

theorem getElem?_of_map_eq {α β : Type} (f : α → β) {l l' : List α}
    (h : l.map f = l'.map f) {i : Nat} {b : α} (hb : l'[i]? = some b) :
    ∃ a, l[i]? = some a ∧ f a = f b := by
  have := congrArg (fun m => m[i]?) h
  simp only [List.getElem?_map, hb, Option.map_some'] at this
  cases ha : l[i]? with
  | none => rw [ha] at this; cases this
  | some a =>
    rw [ha] at this
    exact ⟨a, rfl, Option.some.inj this⟩

theorem forwardSimulate_ids (planner : UncertaintyPlanningSpace)
    (default_state nearest : UncertaintyPlanningState)
    (propagated_points : List SimulationResult) (final_index_clusters : List (List Nat))
    (reverse_edge_check : Nat → UncertaintyPlanningState → Nat × Nat)
    (planner_action_try_attempts : Nat) (allow_contacts include_reverse_actions : Bool)
    (particle_clusters : List (List SimulationResult)) (out : ForwardSimulationOutput)
    (hcl : ClusterParticles propagated_points final_index_clusters allow_contacts
      = .ok particle_clusters)
    (hrun : ForwardSimulateStates planner default_state nearest propagated_points
      final_index_clusters reverse_edge_check planner_action_try_attempts allow_contacts
      include_reverse_actions = .ok out)
    (hwrap : planner.transition_id + particle_clusters.length + 1 < 2 ^ 64)
    (hsplit : planner.split_id + 1 < 2 ^ 64) :
    out.planner.split_id
        = (if 1 < particle_clusters.length then planner.split_id + 1 else planner.split_id) ∧
    ∀ (i : Nat) (cluster : List SimulationResult), particle_clusters[i]? = some cluster →
      cluster ≠ [] →
      ∃ s, out.result_states[i]? = some (s, -1) ∧
        s.transition_id = planner.transition_id + 1 ∧
        s.split_id = (if 1 < particle_clusters.length then planner.split_id + 1 else 0) ∧
        planner.transition_id + 1 < s.reverse_transition_id ∧
        s.reverse_transition_id ≤ out.planner.transition_id ∧
        ∀ (j : Nat) (cluster' : List SimulationResult) (e : UncertaintyPlanningState × Int),
          i < j → particle_clusters[j]? = some cluster' → cluster' ≠ [] →
          out.result_states[j]? = some e →
          s.reverse_transition_id < e.1.reverse_transition_id := by
  unfold ForwardSimulateStates at hrun
  rw [hcl] at hrun
  simp only at hrun
  cases h0 : propagated_points[0]? with
  | none => rw [h0] at hrun; cases hrun
  | some p0 =>
    rw [h0] at hrun
    simp only at hrun
    have ht : incr64 planner.transition_id = planner.transition_id + 1 :=
      incr64_of_lt (by omega)
    have hs : incr64 planner.split_id = planner.split_id + 1 := incr64_of_lt hsplit
    rw [ht, hs] at hrun
    generalize hB : buildStates default_state nearest propagated_points.length
      (planner.transition_id + 1) (decide (particle_clusters.length > 1))
      (if decide (particle_clusters.length > 1) = true then planner.split_id + 1
        else planner.split_id) particle_clusters
      { state_counter := planner.state_counter
        transition_id := planner.transition_id + 1
        particles_stored := planner.particles_stored } = B at hrun
    cases hA : applyRetryArithmetic planner_action_try_attempts
        (reverseLoop include_reverse_actions reverse_edge_check B.1 0 0).1 with
    | error e => rw [hA] at hrun; cases hrun
    | ok result_states =>
      rw [hA] at hrun
      simp only [Except.ok.injEq] at hrun
      subst hrun
      have hkey : result_states.map (fun e => (idKey e.1, e.2))
          = B.1.map (fun e => (idKey e.1, e.2)) := by
        rw [applyRetryArithmetic_idKey _ _ _ hA, reverseLoop_idKey]
      obtain ⟨_, hids⟩ := buildStates_ids default_state nearest propagated_points.length
        (planner.transition_id + 1) (decide (particle_clusters.length > 1))
        (if decide (particle_clusters.length > 1) = true then planner.split_id + 1
          else planner.split_id) particle_clusters
        { state_counter := planner.state_counter
          transition_id := planner.transition_id + 1
          particles_stored := planner.particles_stored } (by simp only; omega)
      rw [hB] at hids
      refine ⟨by simp, fun i cluster hi hne => ?_⟩
      obtain ⟨s0, hs0, h1, h2, h3, h4, h5⟩ := hids i cluster hi hne
      obtain ⟨e, he, hke⟩ := getElem?_of_map_eq _ hkey hs0
      simp only [idKey, Prod.mk.injEq] at hke
      obtain ⟨⟨_, ht1, hr1, hsp1⟩, hoff⟩ := hke
      refine ⟨e.1, by rw [he, ← hoff], by rw [ht1, h1], ?_, by rw [hr1]; exact h3,
        by rw [hr1]; exact h4, ?_⟩
      · rw [hsp1, h2]
        by_cases hl : 1 < particle_clusters.length
        · simp [hl]
        · simp [hl]
      · intro j cluster' e' hij hj hnej hej
        obtain ⟨b, hb⟩ : ∃ b, B.1[j]? = some b := by
          have := congrArg List.length hkey
          simp only [List.length_map] at this
          have hlt : j < result_states.length := getElem?_lt_length hej
          have hjB : j < B.1.length := by omega
          exact ⟨B.1[j], List.getElem?_eq_getElem hjB⟩
        obtain ⟨e'', he'', hke'⟩ := getElem?_of_map_eq _ hkey hb
        rw [hej] at he''
        have hee : e' = e'' := Option.some.inj he''
        subst hee
        simp only [idKey, Prod.mk.injEq] at hke'
        rw [hr1, hke'.1.2.2.1]
        exact h5 j cluster' b hij hj hnej hb

/-- C18 (amended): as long as the 64-bit counters do not wrap, in each call of
`ForwardSimulateStates` all child states built share the forward transition id
`t = counter + 1`; their reverse transition ids are pairwise distinct (increasing with
the cluster), each greater than `t` and at most the counter after the call, so that no
id is issued twice across calls; the split id is one freshly incremented positive
value shared by all children built when the clustering returns more than one cluster
(a cluster emptied by the contact filter counts), and `0` when it returns exactly one
cluster. -/
theorem C18_transition_and_split_ids (planner : UncertaintyPlanningSpace)
    (default_state nearest : UncertaintyPlanningState)
    (propagated_points : List SimulationResult) (final_index_clusters : List (List Nat))
    (reverse_edge_check : Nat → UncertaintyPlanningState → Nat × Nat)
    (planner_action_try_attempts : Nat) (allow_contacts include_reverse_actions : Bool)
    (particle_clusters : List (List SimulationResult)) (out : ForwardSimulationOutput)
    (hcl : ClusterParticles propagated_points final_index_clusters allow_contacts
      = .ok particle_clusters)
    (hrun : ForwardSimulateStates planner default_state nearest propagated_points
      final_index_clusters reverse_edge_check planner_action_try_attempts allow_contacts
      include_reverse_actions = .ok out)
    (hwrap : planner.transition_id + particle_clusters.length + 1 < 2 ^ 64)
    (hsplit : planner.split_id + 1 < 2 ^ 64) :
    IdsAsIssued planner particle_clusters out :=
  forwardSimulate_ids planner default_state nearest propagated_points final_index_clusters
    reverse_edge_check planner_action_try_attempts allow_contacts include_reverse_actions
    particle_clusters out hcl hrun hwrap hsplit

/-- Witness for C18 (amended): the run `emptyClusterRun` (two clusters, the second
emptied by the contact filter). -/
theorem C18_transition_and_split_ids_witness :
    ∃ out, emptyClusterRun = .ok out ∧
      IdsAsIssued (freshPlanner (1 / 2) [])
        [[{ did_contact := false, outcome_is_nominally_independent := true }], []] out := by
  obtain ⟨child, dflt, planner, hrun, _⟩ := emptyClusterRun_eval
  exact ⟨_, hrun, C18_transition_and_split_ids (freshPlanner (1 / 2) []) zeroState startState
    freeAndContact [[0], [1]] (fun _ s => (s.num_particles, s.num_particles)) 1 false true
    _ _ (by simp [ClusterParticles, clusterLoop, clusterElements, freeAndContact]) hrun
    (by simp [freshPlanner]) (by simp [freshPlanner])⟩

/-- C26: for every sibling group, every child `current_child` at position `idx` and
every retry count `K`, the direct-goal term `p_we_reached_goal` that the try loop of
`ComputeTransitionGoalProbability` accumulates equals `goal_p` of the child times the
value `p_reached` that the retry loop of `ForwardSimulateStates` computes, before its
range check, for the same position from the same siblings. -/
theorem C26_direct_goal_term_is_goal_times_retry (child_nodes : List UncertaintyPlanningState)
    (K idx : Nat) (current_child : UncertaintyPlanningState) :
    (goalTryLoop child_nodes idx current_child K (1, 0, 0)).2.1
      = current_child.goal_Pfeasibility * computePReached child_nodes K idx current_child := by
  rw [goalTryLoop_eq]
  unfold computePReached
  rw [retryLoop_eq]
  simp only [zero_add, one_mul, mul_one]
  ring

theorem clusterElements_total (particles : List SimulationResult) (allow_contacts : Bool) :
    ∀ (elems : List Nat) (acc : List SimulationResult) (total : Nat),
      clusterElements particles allow_contacts elems acc total
        = if ∀ i ∈ elems, i < particles.length then
            .ok (acc ++ clusterOfIndices particles allow_contacts elems, total + elems.length)
          else .error .out_of_range := by
  intro elems
  induction elems with
  | nil => intro acc total; simp [clusterElements, clusterOfIndices]
  | cons i rest ih =>
    intro acc total
    rw [clusterElements]
    by_cases hi : i < particles.length
    · rw [List.getElem?_eq_getElem hi]
      simp only
      have hall : (∀ j ∈ i :: rest, j < particles.length) ↔ (∀ j ∈ rest, j < particles.length) := by
        simp [hi]
      by_cases hk : particles[i].did_contact = false ∨ allow_contacts = true
      · rw [if_pos hk, ih]
        simp only [hall]
        split_ifs
        · simp [clusterOfIndices, List.getElem?_eq_getElem hi, keepsParticle, hk,
            Nat.add_assoc, Nat.add_comm 1]
        · rfl
      · rw [if_neg hk, ih]
        simp only [hall]
        split_ifs
        · simp [clusterOfIndices, List.getElem?_eq_getElem hi, keepsParticle, hk,
            Nat.add_assoc, Nat.add_comm 1]
        · rfl
    · rw [List.getElem?_eq_none (by omega)]
      have : ¬ ∀ j ∈ i :: rest, j < particles.length := fun h => hi (h i (List.mem_cons_self _ _))
      rw [if_neg this]

theorem clusterLoop_total (particles : List SimulationResult) (allow_contacts : Bool) :
    ∀ (clusters : List (List Nat)) (accs : List (List SimulationResult)) (total : Nat),
      clusterLoop particles allow_contacts clusters accs total
        = if ∀ c ∈ clusters, ∀ i ∈ c, i < particles.length then
            .ok (accs ++ clusters.map (clusterOfIndices particles allow_contacts),
              total + (clusters.map List.length).sum)
          else .error .out_of_range := by
  intro clusters
  induction clusters with
  | nil => intro accs total; simp [clusterLoop]
  | cons c rest ih =>
    intro accs total
    rw [clusterLoop, clusterElements_total]
    by_cases hc : ∀ i ∈ c, i < particles.length
    · rw [if_pos hc]
      simp only [List.nil_append]
      rw [ih]
      have hall : (∀ c' ∈ c :: rest, ∀ i ∈ c', i < particles.length)
          ↔ (∀ c' ∈ rest, ∀ i ∈ c', i < particles.length) := by
        constructor
        · intro h c' hc'; exact h c' (List.mem_cons_of_mem _ hc')
        · intro h c' hc'
          rcases List.mem_cons.1 hc' with rfl | hc'
          · exact hc
          · exact h c' hc'
      simp only [hall]
      split_ifs
      · simp [Nat.add_assoc]
      · rfl
    · rw [if_neg hc]
      have : ¬ ∀ c' ∈ c :: rest, ∀ i ∈ c', i < particles.length :=
        fun h => hc (h c (List.mem_cons_self _ _))
      rw [if_neg this]

theorem clusterParticles_total (particles : List SimulationResult)
    (final_index_clusters : List (List Nat)) (allow_contacts : Bool)
    (h : 2 ≤ particles.length) :
    ClusterParticles particles final_index_clusters allow_contacts
      = if ∀ c ∈ final_index_clusters, ∀ i ∈ c, i < particles.length then
          if (final_index_clusters.map List.length).sum ≠ particles.length then
            .error .total_particles_mismatch
          else .ok (final_index_clusters.map (clusterOfIndices particles allow_contacts))
        else .error .out_of_range := by
  unfold ClusterParticles
  rw [if_neg (by omega), if_neg (by omega), clusterLoop_total]
  by_cases hall : ∀ c ∈ final_index_clusters, ∀ i ∈ c, i < particles.length
  · rw [if_pos hall, if_pos hall]
    simp only [List.nil_append, Nat.zero_add]
  · rw [if_neg hall, if_neg hall]

theorem isIndexPartition_in_range {n : Nat} {final_index_clusters : List (List Nat)}
    (h : IsIndexPartition n final_index_clusters) :
    (∀ c ∈ final_index_clusters, ∀ i ∈ c, i < n)
      ∧ (final_index_clusters.map List.length).sum = n := by
  unfold IsIndexPartition at h
  constructor
  · intro c hc i hi
    have : i ∈ final_index_clusters.flatten := List.mem_flatten.2 ⟨c, hc, hi⟩
    exact List.mem_range.1 (h.mem_iff.1 this)
  · have := h.length_eq
    rw [List.length_flatten, List.length_range] at this
    exact this

/-- C22 (counterexample): for the two particles of `freeAndContact` and the index
clusters `[[0, 0]]`, which repeat index 0 and miss index 1, `ClusterParticles` raises no
error and returns one cluster holding the first particle twice. -/
theorem C22_counterexample_repeated_index :
    ¬ IsIndexPartition freeAndContact.length [[0, 0]]
      ∧ ∃ p, freeAndContact[0]? = some p
          ∧ ClusterParticles freeAndContact [[0, 0]] true = .ok [[p, p]] := by
  refine ⟨by decide, _, rfl, ?_⟩
  simp [ClusterParticles, clusterLoop, clusterElements, freeAndContact]

/-- C22 (amended): for every list of two or more particles, `ClusterParticles` raises
an error exactly when some index returned by the clustering collaborator is out of
range or the number of returned indices differs from the number of particles; for
every well-formed partition of the indices it returns the clusters of the particles
at these indices. -/
theorem C22_cluster_particles_errors (particles : List SimulationResult)
    (final_index_clusters : List (List Nat)) (allow_contacts : Bool)
    (h : 2 ≤ particles.length) :
    ((∃ e, ClusterParticles particles final_index_clusters allow_contacts = .error e)
        ↔ ((∃ c ∈ final_index_clusters, ∃ i ∈ c, particles.length ≤ i)
            ∨ (final_index_clusters.map List.length).sum ≠ particles.length))
      ∧ (IsIndexPartition particles.length final_index_clusters →
          ClusterParticles particles final_index_clusters allow_contacts
            = .ok (final_index_clusters.map (clusterOfIndices particles allow_contacts))) := by
  rw [clusterParticles_total particles final_index_clusters allow_contacts h]
  constructor
  · by_cases hall : ∀ c ∈ final_index_clusters, ∀ i ∈ c, i < particles.length
    · rw [if_pos hall]
      have hno : ¬ ∃ c ∈ final_index_clusters, ∃ i ∈ c, particles.length ≤ i := by
        rintro ⟨c, hc, i, hi, hle⟩
        exact absurd (hall c hc i hi) (by omega)
      by_cases hsum : (final_index_clusters.map List.length).sum ≠ particles.length
      · rw [if_pos hsum]
        exact ⟨fun _ => Or.inr hsum, fun _ => ⟨_, rfl⟩⟩
      · rw [if_neg hsum]
        constructor
        · rintro ⟨e, he⟩; cases he
        · rintro (h1 | h1)
          · exact absurd h1 hno
          · exact absurd h1 hsum
    · rw [if_neg hall]
      refine ⟨fun _ => Or.inl ?_, fun _ => ⟨_, rfl⟩⟩
      by_contra hno
      apply hall
      intro c hc i hi
      by_contra hlt
      exact hno ⟨c, hc, i, hi, by omega⟩
  · intro hp
    obtain ⟨hall, hsum⟩ := isIndexPartition_in_range hp
    rw [if_pos hall, if_neg (by simpa using hsum)]

/-- Witness for C22 (amended): the two particles of `freeAndContact`, each in a
cluster of its own. -/
theorem C22_cluster_particles_errors_witness :
    2 ≤ freeAndContact.length
      ∧ (((∃ e, ClusterParticles freeAndContact [[0], [1]] true = .error e)
          ↔ ((∃ c ∈ [[0], [1]], ∃ i ∈ c, freeAndContact.length ≤ i)
              ∨ (([[0], [1]] : List (List Nat)).map List.length).sum ≠ freeAndContact.length))
        ∧ (IsIndexPartition freeAndContact.length [[0], [1]] →
            ClusterParticles freeAndContact [[0], [1]] true
              = .ok (([[0], [1]] : List (List Nat)).map (clusterOfIndices freeAndContact true)))) :=
  ⟨by decide, C22_cluster_particles_errors freeAndContact [[0], [1]] true (by decide)⟩

/-- C30 (failing input): a single particle that made contact, clustered with
`allow_contacts = false`, comes back as a cluster of its own (the clustering
collaborator is not consulted); the returned cluster holds a particle with
`did_contact`. -/
theorem C30_single_contact_particle_returned :
    ClusterParticles oneContactParticle [] false = .ok [oneContactParticle]
      ∧ ∃ cluster ∈ [oneContactParticle], ∃ p ∈ cluster, p.did_contact = true := by
  refine ⟨by simp [ClusterParticles, oneContactParticle], ?_⟩
  exact ⟨_, List.mem_singleton.2 rfl, _, List.mem_singleton.2 rfl, rfl⟩

/-- C23 (counterexample): with `feasibility_alpha = 1`, `variance_alpha = 0`, a
configuration distance of one step and variance zero (the error function replaced by
`min x 1`; with `variance_alpha = 0` it does not enter), the state with `motion_p = 1/2`
is at distance `1/2` and the state with `motion_p = 1` at distance `0`: the state with
the lower `motion_p` is farther. -/
theorem C23_counterexample_lower_probability_is_farther :
    halfMotionState.motion_Pfeasibility < startState.motion_Pfeasibility
      ∧ StateDistance 1 1 0 (fun x => min x 1) 1 0 halfMotionState = 1 / 2
      ∧ StateDistance 1 1 0 (fun x => min x 1) 1 0 startState = 0
      ∧ ¬ (StateDistance 1 1 0 (fun x => min x 1) 1 0 halfMotionState
            ≤ StateDistance 1 1 0 (fun x => min x 1) 1 0 startState) := by
  have h1 : StateDistance 1 1 0 (fun x => min x 1) 1 0 halfMotionState = 1 / 2 := by
    simp [StateDistance, halfMotionState, UncertaintyPlanningState.make]; norm_num
  have h2 : StateDistance 1 1 0 (fun x => min x 1) 1 0 startState = 0 := by
    simp [StateDistance, startState, UncertaintyPlanningState.make]
  refine ⟨?_, h1, h2, ?_⟩
  · simp [halfMotionState, startState, UncertaintyPlanningState.make]; norm_num
  · rw [h1, h2]; norm_num

/-- C23 (amended): with `feasibility_alpha` and `variance_alpha` in `[0,1]`, a
non-negative configuration distance, step size and variance, and an error function
that is non-negative and monotone on the non-negative numbers: of two states at the
same configuration distance and with the same variance, the one with the higher
`motion_p` is at no greater `StateDistance`; and of two variances for a state with
`motion_p ≤ 1`, the higher variance gives no smaller `StateDistance`. -/
theorem C23_state_distance_monotone (step_size feasibility_alpha variance_alpha : ℚ)
    (erf : ℚ → ℚ) (configuration_distance raw_variance higher_variance : ℚ)
    (lower higher : UncertaintyPlanningState)
    (hstep : 0 ≤ step_size) (hdist : 0 ≤ configuration_distance)
    (hfa : 0 ≤ feasibility_alpha) (hfa1 : feasibility_alpha ≤ 1)
    (hva : 0 ≤ variance_alpha) (hva1 : variance_alpha ≤ 1)
    (hvar : 0 ≤ raw_variance) (hvars : raw_variance ≤ higher_variance)
    (herf_nonneg : ∀ x, 0 ≤ x → 0 ≤ erf x)
    (herf_mono : ∀ x y, 0 ≤ x → x ≤ y → erf x ≤ erf y)
    (hmotion : lower.motion_Pfeasibility ≤ higher.motion_Pfeasibility)
    (hmotion1 : higher.motion_Pfeasibility ≤ 1) :
    StateDistance step_size feasibility_alpha variance_alpha erf configuration_distance
        raw_variance higher
      ≤ StateDistance step_size feasibility_alpha variance_alpha erf configuration_distance
        raw_variance lower
      ∧ StateDistance step_size feasibility_alpha variance_alpha erf configuration_distance
        raw_variance higher
      ≤ StateDistance step_size feasibility_alpha variance_alpha erf configuration_distance
        higher_variance higher := by
  have he : 0 ≤ configuration_distance / step_size := div_nonneg hdist hstep
  have hvw : 0 ≤ erf raw_variance * variance_alpha + (1 - variance_alpha) := by
    have := mul_nonneg (herf_nonneg _ hvar) hva
    linarith
  have hfw : 0 ≤ (1 - higher.motion_Pfeasibility) * feasibility_alpha
      + (1 - feasibility_alpha) := by
    have := mul_nonneg (sub_nonneg.2 hmotion1) hfa
    linarith
  unfold StateDistance
  constructor
  · apply mul_le_mul_of_nonneg_right _ hvw
    apply mul_le_mul_of_nonneg_right _ he
    have := mul_le_mul_of_nonneg_right hmotion hfa
    linarith
  · apply mul_le_mul_of_nonneg_left _ (mul_nonneg hfw he)
    have := mul_le_mul_of_nonneg_right (herf_mono _ _ hvar hvars) hva
    linarith

/-- Witness for C23 (amended): both weights at one half, the error function replaced by
`min x 1`, the states `halfMotionState` and `startState`, variances `1/4` and `1/2`. -/
theorem C23_state_distance_monotone_witness :
    StateDistance 1 (1 / 2) (1 / 2) (fun x => min x 1) 1 (1 / 4) startState
        ≤ StateDistance 1 (1 / 2) (1 / 2) (fun x => min x 1) 1 (1 / 4) halfMotionState
      ∧ StateDistance 1 (1 / 2) (1 / 2) (fun x => min x 1) 1 (1 / 4) startState
        ≤ StateDistance 1 (1 / 2) (1 / 2) (fun x => min x 1) 1 (1 / 2) startState :=
  C23_state_distance_monotone 1 (1 / 2) (1 / 2) (fun x => min x 1) 1 (1 / 4) (1 / 2)
    halfMotionState startState (by norm_num) (by norm_num) (by norm_num) (by norm_num)
    (by norm_num) (by norm_num) (by norm_num) (by norm_num)
    (fun x hx => le_min hx (by norm_num))
    (fun x y _ hxy => min_le_min_right 1 hxy)
    (by simp [halfMotionState, startState, UncertaintyPlanningState.make]; norm_num)
    (by simp [startState, UncertaintyPlanningState.make])

theorem executionLoop_reaches {τ : Type} (term : τ → Bool × τ) (goal : Nat → Bool) :
    ∀ (d fuel : Nat) (c : τ) (step moves : Nat), 1 ≤ d → d ≤ fuel →
      (∀ k, k < d → (term (terminationStateAfter term k c)).1 = false) →
      (∀ k, 1 ≤ k → k < d → goal (moves + k) = false) →
      goal (moves + d) = true →
      executionLoop term goal fuel c step moves
        = .ok { step_count := (((step + d) % 2 ^ 32 : Nat) : Int)
                move_calls := moves + d
                termination_state := terminationStateAfter term d c } := by
  intro d
  induction d with
  | zero => intro fuel c step moves h; omega
  | succ d ih =>
    intro fuel c step moves _ hfuel hterm hgoal hreach
    obtain ⟨fuel, rfl⟩ : ∃ f, fuel = f + 1 := ⟨fuel - 1, by omega⟩
    rw [executionLoop]
    have h0 : (term c).1 = false := hterm 0 (by omega)
    simp only [h0, if_true]
    by_cases hd : d = 0
    · subst hd
      have : goal (moves + 1) = true := hreach
      simp only [this, if_true, terminationStateAfter]
    · have hg1 : goal (moves + 1) = false := hgoal 1 (by omega) (by omega)
      simp only [hg1, Bool.false_eq_true, if_false]
      rw [ih fuel (term c).2 ((step + 1) % 2 ^ 32) (moves + 1) (by omega) (by omega)
        (fun k hk => by simpa [terminationStateAfter] using hterm (k + 1) (by omega))
        (fun k hk1 hk => by
          have := hgoal (k + 1) (by omega) (by omega)
          rwa [show moves + (k + 1) = moves + 1 + k by omega] at this)
        (by rwa [show moves + (d + 1) = moves + 1 + d by omega] at hreach)]
      have e1 : ((step + 1) % 2 ^ 32 + d) % 2 ^ 32 = (step + (d + 1)) % 2 ^ 32 := by
        rw [Nat.add_mod, Nat.mod_mod, ← Nat.add_mod]; congr 1; omega
      have e2 : moves + 1 + d = moves + (d + 1) := by omega
      rw [e1, e2]
      rfl

theorem executionLoop_stops {τ : Type} (term : τ → Bool × τ) (goal : Nat → Bool) :
    ∀ (d fuel : Nat) (c : τ) (step moves : Nat), d < fuel → step < 2 ^ 32 →
      (∀ k, k < d → (term (terminationStateAfter term k c)).1 = false) →
      (term (terminationStateAfter term d c)).1 = true →
      (∀ k, 1 ≤ k → k ≤ d → goal (moves + k) = false) →
      executionLoop term goal fuel c step moves
        = .ok { step_count := -(((step + d) % 2 ^ 32 : Nat) : Int)
                move_calls := moves + d
                termination_state := (term (terminationStateAfter term d c)).2 } := by
  intro d
  induction d with
  | zero =>
    intro fuel c step moves hfuel hstep _ hstop _
    obtain ⟨fuel, rfl⟩ : ∃ f, fuel = f + 1 := ⟨fuel - 1, by omega⟩
    rw [executionLoop]
    simp only [terminationStateAfter] at hstop
    simp only [hstop, Bool.true_eq_false, if_false, Nat.add_zero, terminationStateAfter,
      Nat.mod_eq_of_lt hstep]
  | succ d ih =>
    intro fuel c step moves hfuel _ hterm hstop hgoal
    obtain ⟨fuel, rfl⟩ : ∃ f, fuel = f + 1 := ⟨fuel - 1, by omega⟩
    rw [executionLoop]
    have h0 : (term c).1 = false := hterm 0 (by omega)
    have hg1 : goal (moves + 1) = false := hgoal 1 (by omega) (by omega)
    simp only [h0, if_true, hg1, Bool.false_eq_true, if_false]
    rw [ih fuel (term c).2 ((step + 1) % 2 ^ 32) (moves + 1) (by omega)
      (Nat.mod_lt _ (by norm_num))
      (fun k hk => by simpa [terminationStateAfter] using hterm (k + 1) (by omega))
      (by simpa [terminationStateAfter] using hstop)
      (fun k hk1 hk => by
        have := hgoal (k + 1) (by omega) (by omega)
        rwa [show moves + (k + 1) = moves + 1 + k by omega] at this)]
    have e1 : ((step + 1) % 2 ^ 32 + d) % 2 ^ 32 = (step + (d + 1)) % 2 ^ 32 := by
      rw [Nat.add_mod, Nat.mod_mod, ← Nat.add_mod]; congr 1; omega
    have e2 : moves + 1 + d = moves + (d + 1) := by omega
    rw [e1, e2]
    rfl

theorem terminationStateAfter_counter (exec_step_limit : Nat) :
    ∀ (k : Nat) (policy_exec_steps : Int), policy_exec_steps + k ≤ exec_step_limit →
      terminationStateAfter (policyExecTermination exec_step_limit) k policy_exec_steps
        = policy_exec_steps + k := by
  intro k
  induction k with
  | zero => intro s _; simp [terminationStateAfter]
  | succ k ih =>
    intro s hs
    push_cast at hs
    have hlt : ¬ s ≥ (exec_step_limit : Int) := by omega
    rw [terminationStateAfter, policyExecTermination, if_neg hlt]
    simp only
    rw [ih (s + 1) (by omega)]
    push_cast
    ring

theorem policyExecTermination_stops (exec_step_limit : Nat) (k : Nat)
    (hk : k ≤ exec_step_limit) :
    (policyExecTermination exec_step_limit
        (terminationStateAfter (policyExecTermination exec_step_limit) k 0)).1
      = decide (k = exec_step_limit) := by
  rw [terminationStateAfter_counter exec_step_limit k 0 (by omega)]
  unfold policyExecTermination
  by_cases h : k = exec_step_limit
  · subst h; simp
  · have : ¬ (0 : Int) + (k : Int) ≥ (exec_step_limit : Int) := by omega
    rw [if_neg this]; simp [h]

/-- One execution inside `SimulateExectionPolicy`: with fuel above the step limit it
returns; it makes at most `exec_step_limit` policy steps, the absolute value of its step
count is the number of steps made, the count is positive exactly when the goal check
succeeded within the limit, and it is `-exec_step_limit` when the goal check never
succeeded. -/
theorem limitedExecution_spec (exec_step_limit : Nat) (goal : Nat → Bool) (fuel : Nat)
    (hfuel : exec_step_limit < fuel) (h32 : exec_step_limit < 2 ^ 32) :
    ∃ r, PerformSinglePolicyExecution (policyExecTermination exec_step_limit) goal fuel 0
          = .ok r
      ∧ r.move_calls ≤ exec_step_limit
      ∧ r.step_count.natAbs = r.move_calls
      ∧ (0 < r.step_count ↔ ∃ k, 1 ≤ k ∧ k ≤ exec_step_limit ∧ goal k = true)
      ∧ ((∀ k, 1 ≤ k → k ≤ exec_step_limit → goal k = false) →
          r.step_count = -(exec_step_limit : Int) ∧ r.move_calls = exec_step_limit) := by
  unfold PerformSinglePolicyExecution
  by_cases hex : ∃ k, 1 ≤ k ∧ k ≤ exec_step_limit ∧ goal k = true
  · classical
    have hmin := Nat.find_spec hex
    have hleast := fun k (hk : k < Nat.find hex) => Nat.find_min hex hk
    set d := Nat.find hex with hd
    obtain ⟨hd1, hdl, hdg⟩ := hmin
    have hrun := executionLoop_reaches (policyExecTermination exec_step_limit) goal d fuel 0
      0 0 hd1 (by omega)
      (fun k hk => by
        rw [policyExecTermination_stops exec_step_limit k (by omega)]
        simp; omega)
      (fun k hk1 hk => by
        have := hleast k hk
        by_contra hg
        exact this ⟨hk1, by omega, by simpa using hg⟩)
      (by simpa using hdg)
    refine ⟨_, hrun, ?_, ?_, ?_, ?_⟩
    · simp only [Nat.zero_add]; exact hdl
    · simp only [Nat.zero_add]
      rw [Nat.mod_eq_of_lt (by omega)]
      simp
    · simp only [Nat.zero_add]
      rw [Nat.mod_eq_of_lt (by omega)]
      exact ⟨fun _ => hex, fun _ => by exact_mod_cast hd1⟩
    · intro hnone
      have := hnone d hd1 hdl
      rw [hdg] at this
      cases this
  · have hnone : ∀ k, 1 ≤ k → k ≤ exec_step_limit → goal k = false := by
      intro k hk1 hk
      by_contra hg
      exact hex ⟨k, hk1, hk, by simpa using hg⟩
    have hrun := executionLoop_stops (policyExecTermination exec_step_limit) goal
      exec_step_limit fuel 0 0 0 hfuel (by norm_num)
      (fun k hk => by
        rw [policyExecTermination_stops exec_step_limit k (by omega)]
        simp; omega)
      (by rw [policyExecTermination_stops exec_step_limit _ le_rfl]; simp)
      (fun k hk1 hk => by simpa using hnone k hk1 hk)
    refine ⟨_, hrun, ?_, ?_, ?_, ?_⟩
    · simp
    · simp only [Nat.zero_add]
      rw [Nat.mod_eq_of_lt h32]
      simp
    · simp only [Nat.zero_add]
      rw [Nat.mod_eq_of_lt h32]
      constructor
      · intro h; omega
      · intro h; exact absurd h hex
    · intro _
      simp only [Nat.zero_add]
      rw [Nat.mod_eq_of_lt h32]
      simp

/-- C21 (failing input): a termination function that stops the loop at its first call
(the closure of `SimulateExectionPolicy` with `exec_step_limit = 0`) and a goal check
that never succeeds: `PerformSinglePolicyExecution` makes no step and returns the
count `-0 = 0`, which is not negative although the goal was not reached. -/
theorem C21_stopped_before_first_step_returns_zero :
    PerformSinglePolicyExecution (policyExecTermination 0) (fun _ => false) 1 0
      = .ok { step_count := 0, move_calls := 0, termination_state := 0 } := by
  simp [PerformSinglePolicyExecution, executionLoop, policyExecTermination]

/-- C29 (failing input): one execution with `exec_step_limit = 0` and a goal check that
never succeeds: `SimulateExectionPolicy` reports the step count `0`, made no policy
step, and sets the statistic `(Simulation) Policy success` to `1`, although no
execution reached the goal. -/
theorem C29_zero_step_limit_counts_as_success :
    SimulateExectionPolicy 0 (fun _ _ => false) 1 1
      = .ok { policy_success := 1
              policy_execution_step_counts := [0]
              move_calls := [0] } := by
  simp [SimulateExectionPolicy, simulationLoop, PerformSinglePolicyExecution, executionLoop,
    policyExecTermination]

theorem connectLoopRaw_withoutRaw (default_state nearest : UncertaintyPlanningState)
    (K : Nat) (allow incl : Bool) (step_inputs : Nat → PropagationStep) :
    ∀ (remaining steps : Nat) (planner : UncertaintyPlanningSpace)
      (states : List (UncertaintyPlanningState × Int)) (raw : List (List SimulationResult))
      (offset : Int),
      withoutRaw (connectLoopRaw default_state nearest K allow incl step_inputs remaining
          steps planner states raw offset)
        = connectLoop default_state nearest K allow incl step_inputs remaining steps
          planner states offset := by
  intro remaining
  induction remaining with
  | zero => intro steps planner states raw offset; rfl
  | succ remaining ih =>
    intro steps planner states raw offset
    rw [connectLoopRaw, connectLoop]
    simp only
    cases hF : ForwardSimulateStates planner default_state nearest
        (step_inputs steps).propagated_points (step_inputs steps).final_index_clusters
        (step_inputs steps).reverse_edge_check K allow incl with
    | error e => rfl
    | ok out =>
      simp only
      rcases hres : out.result_states with _ | ⟨⟨s, o⟩, _ | ⟨t, rest⟩⟩
      · rfl
      · simp only
        split_ifs
        · rfl
        · exact ih _ _ _ _ _
      · rfl

theorem performForwardPropagationRaw_withoutRaw (planner : UncertaintyPlanningSpace)
    (connect_after_first_solution draw : ℚ)
    (default_state nearest : UncertaintyPlanningState) (distance_in_steps : Nat)
    (step_inputs : Nat → PropagationStep) (K : Nat) (allow incl : Bool) :
    withoutRaw (PerformForwardPropagationRaw planner connect_after_first_solution draw
        default_state nearest distance_in_steps step_inputs K allow incl)
      = PerformForwardPropagation planner connect_after_first_solution draw default_state
        nearest distance_in_steps step_inputs K allow incl := by
  unfold PerformForwardPropagationRaw PerformForwardPropagation
  simp only
  split_ifs <;>
    first
    | exact connectLoopRaw_withoutRaw _ _ _ _ _ _ _ _ _ _ _ _
    | contradiction
    | (cases ForwardSimulateStates planner default_state nearest
        (step_inputs 0).propagated_points (step_inputs 0).final_index_clusters
        (step_inputs 0).reverse_edge_check K allow incl <;> rfl)

theorem connectLoopRaw_shape (default_state nearest : UncertaintyPlanningState)
    (K : Nat) (allow incl : Bool) (step_inputs : Nat → PropagationStep) :
    ∀ (remaining steps : Nat) (planner : UncertaintyPlanningSpace)
      (states : List (UncertaintyPlanningState × Int)) (raw : List (List SimulationResult))
      (offset : Int) (batch : List (UncertaintyPlanningState × Int))
      (raw' : List (List SimulationResult)) (planner' : UncertaintyPlanningSpace),
      connectLoopRaw default_state nearest K allow incl step_inputs remaining steps planner
          states raw offset = .ok (batch, raw', planner') →
      ∃ chain group, batch = states ++ chain ++ group
        ∧ chain.map Prod.snd = (List.range chain.length).map (fun (j : Nat) => offset + (j : Int))
        ∧ (∀ g ∈ group, g.2 = offset + (chain.length : Int))
        ∧ (group = [] ∨ 2 ≤ group.length)
        ∧ raw'.length ≤ raw.length + remaining
        ∧ (1 ≤ remaining → raw.length + 1 ≤ raw'.length)
        ∧ (raw'.length = raw.length + chain.length
            ∨ raw'.length = raw.length + chain.length + 1)
        ∧ (group ≠ [] → raw'.length = raw.length + chain.length + 1) := by
  intro remaining
  induction remaining with
  | zero =>
    intro steps planner states raw offset batch raw' planner' h
    simp only [connectLoopRaw, Except.ok.injEq, Prod.mk.injEq] at h
    obtain ⟨rfl, rfl, _⟩ := h
    exact ⟨[], [], by simp, by simp, by simp, Or.inl rfl, by simp, by simp, by simp, by simp⟩
  | succ remaining ih =>
    intro steps planner states raw offset batch raw' planner' h
    rw [connectLoopRaw] at h
    simp only at h
    cases hF : ForwardSimulateStates planner default_state nearest
        (step_inputs steps).propagated_points (step_inputs steps).final_index_clusters
        (step_inputs steps).reverse_edge_check K allow incl with
    | error e => rw [hF] at h; cases h
    | ok out =>
      rw [hF] at h
      simp only at h
      rcases hres : out.result_states with _ | ⟨⟨s, o⟩, _ | ⟨t, rest⟩⟩
      · rw [hres] at h
        simp only [Except.ok.injEq, Prod.mk.injEq] at h
        obtain ⟨rfl, rfl, _⟩ := h
        refine ⟨[], [], by simp, by simp, by simp, Or.inl rfl, ?_, ?_, ?_, ?_⟩ <;> simp
      · rw [hres] at h
        simp only at h
        by_cases hc : (step_inputs steps).target_within_step_size = true
        · rw [if_pos hc] at h
          simp only [Except.ok.injEq, Prod.mk.injEq] at h
          obtain ⟨rfl, rfl, _⟩ := h
          refine ⟨[(s, offset)], [], by simp, by simp [List.range_succ], by simp, Or.inl rfl,
            ?_, ?_, ?_, ?_⟩ <;> simp
        · rw [if_neg hc] at h
          obtain ⟨chain, group, hb, hoff, hg, hgl, hle, _, hlen, hgne⟩ :=
            ih _ _ _ _ _ _ _ _ h
          refine ⟨(s, offset) :: chain, group, by simp [hb], ?_, ?_, hgl, ?_, ?_, ?_, ?_⟩
          · rw [List.map_cons, List.length_cons, List.range_succ_eq_map, List.map_cons,
              List.map_map, hoff]
            simp only [Nat.cast_zero, add_zero, List.cons.injEq, true_and]
            apply List.map_congr_left
            intro j _
            simp only [Function.comp, Nat.cast_succ]
            ring
          · intro g hgm
            rw [hg g hgm, List.length_cons]
            push_cast
            ring
          · simp only [List.length_append, List.length_singleton] at hle; omega
          · intro _
            simp only [List.length_append, List.length_singleton, List.length_cons,
              List.length_nil] at hlen
            omega
          · simp only [List.length_append, List.length_singleton, List.length_cons,
              List.length_nil] at hlen ⊢
            omega
          · intro hne
            have := hgne hne
            simp only [List.length_append, List.length_singleton, List.length_cons,
              List.length_nil] at this ⊢
            omega
      · rw [hres] at h
        simp only [Except.ok.injEq, Prod.mk.injEq] at h
        obtain ⟨rfl, rfl, _⟩ := h
        refine ⟨[], ((s, o) :: t :: rest).map (fun r => (r.1, offset)), by simp, by simp,
          ?_, Or.inr (by simp), ?_, ?_, ?_, ?_⟩
        · intro g hgm
          simp only [List.mem_map] at hgm
          obtain ⟨r, _, rfl⟩ := hgm
          simp
        all_goals simp

theorem connectLoopRaw_error (default_state nearest : UncertaintyPlanningState)
    (K : Nat) (allow incl : Bool) (step_inputs : Nat → PropagationStep) :
    ∀ (remaining steps : Nat) (planner : UncertaintyPlanningSpace)
      (states : List (UncertaintyPlanningState × Int)) (raw : List (List SimulationResult))
      (offset : Int) (e : PlanningError),
      connectLoopRaw default_state nearest K allow incl step_inputs remaining steps planner
          states raw offset = .error e →
      ∃ k planner_k, k < steps + remaining
        ∧ ForwardSimulateStates planner_k default_state nearest
            (step_inputs k).propagated_points (step_inputs k).final_index_clusters
            (step_inputs k).reverse_edge_check K allow incl = .error e := by
  intro remaining
  induction remaining with
  | zero =>
    intro steps planner states raw offset e h
    simp [connectLoopRaw] at h
  | succ remaining ih =>
    intro steps planner states raw offset e h
    rw [connectLoopRaw] at h
    simp only at h
    cases hF : ForwardSimulateStates planner default_state nearest
        (step_inputs steps).propagated_points (step_inputs steps).final_index_clusters
        (step_inputs steps).reverse_edge_check K allow incl with
    | error e' =>
      rw [hF] at h
      simp only [Except.error.injEq] at h
      subst h
      exact ⟨steps, planner, by omega, hF⟩
    | ok out =>
      rw [hF] at h
      simp only at h
      rcases hres : out.result_states with _ | ⟨⟨s, o⟩, _ | ⟨t, rest⟩⟩
      · rw [hres] at h; cases h
      · rw [hres] at h
        simp only at h
        by_cases hc : (step_inputs steps).target_within_step_size = true
        · rw [if_pos hc] at h; cases h
        · rw [if_neg hc] at h
          obtain ⟨k, pk, hk, hFk⟩ := ih _ _ _ _ _ _ h
          exact ⟨k, pk, by omega, hFk⟩
      · rw [hres] at h; cases h

theorem halfLossConnect_parent_motion :
    ∃ s0 s1 planner, halfLossConnect = .ok ([(s0, -1), (s1, 0)], planner) ∧
      s0.motion_Pfeasibility = 1 / 2 ∧ s1.parent_motion_Pfeasibility = 1 := by
  simp [halfLossConnect, PerformForwardPropagation, freshPlanner, connectLoop,
    halfLossSteps, ForwardSimulateStates, ClusterParticles, clusterLoop, clusterElements,
    freeAndContact, buildStates, buildState, scanCluster, reverseLoop,
    applyRetryArithmetic, UncertaintyPlanningState.make, startState, incr64]
  norm_num
  exact ⟨_, _, ⟨rfl, rfl⟩, by norm_num⟩

/-- C24 (failing input): in the two-step RRT-Connect propagation `halfLossConnect` the
second state carries the parent offset `0`, which designates the first state of the
batch, yet it was simulated from `nearest`: the parent motion probability it was built
with is that of `nearest` (`1`), not that of the first state (`1/2`). -/
theorem C24_chain_state_simulated_from_nearest :
    ∃ s0 s1 planner, halfLossConnect = .ok ([(s0, -1), (s1, 0)], planner) ∧
      s1.parent_motion_Pfeasibility = startState.motion_Pfeasibility ∧
      s1.parent_motion_Pfeasibility ≠ s0.motion_Pfeasibility := by
  obtain ⟨s0, s1, planner, hrun, hm0, hp1⟩ := halfLossConnect_parent_motion
  refine ⟨s0, s1, planner, hrun, ?_, ?_⟩
  · rw [hp1]; norm_num [startState, UncertaintyPlanningState.make]
  · rw [hp1, hm0]; norm_num

/-- C28: in RRT-Connect mode `PerformForwardPropagation` returns for every input (the
loop runs at most `total_steps` times).  An error is one that a call of
`ForwardSimulateStates` raised.  Otherwise the number of calls of
`ForwardSimulateStates`, the length of `raw_particle_propagations`, is at least one and
at most `total_steps = max distance_in_steps 1`; the batch is a chain followed by at
most one split group; every call but possibly the last contributed one chain state, and
a call that yields no state or a split group is the last one. -/
theorem C28_connect_propagation_bounded (planner : UncertaintyPlanningSpace)
    (connect_after_first_solution draw : ℚ)
    (default_state nearest : UncertaintyPlanningState) (distance_in_steps : Nat)
    (step_inputs : Nat → PropagationStep) (K : Nat) (allow incl : Bool)
    (hconnect : planner.total_goal_reached_probability < planner.goal_probability_threshold
      ∨ draw < connect_after_first_solution) :
    match PerformForwardPropagationRaw planner connect_after_first_solution draw
        default_state nearest distance_in_steps step_inputs K allow incl with
    | .error e =>
      ∃ k planner_k, k < max distance_in_steps 1
        ∧ ForwardSimulateStates planner_k default_state nearest
            (step_inputs k).propagated_points (step_inputs k).final_index_clusters
            (step_inputs k).reverse_edge_check K allow incl = .error e
    | .ok (batch, raw_particle_propagations, _) =>
      1 ≤ raw_particle_propagations.length
        ∧ raw_particle_propagations.length ≤ max distance_in_steps 1
        ∧ ∃ chain group, IsChainThenSplit batch chain group
            ∧ (raw_particle_propagations.length = chain.length
                ∨ raw_particle_propagations.length = chain.length + 1)
            ∧ (group ≠ [] → raw_particle_propagations.length = chain.length + 1) := by
  have hrun : PerformForwardPropagationRaw planner connect_after_first_solution draw
        default_state nearest distance_in_steps step_inputs K allow incl
      = connectLoopRaw default_state nearest K allow incl step_inputs
          (max distance_in_steps 1) 0 planner [] [] (-1) := by
    unfold PerformForwardPropagationRaw
    simp only
    rcases hconnect with h | h
    · have : ¬ planner.total_goal_reached_probability ≥ planner.goal_probability_threshold :=
        not_le.2 h
      simp [this]
    · simp [h]
  rw [hrun]
  cases hloop : connectLoopRaw default_state nearest K allow incl step_inputs
      (max distance_in_steps 1) 0 planner [] [] (-1) with
  | error e =>
    obtain ⟨k, pk, hk, hF⟩ := connectLoopRaw_error _ _ _ _ _ _ _ _ _ _ _ _ _ hloop
    exact ⟨k, pk, by omega, hF⟩
  | ok r =>
    obtain ⟨batch, raw, planner'⟩ := r
    obtain ⟨chain, group, hb, hoff, hg, hgl, hle, hge, hlen, hgne⟩ :=
      connectLoopRaw_shape _ _ _ _ _ _ _ _ _ _ _ _ _ _ _ hloop
    simp only [List.length_nil, Nat.zero_add, List.nil_append] at hle hge hlen hgne hb
    refine ⟨hge (le_max_right _ _), hle, chain, group, ⟨hb, ?_, ?_, hgl⟩, hlen, hgne⟩
    · rw [hoff]
      apply List.map_congr_left
      intro j _
      ring
    · intro g hgm
      rw [hg g hgm]
      ring

/-- Witness for C28: the two-step propagation over `halfLossSteps` from `startState`
with a fresh planner. -/
theorem C28_connect_propagation_bounded_witness :
    ((freshPlanner (1 / 2) []).total_goal_reached_probability
        < (freshPlanner (1 / 2) []).goal_probability_threshold ∨ (0 : ℚ) < 1 / 2)
      ∧ match PerformForwardPropagationRaw (freshPlanner (1 / 2) []) (1 / 2) 0 zeroState
          startState 2 halfLossSteps 1 false true with
        | .error e =>
          ∃ k planner_k, k < max 2 1
            ∧ ForwardSimulateStates planner_k zeroState startState
                (halfLossSteps k).propagated_points (halfLossSteps k).final_index_clusters
                (halfLossSteps k).reverse_edge_check 1 false true = .error e
        | .ok (batch, raw_particle_propagations, _) =>
          1 ≤ raw_particle_propagations.length
            ∧ raw_particle_propagations.length ≤ max 2 1
            ∧ ∃ chain group, IsChainThenSplit batch chain group
                ∧ (raw_particle_propagations.length = chain.length
                    ∨ raw_particle_propagations.length = chain.length + 1)
                ∧ (group ≠ [] → raw_particle_propagations.length = chain.length + 1) :=
  ⟨Or.inr (by norm_num),
    C28_connect_propagation_bounded (freshPlanner (1 / 2) []) (1 / 2) 0 zeroState startState 2
      halfLossSteps 1 false true (Or.inr (by norm_num))⟩

/-- One execution inside `SimulateExectionPolicy` with a step limit of at least one:
the step count is non-negative exactly when the goal check succeeded within the
limit. -/
theorem limitedExecution_success_iff (exec_step_limit : Nat) (goal : Nat → Bool) (fuel : Nat)
    (hfuel : exec_step_limit < fuel) (h32 : exec_step_limit < 2 ^ 32)
    (hlimit : 1 ≤ exec_step_limit) :
    ∃ r, PerformSinglePolicyExecution (policyExecTermination exec_step_limit) goal fuel 0
          = .ok r
      ∧ (0 ≤ r.step_count ↔ ∃ k, 1 ≤ k ∧ k ≤ exec_step_limit ∧ goal k = true) := by
  obtain ⟨r, hrun, _, _, hpos, hnone⟩ :=
    limitedExecution_spec exec_step_limit goal fuel hfuel h32
  refine ⟨r, hrun, ?_, fun h => le_of_lt (hpos.2 h)⟩
  intro h0
  by_contra hex
  have hall : ∀ k, 1 ≤ k → k ≤ exec_step_limit → goal k = false := by
    intro k hk1 hk
    by_contra hg
    exact hex ⟨k, hk1, hk, by simpa using hg⟩
  have := (hnone hall).1
  omega

/-- With two or more particles and `allow_contacts = false` no returned cluster holds
a particle that made contact. -/
theorem clusterParticles_no_contact (particles : List SimulationResult)
    (final_index_clusters : List (List Nat)) (clusters : List (List SimulationResult))
    (h : 2 ≤ particles.length)
    (hrun : ClusterParticles particles final_index_clusters false = .ok clusters) :
    ∀ cluster ∈ clusters, ∀ p ∈ cluster, p.did_contact = false := by
  rw [clusterParticles_total particles final_index_clusters false h] at hrun
  split_ifs at hrun
  simp only [Except.ok.injEq] at hrun
  subst hrun
  intro cluster hc p hp
  obtain ⟨c, _, rfl⟩ := List.mem_map.1 hc
  unfold clusterOfIndices at hp
  have := (List.mem_filter.1 hp).2
  simpa [keepsParticle] using this

theorem filterMap_range_getElem? {α : Type} :
    ∀ (l : List α), (List.range l.length).filterMap (fun i => l[i]?) = l := by
  intro l
  induction l with
  | nil => rfl
  | cons a l ih =>
    rw [List.length_cons, List.range_succ_eq_map, List.filterMap_cons]
    simp only [List.getElem?_cons_zero, List.filterMap_map]
    congr 1
    have hf : ((fun i => (a :: l)[i]?) ∘ Nat.succ) = (fun i => l[i]?) := by
      funext i
      simp
    rw [hf, ih]

/-- With `allow_contacts = true` and index clusters that are a partition of the
particle indices, the returned clusters hold every particle exactly once. -/
theorem clusterParticles_partition (particles : List SimulationResult)
    (final_index_clusters : List (List Nat)) (h : 2 ≤ particles.length)
    (hp : IsIndexPartition particles.length final_index_clusters) :
    ∃ clusters, ClusterParticles particles final_index_clusters true = .ok clusters
      ∧ clusters.flatten.Perm particles := by
  obtain ⟨hall, hsum⟩ := isIndexPartition_in_range hp
  rw [clusterParticles_total particles final_index_clusters true h, if_pos hall,
    if_neg (by simpa using hsum)]
  refine ⟨_, rfl, ?_⟩
  have hkeep : ∀ c : List Nat, clusterOfIndices particles true c
      = c.filterMap (fun i => particles[i]?) := by
    intro c
    unfold clusterOfIndices
    rw [List.filter_eq_self]
    intro p _
    simp [keepsParticle]
  have hflat : ∀ cs : List (List Nat),
      (cs.map (clusterOfIndices particles true)).flatten
        = cs.flatten.filterMap (fun i => particles[i]?) := by
    intro cs
    induction cs with
    | nil => rfl
    | cons c cs ih =>
      rw [List.map_cons, List.flatten_cons, List.flatten_cons, List.filterMap_append, ih, hkeep]
  rw [hflat]
  have := List.Perm.filterMap (fun i => particles[i]?) hp
  rwa [filterMap_range_getElem?] at this

theorem orderChildren_eq_flatMap (s : Bool) (T : UncertaintyPlanningTree) (r : Int)
    (rec_marked rec_kept : Int → List Int)
    (hrec : ∀ c, keepsNode s T c = true → rec_marked c = rec_kept c) :
    ∀ (cs : List Int),
      (∀ c ∈ cs, ∃ child, treeAt T c = some child ∧ child.parent_index = r) → 0 ≤ r →
      orderChildren rec_marked (T.map (pruneMark s)) cs
        = (cs.filter (keepsNode s T)).flatMap rec_kept := by
  intro cs
  induction cs with
  | nil => intro _ _; rfl
  | cons c rest ih =>
    intro hcs hr
    obtain ⟨child, hchild, hpar⟩ := hcs c (List.mem_cons_self _ _)
    have hrest := ih (fun c' hc' => hcs c' (List.mem_cons_of_mem _ hc')) hr
    obtain ⟨k, rfl, hk⟩ := treeAt_some hchild
    have hM : treeAt (T.map (pruneMark s)) (k : Int) = some (pruneMark s child) := by
      rw [treeAt_natCast, List.getElem?_map, hk]
      rfl
    rw [orderChildren, hM]
    simp only
    rw [List.filter_cons]
    by_cases hkeep : keepsState s child.value
    · have hkn : keepsNode s T (k : Int) = true := by
        unfold keepsNode
        rw [hchild]
        exact decide_eq_true hkeep
      rw [pruneMark_of_keeps hkeep, if_pos (by rw [hpar]; exact hr), if_pos hkn,
        List.flatMap_cons, hrec _ hkn, hrest]
    · have hkn : ¬ keepsNode s T (k : Int) = true := by
        unfold keepsNode
        rw [hchild]
        simpa using hkeep
      have hneg : ¬ (pruneMark s child).parent_index ≥ 0 :=
        fun h => hkeep (pruneMark_parent_nonneg h)
      rw [if_neg hneg, if_neg hkn, hrest]

theorem subtreeOrder_eq_keptPreorder (T : UncertaintyPlanningTree) (s : Bool)
    (hT : ValidLinkage T) :
    ∀ (fuel : Nat) (r : Nat), keepsNode s T (r : Int) = true →
      subtreeOrder fuel (T.map (pruneMark s)) (r : Int) = keptPreorder s T fuel (r : Int) := by
  intro fuel
  induction fuel with
  | zero => intro r _; rfl
  | succ fuel ih =>
    intro r hkeep
    unfold keepsNode at hkeep
    cases hr : treeAt T (r : Int) with
    | none => rw [hr] at hkeep; cases hkeep
    | some node =>
      rw [hr] at hkeep
      have hk : keepsState s node.value := of_decide_eq_true hkeep
      have hrn : T[r]? = some node := by rwa [treeAt_natCast] at hr
      have hM : treeAt (T.map (pruneMark s)) (r : Int) = some node := by
        rw [treeAt_natCast, List.getElem?_map, hrn]
        simp [pruneMark_of_keeps hk]
      rw [subtreeOrder, keptPreorder, hM, hr]
      simp only
      congr 1
      apply orderChildren_eq_flatMap s T (r : Int) _ _ _ _ _ (by omega)
      · intro c hc
        have hex : ∃ child, treeAt T c = some child := by
          unfold keepsNode at hc
          cases h : treeAt T c with
          | none => rw [h] at hc; cases hc
          | some child => exact ⟨child, rfl⟩
        obtain ⟨child, hchild⟩ := hex
        obtain ⟨k, rfl, _⟩ := treeAt_some hchild
        exact ih k hc
      · intro c hc
        obtain ⟨k, rfl, _, child, hchild, hpar⟩ := valid_child T hT r node hrn c hc
        exact ⟨child, by rw [treeAt_natCast]; exact hchild, hpar⟩

theorem subtreeOrder_zero (fuel : Nat) (raw : UncertaintyPlanningTree) (r : Int) :
    (subtreeOrder fuel raw r)[0]? = some r := by
  cases fuel with
  | zero => simp [subtreeOrder]
  | succ fuel =>
    rw [subtreeOrder]
    cases treeAt raw r <;> simp

theorem buildChildren_parent (fuel : Nat) (raw : UncertaintyPlanningTree) (pos : Nat)
    (r : Int)
    (ih : ∀ (c : Int) (cur : Nat) (Xc : UncertaintyPlanningTreeState),
      extractionFits fuel raw c = true →
      ParentCopied raw cur (buildSubtree fuel raw c cur Xc) (subtreeOrder fuel raw c)) :
    ∀ (cs : List Int) (cur : Nat),
      (cs.all (fun c =>
        match treeAt raw c with
        | none => false
        | some child =>
          if child.parent_index ≥ 0 then extractionFits fuel raw c else true) = true) →
      (∀ c ∈ cs, ∀ child, treeAt raw c = some child → child.parent_index ≥ 0 →
        child.parent_index = r) →
      ChildrenParentCopied raw pos cur r
        (buildChildren (buildSubtree fuel raw) raw pos cs cur).2
        (orderChildren (subtreeOrder fuel raw) raw cs) := by
  intro cs
  induction cs with
  | nil =>
    intro cur _ _ j n i hn _
    simp [buildChildren] at hn
  | cons c rest ihc =>
    intro cur hall hpar
    rw [List.all_cons, Bool.and_eq_true] at hall
    obtain ⟨hc, hrest⟩ := hall
    have hpar' : ∀ c' ∈ rest, ∀ child, treeAt raw c' = some child → child.parent_index ≥ 0 →
        child.parent_index = r := fun c' hc' => hpar c' (List.mem_cons_of_mem _ hc')
    cases hchild : treeAt raw c with
    | none => rw [hchild] at hc; cases hc
    | some child =>
      rw [hchild] at hc
      simp only at hc
      rw [buildChildren, orderChildren, hchild]
      simp only
      by_cases hkeep : child.parent_index ≥ 0
      · rw [if_pos hkeep] at hc ⊢
        rw [if_pos hkeep]
        have hlen := (buildSubtree_order raw fuel c cur (child.SetParentIndex (pos : Int)) hc
          ⟨child, hchild, rfl⟩).length_eq
        have hseg := ih c cur (child.SetParentIndex (pos : Int)) hc
        have htail := ihc (cur + (buildSubtree fuel raw c cur
          (child.SetParentIndex (pos : Int))).length) hrest hpar'
        intro j n i hn hi
        rcases getElem?_append_cases hn with ⟨hj, hn1⟩ | ⟨k, rfl, hn2⟩
        · have hi1 : (subtreeOrder fuel raw c)[j]? = some i := by
            rwa [List.getElem?_append_left (by omega)] at hi
          rcases Nat.eq_zero_or_pos j with rfl | hjpos
          · left
            obtain ⟨ps, tl, hhead⟩ := buildSubtree_head fuel raw c cur
              (child.SetParentIndex (pos : Int))
            rw [hhead] at hn1
            simp only [List.getElem?_cons_zero, Option.some.injEq] at hn1
            rw [subtreeOrder_zero] at hi1
            simp only [Option.some.injEq] at hi1
            subst hn1 hi1
            exact ⟨rfl, child, hchild, hpar c (List.mem_cons_self _ _) child hchild hkeep⟩
          · right
            obtain ⟨p, hp, hnp, m, hm, hLp⟩ := hseg j n i hjpos hn1 hi1
            exact ⟨p, hp, hnp, m, hm, getElem?_append_left_some _ hLp⟩
        · have hi2 : (orderChildren (subtreeOrder fuel raw) raw rest)[k]? = some i := by
            rw [hlen] at hi
            rwa [List.getElem?_append_right (by omega), Nat.add_sub_cancel_left] at hi
          rcases htail k n i hn2 hi2 with hleft | ⟨p, hp, hnp, m, hm, hLp⟩
          · left; exact hleft
          · right
            refine ⟨(buildSubtree fuel raw c cur (child.SetParentIndex (pos : Int))).length + p,
              by omega, ?_, m, hm, ?_⟩
            · rw [hnp]; push_cast; ring
            · rw [hlen]
              exact getElem?_append_right_some _ hLp
      · rw [if_neg hkeep, if_neg hkeep]
        exact ihc cur hrest hpar'

theorem buildSubtree_parent (raw : UncertaintyPlanningTree)
    (hpar : ∀ (p : Int) (pn : UncertaintyPlanningTreeState), treeAt raw p = some pn →
      ∀ c ∈ pn.child_indices, ∀ child, treeAt raw c = some child → child.parent_index ≥ 0 →
        child.parent_index = p) :
    ∀ (fuel : Nat) (r : Int) (pos : Nat) (X : UncertaintyPlanningTreeState),
      extractionFits fuel raw r = true →
      ParentCopied raw pos (buildSubtree fuel raw r pos X) (subtreeOrder fuel raw r) := by
  intro fuel
  induction fuel with
  | zero => intro r pos X hfit; simp [extractionFits] at hfit
  | succ fuel ih =>
    intro r pos X hfit
    rw [extractionFits] at hfit
    cases hr : treeAt raw r with
    | none => rw [hr] at hfit; cases hfit
    | some raw_parent =>
      rw [hr] at hfit
      simp only [Bool.and_eq_true] at hfit
      rw [buildSubtree, subtreeOrder, hr]
      simp only
      have hch := buildChildren_parent fuel raw pos r ih raw_parent.child_indices (pos + 1)
        hfit.2 (hpar r raw_parent hr)
      intro j n i hj hn hi
      obtain ⟨j', rfl⟩ : ∃ j', j = j' + 1 := ⟨j - 1, by omega⟩
      rw [List.getElem?_cons_succ] at hn hi
      rcases hch j' n i hn hi with ⟨hnp, m, hm, hmr⟩ | ⟨p, hp, hnp, m, hm, hLp⟩
      · exact ⟨0, by omega, by rw [hnp]; simp, m, hm, by simp [hmr]⟩
      · refine ⟨p + 1, by omega, ?_, m, hm, ?_⟩
        · rw [hnp]; push_cast; ring
        · rw [List.getElem?_cons_succ]; exact hLp

theorem pruneMark_child_parent (T : UncertaintyPlanningTree) (s : Bool)
    (hT : ValidLinkage T) :
    ∀ (p : Int) (pn : UncertaintyPlanningTreeState),
      treeAt (T.map (pruneMark s)) p = some pn →
      ∀ c ∈ pn.child_indices, ∀ child, treeAt (T.map (pruneMark s)) c = some child →
        child.parent_index ≥ 0 → child.parent_index = p := by
  intro p pn hp c hc child hchild hnn
  obtain ⟨k, t, rfl, hk, rfl⟩ := treeAt_pruneMark hp
  obtain ⟨kc, tc, rfl, hkc, rfl⟩ := treeAt_pruneMark hchild
  have hkeepc := pruneMark_parent_nonneg hnn
  rw [pruneMark_of_keeps hkeepc]
  by_cases hkeep : keepsState s t.value
  · rw [pruneMark_of_keeps hkeep] at hc
    obtain ⟨k', hk', _, child', hchild', hpar⟩ := valid_child T hT k t hk _ hc
    have : kc = k' := by exact_mod_cast hk'
    subst this
    rw [hkc] at hchild'
    simp only [Option.some.injEq] at hchild'
    subst hchild'
    exact hpar
  · rw [pruneMark_of_not_keeps hkeep] at hc
    simp [UncertaintyPlanningTreeState.ClearChildIndicies] at hc

theorem below_le (T : UncertaintyPlanningTree) (hT : ValidLinkage T) {a x : Nat}
    (h : Below T a x) : a ≤ x := by
  induction h with
  | self => exact le_refl _
  | step x p t hx hp _ ih =>
    rcases Nat.eq_zero_or_pos x with rfl | hpos
    · have := valid_root T hT t hx
      omega
    · obtain ⟨p', hp', hlt, _⟩ := valid_parent T hT x t hx hpos
      omega

theorem below_trans (T : UncertaintyPlanningTree) {a b x : Nat}
    (hab : Below T a b) (hbx : Below T b x) : Below T a x := by
  induction hbx with
  | self => exact hab
  | step x p t hx hp _ ih => exact Below.step x p t hx hp ih

theorem below_chain (T : UncertaintyPlanningTree) {a b x : Nat}
    (ha : Below T a x) (hb : Below T b x) : Below T a b ∨ Below T b a := by
  induction ha with
  | self => exact Or.inr hb
  | step x p t hx hp hap ih =>
    cases hb with
    | self => exact Or.inl (Below.step _ p t hx hp hap)
    | step _ p' t' hx' hp' hbp =>
      rw [hx] at hx'
      simp only [Option.some.injEq] at hx'
      subst hx'
      have : p = p' := by omega
      subst this
      exact ih hbp

theorem valid_children_nodup (T : UncertaintyPlanningTree) (hT : ValidLinkage T) (i : Nat)
    (node : UncertaintyPlanningTreeState) (hi : T[i]? = some node) :
    node.child_indices.Nodup := by
  rw [List.nodup_iff_count_le_one]
  intro c
  by_cases hc : c ∈ node.child_indices
  · obtain ⟨k, rfl, hik, child, hchild, hpar⟩ := valid_child T hT i node hi c hc
    have hv := valid_node T hT k child hchild
    unfold validNode at hv
    rw [if_neg (by omega), Bool.and_eq_true, Bool.and_eq_true, hpar, treeAt_natCast, hi] at hv
    have := hv.1.2
    simp only [beq_iff_eq] at this
    omega
  · rw [List.count_eq_zero_of_not_mem hc]
    omega

theorem keptPreorder_below (T : UncertaintyPlanningTree) (s : Bool) (hT : ValidLinkage T) :
    ∀ (fuel r : Nat) (x : Int), x ∈ keptPreorder s T fuel (r : Int) →
      ∃ k : Nat, x = (k : Int) ∧ Below T r k := by
  intro fuel
  induction fuel with
  | zero =>
    intro r x hx
    simp only [keptPreorder, List.mem_singleton] at hx
    exact ⟨r, hx, Below.self⟩
  | succ fuel ih =>
    intro r x hx
    rw [keptPreorder] at hx
    cases hr : treeAt T (r : Int) with
    | none =>
      rw [hr] at hx
      simp only [List.mem_singleton] at hx
      exact ⟨r, hx, Below.self⟩
    | some node =>
      rw [hr] at hx
      simp only [List.mem_cons, List.mem_flatMap, List.mem_filter] at hx
      rcases hx with rfl | ⟨c, ⟨hc, _⟩, hxc⟩
      · exact ⟨r, rfl, Below.self⟩
      · rw [treeAt_natCast] at hr
        obtain ⟨k, rfl, _, child, hchild, hpar⟩ := valid_child T hT r node hr c hc
        obtain ⟨kx, rfl, hbelow⟩ := ih k x hxc
        exact ⟨kx, rfl, below_trans T (Below.step k r child hchild hpar Below.self) hbelow⟩

theorem keptPreorder_nodup (T : UncertaintyPlanningTree) (s : Bool) (hT : ValidLinkage T) :
    ∀ (fuel r : Nat), (keptPreorder s T fuel (r : Int)).Nodup := by
  intro fuel
  induction fuel with
  | zero => intro r; simp [keptPreorder]
  | succ fuel ih =>
    intro r
    rw [keptPreorder]
    cases hr : treeAt T (r : Int) with
    | none => simp
    | some node =>
      simp only
      rw [treeAt_natCast] at hr
      have hchildren : ∀ c ∈ node.child_indices.filter (keepsNode s T),
          ∃ k : Nat, c = (k : Int) ∧ r < k ∧ ∃ child, T[k]? = some child
            ∧ child.parent_index = (r : Int) :=
        fun c hc => valid_child T hT r node hr c (List.mem_filter.1 hc).1
      rw [List.nodup_cons]
      constructor
      · intro hmem
        obtain ⟨c, hc, hxc⟩ := List.mem_flatMap.1 hmem
        obtain ⟨k, rfl, hrk, _⟩ := hchildren c hc
        obtain ⟨k', hk', hbelow⟩ := keptPreorder_below T s hT fuel k _ hxc
        have := below_le T hT hbelow
        omega
      · rw [List.nodup_flatMap]
        constructor
        · intro c hc
          obtain ⟨k, rfl, _⟩ := hchildren c hc
          exact ih k
        · have hnd : (node.child_indices.filter (keepsNode s T)).Nodup :=
            (valid_children_nodup T hT r node hr).filter _
          refine List.Pairwise.imp_of_mem ?_ hnd
          intro c1 c2 hc1 hc2 hne x hx1 hx2
          obtain ⟨k1, rfl, hr1, child1, hchild1, hpar1⟩ := hchildren c1 hc1
          obtain ⟨k2, rfl, hr2, child2, hchild2, hpar2⟩ := hchildren c2 hc2
          obtain ⟨kx, rfl, hb1⟩ := keptPreorder_below T s hT fuel k1 _ hx1
          obtain ⟨kx', hkx, hb2⟩ := keptPreorder_below T s hT fuel k2 _ hx2
          have : kx = kx' := by exact_mod_cast hkx
          subst this
          have hk : k1 ≠ k2 := fun h => hne (by rw [h])
          rcases below_chain T hb1 hb2 with h12 | h21
          · cases h12 with
            | self => exact hk rfl
            | step _ p t ht hp hbp =>
              rw [hchild2] at ht
              simp only [Option.some.injEq] at ht
              subst ht
              have : p = r := by omega
              subst this
              have := below_le T hT hbp
              omega
          · cases h21 with
            | self => exact hk rfl
            | step _ p t ht hp hbp =>
              rw [hchild1] at ht
              simp only [Option.some.injEq] at ht
              subst ht
              have : p = r := by omega
              subst this
              have := below_le T hT hbp
              omega

theorem subtreeOrder_eq_prunedOrder (T : UncertaintyPlanningTree) (s : Bool)
    (hT : ValidLinkage T) (hlen : 0 < T.length) (fuel : Nat) :
    subtreeOrder fuel (T.map (pruneMark s)) 0 = prunedOrder s T fuel := by
  unfold prunedOrder
  by_cases hkeep : keepsNode s T 0 = true
  · rw [if_pos hkeep]
    exact subtreeOrder_eq_keptPreorder T s hT fuel 0 hkeep
  · rw [if_neg hkeep]
    cases fuel with
    | zero => rfl
    | succ fuel =>
      obtain ⟨root, hroot⟩ : ∃ root, T[0]? = some root :=
        ⟨T[0], List.getElem?_eq_getElem hlen⟩
      have hnk : ¬ keepsState s root.value := by
        intro hk
        apply hkeep
        unfold keepsNode
        rw [show treeAt T 0 = T[0]? from treeAt_natCast T 0, hroot]
        exact decide_eq_true hk
      have hM : treeAt (T.map (pruneMark s)) 0
          = some ((root.SetParentIndex (-1)).ClearChildIndicies) := by
        rw [show treeAt (T.map (pruneMark s)) 0 = (T.map (pruneMark s))[0]? from
          treeAt_natCast _ 0, List.getElem?_map, hroot]
        simp [pruneMark_of_not_keeps hnk]
      rw [subtreeOrder, hM]
      simp [UncertaintyPlanningTreeState.ClearChildIndicies, orderChildren]

/-- C25: for every tree with valid linkage, initialized nodes and more than one node
(and enough fuel for the recursion) `PruneTree` returns a tree whose nodes are, in
order, copies of the nodes of `prunedOrder`, the depth-first pre-order of the root and
its kept descendants with the children in their stored order, each with its planning
state unchanged; no node is copied twice; the order holds the root and exactly those
other nodes that satisfy the keep predicate together with all their ancestors; and
the parent index of every copy but the first is the position of the copy of the
original parent. -/
theorem C25_prune_tree_is_kept_preorder (CheckTreeLinkage : UncertaintyPlanningTree → Bool)
    (hcheck : ∀ t, ValidLinkage t → (∀ n ∈ t, n.initialized = true) →
      CheckTreeLinkage t = true)
    (fuel : Nat) (planner_tree : UncertaintyPlanningTree) (include_spur_actions : Bool)
    (hlinkage : ValidLinkage planner_tree)
    (hinit : ∀ n ∈ planner_tree, n.initialized = true)
    (hfuel : planner_tree.length ≤ fuel) (hlen : 1 < planner_tree.length) :
    ∃ pruned, PruneTree CheckTreeLinkage fuel planner_tree include_spur_actions = .ok pruned ∧
      List.Forall₂ (fun n i => ∃ t, treeAt planner_tree i = some t ∧ n.value = t.value)
        pruned (prunedOrder include_spur_actions planner_tree fuel) ∧
      (prunedOrder include_spur_actions planner_tree fuel).Nodup ∧
      (∀ r : Nat, (r : Int) ∈ prunedOrder include_spur_actions planner_tree fuel
        ↔ (r = 0 ∨ KeptToRoot planner_tree include_spur_actions r)) ∧
      ∀ (j : Nat) (n : UncertaintyPlanningTreeState) (i : Int), 0 < j →
        pruned[j]? = some n →
        (prunedOrder include_spur_actions planner_tree fuel)[j]? = some i →
        ∃ p : Nat, p < j ∧ n.parent_index = (p : Int) ∧
          ∃ t, treeAt planner_tree i = some t ∧
            (prunedOrder include_spur_actions planner_tree fuel)[p]? = some t.parent_index := by
  obtain ⟨pruned, hrun, hF, h0, hmem⟩ := pruneTree_order CheckTreeLinkage hcheck fuel
    planner_tree include_spur_actions hlinkage hinit hfuel hlen
  obtain ⟨O, hrun', _, hcase⟩ := pruneTree_valid CheckTreeLinkage hcheck fuel planner_tree
    include_spur_actions hlinkage hinit hfuel
  rw [hrun] at hrun'
  simp only [Except.ok.injEq] at hrun'
  subst hrun'
  have hord := subtreeOrder_eq_prunedOrder planner_tree include_spur_actions hlinkage
    (by omega) fuel
  refine ⟨pruned, hrun, hord ▸ hF, ?_, ?_, ?_⟩
  · unfold prunedOrder
    split_ifs
    · simpa using keptPreorder_nodup planner_tree include_spur_actions hlinkage fuel 0
    · simp
  · intro r
    rw [← hord]
    rcases Nat.eq_zero_or_pos r with rfl | hpos
    · simpa using h0
    · rw [hmem r hpos]
      constructor
      · exact Or.inr
      · rintro (h | h)
        · omega
        · exact h
  · rcases hcase with ⟨hle, _⟩ | ⟨_, root, _, hfits, hO⟩
    · omega
    · have hpc := buildSubtree_parent (planner_tree.map (pruneMark include_spur_actions))
        (pruneMark_child_parent planner_tree include_spur_actions hlinkage) fuel 0 0 root hfits
      rw [← hO, hord] at hpc
      rw [hord] at hF
      intro j n i hj hn hi
      obtain ⟨p, hp, hnp, m, hm, hLp⟩ := hpc j n i hj hn hi
      obtain ⟨k, t, rfl, hk, rfl⟩ := treeAt_pruneMark hm
      have hplt : p < pruned.length := by
        have := getElem?_lt_length hn
        omega
      obtain ⟨b, hb, t', ht', _⟩ := forall₂_getElem? hF p pruned[p]
        (List.getElem?_eq_getElem hplt)
      rw [hLp] at hb
      simp only [Option.some.injEq] at hb
      subst hb
      obtain ⟨kp, hkp, _⟩ := treeAt_some ht'
      have hkeep : keepsState include_spur_actions t.value :=
        pruneMark_parent_nonneg (by omega)
      rw [pruneMark_of_keeps hkeep] at hLp
      exact ⟨p, hp, by simpa using hnp, t, by rw [treeAt_natCast]; exact hk, hLp⟩

theorem keptForkTree_valid : ValidLinkage keptForkTree := by decide

theorem keptForkTree_initialized : ∀ n ∈ keptForkTree, n.initialized = true := by
  intro n hn
  simp only [keptForkTree, List.mem_cons, List.mem_singleton, List.not_mem_nil,
    or_false] at hn
  rcases hn with rfl | rfl | rfl | rfl <;> rfl

theorem keptForkTree_order : prunedOrder false keptForkTree 4 = [0, 1, 3] := by
  simp [prunedOrder, keptPreorder, keepsNode, keepsState, keptForkTree, treeAt, mkNode,
    startState, UncertaintyPlanningState.make, UncertaintyPlanningState.SetGoalPfeasibility]

/-- Witness for C25: the tree `keptForkTree`, whose pruned order is `[0, 1, 3]`. -/
theorem C25_prune_tree_is_kept_preorder_witness :
    ∃ pruned, PruneTree (fun t => decide (ValidLinkage t)) 4 keptForkTree false
        = .ok pruned ∧
      List.Forall₂ (fun n i => ∃ t, treeAt keptForkTree i = some t ∧ n.value = t.value)
        pruned (prunedOrder false keptForkTree 4) ∧
      (prunedOrder false keptForkTree 4).Nodup ∧
      (∀ r : Nat, (r : Int) ∈ prunedOrder false keptForkTree 4
        ↔ (r = 0 ∨ KeptToRoot keptForkTree false r)) ∧
      ∀ (j : Nat) (n : UncertaintyPlanningTreeState) (i : Int), 0 < j →
        pruned[j]? = some n →
        (prunedOrder false keptForkTree 4)[j]? = some i →
        ∃ p : Nat, p < j ∧ n.parent_index = (p : Int) ∧
          ∃ t, treeAt keptForkTree i = some t ∧
            (prunedOrder false keptForkTree 4)[p]? = some t.parent_index :=
  C25_prune_tree_is_kept_preorder (fun t => decide (ValidLinkage t))
    (fun t ht _ => decide_eq_true ht) 4 keptForkTree false keptForkTree_valid
    keptForkTree_initialized (by decide) (by decide)

theorem goalWithinLimit_iff (exec_step_limit : Nat) (goal : Nat → Bool) :
    goalWithinLimit exec_step_limit goal = true
      ↔ ∃ k, 1 ≤ k ∧ k ≤ exec_step_limit ∧ goal k = true := by
  unfold goalWithinLimit
  rw [List.any_eq_true]
  constructor
  · rintro ⟨k, hk, hg⟩
    exact ⟨k + 1, by omega, by have := List.mem_range.1 hk; omega, hg⟩
  · rintro ⟨k, hk1, hk, hg⟩
    refine ⟨k - 1, List.mem_range.2 (by omega), ?_⟩
    rwa [show k - 1 + 1 = k by omega]

theorem simulationLoop_spec (exec_step_limit : Nat) (goal : Nat → Nat → Bool) (fuel : Nat)
    (hfuel : exec_step_limit < fuel) (h32 : exec_step_limit < 2 ^ 32)
    (hlimit : 1 ≤ exec_step_limit) :
    ∀ (remaining idx : Nat) (counts : List Int) (moves : List Nat) (reached : Nat),
      idx + remaining ≤ counts.length → reached + remaining < 2 ^ 32 →
      ∃ counts' moves',
        simulationLoop exec_step_limit goal fuel remaining idx counts moves reached
          = .ok (counts', moves', reached + ((List.range' idx remaining).filter
              (fun i => goalWithinLimit exec_step_limit (goal i))).length)
        ∧ counts'.length = counts.length
        ∧ (∀ i, i < idx → counts'[i]? = counts[i]?)
        ∧ (∀ i, i < moves.length → moves'[i]? = moves[i]?)
        ∧ ∀ i, idx ≤ i → i < idx + remaining →
            ∃ r, PerformSinglePolicyExecution (policyExecTermination exec_step_limit)
                  (goal i) fuel 0 = .ok r
              ∧ counts'[i]? = some r.step_count
              ∧ moves'[moves.length + (i - idx)]? = some r.move_calls := by
  intro remaining
  induction remaining with
  | zero =>
    intro idx counts moves reached _ _
    exact ⟨counts, moves, by simp [simulationLoop], rfl, fun _ _ => rfl, fun _ _ => rfl,
      fun i h1 h2 => by omega⟩
  | succ remaining ih =>
    intro idx counts moves reached hlen hreach
    obtain ⟨r, hrun, hiff⟩ := limitedExecution_success_iff exec_step_limit (goal idx) fuel
      hfuel h32 hlimit
    rw [simulationLoop, hrun]
    simp only
    have hcount : (if r.step_count ≥ 0 then (reached + 1) % 2 ^ 32 else reached)
        = reached + (if goalWithinLimit exec_step_limit (goal idx) = true then 1 else 0) := by
      by_cases hg : goalWithinLimit exec_step_limit (goal idx) = true
      · have : r.step_count ≥ 0 := hiff.2 ((goalWithinLimit_iff _ _).1 hg)
        rw [if_pos this, if_pos hg, Nat.mod_eq_of_lt (by omega)]
      · have : ¬ r.step_count ≥ 0 := fun h => hg ((goalWithinLimit_iff _ _).2 (hiff.1 h))
        rw [if_neg this, if_neg hg, Nat.add_zero]
    rw [hcount]
    obtain ⟨counts', moves', hloop, hlen', hbefore, hmoves, hafter⟩ :=
      ih (idx + 1) (counts.set idx r.step_count) (moves ++ [r.move_calls])
        (reached + (if goalWithinLimit exec_step_limit (goal idx) = true then 1 else 0))
        (by rw [List.length_set]; omega) (by split_ifs <;> omega)
    refine ⟨counts', moves', ?_, ?_, ?_, ?_, ?_⟩
    · rw [hloop, List.range'_succ, List.filter_cons]
      split_ifs <;> simp [Nat.add_assoc, Nat.add_comm 1]
    · rw [hlen', List.length_set]
    · intro i hi
      rw [hbefore i (by omega), List.getElem?_set_ne (by omega)]
    · intro i hi
      rw [hmoves i (by rw [List.length_append]; omega), List.getElem?_append_left hi]
    · intro i hi1 hi2
      rcases Nat.eq_or_lt_of_le hi1 with rfl | hlt
      · refine ⟨r, hrun, ?_, ?_⟩
        · rw [hbefore idx (by omega), List.getElem?_set_self (by omega)]
        · rw [Nat.sub_self, Nat.add_zero, hmoves _ (by rw [List.length_append]; simp)]
          simp
      · obtain ⟨r', hrun', hc', hm'⟩ := hafter i (by omega) (by omega)
        refine ⟨r', hrun', hc', ?_⟩
        rw [List.length_append, List.length_singleton] at hm'
        rwa [show moves.length + (i - idx) = moves.length + 1 + (i - (idx + 1)) by omega]

/-- `SimulateExectionPolicy` with a step limit of at least one: it returns, the step
count and the number of policy steps of every execution are those of its
`PerformSinglePolicyExecution`, and the statistic `(Simulation) Policy success` is the
number of executions whose goal check succeeded within the limit divided by the number
of executions. -/
theorem simulateExectionPolicy_spec (exec_step_limit : Nat) (goal : Nat → Nat → Bool)
    (fuel num_executions : Nat)
    (hfuel : exec_step_limit < fuel) (h32 : exec_step_limit < 2 ^ 32)
    (hlimit : 1 ≤ exec_step_limit) (hsize : num_executions < 2 ^ 32) :
    ∃ out, SimulateExectionPolicy exec_step_limit goal fuel num_executions = .ok out
      ∧ out.policy_success
          = (((List.range num_executions).filter
              (fun i => goalWithinLimit exec_step_limit (goal i))).length : ℚ)
            / (num_executions : ℚ)
      ∧ ∀ i, i < num_executions →
          ∃ r, PerformSinglePolicyExecution (policyExecTermination exec_step_limit)
                (goal i) fuel 0 = .ok r
            ∧ r.move_calls ≤ exec_step_limit
            ∧ r.step_count.natAbs = r.move_calls
            ∧ out.policy_execution_step_counts[i]? = some r.step_count
            ∧ out.move_calls[i]? = some r.move_calls := by
  obtain ⟨counts', moves', hloop, _, _, _, hafter⟩ :=
    simulationLoop_spec exec_step_limit goal fuel hfuel h32 hlimit num_executions 0
      (List.replicate num_executions 0) [] 0 (by simp) (by omega)
  unfold SimulateExectionPolicy
  simp only [Nat.mod_eq_of_lt hsize]
  rw [hloop]
  refine ⟨_, rfl, ?_, ?_⟩
  · simp only [Nat.zero_add, List.range_eq_range']
  · intro i hi
    obtain ⟨r, hrun, hc, hm⟩ := hafter i (Nat.zero_le _) (by omega)
    obtain ⟨r', hrun', hle, habs, _⟩ :=
      limitedExecution_spec exec_step_limit (goal i) fuel hfuel h32
    rw [hrun] at hrun'
    simp only [Except.ok.injEq] at hrun'
    subst hrun'
    exact ⟨r, hrun, hle, habs, hc, by simpa using hm⟩

end UncertaintyPlanning
